import Mathlib

/-! # Shared / Weak pointers over a common control block

A shallow embedding of `sw_fwd.h`, `shared.h` and `weak.h`.

* Control blocks live in a heap `blocks : Nat → Block`; `nblocks` is the next
  unused block address.  A block records the two `size_t` counters, the `ok_`
  flag of its concrete class and which concrete class it is.
* Payload objects live in `objs : Nat → Payload`; a payload whose type derives
  from `EnableSharedFromThis` carries the two embedded weak pointers.
* Every `SharedPtr` / `WeakPtr` object of the client program is a slot of
  `sps` / `wps`; a destroyed object is the slot value `none`.
* Ghost fields (`freed`, `dtor`) count how often a block was passed to
  `delete` and how often a payload destructor ran.
* `size_t` arithmetic is arithmetic modulo `2 ^ 64`.
* Destruction is re-entrant in the source (`~WeakPtr` may `delete` a block,
  whose destructor may destroy a payload, whose members are weak pointers), so
  these three functions are defined by recursion on a fuel argument; `none`
  means that no result is defined (fuel exhausted or a destroyed object used).
-/

namespace SharedWeak

/-- Modulus of `size_t` arithmetic. -/
def sizeMod : Nat := 18446744073709551616

/-- The `x++` of a `size_t`. -/
def inc (x : Nat) : Nat := (x + 1) % sizeMod

/-- The `x--` of a `size_t`. -/
def dec (x : Nat) : Nat := (x + (sizeMod - 1)) % sizeMod

/-- The test `a + b == 0` on `size_t` values. -/
def sumZero (a b : Nat) : Bool := (a + b) % sizeMod == 0

/-- Which concrete class a control block has, with its class specific data:
`CleverBlock<U>` holds `U* ptr`, `SmartBlock<V>` holds the object inline. -/
inductive BlockKind where
  | clever (ptr : Option Nat)
  | smart (object_ : Nat)
  deriving DecidableEq, Repr

/-- A control block (`BaseBlock` with the members of its derived class). -/
structure Block where
  cnt_ : Nat := 0
  cntw_ : Nat := 0
  ok_ : Bool := false
  kind : BlockKind := BlockKind.clever none
  /-- ghost: how many times `delete` was applied to this block -/
  freed : Nat := 0
  deriving DecidableEq, Repr

/-- The fields of a `SharedPtr<T>`. -/
structure SharedPtr where
  own_ : Option Nat
  block_ : Option Nat
  deriving DecidableEq, Repr

/-- The fields of a `WeakPtr<T>`. -/
structure WeakPtr where
  own_ : Option Nat
  block_ : Option Nat
  deriving DecidableEq, Repr

/-- A payload object.  `esft` tells whether its type derives from
`EnableSharedFromThis`; then `self_` and `self1_` are its two members. -/
structure Payload where
  esft : Bool := false
  self_ : WeakPtr := ⟨none, none⟩
  self1_ : WeakPtr := ⟨none, none⟩
  /-- ghost: how many times the destructor of the object ran -/
  dtor : Nat := 0
  deriving DecidableEq, Repr

/-- Program state. -/
structure State where
  blocks : Nat → Block
  nblocks : Nat
  objs : Nat → Payload
  nobjs : Nat
  sps : List (Option SharedPtr)
  wps : List (Option WeakPtr)

/-- The empty heap. -/
def State.init : State :=
  { blocks := fun _ => {}, nblocks := 0, objs := fun _ => {}, nobjs := 0, sps := [], wps := [] }

/-- Point update of a map on `Nat`. -/
def upd {α : Type} (f : Nat → α) (i : Nat) (v : α) : Nat → α :=
  fun j => if j = i then v else f j

/-- Where a `WeakPtr` object lives: a client variable or a member of a payload. -/
inductive WLoc where
  | var (i : Nat)
  | self_ (o : Nat)
  | self1_ (o : Nat)
  deriving DecidableEq, Repr

namespace State

/-- The live `SharedPtr` object in slot `i`. -/
def getS (s : State) (i : Nat) : Option SharedPtr := s.sps.getD i none

/-- Overwrite the `SharedPtr` object in slot `i`. -/
def setS (s : State) (i : Nat) (p : SharedPtr) : State := { s with sps := s.sps.set i (some p) }

/-- End of lifetime of the `SharedPtr` object in slot `i`. -/
def killS (s : State) (i : Nat) : State := { s with sps := s.sps.set i none }

/-- A new `SharedPtr` object; its slot is the former `sps.length`. -/
def pushS (s : State) (p : SharedPtr) : State := { s with sps := s.sps ++ [some p] }

/-- The `WeakPtr` object at a location. -/
def getW (s : State) : WLoc → Option WeakPtr
  | WLoc.var i => s.wps.getD i none
  | WLoc.self_ o => some (s.objs o).self_
  | WLoc.self1_ o => some (s.objs o).self1_

/-- Overwrite the `WeakPtr` object at a location. -/
def setW (s : State) : WLoc → WeakPtr → State
  | WLoc.var i, p => { s with wps := s.wps.set i (some p) }
  | WLoc.self_ o, p => { s with objs := upd s.objs o { s.objs o with self_ := p } }
  | WLoc.self1_ o, p => { s with objs := upd s.objs o { s.objs o with self1_ := p } }

/-- End of lifetime of the `WeakPtr` variable in slot `i`. -/
def killW (s : State) (i : Nat) : State := { s with wps := s.wps.set i none }

/-- A new `WeakPtr` variable; its slot is the former `wps.length`. -/
def pushW (s : State) (p : WeakPtr) : State := { s with wps := s.wps ++ [some p] }

/-- The statement `b->cnt_++`. -/
def incS (s : State) (b : Nat) : State :=
  { s with blocks := upd s.blocks b { s.blocks b with cnt_ := inc (s.blocks b).cnt_ } }

/-- The statement `b->cnt_--`. -/
def decS (s : State) (b : Nat) : State :=
  { s with blocks := upd s.blocks b { s.blocks b with cnt_ := dec (s.blocks b).cnt_ } }

/-- The statement `b->cntw_++`. -/
def incW (s : State) (b : Nat) : State :=
  { s with blocks := upd s.blocks b { s.blocks b with cntw_ := inc (s.blocks b).cntw_ } }

/-- The statement `b->cntw_--`. -/
def decW (s : State) (b : Nat) : State :=
  { s with blocks := upd s.blocks b { s.blocks b with cntw_ := dec (s.blocks b).cntw_ } }

/-- The statement `ok_ = true` inside block `b`. -/
def setOk (s : State) (b : Nat) : State :=
  { s with blocks := upd s.blocks b { s.blocks b with ok_ := true } }

/-- Deallocation of block `b` at the end of `delete b` (ghost count). -/
def free (s : State) (b : Nat) : State :=
  { s with blocks := upd s.blocks b { s.blocks b with freed := (s.blocks b).freed + 1 } }

/-- The destructor of payload `o` starts running (ghost count). -/
def bumpDtor (s : State) (o : Nat) : State :=
  { s with objs := upd s.objs o { s.objs o with dtor := (s.objs o).dtor + 1 } }

/-- The expression `new T(...)`: a fresh payload object at address `nobjs`; the
constructor of `EnableSharedFromThis` default-constructs both weak members. -/
def newObj (s : State) (cap : Bool) : State :=
  { s with objs := upd s.objs s.nobjs { esft := cap }, nobjs := s.nobjs + 1 }

/-- A fresh control block at address `nblocks`; `BaseBlock()` zeroes both
counters and `ok_` starts `false`. -/
def newBlock (s : State) (k : BlockKind) : State :=
  { s with blocks := upd s.blocks s.nblocks { kind := k }, nblocks := s.nblocks + 1 }

end State

/-! ## Destruction (`sw_fwd.h`, `weak.h`) -/

mutual
/-- The statement `delete b` on a `BaseBlock*`: the virtual destructor
(`~CleverBlock` or `~SmartBlock`), then deallocation. -/
def deleteBlock : Nat → State → Nat → Option State
  | 0, _, _ => none
  | f + 1, s, b =>
    match (s.blocks b).kind with
    | BlockKind.clever ptr =>
      if !(s.blocks b).ok_ then
        match ptr with
        | some o => (destroyPayload f (s.setOk b) o).map (fun t => t.free b)
        | none => some ((s.setOk b).free b)
      else some (s.free b)
    | BlockKind.smart o =>
      if !(s.blocks b).ok_ then (destroyPayload f s o).map (fun t => t.free b)
      else some (s.free b)
/-- The destructor of payload `o` (`delete ptr` or `->~V()`): for a payload with
the self reference capability the members are destroyed in reverse order of
declaration, `self1_` first and `self_` second. -/
def destroyPayload : Nat → State → Nat → Option State
  | 0, _, _ => none
  | f + 1, s, o =>
    if (s.objs o).esft then
      (releaseWeak f (s.bumpDtor o) ((s.bumpDtor o).objs o).self1_.block_).bind
        (fun t => releaseWeak f t (t.objs o).self_.block_)
    else some (s.bumpDtor o)
/-- The body of `~WeakPtr` for a weak pointer whose `block_` is `blk`:
`if (block_) { block_->cntw_--; if (cntw_ + cnt_ == 0) delete block_; }`.
The same code releases the old block `x` in every `WeakPtr::operator=` and in
`WeakPtr::Reset`. -/
def releaseWeak : Nat → State → Option Nat → Option State
  | 0, _, _ => none
  | _ + 1, s, none => some s
  | f + 1, s, some b =>
    if sumZero ((s.decW b).blocks b).cntw_ ((s.decW b).blocks b).cnt_ then deleteBlock f (s.decW b) b
    else some (s.decW b)
end

/-- The virtual call `b->Del()`: `CleverBlock::Del` or `SmartBlock::Del`. -/
def Del (f : Nat) (s : State) (b : Nat) : Option State :=
  match (s.blocks b).kind with
  | BlockKind.clever ptr =>
    if !(s.blocks b).ok_ then
      match ptr with
      | some o => destroyPayload f (s.setOk b) o
      | none => some (s.setOk b)
    else some s
  | BlockKind.smart o => destroyPayload f (s.setOk b) o

/-- The code every `SharedPtr` member uses to give up one strong reference to
`blk`: `if (x) { x->cnt_--; if (x->cnt_ + x->cntw_ == 0) delete x; else if
(x->cnt_ == 0) x->Del(); }` (destructor, `Reset`, `Reset(ptr)`, all four
`operator=`). -/
def releaseShared (f : Nat) (s : State) : Option Nat → Option State
  | none => some s
  | some b =>
    if sumZero ((s.decS b).blocks b).cnt_ ((s.decS b).blocks b).cntw_ then deleteBlock f (s.decS b) b
    else if ((s.decS b).blocks b).cnt_ == 0 then Del f (s.decS b) b
    else some (s.decS b)

/-! ## `WeakPtr` (`weak.h`) -/

namespace WeakPtr

/-- The constructor `WeakPtr()`. -/
def default (s : State) : Option State := some (s.pushW ⟨none, none⟩)

/-- The constructor `WeakPtr(const WeakPtr& other)`. -/
def copy (s : State) (other : WLoc) : Option State :=
  match s.getW other with
  | none => none
  | some o =>
    match o.block_ with
    | some b => some ((s.pushW ⟨o.own_, o.block_⟩).incW b)
    | none => some (s.pushW ⟨o.own_, o.block_⟩)

/-- The constructor `WeakPtr(WeakPtr&& other)`. -/
def move (s : State) (other : Nat) : Option State :=
  match s.getW (WLoc.var other) with
  | none => none
  | some o => some ((s.pushW ⟨o.own_, o.block_⟩).setW (WLoc.var other) ⟨none, none⟩)

/-- The constructor `WeakPtr(const SharedPtr<T>& other)`. -/
def fromShared (s : State) (other : Nat) : Option State :=
  match s.getS other with
  | none => none
  | some o =>
    match o.block_ with
    | some b => some ((s.pushW ⟨o.own_, o.block_⟩).incW b)
    | none => some (s.pushW ⟨o.own_, o.block_⟩)

/-- Both `WeakPtr::operator=(const WeakPtr&)` overloads. -/
def copyAssign (f : Nat) (s : State) (this other : WLoc) : Option State :=
  match s.getW this, s.getW other with
  | some t, some o =>
    if o.block_ = t.block_ then some s
    else
      let x := t.block_
      let s1 := s.setW this ⟨o.own_, o.block_⟩
      let s2 := match o.block_ with
        | some b => s1.incW b
        | none => s1
      releaseWeak f s2 x
  | _, _ => none

/-- Both `WeakPtr::operator=(WeakPtr&&)` overloads. -/
def moveAssign (f : Nat) (s : State) (this other : Nat) : Option State :=
  match s.getW (WLoc.var this), s.getW (WLoc.var other) with
  | some t, some o =>
    if o.block_ = t.block_ then some s
    else
      let x := t.block_
      let s1 := s.setW (WLoc.var this) ⟨o.own_, o.block_⟩
      (releaseWeak f s1 x).map (fun s2 => s2.setW (WLoc.var other) ⟨none, none⟩)
  | _, _ => none

/-- The destructor `~WeakPtr()` of the variable in slot `this`. -/
def dtor (f : Nat) (s : State) (this : Nat) : Option State :=
  match s.getW (WLoc.var this) with
  | none => none
  | some t => (releaseWeak f s t.block_).map (fun s1 => s1.killW this)

/-- The member `WeakPtr::Reset()`. -/
def Reset (f : Nat) (s : State) (this : Nat) : Option State :=
  match s.getW (WLoc.var this) with
  | none => none
  | some t =>
    match t.block_ with
    | none => some s
    | some b => (releaseWeak f s (some b)).map (fun s1 => s1.setW (WLoc.var this) ⟨none, none⟩)

/-- The member `WeakPtr::Swap`, that is `std::swap(other, *this)`:
`WeakPtr tmp(std::move(other)); other = std::move(*this); *this = std::move(tmp);`
and the destruction of `tmp`. -/
def Swap (f : Nat) (s : State) (this other : Nat) : Option State :=
  let tmp := s.wps.length
  (move s other).bind (fun s1 =>
  (moveAssign f s1 other this).bind (fun s2 =>
  (moveAssign f s2 this tmp).bind (fun s3 =>
  dtor f s3 tmp)))

/-- The member `WeakPtr::UseCount`. -/
def UseCount (s : State) (this : WLoc) : Option Nat :=
  match s.getW this with
  | none => none
  | some t =>
    match t.block_ with
    | none => some 0
    | some b => some (s.blocks b).cnt_

/-- The member `WeakPtr::Expired`. -/
def Expired (s : State) (this : WLoc) : Option Bool :=
  match s.getW this with
  | none => none
  | some t =>
    match t.block_ with
    | none => some true
    | some b => if (s.blocks b).cnt_ == 0 then some true else some false

/-- The value of the local `x` of `WeakPtr::Lock` before the final increment. -/
def lockTarget (s : State) (t : WeakPtr) : SharedPtr :=
  match t.block_ with
  | none => ⟨none, none⟩
  | some b => if (s.blocks b).cnt_ == 0 then ⟨none, none⟩ else ⟨t.own_, t.block_⟩

/-- The member `WeakPtr::Lock`; the returned `SharedPtr` is the new last slot. -/
def Lock (s : State) (this : WLoc) : Option State :=
  match s.getW this with
  | none => none
  | some t =>
    match (lockTarget s t).block_ with
    | some b => some ((s.pushS (lockTarget s t)).incS b)
    | none => some (s.pushS (lockTarget s t))

end WeakPtr

/-- What a constructor that may throw does: it returns, or it throws
`BadWeakPtr`; either way with the state it leaves behind. -/
inductive Outcome where
  | returned (s : State)
  | BadWeakPtr (s : State)

/-! ## `SharedPtr` (`shared.h`) -/

namespace SharedPtr

/-- The constructors `SharedPtr()` and `SharedPtr(std::nullptr_t)`. -/
def default (s : State) : Option State := some (s.pushS ⟨none, none⟩)

/-- The private member `AssignToSelf(esft)` of the `SharedPtr` in slot `this`. -/
def AssignToSelf (f : Nat) (s : State) (this : Nat) (esft : Option Nat) : Option State :=
  let lol := s.wps.length
  (WeakPtr.fromShared s this).bind (fun s1 =>
    match esft with
    | some o =>
      (WeakPtr.copyAssign f s1 (WLoc.self_ o) (WLoc.var lol)).bind (fun s2 =>
      (WeakPtr.copyAssign f s2 (WLoc.self1_ o) (WLoc.var lol)).bind (fun s3 =>
      WeakPtr.dtor f s3 lol))
    | none => WeakPtr.dtor f s1 lol)

/-- The private member `CanConstruct(ptr)`; `cap` is the compile time test
`std::is_convertible_v<U*, EnableSharedFromThisBase*>`. -/
def CanConstruct (f : Nat) (s : State) (this : Nat) (ptr : Option Nat) (cap : Bool) :
    Option State :=
  if cap then AssignToSelf f s this ptr else some s

/-- The constructors `SharedPtr(U* ptr)` and `SharedPtr(T* ptr)`; the new
object is the new last slot. -/
def fromRaw (f : Nat) (s : State) (ptr : Option Nat) (cap : Bool) : Option State :=
  let this := s.sps.length
  let b := s.nblocks
  let s1 := (s.newBlock (BlockKind.clever ptr)).pushS ⟨ptr, some b⟩
  let s2 : State := { s1 with blocks := upd s1.blocks b { s1.blocks b with cnt_ := 1 } }
  CanConstruct f s2 this ptr cap

/-- The copy constructors `SharedPtr(const SharedPtr<U>& other)`. -/
def copy (s : State) (other : Nat) : Option State :=
  match s.getS other with
  | none => none
  | some o =>
    match o.block_ with
    | some b => some ((s.pushS ⟨o.own_, o.block_⟩).incS b)
    | none => some (s.pushS ⟨o.own_, o.block_⟩)

/-- The move constructors `SharedPtr(SharedPtr<U>&& other)`. -/
def move (s : State) (other : Nat) : Option State :=
  match s.getS other with
  | none => none
  | some o => some ((s.pushS ⟨o.own_, o.block_⟩).setS other ⟨none, none⟩)

/-- The aliasing constructor `SharedPtr(const SharedPtr<Y>& other, T* ptr)`. -/
def aliasing (s : State) (other : Nat) (ptr : Option Nat) : Option State :=
  match s.getS other with
  | none => none
  | some o =>
    match o.block_ with
    | some b => some ((s.pushS ⟨ptr, o.block_⟩).incS b)
    | none => some (s.pushS ⟨ptr, o.block_⟩)

/-- The promoting constructor `SharedPtr(const WeakPtr<T>& other)`. -/
def fromWeak (s : State) (other : WLoc) : Option Outcome :=
  match s.getW other with
  | none => none
  | some o =>
    match o.block_ with
    | none => some (Outcome.BadWeakPtr s)
    | some b =>
      if (s.blocks b).cnt_ == 0 then some (Outcome.BadWeakPtr s)
      else some (Outcome.returned ((s.pushS ⟨o.own_, o.block_⟩).incS b))

/-- Both `SharedPtr::operator=(const SharedPtr&)` overloads. -/
def copyAssign (f : Nat) (s : State) (this other : Nat) : Option State :=
  match s.getS this, s.getS other with
  | some t, some o =>
    if t.block_ = o.block_ then some s
    else
      let x := t.block_
      let s1 := s.setS this ⟨o.own_, o.block_⟩
      let s2 := match o.block_ with
        | some b => s1.incS b
        | none => s1
      releaseShared f s2 x
  | _, _ => none

/-- Both `SharedPtr::operator=(SharedPtr&&)` overloads. -/
def moveAssign (f : Nat) (s : State) (this other : Nat) : Option State :=
  match s.getS this, s.getS other with
  | some t, some o =>
    if o.block_ = t.block_ then some s
    else
      let x := t.block_
      let s1 := s.setS this ⟨o.own_, o.block_⟩
      let s2 := s1.setS other ⟨none, none⟩
      releaseShared f s2 x
  | _, _ => none

/-- The destructor `~SharedPtr()` of the object in slot `this`. -/
def dtor (f : Nat) (s : State) (this : Nat) : Option State :=
  match s.getS this with
  | none => none
  | some t => (releaseShared f s t.block_).map (fun s1 => s1.killS this)

/-- The member `SharedPtr::Reset()`. -/
def Reset (f : Nat) (s : State) (this : Nat) : Option State :=
  match s.getS this with
  | none => none
  | some t =>
    match t.block_ with
    | none => some (s.setS this ⟨none, none⟩)
    | some b => (releaseShared f s (some b)).map (fun s1 => s1.setS this ⟨none, none⟩)

/-- The members `SharedPtr::Reset(U* ptr)` and `SharedPtr::Reset(T* ptr)`. -/
def ResetPtr (f : Nat) (s : State) (this : Nat) (ptr : Option Nat) : Option State :=
  match s.getS this with
  | none => none
  | some t =>
    (releaseShared f (s.setS this ⟨ptr, t.block_⟩) t.block_).map (fun s1 =>
      let b := s1.nblocks
      ((s1.newBlock (BlockKind.clever ptr)).setS this ⟨ptr, some b⟩).incS b)

/-- The member `SharedPtr::Swap`, that is `std::swap(other, *this)`:
`SharedPtr tmp(std::move(other)); other = std::move(*this); *this = std::move(tmp);`
and the destruction of `tmp`. -/
def Swap (f : Nat) (s : State) (this other : Nat) : Option State :=
  let tmp := s.sps.length
  (move s other).bind (fun s1 =>
  (moveAssign f s1 other this).bind (fun s2 =>
  (moveAssign f s2 this tmp).bind (fun s3 =>
  dtor f s3 tmp)))

/-- The member `SharedPtr::Get`. -/
def Get (s : State) (this : Nat) : Option (Option Nat) := (s.getS this).map (fun t => t.own_)

/-- The member `SharedPtr::UseCount`. -/
def UseCount (s : State) (this : Nat) : Option Nat :=
  match s.getS this with
  | none => none
  | some t =>
    match t.block_ with
    | none => some 0
    | some b => some (s.blocks b).cnt_

/-- The conversion `explicit operator bool`. -/
def toBool (s : State) (this : Nat) : Option Bool := (s.getS this).map (fun t => t.own_.isSome)

end SharedPtr

/-- The free function `operator==(left, right)`: it compares `left.Get()` with
`right.Get()`. -/
def operator_eq (s : State) (left right : Nat) : Option Bool :=
  match SharedPtr.Get s left, SharedPtr.Get s right with
  | some a, some b => some (a == b)
  | _, _ => none

/-- The function `MakeShared<X>(args...)`; the returned object is the new last
slot and the payload is constructed inside the new `SmartBlock`. -/
def MakeShared (f : Nat) (s : State) (cap : Bool) : Option State :=
  let other := s.sps.length
  let block := s.nblocks
  let obj := s.nobjs
  let s1 := s.pushS ⟨none, none⟩
  let s2 := (s1.newObj cap).newBlock (BlockKind.smart obj)
  let s3 := (s2.setS other ⟨none, some block⟩).incS block
  let s4 := s3.setS other ⟨some obj, some block⟩
  SharedPtr.CanConstruct f s4 other (some obj) cap

/-! ## `EnableSharedFromThis` (`shared.h`) -/

namespace EnableSharedFromThis

/-- The member `SharedFromThis()` of payload `o`: `return self_.Lock();`.  The
body has no `throw`, so whenever the call is defined it returns. -/
def SharedFromThis (s : State) (o : Nat) : Option Outcome :=
  if o < s.nobjs ∧ (s.objs o).esft = true then
    (WeakPtr.Lock s (WLoc.self_ o)).map Outcome.returned
  else none

/-- The member `SharedFromThis() const` of payload `o`: `return self1_.Lock();`. -/
def SharedFromThisConst (s : State) (o : Nat) : Option Outcome :=
  if o < s.nobjs ∧ (s.objs o).esft = true then
    (WeakPtr.Lock s (WLoc.self1_ o)).map Outcome.returned
  else none

/-- The member `WeakFromThis()` of payload `o`: `return self_;`. -/
def WeakFromThis (s : State) (o : Nat) : Option State :=
  if o < s.nobjs ∧ (s.objs o).esft = true then WeakPtr.copy s (WLoc.self_ o) else none

/-- The member `WeakFromThis() const` of payload `o`: `return self1_;`. -/
def WeakFromThisConst (s : State) (o : Nat) : Option State :=
  if o < s.nobjs ∧ (s.objs o).esft = true then WeakPtr.copy s (WLoc.self1_ o) else none

end EnableSharedFromThis

/-! ## Client programs -/

/-- The payload a control block is responsible for. -/
def Block.payload (b : Block) : Option Nat :=
  match b.kind with
  | BlockKind.clever ptr => ptr
  | BlockKind.smart o => some o

/-- A raw pointer that may be handed to `SharedPtr(ptr)` or `Reset(ptr)`: null,
or a live payload object of the right static type that no control block owns
yet (wrapping one object twice is a contract violation of the caller). -/
def wrappable (s : State) (ptr : Option Nat) (cap : Bool) : Bool :=
  match ptr with
  | none => true
  | some o => decide (o < s.nobjs) && ((s.objs o).esft == cap) && ((s.objs o).dtor == 0) &&
      (List.range s.nblocks).all (fun b => (s.blocks b).payload != some o)

/-- One operation of a client program.  Slots are named by their index. -/
inductive Op where
  | newPayload (cap : Bool)
  | spDefault
  | spRaw (ptr : Option Nat) (cap : Bool)
  | makeShared (cap : Bool)
  | spCopy (other : Nat)
  | spMove (other : Nat)
  | spAlias (other : Nat) (ptr : Option Nat)
  | spFromWeak (other : Nat)
  | spAssign (this other : Nat)
  | spMoveAssign (this other : Nat)
  | spReset (this : Nat)
  | spResetPtr (this : Nat) (ptr : Option Nat) (cap : Bool)
  | spSwap (this other : Nat)
  | spDtor (this : Nat)
  | wpDefault
  | wpCopy (other : Nat)
  | wpMove (other : Nat)
  | wpFromShared (other : Nat)
  | wpAssign (this other : Nat)
  | wpMoveAssign (this other : Nat)
  | wpReset (this : Nat)
  | wpSwap (this other : Nat)
  | wpDtor (this : Nat)
  | wpLock (this : Nat)
  | sharedFromThis (o : Nat)
  | sharedFromThisConst (o : Nat)
  | weakFromThis (o : Nat)
  | weakFromThisConst (o : Nat)
  deriving DecidableEq, Repr

/-- The state a call leaves behind, whether it returned or threw. -/
def Outcome.state : Outcome → State
  | Outcome.returned s => s
  | Outcome.BadWeakPtr s => s

/-- The effect of one operation.  A throwing promotion leaves the state it
threw in. -/
def perform (f : Nat) (s : State) : Op → Option State
  | Op.newPayload cap => some (s.newObj cap)
  | Op.spDefault => SharedPtr.default s
  | Op.spRaw ptr cap => if wrappable s ptr cap then SharedPtr.fromRaw f s ptr cap else none
  | Op.makeShared cap => MakeShared f s cap
  | Op.spCopy other => SharedPtr.copy s other
  | Op.spMove other => SharedPtr.move s other
  | Op.spAlias other ptr => SharedPtr.aliasing s other ptr
  | Op.spFromWeak other => (SharedPtr.fromWeak s (WLoc.var other)).map Outcome.state
  | Op.spAssign this other => SharedPtr.copyAssign f s this other
  | Op.spMoveAssign this other => SharedPtr.moveAssign f s this other
  | Op.spReset this => SharedPtr.Reset f s this
  | Op.spResetPtr this ptr cap =>
    if wrappable s ptr cap then SharedPtr.ResetPtr f s this ptr else none
  | Op.spSwap this other => SharedPtr.Swap f s this other
  | Op.spDtor this => SharedPtr.dtor f s this
  | Op.wpDefault => WeakPtr.default s
  | Op.wpCopy other => WeakPtr.copy s (WLoc.var other)
  | Op.wpMove other => WeakPtr.move s other
  | Op.wpFromShared other => WeakPtr.fromShared s other
  | Op.wpAssign this other => WeakPtr.copyAssign f s (WLoc.var this) (WLoc.var other)
  | Op.wpMoveAssign this other => WeakPtr.moveAssign f s this other
  | Op.wpReset this => WeakPtr.Reset f s this
  | Op.wpSwap this other => WeakPtr.Swap f s this other
  | Op.wpDtor this => WeakPtr.dtor f s this
  | Op.wpLock this => WeakPtr.Lock s (WLoc.var this)
  | Op.sharedFromThis o =>
    if (s.objs o).dtor = 0 then (EnableSharedFromThis.SharedFromThis s o).map Outcome.state
    else none
  | Op.sharedFromThisConst o =>
    if (s.objs o).dtor = 0 then (EnableSharedFromThis.SharedFromThisConst s o).map Outcome.state
    else none
  | Op.weakFromThis o =>
    if (s.objs o).dtor = 0 then EnableSharedFromThis.WeakFromThis s o else none
  | Op.weakFromThisConst o =>
    if (s.objs o).dtor = 0 then EnableSharedFromThis.WeakFromThisConst s o else none

/-- Whether an operation may be called in a state: the pointer objects it names
are alive, a raw pointer is `wrappable`, and a payload whose member function is
called is a live object with the self reference capability. -/
def Op.defined (s : State) : Op → Bool
  | Op.newPayload _ => true
  | Op.spDefault => true
  | Op.spRaw ptr cap => wrappable s ptr cap
  | Op.makeShared _ => true
  | Op.spCopy other => (s.getS other).isSome
  | Op.spMove other => (s.getS other).isSome
  | Op.spAlias other _ => (s.getS other).isSome
  | Op.spFromWeak other => (s.getW (WLoc.var other)).isSome
  | Op.spAssign this other => (s.getS this).isSome && (s.getS other).isSome
  | Op.spMoveAssign this other => (s.getS this).isSome && (s.getS other).isSome
  | Op.spReset this => (s.getS this).isSome
  | Op.spResetPtr this ptr cap => (s.getS this).isSome && wrappable s ptr cap
  | Op.spSwap this other => (s.getS this).isSome && (s.getS other).isSome
  | Op.spDtor this => (s.getS this).isSome
  | Op.wpDefault => true
  | Op.wpCopy other => (s.getW (WLoc.var other)).isSome
  | Op.wpMove other => (s.getW (WLoc.var other)).isSome
  | Op.wpFromShared other => (s.getS other).isSome
  | Op.wpAssign this other =>
    (s.getW (WLoc.var this)).isSome && (s.getW (WLoc.var other)).isSome
  | Op.wpMoveAssign this other =>
    (s.getW (WLoc.var this)).isSome && (s.getW (WLoc.var other)).isSome
  | Op.wpReset this => (s.getW (WLoc.var this)).isSome
  | Op.wpSwap this other =>
    (s.getW (WLoc.var this)).isSome && (s.getW (WLoc.var other)).isSome
  | Op.wpDtor this => (s.getW (WLoc.var this)).isSome
  | Op.wpLock this => (s.getW (WLoc.var this)).isSome
  | Op.sharedFromThis o => decide (o < s.nobjs) && (s.objs o).esft && ((s.objs o).dtor == 0)
  | Op.sharedFromThisConst o => decide (o < s.nobjs) && (s.objs o).esft && ((s.objs o).dtor == 0)
  | Op.weakFromThis o => decide (o < s.nobjs) && (s.objs o).esft && ((s.objs o).dtor == 0)
  | Op.weakFromThisConst o => decide (o < s.nobjs) && (s.objs o).esft && ((s.objs o).dtor == 0)

/-- Bound of the model: slots are never reused, and a run is taken to create
fewer than `2 ^ 64 - 8` pointer objects, so that the pointer objects alive at
any time can be counted in a `size_t` (as the address space guarantees). -/
def inBudget (s : State) : Bool := decide (s.sps.length + s.wps.length + 8 < sizeMod)

/-- One step of a client program. -/
def exec (f : Nat) (s : State) (op : Op) : Option State :=
  if inBudget s then perform f s op else none

/-- Run a whole client program from a state. -/
def run (f : Nat) : State → List Op → Option State
  | s, [] => some s
  | s, op :: ops => (exec f s op).bind (fun t => run f t ops)

/-- States a client program can reach from the empty heap. -/
inductive Reachable : State → Prop where
  | init : Reachable State.init
  | step {s t : State} (f : Nat) (op : Op) : Reachable s → exec f s op = some t → Reachable t

/-- A client program: `MakeShared`, a copy, a weak pointer, an aliasing pointer
to a sub-object and a `Reset()` of the first owner. -/
def aliasProgram : List Op :=
  [Op.makeShared false, Op.spCopy 0, Op.wpFromShared 0, Op.spAlias 1 (some 7), Op.spReset 0]

/-- The state `aliasProgram` ends in. -/
def aliasState : State := (run 5 State.init aliasProgram).getD State.init

/-- A client program around a payload with the self reference capability: a
bare `new T`, then `MakeShared<T>` and a weak pointer to the shared object. -/
def selfProgram : List Op :=
  [Op.newPayload true, Op.makeShared true, Op.wpFromShared 0]

/-- The state `selfProgram` ends in. -/
def selfState : State := (run 5 State.init selfProgram).getD State.init

/-- A client program that aliases an empty `SharedPtr`:
`SharedPtr<T> e; SharedPtr<T> a(e, p); SharedPtr<T> b;`. -/
def emptyAliasProgram : List Op :=
  [Op.spDefault, Op.spAlias 0 (some 7), Op.spDefault]

/-- The state `emptyAliasProgram` ends in. -/
def emptyAliasState : State := (run 5 State.init emptyAliasProgram).getD State.init

/-- A client program that leaves one owner and one weak observer:
`auto sp = MakeShared<T>(); WeakPtr<T> wp(sp);`. -/
def lastOwnerProgram : List Op := [Op.makeShared false, Op.wpFromShared 0]

/-- The state `lastOwnerProgram` ends in. -/
def lastOwnerState : State := (run 5 State.init lastOwnerProgram).getD State.init

/-- The state after the last owner of `lastOwnerState` is destroyed. -/
def finalizedState : State := (exec 5 lastOwnerState (Op.spDtor 0)).getD State.init

/-- The state after the weak observer of `finalizedState` is destroyed too. -/
def freedState : State := (exec 5 finalizedState (Op.wpDtor 0)).getD State.init

/-- A client program with two owners and two weak observers of one block:
`auto a = MakeShared<T>(); auto b = a; WeakPtr<T> v(a); WeakPtr<T> w(v);`. -/
def sharedPairProgram : List Op :=
  [Op.makeShared false, Op.spCopy 0, Op.wpFromShared 0, Op.wpCopy 0]

/-- The state `sharedPairProgram` ends in. -/
def sharedPairState : State := (run 5 State.init sharedPairProgram).getD State.init

/-- A client program that holds a bare payload with the self reference
capability and an empty pointer: `X* p = new X; SharedPtr<X> sp;`. -/
def barePayloadProgram : List Op := [Op.newPayload true, Op.spDefault]

/-- The state `barePayloadProgram` ends in. -/
def barePayloadState : State := (run 5 State.init barePayloadProgram).getD State.init

/-- How many live slots of a list of pointer objects refer to block `b`; `g`
reads the `block_` field. -/
def blockRefs {α : Type} (g : α → Option Nat) (b : Nat) (l : List (Option α)) : Nat :=
  (l.map (fun x => x.bind g)).count (some b)

/-- Number of live `SharedPtr` objects whose `block_` is `b`. -/
def spCount (b : Nat) (l : List (Option SharedPtr)) : Nat := blockRefs SharedPtr.block_ b l

/-- Number of live `WeakPtr` variables whose `block_` is `b`. -/
def wpCount (b : Nat) (l : List (Option WeakPtr)) : Nat := blockRefs WeakPtr.block_ b l

/-! ## The heap invariant -/

/-- Number of weak references to block `b` held by the members of its own
payload while that payload is alive. -/
def emb (s : State) (b : Nat) : Nat :=
  match (s.blocks b).payload with
  | some o =>
    if (s.objs o).esft = true ∧ (s.objs o).dtor = 0 ∧ (s.objs o).self_.block_ = some b then 2 else 0
  | none => 0

/-- Consistency of the heap with intended reference counts: `C b` strong and
`W b` weak pointer variables refer to block `b`. -/
structure HeapInv (s : State) (C W : Nat → Nat) : Prop where
  cnt : ∀ b, (s.blocks b).cnt_ = C b
  cntw : ∀ b, (s.blocks b).cntw_ = W b + emb s b
  fresh : ∀ b, s.nblocks ≤ b → s.blocks b = {}
  freed : ∀ b, b < s.nblocks →
    (s.blocks b).freed = if (s.blocks b).cnt_ = 0 ∧ (s.blocks b).cntw_ = 0 then 1 else 0
  ok : ∀ b, b < s.nblocks → (s.blocks b).freed = 0 →
    ((s.blocks b).ok_ = true ↔ (s.blocks b).cnt_ = 0)
  owned : ∀ b o, (s.blocks b).payload = some o →
    o < s.nobjs ∧ (s.objs o).dtor = if (s.blocks b).cnt_ = 0 then 1 else 0
  inj : ∀ b b' o, (s.blocks b).payload = some o → (s.blocks b').payload = some o → b = b'
  self : ∀ o b, (s.objs o).esft = true → (s.objs o).self_.block_ = some b →
    (s.blocks b).payload = some o
  pair : ∀ o, (s.objs o).esft = true → (s.objs o).self1_.block_ = (s.objs o).self_.block_

/-- What no operation undoes: blocks and payloads stay allocated, a block keeps
its concrete class, `ok_` is never cleared, and the ghost counters only grow. -/
structure Hist (s t : State) : Prop where
  nblocks : s.nblocks ≤ t.nblocks
  nobjs : s.nobjs ≤ t.nobjs
  kind : ∀ b, b < s.nblocks → (t.blocks b).kind = (s.blocks b).kind
  ok : ∀ b, b < s.nblocks → (s.blocks b).ok_ = true → (t.blocks b).ok_ = true
  freed : ∀ b, b < s.nblocks → (s.blocks b).freed ≤ (t.blocks b).freed
  dtor : ∀ o, o < s.nobjs → (s.objs o).dtor ≤ (t.objs o).dtor

/-- The invariant of client visible states: the heap is consistent with the
pointer variables that are alive. -/
def Inv (s : State) : Prop :=
  HeapInv s (fun b => spCount b s.sps) (fun b => wpCount b s.wps)

/-! ## Frames, the hookup and the representation of `SharedPtr` -/

/-- What giving up a reference leaves alone: the pointer variables, the
allocations, the concrete class of every block, and the members of every
payload apart from the destructor count. -/
structure Frame (s t : State) : Prop where
  sps : t.sps = s.sps
  wps : t.wps = s.wps
  nblocks : t.nblocks = s.nblocks
  nobjs : t.nobjs = s.nobjs
  kind : ∀ b, (t.blocks b).kind = (s.blocks b).kind
  esft : ∀ o, (t.objs o).esft = (s.objs o).esft
  self_ : ∀ o, (t.objs o).self_ = (s.objs o).self_
  self1_ : ∀ o, (t.objs o).self1_ = (s.objs o).self1_

/-- The operations on `WeakPtr` variables alone: construction from a
`SharedPtr`, default, copy and move construction, both assignments, `Reset`,
`Swap` and the destructor. -/
def Op.isWeak : Op → Bool
  | Op.wpDefault => true
  | Op.wpCopy _ => true
  | Op.wpMove _ => true
  | Op.wpFromShared _ => true
  | Op.wpAssign _ _ => true
  | Op.wpMoveAssign _ _ => true
  | Op.wpReset _ => true
  | Op.wpSwap _ _ => true
  | Op.wpDtor _ => true
  | _ => false

/-- A change of the state that touches nothing but weak pointer variables,
`cntw_` and the ghost count of `delete` calls. -/
structure WeakOnly (s t : State) : Prop where
  sps : t.sps = s.sps
  objs : t.objs = s.objs
  nobjs : t.nobjs = s.nobjs
  nblocks : t.nblocks = s.nblocks
  blocks : ∀ b, t.blocks b =
    { s.blocks b with cntw_ := (t.blocks b).cntw_, freed := (t.blocks b).freed }

/-- The representation invariant of one `SharedPtr`: without block the access
pointer is null. -/
def SharedPtr.nullOrOwned (p : SharedPtr) : Bool := p.block_.isSome || p.own_.isNone

/-- Every live `SharedPtr` object satisfies the representation invariant. -/
def nullRep (s : State) : Bool :=
  s.sps.all (fun x => match x with
    | some p => p.nullOrOwned
    | none => true)

/-- An aliasing construction `SharedPtr(other, ptr)` with a non-null `ptr` from
an `other` that has no block. -/
def Op.nullAlias (s : State) : Op → Bool
  | Op.spAlias other (some _) =>
    match s.getS other with
    | some o => o.block_.isNone
    | none => false
  | _ => false

/-- Run a client program, refusing every aliasing construction from a pointer
without block. -/
def plainRun (f : Nat) : State → List Op → Option State
  | s, [] => some s
  | s, op :: ops =>
    if Op.nullAlias s op then none else (exec f s op).bind (fun t => plainRun f t ops)

/-- States a client program can reach from the empty heap without an aliasing
construction from a pointer without block. -/
inductive PlainReachable : State → Prop where
  | init : PlainReachable State.init
  | step {s t : State} (f : Nat) (op : Op) : PlainReachable s →
      Op.nullAlias s op = false → exec f s op = some t → PlainReachable t

/-! ## The same code with assertions on the counters

The functions of the namespace `Checked` are the functions above that
decrement a counter, with two assertions at every decrement: the counter is
not `0` before `x->cnt_--` (`x->cntw_--`), and the test `cnt_ + cntw_ == 0` that
follows is true only when both counters are `0`.  A failed assertion is
`none`. -/

/-- The test `a + b == 0` on `size_t` means what it says: it is true only when
both numbers are `0`. -/
def exactZero (a b : Nat) : Bool := sumZero a b == (a == 0 && b == 0)

namespace Checked

mutual
/-- The statement `delete b`, see `SharedWeak.deleteBlock`. -/
def deleteBlock : Nat → State → Nat → Option State
  | 0, _, _ => none
  | f + 1, s, b =>
    match (s.blocks b).kind with
    | BlockKind.clever ptr =>
      if !(s.blocks b).ok_ then
        match ptr with
        | some o => (destroyPayload f (s.setOk b) o).map (fun t => t.free b)
        | none => some ((s.setOk b).free b)
      else some (s.free b)
    | BlockKind.smart o =>
      if !(s.blocks b).ok_ then (destroyPayload f s o).map (fun t => t.free b)
      else some (s.free b)
/-- The destructor of payload `o`, see `SharedWeak.destroyPayload`. -/
def destroyPayload : Nat → State → Nat → Option State
  | 0, _, _ => none
  | f + 1, s, o =>
    if (s.objs o).esft then
      (releaseWeak f (s.bumpDtor o) ((s.bumpDtor o).objs o).self1_.block_).bind
        (fun t => releaseWeak f t (t.objs o).self_.block_)
    else some (s.bumpDtor o)
/-- The body of `~WeakPtr` with the assertions: `cntw_` is not `0` before
`block_->cntw_--`, and the zero test is exact. -/
def releaseWeak : Nat → State → Option Nat → Option State
  | 0, _, _ => none
  | _ + 1, s, none => some s
  | f + 1, s, some b =>
    if (s.blocks b).cntw_ = 0 then none
    else if !exactZero ((s.decW b).blocks b).cntw_ ((s.decW b).blocks b).cnt_ then none
    else if sumZero ((s.decW b).blocks b).cntw_ ((s.decW b).blocks b).cnt_ then
      deleteBlock f (s.decW b) b
    else some (s.decW b)
end

/-- The virtual call `b->Del()`, see `SharedWeak.Del`. -/
def Del (f : Nat) (s : State) (b : Nat) : Option State :=
  match (s.blocks b).kind with
  | BlockKind.clever ptr =>
    if !(s.blocks b).ok_ then
      match ptr with
      | some o => destroyPayload f (s.setOk b) o
      | none => some (s.setOk b)
    else some s
  | BlockKind.smart o => destroyPayload f (s.setOk b) o

/-- The release of a strong reference with the assertions: `cnt_` is not `0`
before `x->cnt_--`, and the zero test is exact. -/
def releaseShared (f : Nat) (s : State) : Option Nat → Option State
  | none => some s
  | some b =>
    if (s.blocks b).cnt_ = 0 then none
    else if !exactZero ((s.decS b).blocks b).cnt_ ((s.decS b).blocks b).cntw_ then none
    else if sumZero ((s.decS b).blocks b).cnt_ ((s.decS b).blocks b).cntw_ then
      deleteBlock f (s.decS b) b
    else if ((s.decS b).blocks b).cnt_ == 0 then Del f (s.decS b) b
    else some (s.decS b)

/-- Both `WeakPtr::operator=(const WeakPtr&)` overloads. -/
def WeakPtr.copyAssign (f : Nat) (s : State) (this other : WLoc) : Option State :=
  match s.getW this, s.getW other with
  | some t, some o =>
    if o.block_ = t.block_ then some s
    else
      let x := t.block_
      let s1 := s.setW this ⟨o.own_, o.block_⟩
      let s2 := match o.block_ with
        | some b => s1.incW b
        | none => s1
      releaseWeak f s2 x
  | _, _ => none

/-- Both `WeakPtr::operator=(WeakPtr&&)` overloads. -/
def WeakPtr.moveAssign (f : Nat) (s : State) (this other : Nat) : Option State :=
  match s.getW (WLoc.var this), s.getW (WLoc.var other) with
  | some t, some o =>
    if o.block_ = t.block_ then some s
    else
      let x := t.block_
      let s1 := s.setW (WLoc.var this) ⟨o.own_, o.block_⟩
      (releaseWeak f s1 x).map (fun s2 => s2.setW (WLoc.var other) ⟨none, none⟩)
  | _, _ => none

/-- The destructor `~WeakPtr()` of the variable in slot `this`. -/
def WeakPtr.dtor (f : Nat) (s : State) (this : Nat) : Option State :=
  match s.getW (WLoc.var this) with
  | none => none
  | some t => (releaseWeak f s t.block_).map (fun s1 => s1.killW this)

/-- The member `WeakPtr::Reset()`. -/
def WeakPtr.Reset (f : Nat) (s : State) (this : Nat) : Option State :=
  match s.getW (WLoc.var this) with
  | none => none
  | some t =>
    match t.block_ with
    | none => some s
    | some b => (releaseWeak f s (some b)).map (fun s1 => s1.setW (WLoc.var this) ⟨none, none⟩)

/-- The member `WeakPtr::Swap`. -/
def WeakPtr.Swap (f : Nat) (s : State) (this other : Nat) : Option State :=
  let tmp := s.wps.length
  (SharedWeak.WeakPtr.move s other).bind (fun s1 =>
  (WeakPtr.moveAssign f s1 other this).bind (fun s2 =>
  (WeakPtr.moveAssign f s2 this tmp).bind (fun s3 =>
  WeakPtr.dtor f s3 tmp)))

/-- The private member `AssignToSelf(esft)`. -/
def SharedPtr.AssignToSelf (f : Nat) (s : State) (this : Nat) (esft : Option Nat) :
    Option State :=
  let lol := s.wps.length
  (SharedWeak.WeakPtr.fromShared s this).bind (fun s1 =>
    match esft with
    | some o =>
      (WeakPtr.copyAssign f s1 (WLoc.self_ o) (WLoc.var lol)).bind (fun s2 =>
      (WeakPtr.copyAssign f s2 (WLoc.self1_ o) (WLoc.var lol)).bind (fun s3 =>
      WeakPtr.dtor f s3 lol))
    | none => WeakPtr.dtor f s1 lol)

/-- The private member `CanConstruct(ptr)`. -/
def SharedPtr.CanConstruct (f : Nat) (s : State) (this : Nat) (ptr : Option Nat) (cap : Bool) :
    Option State :=
  if cap then SharedPtr.AssignToSelf f s this ptr else some s

/-- The constructors `SharedPtr(U* ptr)` and `SharedPtr(T* ptr)`. -/
def SharedPtr.fromRaw (f : Nat) (s : State) (ptr : Option Nat) (cap : Bool) : Option State :=
  let this := s.sps.length
  let b := s.nblocks
  let s1 := (s.newBlock (BlockKind.clever ptr)).pushS ⟨ptr, some b⟩
  let s2 : State := { s1 with blocks := upd s1.blocks b { s1.blocks b with cnt_ := 1 } }
  SharedPtr.CanConstruct f s2 this ptr cap

/-- Both `SharedPtr::operator=(const SharedPtr&)` overloads. -/
def SharedPtr.copyAssign (f : Nat) (s : State) (this other : Nat) : Option State :=
  match s.getS this, s.getS other with
  | some t, some o =>
    if t.block_ = o.block_ then some s
    else
      let x := t.block_
      let s1 := s.setS this ⟨o.own_, o.block_⟩
      let s2 := match o.block_ with
        | some b => s1.incS b
        | none => s1
      releaseShared f s2 x
  | _, _ => none

/-- Both `SharedPtr::operator=(SharedPtr&&)` overloads. -/
def SharedPtr.moveAssign (f : Nat) (s : State) (this other : Nat) : Option State :=
  match s.getS this, s.getS other with
  | some t, some o =>
    if o.block_ = t.block_ then some s
    else
      let x := t.block_
      let s1 := s.setS this ⟨o.own_, o.block_⟩
      let s2 := s1.setS other ⟨none, none⟩
      releaseShared f s2 x
  | _, _ => none

/-- The destructor `~SharedPtr()` of the object in slot `this`. -/
def SharedPtr.dtor (f : Nat) (s : State) (this : Nat) : Option State :=
  match s.getS this with
  | none => none
  | some t => (releaseShared f s t.block_).map (fun s1 => s1.killS this)

/-- The member `SharedPtr::Reset()`. -/
def SharedPtr.Reset (f : Nat) (s : State) (this : Nat) : Option State :=
  match s.getS this with
  | none => none
  | some t =>
    match t.block_ with
    | none => some (s.setS this ⟨none, none⟩)
    | some b => (releaseShared f s (some b)).map (fun s1 => s1.setS this ⟨none, none⟩)

/-- The members `SharedPtr::Reset(U* ptr)` and `SharedPtr::Reset(T* ptr)`. -/
def SharedPtr.ResetPtr (f : Nat) (s : State) (this : Nat) (ptr : Option Nat) : Option State :=
  match s.getS this with
  | none => none
  | some t =>
    (releaseShared f (s.setS this ⟨ptr, t.block_⟩) t.block_).map (fun s1 =>
      let b := s1.nblocks
      ((s1.newBlock (BlockKind.clever ptr)).setS this ⟨ptr, some b⟩).incS b)

/-- The member `SharedPtr::Swap`. -/
def SharedPtr.Swap (f : Nat) (s : State) (this other : Nat) : Option State :=
  let tmp := s.sps.length
  (SharedWeak.SharedPtr.move s other).bind (fun s1 =>
  (SharedPtr.moveAssign f s1 other this).bind (fun s2 =>
  (SharedPtr.moveAssign f s2 this tmp).bind (fun s3 =>
  SharedPtr.dtor f s3 tmp)))

/-- The function `MakeShared<X>(args...)`. -/
def MakeShared (f : Nat) (s : State) (cap : Bool) : Option State :=
  let other := s.sps.length
  let block := s.nblocks
  let obj := s.nobjs
  let s1 := s.pushS ⟨none, none⟩
  let s2 := (s1.newObj cap).newBlock (BlockKind.smart obj)
  let s3 := (s2.setS other ⟨none, some block⟩).incS block
  let s4 := s3.setS other ⟨some obj, some block⟩
  SharedPtr.CanConstruct f s4 other (some obj) cap

/-- The effect of one operation, with the assertions; the operations that
decrement no counter are the ones of `SharedWeak.perform`. -/
def perform (f : Nat) (s : State) : Op → Option State
  | Op.spRaw ptr cap => if wrappable s ptr cap then SharedPtr.fromRaw f s ptr cap else none
  | Op.makeShared cap => MakeShared f s cap
  | Op.spAssign this other => SharedPtr.copyAssign f s this other
  | Op.spMoveAssign this other => SharedPtr.moveAssign f s this other
  | Op.spReset this => SharedPtr.Reset f s this
  | Op.spResetPtr this ptr cap =>
    if wrappable s ptr cap then SharedPtr.ResetPtr f s this ptr else none
  | Op.spSwap this other => SharedPtr.Swap f s this other
  | Op.spDtor this => SharedPtr.dtor f s this
  | Op.wpAssign this other => WeakPtr.copyAssign f s (WLoc.var this) (WLoc.var other)
  | Op.wpMoveAssign this other => WeakPtr.moveAssign f s this other
  | Op.wpReset this => WeakPtr.Reset f s this
  | Op.wpSwap this other => WeakPtr.Swap f s this other
  | Op.wpDtor this => WeakPtr.dtor f s this
  | op => SharedWeak.perform f s op

/-- One step of a client program, with the assertions. -/
def exec (f : Nat) (s : State) (op : Op) : Option State :=
  if inBudget s then perform f s op else none

end Checked

/-! ## Where a pointer without block and with an access pointer comes from

A ghost mark per `SharedPtr` slot follows the values through a program: a
slot is marked when its value was made by the aliasing constructor
`SharedPtr(other, ptr)` with a non-null `ptr` from an `other` without block, or
was taken from a marked slot by copy or move construction, by an assignment
that did not return early, or by `Swap`.  The marks are computed from the
operations and the blocks alone: they never read the access pointer of a
stored object. -/

/-- The test every `operator=` starts with: the `SharedPtr` objects in the two
slots hold the same `block_`. -/
def sameBlock (s : State) (i j : Nat) : Bool :=
  match s.getS i, s.getS j with
  | some a, some b => decide (a.block_ = b.block_)
  | _, _ => false

namespace SharedPtr

/-- Marks after the copy constructor: the new object takes the mark of
`other`. -/
def copyMark (s : State) (d : Nat → Bool) (other : Nat) : Nat → Bool :=
  upd d s.sps.length (d other)

/-- Marks after the move constructor: the new object takes the mark of `other`,
and `other` is left null. -/
def moveMark (s : State) (d : Nat → Bool) (other : Nat) : Nat → Bool :=
  upd (upd d s.sps.length (d other)) other false

/-- Marks after the aliasing constructor: the new object is marked when `ptr`
is not null and `other` has no block. -/
def aliasingMark (s : State) (d : Nat → Bool) (other : Nat) (ptr : Option Nat) : Nat → Bool :=
  upd d s.sps.length (Op.nullAlias s (Op.spAlias other ptr))

/-- Marks after copy assignment: nothing changes when it returns early,
otherwise `this` takes the mark of `other`. -/
def copyAssignMark (s : State) (d : Nat → Bool) (this other : Nat) : Nat → Bool :=
  if sameBlock s this other then d else upd d this (d other)

/-- Marks after move assignment: nothing changes when it returns early,
otherwise `this` takes the mark of `other` and `other` is left null. -/
def moveAssignMark (s : State) (d : Nat → Bool) (this other : Nat) : Nat → Bool :=
  if sameBlock s this other then d else upd (upd d this (d other)) other false

/-- Marks after `Swap`, which is `std::swap`: a move construction of a
temporary, two move assignments and the destruction of the temporary. -/
def SwapMark (f : Nat) (s : State) (d : Nat → Bool) (this other : Nat) : Nat → Bool :=
  let tmp := s.sps.length
  match move s other with
  | none => d
  | some s1 =>
    match moveAssign f s1 other this with
    | none => d
    | some s2 =>
      upd (moveAssignMark s2 (moveAssignMark s1 (moveMark s d other) other this) this tmp)
        tmp false

end SharedPtr

/-- The marks after one operation.  A destroyed or reset object loses its
mark; the operations that copy no `SharedPtr` leave the marks alone. -/
def Op.mark (f : Nat) (s : State) (d : Nat → Bool) : Op → Nat → Bool
  | Op.spCopy other => SharedPtr.copyMark s d other
  | Op.spMove other => SharedPtr.moveMark s d other
  | Op.spAlias other ptr => SharedPtr.aliasingMark s d other ptr
  | Op.spAssign this other => SharedPtr.copyAssignMark s d this other
  | Op.spMoveAssign this other => SharedPtr.moveAssignMark s d this other
  | Op.spReset this => upd d this false
  | Op.spResetPtr this _ _ => upd d this false
  | Op.spSwap this other => SharedPtr.SwapMark f s d this other
  | Op.spDtor this => upd d this false
  | _ => d

/-- Run a client program and follow the marks. -/
def markRun (f : Nat) : State → (Nat → Bool) → List Op → Option (State × (Nat → Bool))
  | s, d, [] => some (s, d)
  | s, d, op :: ops => (exec f s op).bind (fun t => markRun f t (Op.mark f s d op) ops)

/-- States a client program can reach from the empty heap, together with
the marks of their `SharedPtr` slots. -/
inductive Marked : State → (Nat → Bool) → Prop where
  | init : Marked State.init (fun _ => false)
  | step {s t : State} {d : Nat → Bool} (f : Nat) (op : Op) : Marked s d →
      exec f s op = some t → Marked t (Op.mark f s d op)

/-- The marks are exact: the marked slots are the live `SharedPtr` objects
without block whose access pointer is not null. -/
def MarksExact (s : State) (d : Nat → Bool) : Prop :=
  ∀ i, d i = true ↔ ∃ q, s.getS i = some ⟨some q, none⟩

/-- A client program with an aliasing pointer on an empty pointer, a copy of
it, and an owner that is reset:
`SharedPtr<T> e; SharedPtr<T> a(e, p); SharedPtr<T> c(a); auto m = MakeShared<T>(); m.Reset();`. -/
def strayProgram : List Op :=
  [Op.spDefault, Op.spAlias 0 (some 7), Op.spCopy 1, Op.makeShared false, Op.spReset 3]

/-- The state `strayProgram` ends in. -/
def strayState : State := (run 5 State.init strayProgram).getD State.init

/-- The marks `strayProgram` ends with. -/
def strayMarks : Nat → Bool :=
  ((markRun 5 State.init (fun _ => false) strayProgram).map Prod.snd).getD (fun _ => false)

/-! ## Fuel and heap invariant -/


theorem fuel_step : ∀ f,
    (∀ s b t, deleteBlock f s b = some t → deleteBlock (f + 1) s b = some t) ∧
    (∀ s o t, destroyPayload f s o = some t → destroyPayload (f + 1) s o = some t) ∧
    (∀ s x t, releaseWeak f s x = some t → releaseWeak (f + 1) s x = some t) := by
  intro f
  induction f with
  | zero =>
    refine ⟨fun s b t h => ?_, fun s o t h => ?_, fun s x t h => ?_⟩
    · simp [deleteBlock] at h
    · simp [destroyPayload] at h
    · simp [releaseWeak] at h
  | succ n ih =>
    obtain ⟨ih1, ih2, ih3⟩ := ih
    refine ⟨?_, ?_, ?_⟩
    · intro s b t h
      rw [deleteBlock] at h
      rw [deleteBlock]
      cases hk : (s.blocks b).kind with
      | clever ptr =>
        simp only [hk] at h ⊢
        cases hok : (s.blocks b).ok_ with
        | true => simpa [hok] using h
        | false =>
          simp only [hok] at h ⊢
          cases ptr with
          | none => simpa using h
          | some o =>
            simp only [Bool.not_false, if_true, Option.map_eq_some'] at h ⊢
            obtain ⟨a, ha, hat⟩ := h
            exact ⟨a, ih2 _ _ _ ha, hat⟩
      | smart o =>
        simp only [hk] at h ⊢
        cases hok : (s.blocks b).ok_ with
        | true => simpa [hok] using h
        | false =>
          simp only [hok, Bool.not_false, if_true, Option.map_eq_some'] at h ⊢
          obtain ⟨a, ha, hat⟩ := h
          exact ⟨a, ih2 _ _ _ ha, hat⟩
    · intro s o t h
      rw [destroyPayload] at h
      rw [destroyPayload]
      by_cases he : (s.objs o).esft = true
      · simp only [he, if_true, Option.bind_eq_some] at h ⊢
        obtain ⟨a, ha, hat⟩ := h
        exact ⟨a, ih3 _ _ _ ha, ih3 _ _ _ hat⟩
      · simpa [he] using h
    · intro s x t h
      cases x with
      | none => simpa [releaseWeak] using h
      | some b =>
        rw [releaseWeak] at h
        rw [releaseWeak]
        split at h
        · rename_i hz
          rw [if_pos hz]
          exact ih1 _ _ _ h
        · rename_i hz
          rw [if_neg hz]
          exact h



/-! ## Arithmetic of the counters -/

theorem inc_eq {x : Nat} (h : x + 1 < sizeMod) : inc x = x + 1 := by
  unfold inc; exact Nat.mod_eq_of_lt h

theorem dec_eq {x : Nat} (h0 : 0 < x) (h : x < sizeMod) : dec x = x - 1 := by
  unfold dec sizeMod at *; omega

theorem sumZero_iff {a b : Nat} (h : a + b < sizeMod) : sumZero a b = true ↔ a = 0 ∧ b = 0 := by
  unfold sumZero
  rw [Nat.mod_eq_of_lt h]
  simp

theorem sumZero_false {a b : Nat} (h : a + b < sizeMod) (h0 : 0 < a + b) : sumZero a b = false := by
  have := sumZero_iff h
  cases hz : sumZero a b with
  | false => rfl
  | true => have := this.1 hz; omega

theorem sumZero_zero : sumZero 0 0 = true := by decide

@[simp] theorem dec_one : dec 1 = 0 := by decide

@[simp] theorem upd_same {α : Type} (f : Nat → α) (i : Nat) (v : α) : upd f i v i = v := by
  simp [upd]

theorem upd_ne {α : Type} (f : Nat → α) {i j : Nat} (v : α) (h : j ≠ i) : upd f i v j = f j := by
  simp [upd, h]

theorem upd_apply {α : Type} (f : Nat → α) (i j : Nat) (v : α) :
    upd f i v j = if j = i then v else f j := rfl

theorem payload_of_kind {B B' : Block} (h : B.kind = B'.kind) : B.payload = B'.payload := by
  unfold Block.payload; rw [h]

@[simp] theorem payload_incS (s : State) (b b' : Nat) :
    ((s.incS b).blocks b').payload = (s.blocks b').payload := by
  apply payload_of_kind; simp only [State.incS, upd_apply]; split <;> simp_all

@[simp] theorem payload_decS (s : State) (b b' : Nat) :
    ((s.decS b).blocks b').payload = (s.blocks b').payload := by
  apply payload_of_kind; simp only [State.decS, upd_apply]; split <;> simp_all

@[simp] theorem payload_incW (s : State) (b b' : Nat) :
    ((s.incW b).blocks b').payload = (s.blocks b').payload := by
  apply payload_of_kind; simp only [State.incW, upd_apply]; split <;> simp_all

@[simp] theorem payload_decW (s : State) (b b' : Nat) :
    ((s.decW b).blocks b').payload = (s.blocks b').payload := by
  apply payload_of_kind; simp only [State.decW, upd_apply]; split <;> simp_all

@[simp] theorem payload_setOk (s : State) (b b' : Nat) :
    ((s.setOk b).blocks b').payload = (s.blocks b').payload := by
  apply payload_of_kind; simp only [State.setOk, upd_apply]; split <;> simp_all

@[simp] theorem payload_free (s : State) (b b' : Nat) :
    ((s.free b).blocks b').payload = (s.blocks b').payload := by
  apply payload_of_kind; simp only [State.free, upd_apply]; split <;> simp_all

@[simp] theorem payload_bumpDtor (s : State) (o b' : Nat) :
    ((s.bumpDtor o).blocks b').payload = (s.blocks b').payload := rfl

theorem emb_le (s : State) (b : Nat) : emb s b ≤ 2 := by
  unfold emb; split <;> [split <;> omega; omega]

theorem emb_congr {s t : State} (hp : ∀ b, (t.blocks b).payload = (s.blocks b).payload)
    (ho : t.objs = s.objs) (b : Nat) : emb t b = emb s b := by
  unfold emb; rw [hp, ho]

theorem HeapInv.lt_of_cnt {s : State} {C W : Nat → Nat} (h : HeapInv s C W) {b : Nat}
    (hb : (s.blocks b).cnt_ ≠ 0 ∨ (s.blocks b).cntw_ ≠ 0) : b < s.nblocks := by
  by_contra hn
  have := h.fresh b (by omega)
  rw [this] at hb
  simp at hb

theorem HeapInv.lt_of_payload {s : State} {C W : Nat → Nat} (h : HeapInv s C W) {b o : Nat}
    (hb : (s.blocks b).payload = some o) : b < s.nblocks := by
  by_contra hn
  have := h.fresh b (by omega)
  rw [this] at hb
  simp [Block.payload] at hb

/-- A state `t` that differs from `s` in one block `b` (same concrete class) and
in the destructor count of payloads is consistent again as soon as block `b`
itself is. -/
theorem HeapInv.update {s t : State} {C W D V : Nat → Nat} (h : HeapInv s C W) (b : Nat)
    (hlt : b < s.nblocks)
    (hb : ∀ b', b' ≠ b → t.blocks b' = s.blocks b')
    (hk : (t.blocks b).kind = (s.blocks b).kind)
    (ho : ∀ o, (s.blocks b).payload ≠ some o → t.objs o = s.objs o)
    (hf : ∀ o, (t.objs o).esft = (s.objs o).esft ∧ (t.objs o).self_ = (s.objs o).self_ ∧
      (t.objs o).self1_ = (s.objs o).self1_)
    (hnb : t.nblocks = s.nblocks) (hno : t.nobjs = s.nobjs)
    (hcs : ∀ b', b' ≠ b → D b' = C b') (hcw : ∀ b', b' ≠ b → V b' = W b')
    (h1 : (t.blocks b).cnt_ = D b) (h2 : (t.blocks b).cntw_ = V b + emb t b)
    (h3 : (t.blocks b).freed = if (t.blocks b).cnt_ = 0 ∧ (t.blocks b).cntw_ = 0 then 1 else 0)
    (h4 : (t.blocks b).freed = 0 → ((t.blocks b).ok_ = true ↔ (t.blocks b).cnt_ = 0))
    (h5 : ∀ o, (s.blocks b).payload = some o →
      (t.objs o).dtor = if (t.blocks b).cnt_ = 0 then 1 else 0) : HeapInv t D V := by
  have hp : ∀ b', (t.blocks b').payload = (s.blocks b').payload := by
    intro b'
    by_cases e : b' = b
    · subst e; unfold Block.payload; rw [hk]
    · rw [hb b' e]
  have he : ∀ b', b' ≠ b → emb t b' = emb s b' := by
    intro b' e
    unfold emb
    rw [hp b']
    cases hpl : (s.blocks b').payload with
    | none => rfl
    | some o =>
      have : (s.blocks b).payload ≠ some o := fun hh => e (h.inj b' b o hpl hh)
      simp only [ho o this]
  refine ⟨?_, ?_, ?_, ?_, ?_, ?_, ?_, ?_, ?_⟩
  · intro b'
    by_cases e : b' = b
    · subst e; exact h1
    · rw [hb b' e, hcs b' e, h.cnt]
  · intro b'
    by_cases e : b' = b
    · subst e; exact h2
    · rw [hb b' e, hcw b' e, he b' e, h.cntw]
  · intro b' hb'
    have e : b' ≠ b := by omega
    rw [hb b' e]; exact h.fresh b' (by omega)
  · intro b' hb'
    by_cases e : b' = b
    · subst e; exact h3
    · rw [hb b' e]; exact h.freed b' (by omega)
  · intro b' hb'
    by_cases e : b' = b
    · subst e; exact h4
    · rw [hb b' e]; exact h.ok b' (by omega)
  · intro b' o hpo
    rw [hp] at hpo
    have hh := h.owned b' o hpo
    refine ⟨by omega, ?_⟩
    by_cases e : b' = b
    · subst e; exact h5 o hpo
    · have : (s.blocks b).payload ≠ some o := fun hh => e (h.inj b' b o hpo hh)
      rw [ho o this, hb b' e]; exact hh.2
  · intro b1 b2 o hp1 hp2
    rw [hp] at hp1 hp2
    exact h.inj b1 b2 o hp1 hp2
  · intro o b' hes hs
    rw [hp]
    rw [(hf o).1] at hes
    rw [(hf o).2.1] at hs
    exact h.self o b' hes hs
  · intro o hes
    rw [(hf o).1] at hes
    rw [(hf o).2.1, (hf o).2.2]
    exact h.pair o hes

/-- The invariant does not look at the pointer variables. -/
theorem HeapInv.of_heap_eq {s t : State} {C W : Nat → Nat} (h : HeapInv s C W)
    (h1 : t.blocks = s.blocks) (h2 : t.objs = s.objs) (h3 : t.nblocks = s.nblocks)
    (h4 : t.nobjs = s.nobjs) : HeapInv t C W := by
  have e : ∀ b, emb t b = emb s b := fun b => by unfold emb; rw [h1, h2]
  refine ⟨?_, ?_, ?_, ?_, ?_, ?_, ?_, ?_, ?_⟩
  · intro b; rw [h1]; exact h.cnt b
  · intro b; rw [h1, e]; exact h.cntw b
  · intro b; rw [h1, h3]; exact h.fresh b
  · intro b; rw [h1, h3]; exact h.freed b
  · intro b; rw [h1, h3]; exact h.ok b
  · intro b o; rw [h1, h2, h4]; exact h.owned b o
  · intro b b' o; rw [h1]; exact h.inj b b' o
  · intro o b; rw [h1, h2]; exact h.self o b
  · intro o; rw [h2]; exact h.pair o

theorem HeapInv.congr {s : State} {C W D V : Nat → Nat} (h : HeapInv s C W)
    (h1 : ∀ b, D b = C b) (h2 : ∀ b, V b = W b) : HeapInv s D V := by
  have e1 : D = C := funext h1
  have e2 : V = W := funext h2
  rw [e1, e2]; exact h

theorem emb_of_cnt_zero {s : State} {C W : Nat → Nat} (h : HeapInv s C W) {b : Nat}
    (hc : (s.blocks b).cnt_ = 0) : emb s b = 0 := by
  unfold emb
  cases hp : (s.blocks b).payload with
  | none => rfl
  | some o =>
    have := (h.owned b o hp).2
    rw [if_pos hc] at this
    simp [this]

/-- The statement `b->cnt_++` on a block that is still owned. -/
theorem HeapInv.incS {s : State} {C W D : Nat → Nat} (h : HeapInv s C W) {b : Nat}
    (h0 : 0 < C b) (hlt : C b + 1 < sizeMod)
    (hcs : ∀ b', D b' = C b' + if b' = b then 1 else 0) : HeapInv (s.incS b) D W := by
  have hc := h.cnt b
  have hlt' : b < s.nblocks := h.lt_of_cnt (Or.inl (by omega))
  have hfr := h.freed b hlt'
  have hok := h.ok b hlt'
  have hw := h.cntw b
  have hcb : ((s.incS b).blocks b).cnt_ = (s.blocks b).cnt_ + 1 := by
    simp [State.incS]; rw [inc_eq (by omega)]
  have hemb : emb (s.incS b) b = emb s b :=
    emb_congr (s := s) (t := s.incS b) (payload_incS s b) rfl b
  refine h.update b hlt' (fun b' e => by simp [State.incS, upd_ne _ _ e]) (by simp [State.incS])
    (fun o _ => rfl) (fun o => ⟨rfl, rfl, rfl⟩) rfl rfl (fun b' e => by simp [hcs, e])
    (fun b' _ => rfl) ?_ ?_ ?_ ?_ ?_
  · rw [hcb, hcs]; simp; omega
  · rw [hemb]; simpa [State.incS] using hw
  · rw [hcb]; simp [State.incS]; rw [hfr]; simp; omega
  · rw [hcb]; intro _; simp [State.incS]
    have : (s.blocks b).freed = 0 := by rw [hfr]; simp; omega
    have := hok this
    rw [← Bool.not_eq_true, this]; omega
  · intro o hp
    rw [hcb]
    have := (h.owned b o hp).2
    simp only [State.incS]
    rw [this]; simp; omega

/-- The statement `b->cntw_++` on a block that is not freed. -/
theorem HeapInv.incW {s : State} {C W V : Nat → Nat} (h : HeapInv s C W) {b : Nat}
    (h0 : 0 < C b + W b) (hlt : W b + 3 < sizeMod)
    (hcw : ∀ b', V b' = W b' + if b' = b then 1 else 0) : HeapInv (s.incW b) C V := by
  have hc := h.cnt b
  have hw := h.cntw b
  have hlt' : b < s.nblocks := h.lt_of_cnt (by omega)
  have hfr := h.freed b hlt'
  have hok := h.ok b hlt'
  have hle := emb_le s b
  have hcb : ((s.incW b).blocks b).cntw_ = (s.blocks b).cntw_ + 1 := by
    simp [State.incW]; rw [inc_eq (by omega)]
  have hemb : emb (s.incW b) b = emb s b :=
    emb_congr (s := s) (t := s.incW b) (payload_incW s b) rfl b
  have hfr0 : (s.blocks b).freed = 0 := by rw [hfr]; simp; omega
  refine h.update b hlt' (fun b' e => by simp [State.incW, upd_ne _ _ e]) (by simp [State.incW])
    (fun o _ => rfl) (fun o => ⟨rfl, rfl, rfl⟩) rfl rfl (fun b' _ => rfl)
    (fun b' e => by simp [hcw, e]) ?_ ?_ ?_ ?_ ?_
  · simpa [State.incW] using hc
  · rw [hcb, hemb, hcw]; simp; omega
  · rw [hcb]; simp [State.incW]; exact hfr0
  · intro _; simpa [State.incW] using hok hfr0
  · intro o hp
    simpa [State.incW] using (h.owned b o hp).2



theorem deleteBlock_ok (n : Nat) (s : State) (b : Nat) (h : (s.blocks b).ok_ = true) :
    deleteBlock (n + 1) s b = some (s.free b) := by
  rw [deleteBlock]
  cases hk : (s.blocks b).kind <;> simp [h]

theorem releaseWeak_none (n : Nat) (s : State) : releaseWeak (n + 1) s none = some s := by
  rw [releaseWeak]

theorem destroyPayload_plain (n : Nat) (s : State) (o : Nat)
    (h : (s.objs o).esft = true →
      (s.objs o).self_.block_ = none ∧ (s.objs o).self1_.block_ = none) :
    destroyPayload (n + 2) s o = some (s.bumpDtor o) := by
  rw [destroyPayload]
  by_cases he : (s.objs o).esft = true
  · obtain ⟨h1, h2⟩ := h he
    have e1 : ((s.bumpDtor o).objs o).self1_.block_ = none := by simp [State.bumpDtor, h2]
    have e2 : ((s.bumpDtor o).objs o).self_.block_ = none := by simp [State.bumpDtor, h1]
    rw [if_pos he, e1, releaseWeak_none]
    simp only [Option.some_bind]
    rw [e2, releaseWeak_none]
  · simp [he]

theorem destroyPayload_hooked (n : Nat) (s : State) (o b : Nat)
    (he : (s.objs o).esft = true) (h1 : (s.objs o).self_.block_ = some b)
    (h2 : (s.objs o).self1_.block_ = some b) (hc : (s.blocks b).cnt_ = 0)
    (hw : 2 ≤ (s.blocks b).cntw_) (hlt : (s.blocks b).cntw_ < sizeMod)
    (hok : (s.blocks b).ok_ = true) :
    destroyPayload (n + 3) s o =
      some (if (s.blocks b).cntw_ = 2 then (((s.bumpDtor o).decW b).decW b).free b
        else ((s.bumpDtor o).decW b).decW b) := by
  rw [destroyPayload]
  have d1 : dec (s.blocks b).cntw_ = (s.blocks b).cntw_ - 1 := dec_eq (by omega) hlt
  have d2 : dec ((s.blocks b).cntw_ - 1) = (s.blocks b).cntw_ - 2 := by
    rw [dec_eq (by omega) (by omega)]; omega
  have z1 : sumZero ((s.blocks b).cntw_ - 1) 0 = false := sumZero_false (by omega) (by omega)
  have e1 : ((s.bumpDtor o).objs o).self1_.block_ = some b := by simp [State.bumpDtor, h2]
  have e2 : (((s.bumpDtor o).decW b).objs o).self_.block_ = some b := by
    simp [State.bumpDtor, State.decW, h1]
  have c1 : (((s.bumpDtor o).decW b).blocks b).cntw_ = (s.blocks b).cntw_ - 1 := by
    simp [State.bumpDtor, State.decW, d1]
  have c1' : (((s.bumpDtor o).decW b).blocks b).cnt_ = 0 := by
    simp [State.bumpDtor, State.decW, hc]
  have c2 : ((((s.bumpDtor o).decW b).decW b).blocks b).cntw_ = (s.blocks b).cntw_ - 2 := by
    simp [State.bumpDtor, State.decW, d1, d2]
  have c2' : ((((s.bumpDtor o).decW b).decW b).blocks b).cnt_ = 0 := by
    simp [State.bumpDtor, State.decW, hc]
  have c3 : ((((s.bumpDtor o).decW b).decW b).blocks b).ok_ = true := by
    simp [State.bumpDtor, State.decW, hok]
  rw [if_pos he, e1, releaseWeak, c1, c1', z1]
  simp only [Bool.false_eq_true, if_false, Option.some_bind, e2]
  rw [releaseWeak, c2, c2']
  by_cases h2' : (s.blocks b).cntw_ = 2
  · rw [if_pos h2', h2']
    simp only [Nat.sub_self, sumZero_zero, if_true]
    exact deleteBlock_ok n _ b c3
  · rw [if_neg h2', sumZero_false (by omega) (by omega)]
    simp

/-- Giving up a weak reference held by a pointer variable. -/
theorem HeapInv.releaseWeak {s : State} {C W V : Nat → Nat} (h : HeapInv s C V) (b : Nat)
    (hcw : ∀ b', V b' = W b' + if b' = b then 1 else 0) (hlt : C b + W b + 4 < sizeMod)
    (n : Nat) :
    ∃ t, SharedWeak.releaseWeak (n + 2) s (some b) = some t ∧ HeapInv t C W ∧
      t.sps = s.sps ∧ t.wps = s.wps ∧ t.nblocks = s.nblocks ∧ t.nobjs = s.nobjs ∧
      t.objs = s.objs ∧ (∀ b', b' ≠ b → t.blocks b' = s.blocks b') ∧
      (t.blocks b).cnt_ = (s.blocks b).cnt_ := by
  have hc := h.cnt b
  have hw := h.cntw b
  have hle := emb_le s b
  rw [hcw] at hw; simp only [if_true] at hw
  have hlt' : b < s.nblocks := h.lt_of_cnt (Or.inr (by omega))
  have hfr := h.freed b hlt'
  have hfr0 : (s.blocks b).freed = 0 := by rw [hfr]; simp; omega
  have hok := h.ok b hlt' hfr0
  have d1 : dec (s.blocks b).cntw_ = (s.blocks b).cntw_ - 1 := dec_eq (by omega) (by omega)
  have hemb : emb (s.decW b) b = emb s b :=
    emb_congr (s := s) (t := s.decW b) (payload_decW s b) rfl b
  rw [SharedWeak.releaseWeak]
  by_cases hz : (s.blocks b).cnt_ = 0 ∧ (s.blocks b).cntw_ = 1
  · have z : sumZero ((s.decW b).blocks b).cntw_ ((s.decW b).blocks b).cnt_ = true := by
      simp only [State.decW, upd_same]
      rw [d1, hz.1, hz.2]; decide
    rw [if_pos z, deleteBlock_ok n _ b (by simpa [State.decW] using hok.2 hz.1)]
    refine ⟨_, rfl, ?_, rfl, rfl, rfl, rfl, rfl, ?_, ?_⟩
    · have hemb' : emb ((s.decW b).free b) b = emb s b :=
        emb_congr (s := s) (t := (s.decW b).free b) (fun b' => by simp) rfl b
      refine h.update b hlt' (fun b' e => by simp [State.decW, State.free, upd_ne _ _ e])
        (by simp [State.decW, State.free]) (fun o _ => rfl) (fun o => ⟨rfl, rfl, rfl⟩) rfl rfl
        (fun b' _ => rfl) (fun b' e => by simp [hcw, e]) ?_ ?_ ?_ ?_ ?_
      · simpa [State.decW, State.free] using hc
      · rw [hemb']; simp [State.decW, State.free, d1]; omega
      · simp [State.decW, State.free, d1, hz.1, hz.2, hfr0]
      · simp [State.decW, State.free]
      · intro o hp
        simpa [State.decW, State.free] using (h.owned b o hp).2
    · intro b' e; simp [State.decW, State.free, upd_ne _ _ e]
    · simp [State.decW, State.free]
  · have z : sumZero ((s.decW b).blocks b).cntw_ ((s.decW b).blocks b).cnt_ = false := by
      simp only [State.decW, upd_same, d1]
      exact sumZero_false (by omega) (by omega)
    rw [z]
    simp only [Bool.false_eq_true, if_false]
    refine ⟨_, rfl, ?_, rfl, rfl, rfl, rfl, rfl, ?_, ?_⟩
    · refine h.update b hlt' (fun b' e => by simp [State.decW, upd_ne _ _ e])
        (by simp [State.decW]) (fun o _ => rfl) (fun o => ⟨rfl, rfl, rfl⟩) rfl rfl
        (fun b' _ => rfl) (fun b' e => by simp [hcw, e]) ?_ ?_ ?_ ?_ ?_
      · simpa [State.decW] using hc
      · rw [hemb]; simp [State.decW, d1]; omega
      · have hn : ¬((s.blocks b).cnt_ = 0 ∧ (s.blocks b).cntw_ - 1 = 0) := by omega
        simp only [State.decW, upd_same, d1, hfr0, hn, if_false]
      · intro _; simpa [State.decW] using hok
      · intro o hp
        simpa [State.decW] using (h.owned b o hp).2
    · intro b' e; simp [State.decW, upd_ne _ _ e]
    · simp [State.decW]



/-- The state after the last strong reference to `b` is given up: the payload
is destroyed, its embedded weak references are gone, and the block is freed
when no weak pointer variable is left. -/
theorem HeapInv.finalize {s t : State} {C D W : Nat → Nat} (h : HeapInv s D W) (b : Nat)
    (hcs : ∀ b', D b' = C b' + if b' = b then 1 else 0) (hcs0 : C b = 0)
    (hb : ∀ b', b' ≠ b → t.blocks b' = s.blocks b')
    (hk : (t.blocks b).kind = (s.blocks b).kind)
    (hobjs : ∀ o, t.objs o =
      if (s.blocks b).payload = some o then { s.objs o with dtor := (s.objs o).dtor + 1 }
      else s.objs o)
    (hnb : t.nblocks = s.nblocks) (hno : t.nobjs = s.nobjs)
    (hc : (t.blocks b).cnt_ = 0) (hw : (t.blocks b).cntw_ = W b)
    (hfr : (t.blocks b).freed = if W b = 0 then 1 else 0)
    (hok : W b ≠ 0 → (t.blocks b).ok_ = true) : HeapInv t C W := by
  have hcb := h.cnt b
  rw [hcs] at hcb; simp only [if_true, hcs0] at hcb
  have hlt : b < s.nblocks := h.lt_of_cnt (Or.inl (by omega))
  have hemb : emb t b = 0 := by
    unfold emb
    rw [payload_of_kind hk]
    cases hp : (s.blocks b).payload with
    | none => rfl
    | some o => simp [hobjs o, hp]
  refine h.update b hlt hb hk (fun o ho => by rw [hobjs o, if_neg ho])
    (fun o => by rw [hobjs o]; split <;> exact ⟨rfl, rfl, rfl⟩) hnb hno
    (fun b' e => by simpa [e] using (hcs b').symm) (fun _ _ => rfl) ?_ ?_ ?_ ?_ ?_
  · rw [hc, hcs0]
  · rw [hw, hemb]; rfl
  · rw [hfr, hc, hw]; simp
  · intro hf
    rw [hfr] at hf
    have : W b ≠ 0 := by intro e; simp [e] at hf
    simp [hok this, hc]
  · intro o hp
    rw [hobjs o, if_pos hp, if_pos hc]
    have := (h.owned b o hp).2
    rw [if_neg (by omega)] at this
    simp [this]

/-- Giving up a strong reference held by a pointer variable. -/
theorem HeapInv.releaseShared {s : State} {C D W : Nat → Nat} (h : HeapInv s D W) (b : Nat)
    (hcs : ∀ b', D b' = C b' + if b' = b then 1 else 0) (hlt : C b + W b + 4 < sizeMod)
    (n : Nat) :
    ∃ t, SharedWeak.releaseShared (n + 4) s (some b) = some t ∧ HeapInv t C W ∧
      t.sps = s.sps ∧ t.wps = s.wps ∧ t.nblocks = s.nblocks ∧ t.nobjs = s.nobjs ∧
      (∀ b', b' ≠ b → t.blocks b' = s.blocks b') ∧
      (∀ o, (s.blocks b).payload ≠ some o → t.objs o = s.objs o) ∧
      (t.blocks b).kind = (s.blocks b).kind := by
  have hc := h.cnt b
  have hw := h.cntw b
  have hle := emb_le s b
  rw [hcs] at hc; simp only [if_true] at hc
  have hlt' : b < s.nblocks := h.lt_of_cnt (Or.inl (by omega))
  have hfr := h.freed b hlt'
  have hfr0 : (s.blocks b).freed = 0 := by rw [hfr]; simp; omega
  have hok : (s.blocks b).ok_ = false := by
    have := h.ok b hlt' hfr0
    rw [← Bool.not_eq_true, this]; omega
  have d1 : dec (s.blocks b).cnt_ = C b := by rw [dec_eq (by omega) (by omega)]; omega
  have c1 : ((s.decS b).blocks b).cnt_ = C b := by simp only [State.decS, upd_same]; exact d1
  have c2 : ((s.decS b).blocks b).cntw_ = (s.blocks b).cntw_ := by simp [State.decS]
  rw [SharedWeak.releaseShared, c1, c2]
  by_cases hcs0 : C b = 0
  swap
  · -- other strong references remain
    rw [sumZero_false (by omega) (by omega)]
    simp only [Bool.false_eq_true, if_false, beq_iff_eq, hcs0]
    refine ⟨_, rfl, ?_, rfl, rfl, rfl, rfl, ?_, fun o _ => rfl,
            by simp [State.decS, State.setOk, State.free, State.bumpDtor, State.decW]⟩
    · have hemb : emb (s.decS b) b = emb s b :=
        emb_congr (s := s) (t := s.decS b) (payload_decS s b) rfl b
      refine h.update b hlt' (fun b' e => by simp [State.decS, upd_ne _ _ e])
        (by simp [State.decS]) (fun o _ => rfl) (fun o => ⟨rfl, rfl, rfl⟩) rfl rfl
        (fun b' e => by simpa [e] using (hcs b').symm) (fun b' _ => rfl) ?_ ?_ ?_ ?_ ?_
      · exact c1
      · rw [hemb, c2]; exact hw
      · rw [c1, c2]; simp only [State.decS, upd_same, hfr0]; simp [hcs0]
      · intro _; rw [c1]; simp [State.decS, hok, hcs0]
      · intro o hp
        rw [c1, if_neg hcs0]
        have := (h.owned b o hp).2
        rw [if_neg (by omega)] at this
        exact this
    · intro b' e; simp [State.decS, upd_ne _ _ e]
  · -- the last strong reference
    rw [hcs0]
    have hdt : ∀ o, (s.blocks b).payload = some o → (s.objs o).dtor = 0 := by
      intro o hp
      have := (h.owned b o hp).2
      rw [if_neg (by omega)] at this
      exact this
    have hplain : ∀ o, (s.blocks b).payload = some o → emb s b = 0 →
        ((s.objs o).esft = true →
          (s.objs o).self_.block_ = none ∧ (s.objs o).self1_.block_ = none) := by
      intro o hp he hes
      have hpair := h.pair o hes
      cases hsb : (s.objs o).self_.block_ with
      | none => rw [hpair, hsb]; exact ⟨rfl, rfl⟩
      | some b' =>
        have hb' := h.self o b' hes hsb
        have e : b' = b := h.inj b' b o hb' hp
        subst e
        simp [emb, hp, hes, hdt o hp, hsb] at he
    have hhook : ∀ o, (s.blocks b).payload = some o → emb s b ≠ 0 →
        (s.objs o).esft = true ∧ (s.objs o).self_.block_ = some b ∧
          (s.objs o).self1_.block_ = some b ∧ emb s b = 2 := by
      intro o hp he
      unfold emb at he ⊢
      rw [hp] at he ⊢
      simp only at he ⊢
      split at he
      · rename_i hh
        rw [if_pos hh]
        exact ⟨hh.1, hh.2.2, by rw [h.pair o hh.1]; exact hh.2.2, rfl⟩
      · exact absurd rfl he
    by_cases hw0 : (s.blocks b).cntw_ = 0
    · -- no weak reference at all: `delete`
      have he0 : emb s b = 0 := by omega
      have hcw0 : W b = 0 := by omega
      rw [hw0, sumZero_zero, if_pos rfl, deleteBlock]
      cases hkind : (s.blocks b).kind with
      | clever ptr =>
        have hk1 : ((s.decS b).blocks b).kind = BlockKind.clever ptr := by
          simp [State.decS, hkind]
        have hk2 : ((s.decS b).blocks b).ok_ = false := by simp [State.decS, hok]
        simp only [hk1, hk2, Bool.not_false, if_true]
        cases ptr with
        | none =>
          refine ⟨_, rfl, ?_, rfl, rfl, rfl, rfl, ?_, fun o _ => rfl,
            by simp [State.decS, State.setOk, State.free, State.bumpDtor, State.decW]; assumption⟩
          · refine h.finalize b hcs hcs0 ?_ ?_ ?_ rfl rfl ?_ ?_ ?_ ?_
            · intro b' e; simp [State.decS, State.setOk, State.free, upd_ne _ _ e]
            · simp [State.decS, State.setOk, State.free]
            · intro o; simp [State.decS, State.setOk, State.free, Block.payload, hkind]
            · simp [State.decS, State.setOk, State.free, d1, hcs0]
            · simp [State.decS, State.setOk, State.free, hw0, hcw0]
            · simp [State.decS, State.setOk, State.free, hfr0, hcw0]
            · intro hne; exact absurd hcw0 hne
          · intro b' e; simp [State.decS, State.setOk, State.free, upd_ne _ _ e]
        | some o =>
          have hp : (s.blocks b).payload = some o := by simp [Block.payload, hkind]
          have e := destroyPayload_plain (n + 1) ((s.decS b).setOk b) o (by
            simpa [State.decS, State.setOk] using hplain o hp he0)
          change destroyPayload (n + 3) _ _ = _ at e
          simp only [e, Option.map_some']
          refine ⟨_, rfl, ?_, rfl, rfl, rfl, rfl, ?_, ?_,
            by simp [State.decS, State.setOk, State.free, State.bumpDtor, State.decW]; assumption⟩
          · refine h.finalize b hcs hcs0 ?_ ?_ ?_ rfl rfl ?_ ?_ ?_ ?_
            · intro b' e
              simp [State.decS, State.setOk, State.free, State.bumpDtor, upd_ne _ _ e]
            · simp [State.decS, State.setOk, State.free, State.bumpDtor]
            · intro o'
              simp only [State.decS, State.setOk, State.free, State.bumpDtor, upd_apply, hp,
                Option.some.injEq]
              by_cases e : o' = o
              · subst e; simp
              · simp [e, Ne.symm e]
            · simp [State.decS, State.setOk, State.free, State.bumpDtor, d1, hcs0]
            · simp [State.decS, State.setOk, State.free, State.bumpDtor, hw0, hcw0]
            · simp [State.decS, State.setOk, State.free, State.bumpDtor, hfr0, hcw0]
            · intro hne; exact absurd hcw0 hne
          · intro b' e
            simp [State.decS, State.setOk, State.free, State.bumpDtor, upd_ne _ _ e]
          · intro o' ho'
            have e : o' ≠ o := fun e => ho' (e ▸ hp)
            simp [State.decS, State.setOk, State.free, State.bumpDtor, upd_ne _ _ e]
      | smart o =>
        have hk1 : ((s.decS b).blocks b).kind = BlockKind.smart o := by
          simp [State.decS, hkind]
        have hk2 : ((s.decS b).blocks b).ok_ = false := by simp [State.decS, hok]
        simp only [hk1, hk2, Bool.not_false, if_true]
        have hp : (s.blocks b).payload = some o := by simp [Block.payload, hkind]
        have e := destroyPayload_plain (n + 1) (s.decS b) o (by
          simpa [State.decS] using hplain o hp he0)
        change destroyPayload (n + 3) _ _ = _ at e
        simp only [e, Option.map_some']
        refine ⟨_, rfl, ?_, rfl, rfl, rfl, rfl, ?_, ?_,
            by simp [State.decS, State.setOk, State.free, State.bumpDtor, State.decW]; assumption⟩
        · refine h.finalize b hcs hcs0 ?_ ?_ ?_ rfl rfl ?_ ?_ ?_ ?_
          · intro b' e
            simp [State.decS, State.free, State.bumpDtor, upd_ne _ _ e]
          · simp [State.decS, State.free, State.bumpDtor]
          · intro o'
            simp only [State.decS, State.free, State.bumpDtor, upd_apply, hp,
              Option.some.injEq]
            by_cases e : o' = o
            · subst e; simp
            · simp [e, Ne.symm e]
          · simp [State.decS, State.free, State.bumpDtor, d1, hcs0]
          · simp [State.decS, State.free, State.bumpDtor, hw0, hcw0]
          · simp [State.decS, State.free, State.bumpDtor, hfr0, hcw0]
          · intro hne; exact absurd hcw0 hne
        · intro b' e
          simp [State.decS, State.free, State.bumpDtor, upd_ne _ _ e]
        · intro o' ho'
          have e : o' ≠ o := fun e => ho' (e ▸ hp)
          simp [State.decS, State.free, State.bumpDtor, upd_ne _ _ e]
    · -- weak references remain: `Del()`
      rw [sumZero_false (by omega) (by omega)]
      simp only [Bool.false_eq_true, if_false, beq_self_eq_true, if_true]
      have hk2 : ((s.decS b).blocks b).ok_ = false := by simp [State.decS, hok]
      have hdel : Del (n + 4) (s.decS b) b =
          match (s.blocks b).payload with
          | none => some ((s.decS b).setOk b)
          | some o => destroyPayload (n + 4) ((s.decS b).setOk b) o := by
        unfold Del Block.payload
        have hk1 : ((s.decS b).blocks b).kind = (s.blocks b).kind := by simp [State.decS]
        rw [hk1]
        cases hkind : (s.blocks b).kind with
        | clever ptr => cases ptr <;> simp [hk2]
        | smart o => simp
      rw [hdel]
      cases hp : (s.blocks b).payload with
      | none =>
        have he0 : emb s b = 0 := by simp [emb, hp]
        simp only []
        refine ⟨_, rfl, ?_, rfl, rfl, rfl, rfl, ?_, fun o _ => rfl,
            by simp [State.decS, State.setOk, State.free, State.bumpDtor, State.decW]⟩
        · refine h.finalize b hcs hcs0 ?_ ?_ ?_ rfl rfl ?_ ?_ ?_ ?_
          · intro b' e; simp [State.decS, State.setOk, upd_ne _ _ e]
          · simp [State.decS, State.setOk]
          · intro o; simp [State.decS, State.setOk, hp]
          · simp [State.decS, State.setOk, d1, hcs0]
          · simp [State.decS, State.setOk]; omega
          · have : W b ≠ 0 := by omega
            simp [State.decS, State.setOk, hfr0, this]
          · intro _; simp [State.decS, State.setOk]
        · intro b' e; simp [State.decS, State.setOk, upd_ne _ _ e]
      | some o =>
        simp only []
        by_cases he0 : emb s b = 0
        · have e := destroyPayload_plain (n + 2) ((s.decS b).setOk b) o (by
            simpa [State.decS, State.setOk] using hplain o hp he0)
          change destroyPayload (n + 4) _ _ = _ at e
          rw [e]
          refine ⟨_, rfl, ?_, rfl, rfl, rfl, rfl, ?_, ?_,
            by simp [State.decS, State.setOk, State.free, State.bumpDtor, State.decW]⟩
          · refine h.finalize b hcs hcs0 ?_ ?_ ?_ rfl rfl ?_ ?_ ?_ ?_
            · intro b' e
              simp [State.decS, State.setOk, State.bumpDtor, upd_ne _ _ e]
            · simp [State.decS, State.setOk, State.bumpDtor]
            · intro o'
              simp only [State.decS, State.setOk, State.bumpDtor, upd_apply, hp,
                Option.some.injEq]
              by_cases e : o' = o
              · subst e; simp
              · simp [e, Ne.symm e]
            · simp [State.decS, State.setOk, State.bumpDtor, d1, hcs0]
            · simp [State.decS, State.setOk, State.bumpDtor]; omega
            · have : W b ≠ 0 := by omega
              simp [State.decS, State.setOk, State.bumpDtor, hfr0, this]
            · intro _; simp [State.decS, State.setOk, State.bumpDtor]
          · intro b' e
            simp [State.decS, State.setOk, State.bumpDtor, upd_ne _ _ e]
          · intro o' ho'
            have e : o' ≠ o := fun e => ho' (by rw [e])
            simp [State.decS, State.setOk, State.bumpDtor, upd_ne _ _ e]
        · obtain ⟨hes, hs0, hs1, he2⟩ := hhook o hp he0
          have hcwb : ((((s.decS b).setOk b).blocks b).cntw_) = (s.blocks b).cntw_ := by
            simp [State.decS, State.setOk]
          have e := destroyPayload_hooked (n + 1) ((s.decS b).setOk b) o b
            (by simpa [State.decS, State.setOk] using hes)
            (by simpa [State.decS, State.setOk] using hs0)
            (by simpa [State.decS, State.setOk] using hs1)
            (by simp [State.decS, State.setOk, d1, hcs0])
            (by rw [hcwb]; omega) (by rw [hcwb]; omega) (by simp [State.decS, State.setOk])
          change destroyPayload (n + 4) _ _ = _ at e
          rw [e, hcwb]
          have dw1 : dec (s.blocks b).cntw_ = (s.blocks b).cntw_ - 1 :=
            dec_eq (by omega) (by omega)
          have dw2 : dec ((s.blocks b).cntw_ - 1) = (s.blocks b).cntw_ - 2 := by
            rw [dec_eq (by omega) (by omega)]; omega
          by_cases h22 : (s.blocks b).cntw_ = 2
          · rw [if_pos h22]
            have hcw0 : W b = 0 := by omega
            refine ⟨_, rfl, ?_, rfl, rfl, rfl, rfl, ?_, ?_,
            by simp [State.decS, State.setOk, State.free, State.bumpDtor, State.decW]⟩
            · refine h.finalize b hcs hcs0 ?_ ?_ ?_ rfl rfl ?_ ?_ ?_ ?_
              · intro b' e
                simp [State.decS, State.setOk, State.bumpDtor, State.decW, State.free,
                  upd_ne _ _ e]
              · simp [State.decS, State.setOk, State.bumpDtor, State.decW, State.free]
              · intro o'
                simp only [State.decS, State.setOk, State.bumpDtor, State.decW, State.free,
                  upd_apply, hp, Option.some.injEq]
                by_cases e : o' = o
                · subst e; simp
                · simp [e, Ne.symm e]
              · simp [State.decS, State.setOk, State.bumpDtor, State.decW, State.free, d1, hcs0]
              · simp only [State.decS, State.setOk, State.bumpDtor, State.decW, State.free,
                  upd_same, dw1, dw2]
                omega
              · simp [State.decS, State.setOk, State.bumpDtor, State.decW, State.free, hfr0,
                  hcw0]
              · intro hne; exact absurd hcw0 hne
            · intro b' e
              simp [State.decS, State.setOk, State.bumpDtor, State.decW, State.free,
                upd_ne _ _ e]
            · intro o' ho'
              have e : o' ≠ o := fun e => ho' (by rw [e])
              simp [State.decS, State.setOk, State.bumpDtor, State.decW, State.free,
                upd_ne _ _ e]
          · rw [if_neg h22]
            have hcw0 : W b ≠ 0 := by omega
            refine ⟨_, rfl, ?_, rfl, rfl, rfl, rfl, ?_, ?_,
            by simp [State.decS, State.setOk, State.free, State.bumpDtor, State.decW]⟩
            · refine h.finalize b hcs hcs0 ?_ ?_ ?_ rfl rfl ?_ ?_ ?_ ?_
              · intro b' e
                simp [State.decS, State.setOk, State.bumpDtor, State.decW, upd_ne _ _ e]
              · simp [State.decS, State.setOk, State.bumpDtor, State.decW]
              · intro o'
                simp only [State.decS, State.setOk, State.bumpDtor, State.decW,
                  upd_apply, hp, Option.some.injEq]
                by_cases e : o' = o
                · subst e; simp
                · simp [e, Ne.symm e]
              · simp [State.decS, State.setOk, State.bumpDtor, State.decW, d1, hcs0]
              · simp only [State.decS, State.setOk, State.bumpDtor, State.decW,
                  upd_same, dw1, dw2]
                omega
              · simp [State.decS, State.setOk, State.bumpDtor, State.decW, hfr0, hcw0]
              · intro _; simp [State.decS, State.setOk, State.bumpDtor, State.decW]
            · intro b' e
              simp [State.decS, State.setOk, State.bumpDtor, State.decW, upd_ne _ _ e]
            · intro o' ho'
              have e : o' ≠ o := fun e => ho' (by rw [e])
              simp [State.decS, State.setOk, State.bumpDtor, State.decW, upd_ne _ _ e]

/-! ## Counting pointer variables -/

theorem getD_some_lt {α : Type} {l : List (Option α)} {i : Nat} {p : α}
    (h : l.getD i none = some p) : i < l.length := by
  by_contra hn
  rw [List.getD_eq_default _ _ (by omega)] at h
  cases h

theorem blockRefs_nil {α : Type} (g : α → Option Nat) (b : Nat) : blockRefs g b [] = 0 := rfl

theorem blockRefs_cons {α : Type} (g : α → Option Nat) (b : Nat) (x : Option α)
    (l : List (Option α)) :
    blockRefs g b (x :: l) = blockRefs g b l + if x.bind g = some b then 1 else 0 := by
  unfold blockRefs
  rw [List.map_cons, List.count_cons]
  simp only [beq_iff_eq]

theorem blockRefs_append {α : Type} (g : α → Option Nat) (b : Nat) (l : List (Option α))
    (x : Option α) :
    blockRefs g b (l ++ [x]) = blockRefs g b l + if x.bind g = some b then 1 else 0 := by
  unfold blockRefs
  rw [List.map_append, List.count_append]
  simp [List.count_cons]

theorem blockRefs_set {α : Type} (g : α → Option Nat) (b : Nat) :
    ∀ (l : List (Option α)) (i : Nat) (x : Option α), i < l.length →
      blockRefs g b (l.set i x) + (if (l.getD i none).bind g = some b then 1 else 0) =
        blockRefs g b l + if x.bind g = some b then 1 else 0
  | [], i, x, h => by simp at h
  | y :: l, 0, x, _ => by
    simp only [List.set_cons_zero, blockRefs_cons, List.getD_cons_zero]
    omega
  | y :: l, i + 1, x, h => by
    have ih := blockRefs_set g b l i x (by simpa using h)
    simp only [List.set_cons_succ, blockRefs_cons, List.getD_cons_succ]
    omega

theorem blockRefs_le {α : Type} (g : α → Option Nat) (b : Nat) (l : List (Option α)) :
    blockRefs g b l ≤ l.length := by
  unfold blockRefs
  have := List.count_le_length (some b) (l.map (fun x => x.bind g))
  simpa using this

theorem blockRefs_pos {α : Type} (g : α → Option Nat) (b : Nat) {l : List (Option α)} {i : Nat}
    {p : α} (h : l.getD i none = some p) (hb : g p = some b) : 0 < blockRefs g b l := by
  have := blockRefs_set g b l i none (getD_some_lt h)
  rw [h] at this
  simp [hb] at this
  omega

theorem getD_set {α : Type} (l : List (Option α)) (i j : Nat) (x : Option α)
    (h : i < l.length) : (l.set i x).getD j none = if j = i then x else l.getD j none := by
  simp only [List.getD_eq_getElem?_getD, List.getElem?_set]
  by_cases e : i = j
  · subst e; simp [h]
  · simp [e, Ne.symm e]

theorem getD_push {α : Type} (l : List (Option α)) (j : Nat) (x : Option α) :
    (l ++ [x]).getD j none = if j = l.length then x else l.getD j none := by
  by_cases h : j < l.length
  · rw [List.getD_append _ _ _ _ h, if_neg (by omega)]
  · rw [List.getD_append_right _ _ _ _ (by omega)]
    by_cases e : j = l.length
    · subst e; simp
    · rw [if_neg e, List.getD_eq_default _ _ (by simp; omega), List.getD_eq_default _ _ (by omega)]



/-! ## Results do not depend on the fuel -/

theorem deleteBlock_mono {f : Nat} {s t : State} {b : Nat} (k : Nat)
    (h : deleteBlock f s b = some t) : deleteBlock (f + k) s b = some t := by
  induction k with
  | zero => exact h
  | succ k ih => exact (fuel_step (f + k)).1 s b t ih

theorem destroyPayload_mono {f : Nat} {s t : State} {o : Nat} (k : Nat)
    (h : destroyPayload f s o = some t) : destroyPayload (f + k) s o = some t := by
  induction k with
  | zero => exact h
  | succ k ih => exact (fuel_step (f + k)).2.1 s o t ih

theorem releaseWeak_mono {f : Nat} {s t : State} {x : Option Nat} (k : Nat)
    (h : releaseWeak f s x = some t) : releaseWeak (f + k) s x = some t := by
  induction k with
  | zero => exact h
  | succ k ih => exact (fuel_step (f + k)).2.2 s x t ih

theorem Del_mono {f : Nat} {s t : State} {b : Nat} (k : Nat)
    (h : Del f s b = some t) : Del (f + k) s b = some t := by
  unfold Del at h ⊢
  cases hk : (s.blocks b).kind with
  | clever ptr =>
    simp only [hk] at h ⊢
    cases ptr with
    | none => exact h
    | some o =>
      simp only at h ⊢
      by_cases c : (!(s.blocks b).ok_) = true
      · rw [if_pos c] at h ⊢; exact destroyPayload_mono k h
      · rw [if_neg c] at h ⊢; exact h
  | smart o =>
    simp only [hk] at h ⊢
    exact destroyPayload_mono k h

theorem releaseShared_mono {f : Nat} {s t : State} {x : Option Nat} (k : Nat)
    (h : releaseShared f s x = some t) : releaseShared (f + k) s x = some t := by
  cases x with
  | none => exact h
  | some b =>
    unfold releaseShared at h ⊢
    simp only at h ⊢
    by_cases c : sumZero ((s.decS b).blocks b).cnt_ ((s.decS b).blocks b).cntw_ = true
    · rw [if_pos c] at h ⊢; exact deleteBlock_mono k h
    · rw [if_neg c] at h ⊢
      by_cases c' : (((s.decS b).blocks b).cnt_ == 0) = true
      · rw [if_pos c'] at h ⊢; exact Del_mono k h
      · rw [if_neg c'] at h ⊢; exact h

/-- What giving up a strong reference does, whatever fuel produced the result. -/
theorem HeapInv.releaseShared_eq {s t : State} {C D W : Nat → Nat} (h : HeapInv s D W)
    (x : Option Nat) (hcs : ∀ b', D b' = C b' + if x = some b' then 1 else 0)
    (hlt : ∀ b, x = some b → C b + W b + 4 < sizeMod) {f : Nat}
    (he : SharedWeak.releaseShared f s x = some t) :
    HeapInv t C W ∧ t.sps = s.sps ∧ t.wps = s.wps ∧ t.nblocks = s.nblocks ∧
      t.nobjs = s.nobjs ∧ (∀ b', x ≠ some b' → t.blocks b' = s.blocks b') ∧
      (∀ b', (t.blocks b').payload = (s.blocks b').payload) ∧
      (∀ o, (∀ b', x = some b' → (s.blocks b').payload ≠ some o) → t.objs o = s.objs o) := by
  cases x with
  | none =>
    simp only [SharedWeak.releaseShared, Option.some.injEq] at he
    subst he
    exact ⟨h.congr (fun b => by simp [hcs]) (fun _ => rfl), rfl, rfl, rfl, rfl, fun _ _ => rfl,
      fun _ => rfl, fun _ _ => rfl⟩
  | some b =>
    obtain ⟨t', h1, h2, h3, h4, h5, h6, h7, h8, h9⟩ :=
      h.releaseShared b (fun b' => by rw [hcs]; simp [eq_comm]) (hlt b rfl) f
    have := releaseShared_mono 4 he
    rw [h1] at this
    cases this
    refine ⟨h2, h3, h4, h5, h6, fun b' e => h7 b' (fun e' => e (by rw [e'])), ?_,
      fun o ho => h8 o (ho b rfl)⟩
    intro b'
    by_cases e : b' = b
    · subst e; exact payload_of_kind h9
    · rw [h7 b' e]

/-- What giving up a weak reference does, whatever fuel produced the result. -/
theorem HeapInv.releaseWeak_eq {s t : State} {C W V : Nat → Nat} (h : HeapInv s C V)
    (x : Option Nat) (hcw : ∀ b', V b' = W b' + if x = some b' then 1 else 0)
    (hlt : ∀ b, x = some b → C b + W b + 4 < sizeMod) {f : Nat}
    (he : SharedWeak.releaseWeak f s x = some t) :
    HeapInv t C W ∧ t.sps = s.sps ∧ t.wps = s.wps ∧ t.nblocks = s.nblocks ∧
      t.nobjs = s.nobjs ∧ t.objs = s.objs ∧ (∀ b', x ≠ some b' → t.blocks b' = s.blocks b') ∧
      (∀ b', (t.blocks b').cnt_ = (s.blocks b').cnt_) := by
  cases x with
  | none =>
    cases f with
    | zero => simp [SharedWeak.releaseWeak] at he
    | succ f =>
      simp only [SharedWeak.releaseWeak, Option.some.injEq] at he
      subst he
      exact ⟨h.congr (fun _ => rfl) (fun b => by simp [hcw]), rfl, rfl, rfl, rfl, rfl,
        fun _ _ => rfl, fun _ => rfl⟩
  | some b =>
    obtain ⟨t', h1, h2, h3, h4, h5, h6, h7, h8, h9⟩ :=
      h.releaseWeak b (fun b' => by rw [hcw]; simp [eq_comm]) (hlt b rfl) f
    have := releaseWeak_mono 2 he
    rw [h1] at this
    cases this
    refine ⟨h2, h3, h4, h5, h6, h7, fun b' e => h8 b' (fun e' => e (by rw [e'])), ?_⟩
    intro b'
    by_cases e : b' = b
    · subst e; exact h9
    · rw [h8 b' e]

/-! ## The operations keep the invariant -/

theorem HeapInv.sps {s : State} {C W : Nat → Nat} (h : HeapInv s C W)
    (l : List (Option SharedPtr)) : HeapInv { s with sps := l } C W :=
  h.of_heap_eq rfl rfl rfl rfl

theorem HeapInv.wps {s : State} {C W : Nat → Nat} (h : HeapInv s C W)
    (l : List (Option WeakPtr)) : HeapInv { s with wps := l } C W :=
  h.of_heap_eq rfl rfl rfl rfl

theorem spCount_pos {s : State} {i : Nat} {p : SharedPtr} {b : Nat}
    (hg : s.getS i = some p) (hb : p.block_ = some b) : 0 < spCount b s.sps :=
  blockRefs_pos _ b hg hb

theorem wpCount_pos {s : State} {i : Nat} {p : WeakPtr} {b : Nat}
    (hg : s.getW (WLoc.var i) = some p) (hb : p.block_ = some b) : 0 < wpCount b s.wps :=
  blockRefs_pos _ b hg hb

theorem spCount_le (b : Nat) (l : List (Option SharedPtr)) : spCount b l ≤ l.length :=
  blockRefs_le _ b l

theorem wpCount_le (b : Nat) (l : List (Option WeakPtr)) : wpCount b l ≤ l.length :=
  blockRefs_le _ b l

/-- A new `SharedPtr` object that takes one more strong reference to a block
that is still owned. -/
theorem Inv.pushS_inc {s : State} (h : Inv s) (hb : s.sps.length + s.wps.length + 6 < sizeMod)
    (q : Option Nat) (b : Nat) (hc : (s.blocks b).cnt_ ≠ 0) :
    Inv ((s.pushS ⟨q, some b⟩).incS b) := by
  have hc' : (s.blocks b).cnt_ = spCount b s.sps := h.cnt b
  have := spCount_le b s.sps
  refine HeapInv.incS (C := fun b' => spCount b' s.sps) (h.sps _) (by simp only; omega)
    (by simp only; omega) ?_
  intro b'
  show spCount b' (s.sps ++ [some ⟨q, some b⟩]) = _
  unfold spCount
  rw [blockRefs_append]
  simp [eq_comm]

/-- A new `SharedPtr` object without a block. -/
theorem Inv.pushS_null {s : State} (h : Inv s) (q : Option Nat) : Inv (s.pushS ⟨q, none⟩) := by
  refine HeapInv.congr (h.sps _) ?_ (fun _ => rfl)
  intro b'
  show spCount b' (s.sps ++ [some ⟨q, none⟩]) = _
  unfold spCount
  rw [blockRefs_append]
  simp

/-- A new `WeakPtr` variable that takes one more weak reference to a block that
is not freed. -/
theorem Inv.pushW_inc {s : State} (h : Inv s) (hb : s.sps.length + s.wps.length + 6 < sizeMod)
    (q : Option Nat) (b : Nat) (hc : (s.blocks b).cnt_ ≠ 0 ∨ 0 < wpCount b s.wps) :
    Inv ((s.pushW ⟨q, some b⟩).incW b) := by
  have hc' : (s.blocks b).cnt_ = spCount b s.sps := h.cnt b
  have := spCount_le b s.sps
  have := wpCount_le b s.wps
  refine HeapInv.incW (W := fun b' => wpCount b' s.wps) (h.wps _) (by simp only; omega)
    (by simp only; omega) ?_
  intro b'
  show wpCount b' (s.wps ++ [some ⟨q, some b⟩]) = _
  unfold wpCount
  rw [blockRefs_append]
  simp [eq_comm]

/-- A new `WeakPtr` variable without a block. -/
theorem Inv.pushW_null {s : State} (h : Inv s) (q : Option Nat) : Inv (s.pushW ⟨q, none⟩) := by
  refine HeapInv.congr (h.wps _) (fun _ => rfl) ?_
  intro b'
  show wpCount b' (s.wps ++ [some ⟨q, none⟩]) = _
  unfold wpCount
  rw [blockRefs_append]
  simp



theorem spCount_set {l : List (Option SharedPtr)} {i : Nat} {a : SharedPtr}
    (hg : l.getD i none = some a) (x : Option SharedPtr) (b : Nat) :
    spCount b (l.set i x) + (if a.block_ = some b then 1 else 0) =
      spCount b l + if x.bind SharedPtr.block_ = some b then 1 else 0 := by
  have := blockRefs_set SharedPtr.block_ b l i x (getD_some_lt hg)
  rw [hg] at this
  simpa using this

theorem wpCount_set {l : List (Option WeakPtr)} {i : Nat} {a : WeakPtr}
    (hg : l.getD i none = some a) (x : Option WeakPtr) (b : Nat) :
    wpCount b (l.set i x) + (if a.block_ = some b then 1 else 0) =
      wpCount b l + if x.bind WeakPtr.block_ = some b then 1 else 0 := by
  have := blockRefs_set WeakPtr.block_ b l i x (getD_some_lt hg)
  rw [hg] at this
  simpa using this

theorem spCount_push (l : List (Option SharedPtr)) (p : SharedPtr) (b : Nat) :
    spCount b (l ++ [some p]) = spCount b l + if p.block_ = some b then 1 else 0 :=
  blockRefs_append _ b l (some p)

theorem wpCount_push (l : List (Option WeakPtr)) (p : WeakPtr) (b : Nat) :
    wpCount b (l ++ [some p]) = wpCount b l + if p.block_ = some b then 1 else 0 :=
  blockRefs_append _ b l (some p)

theorem SharedPtr.copy_inv {s t : State} (h : Inv s)
    (hb : s.sps.length + s.wps.length + 6 < sizeMod) {j : Nat}
    (he : SharedPtr.copy s j = some t) : Inv t := by
  unfold SharedPtr.copy at he
  cases hg : s.getS j with
  | none => simp [hg] at he
  | some o =>
    simp only [hg] at he
    cases hblk : o.block_ with
    | none =>
      simp only [hblk, Option.some.injEq] at he
      subst he
      exact h.pushS_null _
    | some b =>
      simp only [hblk, Option.some.injEq] at he
      subst he
      refine h.pushS_inc hb _ b ?_
      rw [h.cnt b]
      have := spCount_pos hg hblk
      omega

theorem SharedPtr.aliasing_inv {s t : State} (h : Inv s)
    (hb : s.sps.length + s.wps.length + 6 < sizeMod) {j : Nat} {q : Option Nat}
    (he : SharedPtr.aliasing s j q = some t) : Inv t := by
  unfold SharedPtr.aliasing at he
  cases hg : s.getS j with
  | none => simp [hg] at he
  | some o =>
    simp only [hg] at he
    cases hblk : o.block_ with
    | none =>
      simp only [hblk, Option.some.injEq] at he
      subst he
      exact h.pushS_null _
    | some b =>
      simp only [hblk, Option.some.injEq] at he
      subst he
      refine h.pushS_inc hb _ b ?_
      rw [h.cnt b]
      have := spCount_pos hg hblk
      omega

theorem SharedPtr.move_inv {s t : State} (h : Inv s) {j : Nat}
    (he : SharedPtr.move s j = some t) :
    Inv t ∧ t.sps.length = s.sps.length + 1 ∧ t.wps.length = s.wps.length ∧
      t.getS s.sps.length = s.getS j := by
  unfold SharedPtr.move at he
  cases hg : s.getS j with
  | none => simp [hg] at he
  | some o =>
    simp only [hg, Option.some.injEq] at he
    subst he
    have hj : j < s.sps.length := getD_some_lt hg
    have hg' : (s.sps ++ [some (SharedPtr.mk o.own_ o.block_)]).getD j none = some o := by
      rw [getD_push, if_neg (by omega)]; exact hg
    refine ⟨?_, by simp [State.pushS, State.setS], rfl, ?_⟩
    · refine HeapInv.congr (h.sps _) ?_ (fun _ => rfl)
      intro b
      have := spCount_set hg' (some ⟨none, none⟩) b
      rw [spCount_push] at this
      simp only [State.pushS, State.setS]
      simp at this
      omega
    · simp only [State.getS, State.pushS, State.setS]
      rw [getD_set _ _ _ _ (by simp; omega), if_neg (by omega), getD_push, if_pos rfl]

theorem SharedPtr.fromWeak_inv {s t : State} (h : Inv s)
    (hb : s.sps.length + s.wps.length + 6 < sizeMod) {w : WLoc}
    (he : SharedPtr.fromWeak s w = some (Outcome.returned t)) : Inv t := by
  unfold SharedPtr.fromWeak at he
  cases hg : s.getW w with
  | none => simp [hg] at he
  | some o =>
    simp only [hg] at he
    cases hblk : o.block_ with
    | none => simp [hblk] at he
    | some b =>
      simp only [hblk] at he
      by_cases hc : (s.blocks b).cnt_ = 0
      · simp [hc] at he
      · simp only [beq_iff_eq, hc, if_false, Option.some.injEq, Outcome.returned.injEq] at he
        subst he
        exact h.pushS_inc hb _ b hc

theorem WeakPtr.Lock_inv {s t : State} (h : Inv s)
    (hb : s.sps.length + s.wps.length + 6 < sizeMod) {w : WLoc}
    (he : WeakPtr.Lock s w = some t) : Inv t := by
  unfold WeakPtr.Lock at he
  cases hg : s.getW w with
  | none => simp [hg] at he
  | some o =>
    simp only [hg] at he
    unfold WeakPtr.lockTarget at he
    cases hblk : o.block_ with
    | none =>
      simp only [hblk, Option.some.injEq] at he
      subst he
      exact h.pushS_null _
    | some b =>
      simp only [hblk] at he
      by_cases hc : (s.blocks b).cnt_ = 0
      · simp only [hc, beq_self_eq_true, if_true, Option.some.injEq] at he
        subst he
        exact h.pushS_null _
      · simp only [beq_iff_eq, hc, if_false, Option.some.injEq] at he
        subst he
        exact h.pushS_inc hb _ b hc

/-- The common shape of the members that first rewrite pointer variables, take a
strong reference to `y` and then give up the strong reference to `x`. -/
theorem Inv.rebind {s t : State} (h : Inv s) (hb : s.sps.length + s.wps.length + 6 < sizeMod)
    (l : List (Option SharedPtr)) (x y : Option Nat) {s2 : State} (hs2 : s2 = match y with
      | some b => State.incS { s with sps := l } b
      | none => { s with sps := l })
    (hl : l.length ≤ s.sps.length + 1)
    (hy : ∀ b, y = some b → (s.blocks b).cnt_ ≠ 0)
    (hcount : ∀ b, spCount b l + (if x = some b then 1 else 0) =
      spCount b s.sps + if y = some b then 1 else 0)
    {f : Nat} (he : releaseShared f s2 x = some t) :
    Inv t ∧ t.sps = l ∧ t.wps = s.wps ∧ t.nblocks = s.nblocks ∧ t.nobjs = s.nobjs ∧
      (∀ b', x ≠ some b' → y ≠ some b' → t.blocks b' = s.blocks b') := by
  have h2 : HeapInv s2 (fun b => spCount b l + if x = some b then 1 else 0)
      (fun b => wpCount b s.wps) := by
    subst hs2
    cases y with
    | none =>
      exact HeapInv.congr (h.sps _) (fun b => by rw [hcount]; simp) (fun _ => rfl)
    | some b0 =>
      have hc := h.cnt b0
      have := hy b0 rfl
      have := spCount_le b0 s.sps
      exact HeapInv.incS (C := fun b => spCount b s.sps) (h.sps _) (by simp only; omega)
        (by simp only; omega) (fun b' => by rw [hcount b']; simp [eq_comm])
  have hl2 : s2.sps = l ∧ s2.wps = s.wps ∧ s2.nblocks = s.nblocks ∧ s2.nobjs = s.nobjs := by
    subst hs2; cases y <;> exact ⟨rfl, rfl, rfl, rfl⟩
  have hbl : ∀ b', y ≠ some b' → s2.blocks b' = s.blocks b' := by
    subst hs2
    intro b' e
    cases y with
    | none => rfl
    | some b0 =>
      have : b' ≠ b0 := fun e' => e (by rw [e'])
      simp [State.incS, upd_ne _ _ this]
  obtain ⟨r1, r2, r3, r4, r5, r6, _⟩ := h2.releaseShared_eq x (fun b' => rfl) (fun b hx => by
    have := spCount_le b l
    have := wpCount_le b s.wps
    omega) he
  refine ⟨?_, by rw [r2, hl2.1], by rw [r3, hl2.2.1], by rw [r4, hl2.2.2.1],
    by rw [r5, hl2.2.2.2], fun b' e1 e2 => by rw [r6 b' e1, hbl b' e2]⟩
  unfold Inv
  rw [r2, r3, hl2.1, hl2.2.1]
  exact r1



/-- The common shape of the members that give up the strong reference of the
variable in slot `i` and then end its lifetime or null it. -/
theorem Inv.drop {s t : State} (h : Inv s) (hb : s.sps.length + s.wps.length + 6 < sizeMod)
    {i : Nat} {a : SharedPtr} (hg : s.getS i = some a) (v : Option SharedPtr)
    (hv : v.bind SharedPtr.block_ = none) {f : Nat}
    (he : releaseShared f s a.block_ = some t) :
    Inv { t with sps := t.sps.set i v } ∧ t.sps = s.sps ∧ t.wps = s.wps ∧
      t.nblocks = s.nblocks ∧ t.nobjs = s.nobjs ∧
      (∀ b', a.block_ ≠ some b' → t.blocks b' = s.blocks b') ∧
      (∀ b', (t.blocks b').payload = (s.blocks b').payload) ∧
      (∀ o, (∀ b', a.block_ = some b' → (s.blocks b').payload ≠ some o) →
        t.objs o = s.objs o) := by
  have hcount := fun b => spCount_set hg v b
  simp only [hv, reduceCtorEq, if_false, Nat.add_zero] at hcount
  obtain ⟨r1, r2, r3, r4, r5, r6, r7, r8⟩ := HeapInv.releaseShared_eq (C := fun b => spCount b (s.sps.set i v))
    (D := fun b => spCount b s.sps) (W := fun b => wpCount b s.wps) h a.block_
    (fun b' => (hcount b').symm) (fun b _ => by
      have := spCount_le b (s.sps.set i v)
      have := wpCount_le b s.wps
      simp only [List.length_set] at *
      omega) he
  refine ⟨?_, r2, r3, r4, r5, r6, r7, r8⟩
  unfold Inv
  simp only [r2, r3]
  exact r1.of_heap_eq rfl rfl rfl rfl

theorem SharedPtr.dtor_inv {s t : State} (h : Inv s)
    (hb : s.sps.length + s.wps.length + 6 < sizeMod) {f i : Nat}
    (he : SharedPtr.dtor f s i = some t) :
    Inv t ∧ t.sps.length = s.sps.length ∧ t.wps.length = s.wps.length := by
  unfold SharedPtr.dtor at he
  cases hg : s.getS i with
  | none => simp [hg] at he
  | some a =>
    simp only [hg, Option.map_eq_some'] at he
    obtain ⟨t1, h1, rfl⟩ := he
    obtain ⟨r1, r2, r3, _⟩ := h.drop hb hg none rfl h1
    exact ⟨r1, by simp [State.killS, r2], by simp [State.killS, r3]⟩

theorem SharedPtr.Reset_inv {s t : State} (h : Inv s)
    (hb : s.sps.length + s.wps.length + 6 < sizeMod) {f i : Nat}
    (he : SharedPtr.Reset f s i = some t) : Inv t := by
  unfold SharedPtr.Reset at he
  cases hg : s.getS i with
  | none => simp [hg] at he
  | some a =>
    simp only [hg] at he
    cases hblk : a.block_ with
    | none =>
      simp only [hblk, Option.some.injEq] at he
      subst he
      refine HeapInv.congr (h.sps _) ?_ (fun _ => rfl)
      intro b
      have := spCount_set hg (some ⟨none, none⟩) b
      simp only [State.setS]
      simp [hblk] at this
      omega
    | some b =>
      simp only [hblk, Option.map_eq_some'] at he
      obtain ⟨t1, h1, rfl⟩ := he
      rw [← hblk] at h1
      exact (h.drop hb hg (some ⟨none, none⟩) rfl h1).1

theorem SharedPtr.copyAssign_inv {s t : State} (h : Inv s)
    (hb : s.sps.length + s.wps.length + 6 < sizeMod) {f i j : Nat}
    (he : SharedPtr.copyAssign f s i j = some t) : Inv t := by
  unfold SharedPtr.copyAssign at he
  cases hgi : s.getS i with
  | none => simp [hgi] at he
  | some a =>
    cases hgj : s.getS j with
    | none => simp [hgi, hgj] at he
    | some o =>
      simp only [hgi, hgj] at he
      by_cases e : a.block_ = o.block_
      · rw [if_pos e] at he; cases he; exact h
      · rw [if_neg e] at he
        refine (h.rebind hb (s.sps.set i (some ⟨o.own_, o.block_⟩)) a.block_ o.block_
          ?_ (by simp) ?_ ?_ he).1
        · cases o.block_ <;> rfl
        · intro b hy
          rw [h.cnt b]
          have := spCount_pos hgj hy
          omega
        · intro b
          have := spCount_set hgi (some ⟨o.own_, o.block_⟩) b
          simpa using this

theorem SharedPtr.moveAssign_inv {s t : State} (h : Inv s)
    (hb : s.sps.length + s.wps.length + 6 < sizeMod) {f i j : Nat}
    (he : SharedPtr.moveAssign f s i j = some t) :
    Inv t ∧ t.sps.length = s.sps.length ∧ t.wps.length = s.wps.length := by
  unfold SharedPtr.moveAssign at he
  cases hgi : s.getS i with
  | none => simp [hgi] at he
  | some a =>
    cases hgj : s.getS j with
    | none => simp [hgi, hgj] at he
    | some o =>
      simp only [hgi, hgj] at he
      by_cases e : o.block_ = a.block_
      · rw [if_pos e] at he; cases he; exact ⟨h, rfl, rfl⟩
      · rw [if_neg e] at he
        have hij : j ≠ i := by
          intro e'; subst e'; rw [hgi] at hgj; cases hgj; exact e rfl
        have hi := getD_some_lt hgi
        have hgj' : (s.sps.set i (some (SharedPtr.mk o.own_ o.block_))).getD j none = some o := by
          rw [getD_set _ _ _ _ hi, if_neg hij]; exact hgj
        obtain ⟨r1, r2, r3, _⟩ := h.rebind hb
          ((s.sps.set i (some ⟨o.own_, o.block_⟩)).set j (some ⟨none, none⟩)) a.block_ none
          rfl (by simp) (by intro b hy; cases hy) (by
            intro b
            have h1 := spCount_set hgi (some ⟨o.own_, o.block_⟩) b
            have h2 := spCount_set hgj' (some ⟨none, none⟩) b
            simp at h1 h2 ⊢
            omega) he
        exact ⟨r1, by simp [r2], by rw [r3]⟩

theorem SharedPtr.Swap_inv {s t : State} (h : Inv s)
    (hb : s.sps.length + s.wps.length + 8 < sizeMod) {f i j : Nat}
    (he : SharedPtr.Swap f s i j = some t) : Inv t := by
  unfold SharedPtr.Swap at he
  simp only [Option.bind_eq_some] at he
  obtain ⟨s1, h1, s2, h2, s3, h3, h4⟩ := he
  obtain ⟨i1, l1, w1, _⟩ := SharedPtr.move_inv h h1
  obtain ⟨i2, l2, w2⟩ := SharedPtr.moveAssign_inv i1 (by omega) h2
  obtain ⟨i3, l3, w3⟩ := SharedPtr.moveAssign_inv i2 (by omega) h3
  exact (SharedPtr.dtor_inv i3 (by omega) h4).1

/-- A live weak reference keeps its block from being freed. -/
theorem Inv.weak_alive {s : State} (h : Inv s) {w : WLoc} {p : WeakPtr} {b : Nat}
    (hg : s.getW w = some p) (hb : p.block_ = some b)
    (hw : ∀ o, (w = WLoc.self_ o ∨ w = WLoc.self1_ o) →
      (s.objs o).esft = true ∧ (s.objs o).dtor = 0) :
    (s.blocks b).cnt_ ≠ 0 ∨ 0 < wpCount b s.wps := by
  cases w with
  | var i => exact Or.inr (wpCount_pos hg hb)
  | self_ o =>
    obtain ⟨he, hd⟩ := hw o (Or.inl rfl)
    simp only [State.getW, Option.some.injEq] at hg
    subst hg
    have hp := h.self o b he hb
    have := (h.owned b o hp).2
    left; intro hc; rw [if_pos hc, hd] at this; cases this
  | self1_ o =>
    obtain ⟨he, hd⟩ := hw o (Or.inr rfl)
    simp only [State.getW, Option.some.injEq] at hg
    subst hg
    have hp := h.self o b he (by rw [← h.pair o he]; exact hb)
    have := (h.owned b o hp).2
    left; intro hc; rw [if_pos hc, hd] at this; cases this

theorem WeakPtr.weak_copy_inv {s t : State} (h : Inv s)
    (hb : s.sps.length + s.wps.length + 6 < sizeMod) {w : WLoc}
    (hw : ∀ o, (w = WLoc.self_ o ∨ w = WLoc.self1_ o) →
      (s.objs o).esft = true ∧ (s.objs o).dtor = 0)
    (he : WeakPtr.copy s w = some t) : Inv t := by
  unfold WeakPtr.copy at he
  cases hg : s.getW w with
  | none => simp [hg] at he
  | some o =>
    simp only [hg] at he
    cases hblk : o.block_ with
    | none =>
      simp only [hblk, Option.some.injEq] at he
      subst he
      exact h.pushW_null _
    | some b =>
      simp only [hblk, Option.some.injEq] at he
      subst he
      exact h.pushW_inc hb _ b (h.weak_alive hg hblk hw)

theorem WeakPtr.fromShared_inv {s t : State} (h : Inv s)
    (hb : s.sps.length + s.wps.length + 6 < sizeMod) {j : Nat}
    (he : WeakPtr.fromShared s j = some t) : Inv t := by
  unfold WeakPtr.fromShared at he
  cases hg : s.getS j with
  | none => simp [hg] at he
  | some o =>
    simp only [hg] at he
    cases hblk : o.block_ with
    | none =>
      simp only [hblk, Option.some.injEq] at he
      subst he
      exact h.pushW_null _
    | some b =>
      simp only [hblk, Option.some.injEq] at he
      subst he
      refine h.pushW_inc hb _ b (Or.inl ?_)
      rw [h.cnt b]
      have := spCount_pos hg hblk
      omega

theorem WeakPtr.weak_move_inv {s t : State} (h : Inv s) {j : Nat}
    (he : WeakPtr.move s j = some t) :
    Inv t ∧ t.sps.length = s.sps.length ∧ t.wps.length = s.wps.length + 1 := by
  unfold WeakPtr.move at he
  cases hg : s.getW (WLoc.var j) with
  | none => simp [hg] at he
  | some o =>
    simp only [hg, Option.some.injEq] at he
    subst he
    have hj : j < s.wps.length := getD_some_lt hg
    have hg' : (s.wps ++ [some (WeakPtr.mk o.own_ o.block_)]).getD j none = some o := by
      rw [getD_push, if_neg (by omega)]; exact hg
    refine ⟨?_, rfl, by simp [State.pushW, State.setW]⟩
    refine HeapInv.congr (h.wps _) (fun _ => rfl) ?_
    intro b
    have := wpCount_set hg' (some ⟨none, none⟩) b
    rw [wpCount_push] at this
    simp only [State.pushW, State.setW]
    simp at this
    omega

/-- The common shape of the `WeakPtr` members that first rewrite pointer
variables, take a weak reference to `y` and then give up the one to `x`. -/
theorem Inv.rebindW {s t : State} (h : Inv s) (hb : s.sps.length + s.wps.length + 6 < sizeMod)
    (l : List (Option WeakPtr)) (x y : Option Nat) {s2 : State} (hs2 : s2 = match y with
      | some b => State.incW { s with wps := l } b
      | none => { s with wps := l })
    (hl : l.length ≤ s.wps.length + 1)
    (hy : ∀ b, y = some b → (s.blocks b).cnt_ ≠ 0 ∨ 0 < wpCount b s.wps)
    (hcount : ∀ b, wpCount b l + (if x = some b then 1 else 0) =
      wpCount b s.wps + if y = some b then 1 else 0)
    {f : Nat} (he : releaseWeak f s2 x = some t) :
    HeapInv t (fun b => spCount b s.sps) (fun b => wpCount b l) ∧ t.sps = s.sps ∧ t.wps = l := by
  have h2 : HeapInv s2 (fun b => spCount b s.sps)
      (fun b => wpCount b l + if x = some b then 1 else 0) := by
    subst hs2
    cases y with
    | none =>
      exact HeapInv.congr (h.wps _) (fun _ => rfl) (fun b => by rw [hcount]; simp)
    | some b0 =>
      have hc := h.cnt b0
      have := hy b0 rfl
      have := spCount_le b0 s.sps
      have := wpCount_le b0 s.wps
      exact HeapInv.incW (W := fun b => wpCount b s.wps) (h.wps _) (by simp only; omega)
        (by simp only; omega) (fun b' => by rw [hcount b']; simp [eq_comm])
  have hl2 : s2.sps = s.sps ∧ s2.wps = l := by
    subst hs2; cases y <;> exact ⟨rfl, rfl⟩
  obtain ⟨r1, r2, r3, _⟩ := h2.releaseWeak_eq x (fun b' => rfl) (fun b hx => by
    have := spCount_le b s.sps
    have := wpCount_le b l
    omega) he
  exact ⟨r1, by rw [r2, hl2.1], by rw [r3, hl2.2]⟩

theorem WeakPtr.weak_copyAssign_inv {s t : State} (h : Inv s)
    (hb : s.sps.length + s.wps.length + 6 < sizeMod) {f i j : Nat}
    (he : WeakPtr.copyAssign f s (WLoc.var i) (WLoc.var j) = some t) : Inv t := by
  unfold WeakPtr.copyAssign at he
  cases hgi : s.getW (WLoc.var i) with
  | none => simp [hgi] at he
  | some a =>
    cases hgj : s.getW (WLoc.var j) with
    | none => simp [hgi, hgj] at he
    | some o =>
      simp only [hgi, hgj] at he
      by_cases e : o.block_ = a.block_
      · rw [if_pos e] at he; cases he; exact h
      · rw [if_neg e] at he
        obtain ⟨r1, r2, r3⟩ := h.rebindW hb (s.wps.set i (some ⟨o.own_, o.block_⟩)) a.block_
          o.block_ (by cases o.block_ <;> rfl) (by simp)
          (fun b hy => Or.inr (wpCount_pos hgj hy))
          (fun b => by
            have := wpCount_set hgi (some ⟨o.own_, o.block_⟩) b
            simpa using this) he
        unfold Inv
        rw [r2, r3]
        exact r1

theorem WeakPtr.weak_moveAssign_inv {s t : State} (h : Inv s)
    (hb : s.sps.length + s.wps.length + 6 < sizeMod) {f i j : Nat}
    (he : WeakPtr.moveAssign f s i j = some t) :
    Inv t ∧ t.sps.length = s.sps.length ∧ t.wps.length = s.wps.length := by
  unfold WeakPtr.moveAssign at he
  cases hgi : s.getW (WLoc.var i) with
  | none => simp [hgi] at he
  | some a =>
    cases hgj : s.getW (WLoc.var j) with
    | none => simp [hgi, hgj] at he
    | some o =>
      simp only [hgi, hgj] at he
      by_cases e : o.block_ = a.block_
      · rw [if_pos e] at he; cases he; exact ⟨h, rfl, rfl⟩
      · rw [if_neg e, Option.map_eq_some'] at he
        obtain ⟨t1, h1, rfl⟩ := he
        have hij : j ≠ i := by
          intro e'; subst e'; rw [hgi] at hgj; cases hgj; exact e rfl
        have hi := getD_some_lt hgi
        have hgj' : (s.wps.set i (some (WeakPtr.mk o.own_ o.block_))).getD j none = some o := by
          rw [getD_set _ _ _ _ hi, if_neg hij]; exact hgj
        have hc1 := fun b => wpCount_set hgi (some ⟨o.own_, o.block_⟩) b
        have hc2 := fun b => wpCount_set hgj' (some ⟨none, none⟩) b
        -- the source releases `x` before it nulls `other`
        have h2 : HeapInv (s.setW (WLoc.var i) ⟨o.own_, o.block_⟩)
            (fun b => spCount b s.sps)
            (fun b => wpCount b ((s.wps.set i (some ⟨o.own_, o.block_⟩)).set j
              (some ⟨none, none⟩)) + if a.block_ = some b then 1 else 0) := by
          refine HeapInv.congr (h.wps _) (fun _ => rfl) ?_
          intro b
          have h1 := hc1 b
          have h2 := hc2 b
          simp at h1 h2 ⊢
          omega
        obtain ⟨r1, r2, r3, _⟩ := h2.releaseWeak_eq a.block_ (fun b' => rfl) (fun b hx => by
          have := spCount_le b s.sps
          have := wpCount_le b ((s.wps.set i (some ⟨o.own_, o.block_⟩)).set j
              (some ⟨none, none⟩))
          simp only [List.length_set] at this
          omega) h1
        refine ⟨?_, by simp [State.setW, r2], by simp [State.setW, r3]⟩
        unfold Inv
        simp only [State.setW, r2, r3]
        exact r1.of_heap_eq rfl rfl rfl rfl

/-- The common shape of the `WeakPtr` members that give up the weak reference of
the variable in slot `i` and then end its lifetime or null it. -/
theorem Inv.dropW {s t : State} (h : Inv s) (hb : s.sps.length + s.wps.length + 6 < sizeMod)
    {i : Nat} {a : WeakPtr} (hg : s.getW (WLoc.var i) = some a) (v : Option WeakPtr)
    (hv : v.bind WeakPtr.block_ = none) {f : Nat}
    (he : releaseWeak f s a.block_ = some t) :
    Inv { t with wps := t.wps.set i v } ∧ t.sps = s.sps ∧ t.wps = s.wps := by
  have hcount := fun b => wpCount_set hg v b
  simp only [hv, reduceCtorEq, if_false, Nat.add_zero] at hcount
  obtain ⟨r1, r2, r3, _⟩ := HeapInv.releaseWeak_eq (W := fun b => wpCount b (s.wps.set i v))
    (V := fun b => wpCount b s.wps) (C := fun b => spCount b s.sps) h a.block_
    (fun b' => (hcount b').symm) (fun b _ => by
      have := wpCount_le b (s.wps.set i v)
      have := spCount_le b s.sps
      simp only [List.length_set] at *
      omega) he
  refine ⟨?_, r2, r3⟩
  unfold Inv
  simp only [r2, r3]
  exact r1.of_heap_eq rfl rfl rfl rfl

theorem WeakPtr.weak_dtor_inv {s t : State} (h : Inv s)
    (hb : s.sps.length + s.wps.length + 6 < sizeMod) {f i : Nat}
    (he : WeakPtr.dtor f s i = some t) :
    Inv t ∧ t.sps.length = s.sps.length ∧ t.wps.length = s.wps.length := by
  unfold WeakPtr.dtor at he
  cases hg : s.getW (WLoc.var i) with
  | none => simp [hg] at he
  | some a =>
    simp only [hg, Option.map_eq_some'] at he
    obtain ⟨t1, h1, rfl⟩ := he
    obtain ⟨r1, r2, r3⟩ := h.dropW hb hg none rfl h1
    exact ⟨r1, by simp [State.killW, r2], by simp [State.killW, r3]⟩

theorem WeakPtr.weak_Reset_inv {s t : State} (h : Inv s)
    (hb : s.sps.length + s.wps.length + 6 < sizeMod) {f i : Nat}
    (he : WeakPtr.Reset f s i = some t) : Inv t := by
  unfold WeakPtr.Reset at he
  cases hg : s.getW (WLoc.var i) with
  | none => simp [hg] at he
  | some a =>
    simp only [hg] at he
    cases hblk : a.block_ with
    | none =>
      simp only [hblk, Option.some.injEq] at he
      subst he
      exact h
    | some b =>
      simp only [hblk, Option.map_eq_some'] at he
      obtain ⟨t1, h1, rfl⟩ := he
      rw [← hblk] at h1
      exact (h.dropW hb hg (some ⟨none, none⟩) rfl h1).1

theorem WeakPtr.weak_Swap_inv {s t : State} (h : Inv s)
    (hb : s.sps.length + s.wps.length + 8 < sizeMod) {f i j : Nat}
    (he : WeakPtr.Swap f s i j = some t) : Inv t := by
  unfold WeakPtr.Swap at he
  simp only [Option.bind_eq_some] at he
  obtain ⟨s1, h1, s2, h2, s3, h3, h4⟩ := he
  obtain ⟨i1, l1, w1⟩ := WeakPtr.weak_move_inv h h1
  obtain ⟨i2, l2, w2⟩ := WeakPtr.weak_moveAssign_inv i1 (by omega) h2
  obtain ⟨i3, l3, w3⟩ := WeakPtr.weak_moveAssign_inv i2 (by omega) h3
  exact (WeakPtr.weak_dtor_inv i3 (by omega) h4).1

/-- The expression `new T(...)` keeps the heap consistent. -/
theorem HeapInv.newObj {s : State} {C W : Nat → Nat} (h : HeapInv s C W) (cap : Bool) :
    HeapInv (s.newObj cap) C W := by
  have hne : ∀ b o, (s.blocks b).payload = some o → o ≠ s.nobjs := by
    intro b o hp; have := (h.owned b o hp).1; omega
  have he : ∀ b, emb (s.newObj cap) b = emb s b := by
    intro b
    unfold emb
    show (match (s.blocks b).payload with
      | some o => _
      | none => 0) = _
    cases hp : (s.blocks b).payload with
    | none => rfl
    | some o => simp [State.newObj, upd_ne _ _ (hne b o hp)]
  refine ⟨h.cnt, ?_, h.fresh, h.freed, h.ok, ?_, h.inj, ?_, ?_⟩
  · intro b; rw [he]; exact h.cntw b
  · intro b o hp
    have := h.owned b o hp
    refine ⟨by simp only [State.newObj]; omega, ?_⟩
    simp only [State.newObj, upd_ne _ _ (hne b o hp)]
    exact this.2
  · intro o b hes hs
    by_cases e : o = s.nobjs
    · subst e; simp [State.newObj] at hs
    · simp only [State.newObj, upd_ne _ _ e] at hes hs
      exact h.self o b hes hs
  · intro o hes
    by_cases e : o = s.nobjs
    · subst e; simp [State.newObj]
    · simp only [State.newObj, upd_ne _ _ e] at hes ⊢
      exact h.pair o hes

/-- A fresh control block that starts with one strong reference. -/
theorem HeapInv.newBlock {s t : State} {C W D : Nat → Nat} (h : HeapInv s C W)
    (k : BlockKind)
    (hk : ∀ o, ({ kind := k } : Block).payload = some o →
      o < s.nobjs ∧ (s.objs o).dtor = 0 ∧ ∀ b, (s.blocks b).payload ≠ some o)
    (hb : ∀ b, b ≠ s.nblocks → t.blocks b = s.blocks b)
    (hn : t.blocks s.nblocks = { cnt_ := 1, kind := k })
    (ho : t.objs = s.objs) (hnb : t.nblocks = s.nblocks + 1) (hno : t.nobjs = s.nobjs)
    (hcs : ∀ b, D b = C b + if b = s.nblocks then 1 else 0) : HeapInv t D W := by
  have hd := h.fresh s.nblocks (Nat.le_refl _)
  have hpn : (t.blocks s.nblocks).payload = ({ kind := k } : Block).payload := by
    rw [hn]; rfl
  have hpo : ∀ b, b ≠ s.nblocks → (t.blocks b).payload = (s.blocks b).payload := by
    intro b e; rw [hb b e]
  have hps : (s.blocks s.nblocks).payload = none := by rw [hd]; rfl
  have he : ∀ b, emb t b = emb s b := by
    intro b
    by_cases e : b = s.nblocks
    · subst e
      unfold emb
      rw [hps, hpn]
      cases hp : ({ kind := k } : Block).payload with
      | none => rfl
      | some o =>
        simp only [ho]
        rw [if_neg]
        rintro ⟨h1, _, h3⟩
        have := h.self o _ h1 h3
        rw [hps] at this
        cases this
    · unfold emb; rw [hpo b e, ho]
  refine ⟨?_, ?_, ?_, ?_, ?_, ?_, ?_, ?_, ?_⟩
  · intro b
    by_cases e : b = s.nblocks
    · subst e; rw [hn, hcs, ← h.cnt, hd]; simp
    · rw [hb b e, hcs, if_neg e]; exact h.cnt b
  · intro b
    rw [he]
    by_cases e : b = s.nblocks
    · subst e
      have := h.cntw s.nblocks
      rw [hn]; rw [hd] at this; exact this
    · rw [hb b e]; exact h.cntw b
  · intro b hle
    rw [hnb] at hle
    rw [hb b (by omega)]
    exact h.fresh b (by omega)
  · intro b hlt
    by_cases e : b = s.nblocks
    · subst e; rw [hn]; rfl
    · rw [hb b e]; exact h.freed b (by omega)
  · intro b hlt
    by_cases e : b = s.nblocks
    · subst e; rw [hn]; simp
    · rw [hb b e]; exact h.ok b (by omega)
  · intro b o hp
    rw [ho, hno]
    by_cases e : b = s.nblocks
    · subst e
      rw [hpn] at hp
      obtain ⟨h1, h2, _⟩ := hk o hp
      rw [hn]
      exact ⟨h1, by simp [h2]⟩
    · rw [hpo b e] at hp
      rw [hb b e]
      exact h.owned b o hp
  · intro b1 b2 o h1 h2
    by_cases e1 : b1 = s.nblocks
    · by_cases e2 : b2 = s.nblocks
      · rw [e1, e2]
      · subst e1
        rw [hpn] at h1
        rw [hpo b2 e2] at h2
        exact absurd h2 ((hk o h1).2.2 b2)
    · by_cases e2 : b2 = s.nblocks
      · subst e2
        rw [hpn] at h2
        rw [hpo b1 e1] at h1
        exact absurd h1 ((hk o h2).2.2 b1)
      · rw [hpo b1 e1] at h1
        rw [hpo b2 e2] at h2
        exact h.inj b1 b2 o h1 h2
  · intro o b hes hs
    rw [ho] at hes hs
    have := h.self o b hes hs
    have e : b ≠ s.nblocks := by
      intro e; subst e; rw [hps] at this; cases this
    rw [hpo b e]; exact this
  · intro o hes
    rw [ho] at hes ⊢
    exact h.pair o hes



theorem wpCount_push_none (l : List (Option WeakPtr)) (b : Nat) :
    wpCount b (l ++ [none]) = wpCount b l := by
  unfold wpCount
  rw [blockRefs_append]
  simp

theorem dec_inc3 {x : Nat} (h : x + 3 < sizeMod) : dec (inc (inc (inc x))) = x + 2 := by
  rw [inc_eq (x := x) (by omega), inc_eq (x := x + 1) (by omega),
    inc_eq (x := x + 1 + 1) (by omega), dec_eq (by omega) (by omega)]
  omega

theorem dec_inc {x : Nat} (h : x + 1 < sizeMod) : dec (inc x) = x := by
  rw [inc_eq (by omega), dec_eq (by omega) (by omega)]
  omega

/-- The hookup `AssignToSelf(ptr)` for a payload whose members are still null. -/
theorem SharedPtr.AssignToSelf_some (n : Nat) {s : State} {this o b : Nat} {p : SharedPtr}
    (hg : s.getS this = some p) (hp : p.block_ = some b)
    (h0 : (s.objs o).self_.block_ = none) (h1 : (s.objs o).self1_.block_ = none)
    (hlt : (s.blocks b).cnt_ + (s.blocks b).cntw_ + 3 < sizeMod) :
    ∃ t, SharedPtr.AssignToSelf (n + 1) s this (some o) = some t ∧ t.sps = s.sps ∧
      t.wps = s.wps ++ [none] ∧ t.nblocks = s.nblocks ∧ t.nobjs = s.nobjs ∧
      (∀ b', b' ≠ b → t.blocks b' = s.blocks b') ∧
      t.blocks b = { s.blocks b with cntw_ := (s.blocks b).cntw_ + 2 } ∧
      (∀ o', o' ≠ o → t.objs o' = s.objs o') ∧
      t.objs o = { s.objs o with self_ := ⟨p.own_, some b⟩, self1_ := ⟨p.own_, some b⟩ } := by
  have e1 : WeakPtr.fromShared s this = some ((s.pushW ⟨p.own_, some b⟩).incW b) := by
    simp [WeakPtr.fromShared, hg, hp]
  have g1 : ∀ u : State, u.wps = s.wps ++ [some ⟨p.own_, some b⟩] →
      u.getW (WLoc.var s.wps.length) = some ⟨p.own_, some b⟩ := by
    intro u hu
    simp [State.getW, hu]
  have e2 : WeakPtr.copyAssign (n + 1) ((s.pushW ⟨p.own_, some b⟩).incW b) (WLoc.self_ o)
      (WLoc.var s.wps.length) =
      some ((((s.pushW ⟨p.own_, some b⟩).incW b).setW (WLoc.self_ o) ⟨p.own_, some b⟩).incW b) := by
    unfold WeakPtr.copyAssign
    rw [g1 _ rfl]
    simp only [State.getW]
    have : (((s.pushW ⟨p.own_, some b⟩).incW b).objs o).self_.block_ = none := h0
    simp [this, releaseWeak_none]
  have e3 : WeakPtr.copyAssign (n + 1)
      ((((s.pushW ⟨p.own_, some b⟩).incW b).setW (WLoc.self_ o) ⟨p.own_, some b⟩).incW b)
      (WLoc.self1_ o) (WLoc.var s.wps.length) =
      some ((((((s.pushW ⟨p.own_, some b⟩).incW b).setW (WLoc.self_ o) ⟨p.own_, some b⟩).incW
        b).setW (WLoc.self1_ o) ⟨p.own_, some b⟩).incW b) := by
    unfold WeakPtr.copyAssign
    rw [g1 _ rfl]
    simp only [State.getW]
    have : ((((((s.pushW ⟨p.own_, some b⟩).incW b).setW (WLoc.self_ o) ⟨p.own_, some b⟩).incW
        b)).objs o).self1_.block_ = none := by
      simp [State.setW, State.incW, State.pushW, h1]
    simp [this, releaseWeak_none]
  have hcw : dec (inc (inc (inc (s.blocks b).cntw_))) = (s.blocks b).cntw_ + 2 :=
    dec_inc3 (by omega)
  have e4 : WeakPtr.dtor (n + 1)
      ((((((s.pushW ⟨p.own_, some b⟩).incW b).setW (WLoc.self_ o) ⟨p.own_, some b⟩).incW
        b).setW (WLoc.self1_ o) ⟨p.own_, some b⟩).incW b) s.wps.length =
      some (((((((((s.pushW ⟨p.own_, some b⟩).incW b).setW (WLoc.self_ o) ⟨p.own_, some b⟩).incW
        b).setW (WLoc.self1_ o) ⟨p.own_, some b⟩).incW b)).decW b).killW s.wps.length) := by
    unfold WeakPtr.dtor
    rw [g1 _ rfl]
    simp only [releaseWeak]
    rw [if_neg, Option.map_some']
    simp only [State.setW, State.incW, State.pushW, State.decW, upd_same, hcw]
    rw [sumZero_false (by omega) (by omega)]
    simp
  have e5 : SharedPtr.AssignToSelf (n + 1) s this (some o) =
      some (((((((((s.pushW ⟨p.own_, some b⟩).incW b).setW (WLoc.self_ o) ⟨p.own_, some b⟩).incW
        b).setW (WLoc.self1_ o) ⟨p.own_, some b⟩).incW b)).decW b).killW s.wps.length) := by
    simp [SharedPtr.AssignToSelf, e1, e2, e3, e4]
  refine ⟨_, e5, rfl, ?_, rfl, rfl, ?_, ?_, ?_, ?_⟩
  · simp [State.setW, State.incW, State.pushW, State.decW, State.killW]
  · intro b' e
    simp [State.setW, State.incW, State.pushW, State.decW, State.killW, upd_ne _ _ e]
  · simp [State.setW, State.incW, State.pushW, State.decW, State.killW, hcw]
  · intro o' e
    simp [State.setW, State.incW, State.pushW, State.decW, State.killW, upd_ne _ _ e]
  · simp [State.setW, State.incW, State.pushW, State.decW, State.killW]

/-- The hookup `AssignToSelf(nullptr)`: the temporary weak pointer comes and goes. -/
theorem SharedPtr.AssignToSelf_none (n : Nat) {s : State} {this b : Nat} {p : SharedPtr}
    (hg : s.getS this = some p) (hp : p.block_ = some b)
    (hc : (s.blocks b).cnt_ ≠ 0) (hlt : (s.blocks b).cnt_ + (s.blocks b).cntw_ + 3 < sizeMod) :
    ∃ t, SharedPtr.AssignToSelf (n + 1) s this none = some t ∧ t.sps = s.sps ∧
      t.wps = s.wps ++ [none] ∧ t.nblocks = s.nblocks ∧ t.nobjs = s.nobjs ∧
      t.blocks = s.blocks ∧ t.objs = s.objs := by
  have e1 : WeakPtr.fromShared s this = some ((s.pushW ⟨p.own_, some b⟩).incW b) := by
    simp [WeakPtr.fromShared, hg, hp]
  have g1 : ∀ u : State, u.wps = s.wps ++ [some ⟨p.own_, some b⟩] →
      u.getW (WLoc.var s.wps.length) = some ⟨p.own_, some b⟩ := by
    intro u hu
    simp [State.getW, hu]
  have hcw : dec (inc (s.blocks b).cntw_) = (s.blocks b).cntw_ := dec_inc (by omega)
  have e4 : WeakPtr.dtor (n + 1) ((s.pushW ⟨p.own_, some b⟩).incW b) s.wps.length =
      some ((((s.pushW ⟨p.own_, some b⟩).incW b).decW b).killW s.wps.length) := by
    unfold WeakPtr.dtor
    rw [g1 _ rfl]
    simp only [releaseWeak]
    rw [if_neg, Option.map_some']
    simp only [State.incW, State.pushW, State.decW, upd_same, hcw]
    rw [sumZero_false (by omega) (by omega)]
    simp
  have e5 : SharedPtr.AssignToSelf (n + 1) s this none =
      some ((((s.pushW ⟨p.own_, some b⟩).incW b).decW b).killW s.wps.length) := by
    simp [SharedPtr.AssignToSelf, e1, e4]
  refine ⟨_, e5, rfl, ?_, rfl, rfl, ?_, rfl⟩
  · simp [State.incW, State.pushW, State.decW, State.killW]
  · funext b'
    by_cases e : b' = b
    · subst e; simp [State.incW, State.pushW, State.decW, State.killW, hcw]
    · simp [State.incW, State.pushW, State.decW, State.killW, upd_ne _ _ e]

/-- After the hookup the heap is consistent again: the two members of the
payload account for two units of `cntw_`. -/
theorem HeapInv.hook {s t : State} {C W : Nat → Nat} (h : HeapInv s C W) {b o : Nat}
    (q : Option Nat) (hp : (s.blocks b).payload = some o) (hes : (s.objs o).esft = true)
    (h0 : (s.objs o).self_.block_ = none) (hc : (s.blocks b).cnt_ ≠ 0)
    (hnb : t.nblocks = s.nblocks) (hno : t.nobjs = s.nobjs)
    (hb : ∀ b', b' ≠ b → t.blocks b' = s.blocks b')
    (hbb : t.blocks b = { s.blocks b with cntw_ := (s.blocks b).cntw_ + 2 })
    (ho : ∀ o', o' ≠ o → t.objs o' = s.objs o')
    (hoo : t.objs o = { s.objs o with self_ := ⟨q, some b⟩, self1_ := ⟨q, some b⟩ }) :
    HeapInv t C W := by
  have hpay : ∀ b', (t.blocks b').payload = (s.blocks b').payload := by
    intro b'
    by_cases e : b' = b
    · subst e; rw [hbb]; rfl
    · rw [hb b' e]
  have hdt : (s.objs o).dtor = 0 := by
    have := (h.owned b o hp).2
    rw [if_neg hc] at this; exact this
  have hes0 : emb s b = 0 := by simp [emb, hp, h0]
  have het : emb t b = 2 := by simp [emb, hpay, hp, hoo, hes, hdt]
  have hlt : b < s.nblocks := h.lt_of_payload hp
  have he : ∀ b', b' ≠ b → emb t b' = emb s b' := by
    intro b' e
    unfold emb
    rw [hpay]
    cases hp' : (s.blocks b').payload with
    | none => rfl
    | some o' =>
      have : o' ≠ o := fun e' => e (h.inj b' b o (e' ▸ hp') hp)
      simp only [ho o' this]
  refine ⟨?_, ?_, ?_, ?_, ?_, ?_, ?_, ?_, ?_⟩
  · intro b'
    by_cases e : b' = b
    · subst e; rw [hbb]; exact h.cnt b'
    · rw [hb b' e]; exact h.cnt b'
  · intro b'
    by_cases e : b' = b
    · subst e; rw [hbb, het]; have := h.cntw b'; simp only; omega
    · rw [hb b' e, he b' e]; exact h.cntw b'
  · intro b' hle
    rw [hnb] at hle
    rw [hb b' (by omega)]; exact h.fresh b' hle
  · intro b' hl
    rw [hnb] at hl
    by_cases e : b' = b
    · subst e
      have := h.freed b' hl
      rw [hbb]; simp only
      rw [this]; simp [hc]
    · rw [hb b' e]; exact h.freed b' hl
  · intro b' hl
    rw [hnb] at hl
    by_cases e : b' = b
    · subst e; rw [hbb]; exact h.ok b' hl
    · rw [hb b' e]; exact h.ok b' hl
  · intro b' o' hp'
    rw [hpay] at hp'
    have := h.owned b' o' hp'
    rw [hno]
    refine ⟨this.1, ?_⟩
    have hcnt : (t.blocks b').cnt_ = (s.blocks b').cnt_ := by
      by_cases e : b' = b
      · subst e; rw [hbb]
      · rw [hb b' e]
    rw [hcnt, ← this.2]
    by_cases e : o' = o
    · subst e; rw [hoo]
    · rw [ho o' e]
  · intro b1 b2 o' h1 h2
    rw [hpay] at h1 h2
    exact h.inj b1 b2 o' h1 h2
  · intro o' b' hes' hs
    rw [hpay]
    by_cases e : o' = o
    · subst e
      rw [hoo] at hs
      simp only [Option.some.injEq] at hs
      subst hs; exact hp
    · rw [ho o' e] at hes' hs
      exact h.self o' b' hes' hs
  · intro o' hes'
    by_cases e : o' = o
    · subst e; rw [hoo]
    · rw [ho o' e] at hes' ⊢
      exact h.pair o' hes'



theorem WeakPtr.dtor_zero (s : State) (i : Nat) : WeakPtr.dtor 0 s i = none := by
  unfold WeakPtr.dtor
  cases s.getW (WLoc.var i) <;> simp [releaseWeak]

theorem SharedPtr.AssignToSelf_zero (s : State) (this : Nat) (ptr : Option Nat) :
    SharedPtr.AssignToSelf 0 s this ptr = none := by
  unfold SharedPtr.AssignToSelf
  cases WeakPtr.fromShared s this with
  | none => rfl
  | some s1 =>
    cases ptr with
    | none => simp [WeakPtr.dtor_zero]
    | some o =>
      simp only [Option.some_bind]
      cases WeakPtr.copyAssign 0 s1 (WLoc.self_ o) (WLoc.var s.wps.length) with
      | none => rfl
      | some s2 =>
        simp only [Option.some_bind]
        cases WeakPtr.copyAssign 0 s2 (WLoc.self1_ o) (WLoc.var s.wps.length) with
        | none => rfl
        | some s3 => simp [WeakPtr.dtor_zero]

/-- The hookup at the end of a constructor keeps the invariant. -/
theorem SharedPtr.CanConstruct_inv {s t : State} (h : Inv s)
    (hb : s.sps.length + s.wps.length + 6 < sizeMod) {this b : Nat} {p : SharedPtr}
    (hg : s.getS this = some p) (hp : p.block_ = some b) (ptr : Option Nat)
    (hpay : (s.blocks b).payload = ptr) (cap : Bool)
    (hcap : ∀ o, ptr = some o → cap = true →
      (s.objs o).esft = true ∧ (s.objs o).self_.block_ = none)
    {f : Nat} (he : SharedPtr.CanConstruct f s this ptr cap = some t) : Inv t := by
  unfold SharedPtr.CanConstruct at he
  cases cap with
  | false => simp only [Bool.false_eq_true, if_false, Option.some.injEq] at he; subst he; exact h
  | true =>
    simp only [if_true] at he
    cases f with
    | zero => rw [SharedPtr.AssignToSelf_zero] at he; cases he
    | succ n =>
      have hc : (s.blocks b).cnt_ ≠ 0 := by
        rw [h.cnt b]; have := spCount_pos hg hp; omega
      have hlt : (s.blocks b).cnt_ + (s.blocks b).cntw_ + 3 < sizeMod := by
        rw [h.cnt b, h.cntw b]
        have := spCount_le b s.sps
        have := wpCount_le b s.wps
        have := emb_le s b
        omega
      cases ptr with
      | none =>
        obtain ⟨t', e, r1, r2, r3, r4, r5, r6⟩ := SharedPtr.AssignToSelf_none n hg hp hc hlt
        rw [e] at he; cases he
        unfold Inv
        rw [r1, r2]
        refine HeapInv.congr (h.of_heap_eq r5 r6 r3 r4) (fun _ => rfl) ?_
        intro b'; exact wpCount_push_none _ _
      | some o =>
        obtain ⟨hes, h0⟩ := hcap o rfl rfl
        have h1 : (s.objs o).self1_.block_ = none := by rw [h.pair o hes]; exact h0
        obtain ⟨t', e, r1, r2, r3, r4, r5, r6, r7, r8⟩ :=
          SharedPtr.AssignToSelf_some n (o := o) hg hp h0 h1 hlt
        rw [e] at he; cases he
        unfold Inv
        rw [r1, r2]
        refine HeapInv.congr (HeapInv.hook h p.own_ hpay hes h0 hc r3 r4 r5 r6 r7 r8)
          (fun _ => rfl) ?_
        intro b'; exact wpCount_push_none _ _

theorem wrappable_spec {s : State} {C W : Nat → Nat} (h : HeapInv s C W) {o : Nat} {cap : Bool}
    (hw : wrappable s (some o) cap = true) :
    o < s.nobjs ∧ (s.objs o).esft = cap ∧ (s.objs o).dtor = 0 ∧
      (∀ b, (s.blocks b).payload ≠ some o) ∧
      ((s.objs o).esft = true → (s.objs o).self_.block_ = none) := by
  simp only [wrappable, Bool.and_eq_true, decide_eq_true_eq, beq_iff_eq, List.all_eq_true,
    List.mem_range, bne_iff_ne, ne_eq] at hw
  obtain ⟨⟨⟨h1, h2⟩, h3⟩, h4⟩ := hw
  have h5 : ∀ b, (s.blocks b).payload ≠ some o := by
    intro b
    by_cases hb : b < s.nblocks
    · exact h4 b hb
    · rw [h.fresh b (by omega)]; simp [Block.payload]
  refine ⟨h1, h2, h3, h5, fun hes => ?_⟩
  cases hs : (s.objs o).self_.block_ with
  | none => rfl
  | some b => exact absurd (h.self o b hes hs) (h5 b)

theorem SharedPtr.fromRaw_inv {s t : State} (h : Inv s)
    (hb : s.sps.length + s.wps.length + 8 < sizeMod) {ptr : Option Nat} {cap : Bool}
    (hw : wrappable s ptr cap = true) {f : Nat}
    (he : SharedPtr.fromRaw f s ptr cap = some t) : Inv t := by
  unfold SharedPtr.fromRaw at he
  simp only at he
  have h2 : Inv { (s.newBlock (BlockKind.clever ptr)).pushS ⟨ptr, some s.nblocks⟩ with
      blocks := upd ((s.newBlock (BlockKind.clever ptr)).pushS ⟨ptr, some s.nblocks⟩).blocks
        s.nblocks { ((s.newBlock (BlockKind.clever ptr)).pushS ⟨ptr, some s.nblocks⟩).blocks
          s.nblocks with cnt_ := 1 } } := by
    refine HeapInv.newBlock (C := fun b => spCount b s.sps) h (BlockKind.clever ptr) ?_ ?_ ?_
      rfl rfl rfl ?_
    · intro o ho
      have : ptr = some o := ho
      subst this
      obtain ⟨w1, _, w3, w4, _⟩ := wrappable_spec h hw
      exact ⟨w1, w3, w4⟩
    · intro b e
      simp [State.newBlock, State.pushS, upd_ne _ _ e]
    · simp [State.newBlock, State.pushS]
    · intro b
      show spCount b (s.sps ++ [some ⟨ptr, some s.nblocks⟩]) = _
      rw [spCount_push]
      simp [eq_comm]
  refine SharedPtr.CanConstruct_inv h2 (by simp [State.pushS, State.newBlock]; omega)
    (b := s.nblocks) (p := ⟨ptr, some s.nblocks⟩) ?_ rfl ptr ?_ cap ?_ he
  · simp [State.getS, State.pushS, State.newBlock]
  · simp [State.newBlock, State.pushS, Block.payload]
  · intro o ho hc
    subst ho
    obtain ⟨_, w2, _, _, w5⟩ := wrappable_spec h hw
    rw [hc] at w2
    exact ⟨w2, w5 w2⟩

theorem MakeShared_inv {s t : State} (h : Inv s)
    (hb : s.sps.length + s.wps.length + 8 < sizeMod) {cap : Bool} {f : Nat}
    (he : MakeShared f s cap = some t) : Inv t := by
  unfold MakeShared at he
  simp only at he
  have hfresh : ∀ b, (s.blocks b).payload ≠ some s.nobjs := by
    intro b hp
    have := (h.owned b _ hp).1
    omega
  have h2 : Inv ((((((s.pushS ⟨none, none⟩).newObj cap).newBlock (BlockKind.smart s.nobjs)).setS
      s.sps.length ⟨none, some s.nblocks⟩).incS s.nblocks).setS s.sps.length
      ⟨some s.nobjs, some s.nblocks⟩) := by
    refine HeapInv.newBlock (C := fun b => spCount b s.sps) (s := s.newObj cap) (h.newObj cap)
      (BlockKind.smart s.nobjs) ?_ ?_ ?_ rfl rfl rfl ?_
    · intro o ho
      have : s.nobjs = o := by simpa [Block.payload] using ho
      subst this
      exact ⟨by simp [State.newObj], by simp [State.newObj], hfresh⟩
    · intro b e
      have e' : b ≠ s.nblocks := e
      simp [State.newBlock, State.pushS, State.setS, State.incS, State.newObj, upd_ne _ _ e']
    · simp [State.newBlock, State.pushS, State.setS, State.incS, State.newObj]
      decide
    · intro b
      show spCount b (((s.sps ++ [some (SharedPtr.mk none none)]).set s.sps.length
        (some ⟨none, some s.nblocks⟩)).set s.sps.length (some ⟨some s.nobjs, some s.nblocks⟩)) = _
      have hg1 : (s.sps ++ [some (SharedPtr.mk none none)]).getD s.sps.length none =
          some ⟨none, none⟩ := by rw [getD_push, if_pos rfl]
      have c1 := spCount_set hg1 (some ⟨some s.nobjs, some s.nblocks⟩) b
      rw [spCount_push] at c1
      simp only [List.set_set]
      simp [State.newObj] at c1 ⊢
      simp only [eq_comm (a := b)]
      omega
  refine SharedPtr.CanConstruct_inv h2
    (by simp [State.pushS, State.newBlock, State.setS, State.incS, State.newObj]; omega)
    (b := s.nblocks) (p := ⟨some s.nobjs, some s.nblocks⟩) ?_ rfl (some s.nobjs) ?_ cap ?_ he
  · simp only [State.getS, State.pushS, State.newBlock, State.setS, State.incS, State.newObj]
    rw [getD_set _ _ _ _ (by simp)]
    simp
  · simp [State.newBlock, State.pushS, State.setS, State.incS, State.newObj, Block.payload]
  · intro o ho hc
    cases ho
    simp [State.newBlock, State.pushS, State.setS, State.incS, State.newObj, hc]

theorem SharedPtr.ResetPtr_inv {s t : State} (h : Inv s)
    (hb : s.sps.length + s.wps.length + 8 < sizeMod) {ptr : Option Nat} {cap : Bool}
    (hw : wrappable s ptr cap = true) {f i : Nat}
    (he : SharedPtr.ResetPtr f s i ptr = some t) : Inv t := by
  unfold SharedPtr.ResetPtr at he
  cases hg : s.getS i with
  | none => simp [hg] at he
  | some a =>
    simp only [hg, Option.map_eq_some'] at he
    obtain ⟨t1, h1, rfl⟩ := he
    have hi := getD_some_lt hg
    -- the heap after the old block is released, counted without slot `i`
    have hcount := fun b => spCount_set hg (some ⟨ptr, none⟩) b
    simp only [Option.bind, reduceCtorEq, if_false, Nat.add_zero] at hcount
    obtain ⟨r1, r2, r3, r4, r5, r6, r7, r8⟩ := HeapInv.releaseShared_eq
      (C := fun b => spCount b (s.sps.set i (some ⟨ptr, none⟩)))
      (D := fun b => spCount b s.sps) (W := fun b => wpCount b s.wps)
      (s := s.setS i ⟨ptr, a.block_⟩) (h.sps _) a.block_
      (fun b' => (hcount b').symm) (fun b _ => by
        have := spCount_le b (s.sps.set i (some ⟨ptr, none⟩))
        have := wpCount_le b s.wps
        simp only [List.length_set] at *
        omega) h1
    have hg2 : (s.sps.set i (some (SharedPtr.mk ptr a.block_))).getD i none =
        some ⟨ptr, a.block_⟩ := by rw [getD_set _ _ _ _ hi, if_pos rfl]
    have c1 := fun b => spCount_set hg2 (some ⟨ptr, some t1.nblocks⟩) b
    have c2 := fun b => spCount_set hg2 (some ⟨ptr, none⟩) b
    simp only [List.set_set] at c1 c2
    unfold Inv
    refine HeapInv.congr (HeapInv.newBlock (s := t1)
      (D := fun b => spCount b (s.sps.set i (some ⟨ptr, some t1.nblocks⟩))) r1
      (BlockKind.clever ptr) ?_ ?_ ?_ rfl rfl rfl ?_) ?_ ?_
    rotate_left 4
    · intro b
      show spCount b (t1.sps.set i (some ⟨ptr, some t1.nblocks⟩)) = _
      rw [r2]
      simp only [State.setS, List.set_set]
    · intro b
      show wpCount b t1.wps = _
      rw [r3]; rfl
    · intro o ho
      have : ptr = some o := ho
      subst this
      obtain ⟨w1, _, w3, w4, _⟩ := wrappable_spec h hw
      refine ⟨by rw [r5]; exact w1, ?_, ?_⟩
      · rw [r8 o (fun b' _ => w4 b')]; exact w3
      · intro b; rw [r7]; exact w4 b
    · intro b e
      have e' : b ≠ t1.nblocks := e
      simp [State.newBlock, State.setS, State.incS, upd_ne _ _ e']
    · simp [State.newBlock, State.setS, State.incS]
      decide
    · intro b
      have c1 := c1 b
      have c2 := c2 b
      simp at c1 c2 ⊢
      simp only [eq_comm (a := b)]
      omega

theorem Inv.init : Inv State.init := by
  refine ⟨fun _ => rfl, fun _ => rfl, fun _ _ => rfl, ?_, ?_, ?_, ?_, ?_, fun _ _ => rfl⟩
  · intro b hb; simp [State.init] at hb
  · intro b hb; simp [State.init] at hb
  · intro b o hp; simp [State.init, Block.payload] at hp
  · intro b b' o hp; simp [State.init, Block.payload] at hp
  · intro o b _ hs; simp [State.init] at hs

theorem inBudget_spec {s : State} (h : inBudget s = true) :
    s.sps.length + s.wps.length + 8 < sizeMod := by
  simpa [inBudget] using h

/-- Every operation of a client program keeps the invariant. -/
theorem perform_inv {s t : State} (h : Inv s) (hb : s.sps.length + s.wps.length + 8 < sizeMod)
    {f : Nat} {op : Op} (he : perform f s op = some t) : Inv t := by
  have hb6 : s.sps.length + s.wps.length + 6 < sizeMod := by omega
  cases op with
  | newPayload cap =>
    simp only [perform, Option.some.injEq] at he
    subst he
    exact HeapInv.newObj h cap
  | spDefault =>
    simp only [perform, SharedPtr.default, Option.some.injEq] at he
    subst he
    exact h.pushS_null _
  | spRaw ptr cap =>
    simp only [perform] at he
    split at he
    · rename_i hw; exact SharedPtr.fromRaw_inv h hb hw he
    · cases he
  | makeShared cap => exact MakeShared_inv h hb he
  | spCopy other => exact SharedPtr.copy_inv h hb6 he
  | spMove other => exact (SharedPtr.move_inv h he).1
  | spAlias other ptr => exact SharedPtr.aliasing_inv h hb6 he
  | spFromWeak other =>
    simp only [perform] at he
    cases hr : SharedPtr.fromWeak s (WLoc.var other) with
    | none => simp [hr] at he
    | some r =>
      cases r with
      | returned u =>
        simp only [hr, Option.map_some', Outcome.state, Option.some.injEq] at he
        subst he
        exact SharedPtr.fromWeak_inv h hb6 hr
      | BadWeakPtr u =>
        simp only [hr, Option.map_some', Outcome.state, Option.some.injEq] at he
        subst he
        unfold SharedPtr.fromWeak at hr
        cases hg : s.getW (WLoc.var other) with
        | none => simp [hg] at hr
        | some o =>
          simp only [hg] at hr
          cases hblk : o.block_ with
          | none => simp only [hblk, Option.some.injEq, Outcome.BadWeakPtr.injEq] at hr; rw [← hr]; exact h
          | some b =>
            simp only [hblk] at hr
            split at hr
            · simp only [Option.some.injEq, Outcome.BadWeakPtr.injEq] at hr; rw [← hr]; exact h
            · cases hr
  | spAssign this other => exact SharedPtr.copyAssign_inv h hb6 he
  | spMoveAssign this other => exact (SharedPtr.moveAssign_inv h hb6 he).1
  | spReset this => exact SharedPtr.Reset_inv h hb6 he
  | spResetPtr this ptr cap =>
    simp only [perform] at he
    split at he
    · rename_i hw; exact SharedPtr.ResetPtr_inv h hb hw he
    · cases he
  | spSwap this other => exact SharedPtr.Swap_inv h hb he
  | spDtor this => exact (SharedPtr.dtor_inv h hb6 he).1
  | wpDefault =>
    simp only [perform, WeakPtr.default, Option.some.injEq] at he
    subst he
    exact h.pushW_null _
  | wpCopy other =>
    refine WeakPtr.weak_copy_inv h hb6 ?_ he
    intro o ho; rcases ho with ho | ho <;> cases ho
  | wpMove other => exact (WeakPtr.weak_move_inv h he).1
  | wpFromShared other => exact WeakPtr.fromShared_inv h hb6 he
  | wpAssign this other => exact WeakPtr.weak_copyAssign_inv h hb6 he
  | wpMoveAssign this other => exact (WeakPtr.weak_moveAssign_inv h hb6 he).1
  | wpReset this => exact WeakPtr.weak_Reset_inv h hb6 he
  | wpSwap this other => exact WeakPtr.weak_Swap_inv h hb he
  | wpDtor this => exact (WeakPtr.weak_dtor_inv h hb6 he).1
  | wpLock this => exact WeakPtr.Lock_inv h hb6 he
  | sharedFromThis o =>
    simp only [perform, EnableSharedFromThis.SharedFromThis] at he
    split at he
    · split at he
      · simp only [Option.map_map, Option.map_eq_some', Function.comp_apply, Outcome.state] at he
        obtain ⟨u, hu, rfl⟩ := he
        exact WeakPtr.Lock_inv h hb6 hu
      · cases he
    · cases he
  | sharedFromThisConst o =>
    simp only [perform, EnableSharedFromThis.SharedFromThisConst] at he
    split at he
    · split at he
      · simp only [Option.map_map, Option.map_eq_some', Function.comp_apply, Outcome.state] at he
        obtain ⟨u, hu, rfl⟩ := he
        exact WeakPtr.Lock_inv h hb6 hu
      · cases he
    · cases he
  | weakFromThis o =>
    simp only [perform, EnableSharedFromThis.WeakFromThis] at he
    split at he
    · rename_i hd
      split at he
      · rename_i hc
        refine WeakPtr.weak_copy_inv h hb6 ?_ he
        intro o' ho
        rcases ho with ho | ho <;> cases ho
        exact ⟨hc.2, hd⟩
      · cases he
    · cases he
  | weakFromThisConst o =>
    simp only [perform, EnableSharedFromThis.WeakFromThisConst] at he
    split at he
    · rename_i hd
      split at he
      · rename_i hc
        refine WeakPtr.weak_copy_inv h hb6 ?_ he
        intro o' ho
        rcases ho with ho | ho <;> cases ho
        exact ⟨hc.2, hd⟩
      · cases he
    · cases he

/-- Every reachable state satisfies the invariant. -/
theorem Reachable.inv {s : State} (h : Reachable s) : Inv s := by
  induction h with
  | init => exact Inv.init
  | step f op _ he ih =>
    unfold exec at he
    split at he
    · rename_i hb; exact perform_inv ih (inBudget_spec hb) he
    · cases he

/-! ## Ghost counters only grow -/

theorem Hist.refl (s : State) : Hist s s :=
  ⟨Nat.le_refl _, Nat.le_refl _, fun _ _ => rfl, fun _ _ h => h, fun _ _ => Nat.le_refl _,
    fun _ _ => Nat.le_refl _⟩

theorem Hist.trans {s t u : State} (h1 : Hist s t) (h2 : Hist t u) : Hist s u :=
  ⟨Nat.le_trans h1.nblocks h2.nblocks, Nat.le_trans h1.nobjs h2.nobjs,
    fun b hb => by rw [h2.kind b (by have := h1.nblocks; omega), h1.kind b hb],
    fun b hb h => h2.ok b (by have := h1.nblocks; omega) (h1.ok b hb h),
    fun b hb => Nat.le_trans (h1.freed b hb) (h2.freed b (by have := h1.nblocks; omega)),
    fun o ho => Nat.le_trans (h1.dtor o ho) (h2.dtor o (by have := h1.nobjs; omega))⟩

/-- A change of block fields other than `kind` that does not lower `freed`. -/
theorem Hist.blocks {s t : State} {u : State} (h : Hist s t)
    (hk : ∀ b, (u.blocks b).kind = (t.blocks b).kind)
    (hok : ∀ b, (t.blocks b).ok_ = true → (u.blocks b).ok_ = true)
    (hf : ∀ b, (t.blocks b).freed ≤ (u.blocks b).freed)
    (hd : ∀ o, (t.objs o).dtor ≤ (u.objs o).dtor)
    (hnb : u.nblocks = t.nblocks) (hno : u.nobjs = t.nobjs) : Hist s u :=
  h.trans ⟨by omega, by omega, fun b _ => hk b, fun b _ => hok b, fun b _ => hf b,
    fun o _ => hd o⟩

theorem Hist.then_incS {s t : State} (h : Hist s t) (b : Nat) : Hist s (t.incS b) :=
  h.blocks (fun b' => by simp only [State.incS, upd_apply]; split <;> simp_all)
    (fun b' => by simp only [State.incS, upd_apply]; split <;> simp_all)
    (fun b' => by simp only [State.incS, upd_apply]; split <;> simp_all)
    (fun _ => Nat.le_refl _) rfl rfl

theorem Hist.then_decS {s t : State} (h : Hist s t) (b : Nat) : Hist s (t.decS b) :=
  h.blocks (fun b' => by simp only [State.decS, upd_apply]; split <;> simp_all)
    (fun b' => by simp only [State.decS, upd_apply]; split <;> simp_all)
    (fun b' => by simp only [State.decS, upd_apply]; split <;> simp_all)
    (fun _ => Nat.le_refl _) rfl rfl

theorem Hist.then_incW {s t : State} (h : Hist s t) (b : Nat) : Hist s (t.incW b) :=
  h.blocks (fun b' => by simp only [State.incW, upd_apply]; split <;> simp_all)
    (fun b' => by simp only [State.incW, upd_apply]; split <;> simp_all)
    (fun b' => by simp only [State.incW, upd_apply]; split <;> simp_all)
    (fun _ => Nat.le_refl _) rfl rfl

theorem Hist.then_decW {s t : State} (h : Hist s t) (b : Nat) : Hist s (t.decW b) :=
  h.blocks (fun b' => by simp only [State.decW, upd_apply]; split <;> simp_all)
    (fun b' => by simp only [State.decW, upd_apply]; split <;> simp_all)
    (fun b' => by simp only [State.decW, upd_apply]; split <;> simp_all)
    (fun _ => Nat.le_refl _) rfl rfl

theorem Hist.then_setOk {s t : State} (h : Hist s t) (b : Nat) : Hist s (t.setOk b) :=
  h.blocks (fun b' => by simp only [State.setOk, upd_apply]; split <;> simp_all)
    (fun b' => by simp only [State.setOk, upd_apply]; split <;> simp_all)
    (fun b' => by simp only [State.setOk, upd_apply]; split <;> simp_all)
    (fun _ => Nat.le_refl _) rfl rfl

theorem Hist.then_free {s t : State} (h : Hist s t) (b : Nat) : Hist s (t.free b) :=
  h.blocks (fun b' => by simp only [State.free, upd_apply]; split <;> simp_all)
    (fun b' => by simp only [State.free, upd_apply]; split <;> simp_all)
    (fun b' => by simp only [State.free, upd_apply]; split <;> simp_all)
    (fun _ => Nat.le_refl _) rfl rfl

theorem Hist.then_bumpDtor {s t : State} (h : Hist s t) (o : Nat) : Hist s (t.bumpDtor o) :=
  h.blocks (fun _ => rfl) (fun _ h => h) (fun _ => Nat.le_refl _)
    (fun o' => by simp only [State.bumpDtor, upd_apply]; split <;> simp_all) rfl rfl

theorem Hist.then_setS {s t : State} (h : Hist s t) (i : Nat) (p : SharedPtr) : Hist s (t.setS i p) :=
  h.blocks (fun _ => rfl) (fun _ h => h) (fun _ => Nat.le_refl _) (fun _ => Nat.le_refl _) rfl rfl

theorem Hist.then_killS {s t : State} (h : Hist s t) (i : Nat) : Hist s (t.killS i) :=
  h.blocks (fun _ => rfl) (fun _ h => h) (fun _ => Nat.le_refl _) (fun _ => Nat.le_refl _) rfl rfl

theorem Hist.then_pushS {s t : State} (h : Hist s t) (p : SharedPtr) : Hist s (t.pushS p) :=
  h.blocks (fun _ => rfl) (fun _ h => h) (fun _ => Nat.le_refl _) (fun _ => Nat.le_refl _) rfl rfl

theorem Hist.then_killW {s t : State} (h : Hist s t) (i : Nat) : Hist s (t.killW i) :=
  h.blocks (fun _ => rfl) (fun _ h => h) (fun _ => Nat.le_refl _) (fun _ => Nat.le_refl _) rfl rfl

theorem Hist.then_pushW {s t : State} (h : Hist s t) (p : WeakPtr) : Hist s (t.pushW p) :=
  h.blocks (fun _ => rfl) (fun _ h => h) (fun _ => Nat.le_refl _) (fun _ => Nat.le_refl _) rfl rfl

theorem Hist.then_setW {s t : State} (h : Hist s t) (w : WLoc) (p : WeakPtr) : Hist s (t.setW w p) := by
  cases w with
  | var i => exact h.blocks (fun _ => rfl) (fun _ h => h) (fun _ => Nat.le_refl _) (fun _ => Nat.le_refl _) rfl rfl
  | self_ o =>
    exact h.blocks (fun _ => rfl) (fun _ h => h) (fun _ => Nat.le_refl _)
      (fun o' => by simp only [State.setW, upd_apply]; split <;> simp_all) rfl rfl
  | self1_ o =>
    exact h.blocks (fun _ => rfl) (fun _ h => h) (fun _ => Nat.le_refl _)
      (fun o' => by simp only [State.setW, upd_apply]; split <;> simp_all) rfl rfl

theorem Hist.then_newObj {s t : State} (h : Hist s t) (cap : Bool) : Hist s (t.newObj cap) :=
  h.trans ⟨Nat.le_refl _, by simp [State.newObj], fun _ _ => rfl, fun _ _ h => h,
    fun _ _ => Nat.le_refl _, fun o ho => by simp [State.newObj, upd_ne _ _ (Nat.ne_of_lt ho)]⟩

theorem Hist.then_newBlock {s t : State} (h : Hist s t) (k : BlockKind) : Hist s (t.newBlock k) :=
  h.trans ⟨by simp [State.newBlock], Nat.le_refl _,
    fun b hb => by simp [State.newBlock, upd_ne _ _ (Nat.ne_of_lt hb)],
    fun b hb => by simp [State.newBlock, upd_ne _ _ (Nat.ne_of_lt hb)],
    fun b hb => by simp [State.newBlock, upd_ne _ _ (Nat.ne_of_lt hb)],
    fun _ _ => Nat.le_refl _⟩

theorem hist_fuel : ∀ f,
    (∀ s b t, deleteBlock f s b = some t → Hist s t) ∧
    (∀ s o t, destroyPayload f s o = some t → Hist s t) ∧
    (∀ s x t, releaseWeak f s x = some t → Hist s t) := by
  intro f
  induction f with
  | zero =>
    refine ⟨fun s b t h => ?_, fun s o t h => ?_, fun s x t h => ?_⟩
    · simp [deleteBlock] at h
    · simp [destroyPayload] at h
    · simp [releaseWeak] at h
  | succ n ih =>
    obtain ⟨ih1, ih2, ih3⟩ := ih
    refine ⟨?_, ?_, ?_⟩
    · intro s b t h
      rw [deleteBlock] at h
      cases hk : (s.blocks b).kind with
      | clever ptr =>
        simp only [hk] at h
        cases hok : (s.blocks b).ok_ with
        | true =>
          simp only [hok, Bool.not_true, Bool.false_eq_true, if_false, Option.some.injEq] at h
          subst h; exact (Hist.refl s).then_free b
        | false =>
          simp only [hok] at h
          cases ptr with
          | none =>
            simp only [Bool.not_false, if_true, Option.some.injEq] at h
            subst h; exact ((Hist.refl s).then_setOk b).then_free b
          | some o =>
            simp only [Bool.not_false, if_true, Option.map_eq_some'] at h
            obtain ⟨a, ha, rfl⟩ := h
            exact (((Hist.refl s).then_setOk b).trans (ih2 _ _ _ ha)).then_free b
      | smart o =>
        simp only [hk] at h
        cases hok : (s.blocks b).ok_ with
        | true =>
          simp only [hok, Bool.not_true, Bool.false_eq_true, if_false, Option.some.injEq] at h
          subst h; exact (Hist.refl s).then_free b
        | false =>
          simp only [hok, Bool.not_false, if_true, Option.map_eq_some'] at h
          obtain ⟨a, ha, rfl⟩ := h
          exact (ih2 _ _ _ ha).then_free b
    · intro s o t h
      rw [destroyPayload] at h
      by_cases he : (s.objs o).esft = true
      · simp only [he, if_true, Option.bind_eq_some] at h
        obtain ⟨a, ha, hat⟩ := h
        exact (((Hist.refl s).then_bumpDtor o).trans (ih3 _ _ _ ha)).trans (ih3 _ _ _ hat)
      · simp only [he, Bool.false_eq_true, if_false, Option.some.injEq] at h
        subst h; exact (Hist.refl s).then_bumpDtor o
    · intro s x t h
      cases x with
      | none =>
        simp only [releaseWeak, Option.some.injEq] at h
        subst h; exact Hist.refl s
      | some b =>
        rw [releaseWeak] at h
        split at h
        · exact ((Hist.refl s).then_decW b).trans (ih1 _ _ _ h)
        · simp only [Option.some.injEq] at h
          subst h; exact (Hist.refl s).then_decW b

theorem Hist.then_releaseWeak {s t u : State} (h : Hist s t) {f : Nat} {x : Option Nat}
    (he : SharedWeak.releaseWeak f t x = some u) : Hist s u :=
  h.trans ((hist_fuel f).2.2 _ _ _ he)

theorem Hist.then_releaseShared {s t u : State} (h : Hist s t) {f : Nat} {x : Option Nat}
    (he : SharedWeak.releaseShared f t x = some u) : Hist s u := by
  cases x with
  | none =>
    simp only [SharedWeak.releaseShared, Option.some.injEq] at he
    subst he; exact h
  | some b =>
    unfold SharedWeak.releaseShared at he
    simp only at he
    split at he
    · exact (h.then_decS b).trans ((hist_fuel f).1 _ _ _ he)
    · split at he
      · unfold Del at he
        cases hk : ((t.decS b).blocks b).kind with
        | clever ptr =>
          simp only [hk] at he
          split at he
          · cases ptr with
            | none =>
              simp only [Option.some.injEq] at he
              subst he; exact (h.then_decS b).then_setOk b
            | some o =>
              exact ((h.then_decS b).then_setOk b).trans ((hist_fuel f).2.1 _ _ _ he)
          · simp only [Option.some.injEq] at he
            subst he; exact h.then_decS b
        | smart o =>
          simp only [hk] at he
          exact ((h.then_decS b).then_setOk b).trans ((hist_fuel f).2.1 _ _ _ he)
      · simp only [Option.some.injEq] at he
        subst he; exact h.then_decS b



theorem WeakPtr.weak_copy_hist {s t : State} {w : WLoc} (he : WeakPtr.copy s w = some t) :
    Hist s t := by
  unfold WeakPtr.copy at he
  cases hg : s.getW w with
  | none => simp [hg] at he
  | some o =>
    simp only [hg] at he
    cases hblk : o.block_ <;> simp only [hblk, Option.some.injEq] at he <;> subst he
    · repeat (first | exact Hist.refl _ | apply Hist.then_incS | apply Hist.then_incW | apply Hist.then_setS | apply Hist.then_killS | apply Hist.then_pushS | apply Hist.then_setW | apply Hist.then_killW | apply Hist.then_pushW | apply Hist.then_newObj | apply Hist.then_newBlock)
    · repeat (first | exact Hist.refl _ | apply Hist.then_incS | apply Hist.then_incW | apply Hist.then_setS | apply Hist.then_killS | apply Hist.then_pushS | apply Hist.then_setW | apply Hist.then_killW | apply Hist.then_pushW | apply Hist.then_newObj | apply Hist.then_newBlock)

theorem WeakPtr.weak_move_hist {s t : State} {j : Nat} (he : WeakPtr.move s j = some t) :
    Hist s t := by
  unfold WeakPtr.move at he
  cases hg : s.getW (WLoc.var j) with
  | none => simp [hg] at he
  | some o =>
    simp only [hg, Option.some.injEq] at he
    subst he
    repeat (first | exact Hist.refl _ | apply Hist.then_incS | apply Hist.then_incW | apply Hist.then_setS | apply Hist.then_killS | apply Hist.then_pushS | apply Hist.then_setW | apply Hist.then_killW | apply Hist.then_pushW | apply Hist.then_newObj | apply Hist.then_newBlock)

theorem WeakPtr.fromShared_hist {s t : State} {j : Nat}
    (he : WeakPtr.fromShared s j = some t) : Hist s t := by
  unfold WeakPtr.fromShared at he
  cases hg : s.getS j with
  | none => simp [hg] at he
  | some o =>
    simp only [hg] at he
    cases hblk : o.block_ <;> simp only [hblk, Option.some.injEq] at he <;> subst he
    · repeat (first | exact Hist.refl _ | apply Hist.then_incS | apply Hist.then_incW | apply Hist.then_setS | apply Hist.then_killS | apply Hist.then_pushS | apply Hist.then_setW | apply Hist.then_killW | apply Hist.then_pushW | apply Hist.then_newObj | apply Hist.then_newBlock)
    · repeat (first | exact Hist.refl _ | apply Hist.then_incS | apply Hist.then_incW | apply Hist.then_setS | apply Hist.then_killS | apply Hist.then_pushS | apply Hist.then_setW | apply Hist.then_killW | apply Hist.then_pushW | apply Hist.then_newObj | apply Hist.then_newBlock)

theorem WeakPtr.weak_copyAssign_hist {s t : State} {f : Nat} {w v : WLoc}
    (he : WeakPtr.copyAssign f s w v = some t) : Hist s t := by
  unfold WeakPtr.copyAssign at he
  cases hgi : s.getW w with
  | none => simp [hgi] at he
  | some a =>
    cases hgj : s.getW v with
    | none => simp [hgi, hgj] at he
    | some o =>
      simp only [hgi, hgj] at he
      split at he
      · cases he; exact Hist.refl s
      · refine Hist.then_releaseWeak ?_ he
        cases o.block_ <;> dsimp only
        · repeat (first | exact Hist.refl _ | apply Hist.then_incS | apply Hist.then_incW | apply Hist.then_setS | apply Hist.then_killS | apply Hist.then_pushS | apply Hist.then_setW | apply Hist.then_killW | apply Hist.then_pushW | apply Hist.then_newObj | apply Hist.then_newBlock)
        · repeat (first | exact Hist.refl _ | apply Hist.then_incS | apply Hist.then_incW | apply Hist.then_setS | apply Hist.then_killS | apply Hist.then_pushS | apply Hist.then_setW | apply Hist.then_killW | apply Hist.then_pushW | apply Hist.then_newObj | apply Hist.then_newBlock)

theorem WeakPtr.weak_moveAssign_hist {s t : State} {f i j : Nat}
    (he : WeakPtr.moveAssign f s i j = some t) : Hist s t := by
  unfold WeakPtr.moveAssign at he
  cases hgi : s.getW (WLoc.var i) with
  | none => simp [hgi] at he
  | some a =>
    cases hgj : s.getW (WLoc.var j) with
    | none => simp [hgi, hgj] at he
    | some o =>
      simp only [hgi, hgj] at he
      split at he
      · cases he; exact Hist.refl s
      · simp only [Option.map_eq_some'] at he
        obtain ⟨t1, h1, rfl⟩ := he
        refine Hist.then_setW (Hist.then_releaseWeak ?_ h1) _ _
        repeat (first | exact Hist.refl _ | apply Hist.then_incS | apply Hist.then_incW | apply Hist.then_setS | apply Hist.then_killS | apply Hist.then_pushS | apply Hist.then_setW | apply Hist.then_killW | apply Hist.then_pushW | apply Hist.then_newObj | apply Hist.then_newBlock)

theorem WeakPtr.weak_dtor_hist {s t : State} {f i : Nat} (he : WeakPtr.dtor f s i = some t) :
    Hist s t := by
  unfold WeakPtr.dtor at he
  cases hg : s.getW (WLoc.var i) with
  | none => simp [hg] at he
  | some a =>
    simp only [hg, Option.map_eq_some'] at he
    obtain ⟨t1, h1, rfl⟩ := he
    exact Hist.then_killW (Hist.then_releaseWeak (Hist.refl s) h1) _

theorem WeakPtr.weak_Reset_hist {s t : State} {f i : Nat} (he : WeakPtr.Reset f s i = some t) :
    Hist s t := by
  unfold WeakPtr.Reset at he
  cases hg : s.getW (WLoc.var i) with
  | none => simp [hg] at he
  | some a =>
    simp only [hg] at he
    cases hblk : a.block_ with
    | none => simp only [hblk, Option.some.injEq] at he; subst he; exact Hist.refl s
    | some b =>
      simp only [hblk, Option.map_eq_some'] at he
      obtain ⟨t1, h1, rfl⟩ := he
      exact Hist.then_setW (Hist.then_releaseWeak (Hist.refl s) h1) _ _

theorem WeakPtr.weak_Swap_hist {s t : State} {f i j : Nat} (he : WeakPtr.Swap f s i j = some t) :
    Hist s t := by
  unfold WeakPtr.Swap at he
  simp only [Option.bind_eq_some] at he
  obtain ⟨s1, h1, s2, h2, s3, h3, h4⟩ := he
  exact (((WeakPtr.weak_move_hist h1).trans (WeakPtr.weak_moveAssign_hist h2)).trans
    (WeakPtr.weak_moveAssign_hist h3)).trans (WeakPtr.weak_dtor_hist h4)

theorem WeakPtr.Lock_hist {s t : State} {w : WLoc} (he : WeakPtr.Lock s w = some t) :
    Hist s t := by
  unfold WeakPtr.Lock at he
  cases hg : s.getW w with
  | none => simp [hg] at he
  | some o =>
    simp only [hg] at he
    cases hblk : (WeakPtr.lockTarget s o).block_ <;>
      simp only [hblk, Option.some.injEq] at he <;> subst he
    · repeat (first | exact Hist.refl _ | apply Hist.then_incS | apply Hist.then_incW | apply Hist.then_setS | apply Hist.then_killS | apply Hist.then_pushS | apply Hist.then_setW | apply Hist.then_killW | apply Hist.then_pushW | apply Hist.then_newObj | apply Hist.then_newBlock)
    · repeat (first | exact Hist.refl _ | apply Hist.then_incS | apply Hist.then_incW | apply Hist.then_setS | apply Hist.then_killS | apply Hist.then_pushS | apply Hist.then_setW | apply Hist.then_killW | apply Hist.then_pushW | apply Hist.then_newObj | apply Hist.then_newBlock)

theorem SharedPtr.AssignToSelf_hist {s t : State} {f this : Nat} {ptr : Option Nat}
    (he : SharedPtr.AssignToSelf f s this ptr = some t) : Hist s t := by
  unfold SharedPtr.AssignToSelf at he
  simp only [Option.bind_eq_some] at he
  obtain ⟨s1, h1, h2⟩ := he
  cases ptr with
  | none => exact (WeakPtr.fromShared_hist h1).trans (WeakPtr.weak_dtor_hist h2)
  | some o =>
    simp only [Option.bind_eq_some] at h2
    obtain ⟨s2, h2, s3, h3, h4⟩ := h2
    exact (((WeakPtr.fromShared_hist h1).trans (WeakPtr.weak_copyAssign_hist h2)).trans
      (WeakPtr.weak_copyAssign_hist h3)).trans (WeakPtr.weak_dtor_hist h4)

theorem SharedPtr.CanConstruct_hist {s t : State} {f this : Nat} {ptr : Option Nat} {cap : Bool}
    (he : SharedPtr.CanConstruct f s this ptr cap = some t) : Hist s t := by
  unfold SharedPtr.CanConstruct at he
  split at he
  · exact SharedPtr.AssignToSelf_hist he
  · cases he; exact Hist.refl s

theorem SharedPtr.fromRaw_hist {s t : State} {f : Nat} {ptr : Option Nat} {cap : Bool}
    (he : SharedPtr.fromRaw f s ptr cap = some t) : Hist s t := by
  unfold SharedPtr.fromRaw at he
  simp only at he
  refine Hist.trans ?_ (SharedPtr.CanConstruct_hist he)
  refine Hist.blocks (t := (s.newBlock (BlockKind.clever ptr)).pushS ⟨ptr, some s.nblocks⟩)
    ?_ ?_ ?_ ?_ (fun _ => Nat.le_refl _) rfl rfl
  · repeat (first | exact Hist.refl _ | apply Hist.then_incS | apply Hist.then_incW | apply Hist.then_setS | apply Hist.then_killS | apply Hist.then_pushS | apply Hist.then_setW | apply Hist.then_killW | apply Hist.then_pushW | apply Hist.then_newObj | apply Hist.then_newBlock)
  · intro b; simp only [upd_apply]; split <;> simp_all
  · intro b; simp only [upd_apply]; split <;> simp_all
  · intro b; simp only [upd_apply]; split <;> simp_all

theorem MakeShared_hist {s t : State} {f : Nat} {cap : Bool}
    (he : MakeShared f s cap = some t) : Hist s t := by
  unfold MakeShared at he
  simp only at he
  refine Hist.trans ?_ (SharedPtr.CanConstruct_hist he)
  repeat (first | exact Hist.refl _ | apply Hist.then_incS | apply Hist.then_incW | apply Hist.then_setS | apply Hist.then_killS | apply Hist.then_pushS | apply Hist.then_setW | apply Hist.then_killW | apply Hist.then_pushW | apply Hist.then_newObj | apply Hist.then_newBlock)

theorem SharedPtr.copy_hist {s t : State} {j : Nat} (he : SharedPtr.copy s j = some t) :
    Hist s t := by
  unfold SharedPtr.copy at he
  cases hg : s.getS j with
  | none => simp [hg] at he
  | some o =>
    simp only [hg] at he
    cases hblk : o.block_ <;> simp only [hblk, Option.some.injEq] at he <;> subst he
    · repeat (first | exact Hist.refl _ | apply Hist.then_incS | apply Hist.then_incW | apply Hist.then_setS | apply Hist.then_killS | apply Hist.then_pushS | apply Hist.then_setW | apply Hist.then_killW | apply Hist.then_pushW | apply Hist.then_newObj | apply Hist.then_newBlock)
    · repeat (first | exact Hist.refl _ | apply Hist.then_incS | apply Hist.then_incW | apply Hist.then_setS | apply Hist.then_killS | apply Hist.then_pushS | apply Hist.then_setW | apply Hist.then_killW | apply Hist.then_pushW | apply Hist.then_newObj | apply Hist.then_newBlock)

theorem SharedPtr.move_hist {s t : State} {j : Nat} (he : SharedPtr.move s j = some t) :
    Hist s t := by
  unfold SharedPtr.move at he
  cases hg : s.getS j with
  | none => simp [hg] at he
  | some o =>
    simp only [hg, Option.some.injEq] at he
    subst he
    repeat (first | exact Hist.refl _ | apply Hist.then_incS | apply Hist.then_incW | apply Hist.then_setS | apply Hist.then_killS | apply Hist.then_pushS | apply Hist.then_setW | apply Hist.then_killW | apply Hist.then_pushW | apply Hist.then_newObj | apply Hist.then_newBlock)

theorem SharedPtr.aliasing_hist {s t : State} {j : Nat} {q : Option Nat}
    (he : SharedPtr.aliasing s j q = some t) : Hist s t := by
  unfold SharedPtr.aliasing at he
  cases hg : s.getS j with
  | none => simp [hg] at he
  | some o =>
    simp only [hg] at he
    cases hblk : o.block_ <;> simp only [hblk, Option.some.injEq] at he <;> subst he
    · repeat (first | exact Hist.refl _ | apply Hist.then_incS | apply Hist.then_incW | apply Hist.then_setS | apply Hist.then_killS | apply Hist.then_pushS | apply Hist.then_setW | apply Hist.then_killW | apply Hist.then_pushW | apply Hist.then_newObj | apply Hist.then_newBlock)
    · repeat (first | exact Hist.refl _ | apply Hist.then_incS | apply Hist.then_incW | apply Hist.then_setS | apply Hist.then_killS | apply Hist.then_pushS | apply Hist.then_setW | apply Hist.then_killW | apply Hist.then_pushW | apply Hist.then_newObj | apply Hist.then_newBlock)

theorem SharedPtr.fromWeak_hist {s : State} {w : WLoc} {r : Outcome}
    (he : SharedPtr.fromWeak s w = some r) : Hist s r.state := by
  unfold SharedPtr.fromWeak at he
  cases hg : s.getW w with
  | none => simp [hg] at he
  | some o =>
    simp only [hg] at he
    cases hblk : o.block_ with
    | none =>
      simp only [hblk, Option.some.injEq] at he
      subst he; exact Hist.refl s
    | some b =>
      simp only [hblk] at he
      split at he
      · simp only [Option.some.injEq] at he
        subst he; exact Hist.refl s
      · simp only [Option.some.injEq] at he
        subst he
        simp only [Outcome.state]
        repeat (first | exact Hist.refl _ | apply Hist.then_incS | apply Hist.then_incW | apply Hist.then_setS | apply Hist.then_killS | apply Hist.then_pushS | apply Hist.then_setW | apply Hist.then_killW | apply Hist.then_pushW | apply Hist.then_newObj | apply Hist.then_newBlock)

theorem SharedPtr.copyAssign_hist {s t : State} {f i j : Nat}
    (he : SharedPtr.copyAssign f s i j = some t) : Hist s t := by
  unfold SharedPtr.copyAssign at he
  cases hgi : s.getS i with
  | none => simp [hgi] at he
  | some a =>
    cases hgj : s.getS j with
    | none => simp [hgi, hgj] at he
    | some o =>
      simp only [hgi, hgj] at he
      split at he
      · cases he; exact Hist.refl s
      · refine Hist.then_releaseShared ?_ he
        cases o.block_ <;> dsimp only
        · repeat (first | exact Hist.refl _ | apply Hist.then_incS | apply Hist.then_incW | apply Hist.then_setS | apply Hist.then_killS | apply Hist.then_pushS | apply Hist.then_setW | apply Hist.then_killW | apply Hist.then_pushW | apply Hist.then_newObj | apply Hist.then_newBlock)
        · repeat (first | exact Hist.refl _ | apply Hist.then_incS | apply Hist.then_incW | apply Hist.then_setS | apply Hist.then_killS | apply Hist.then_pushS | apply Hist.then_setW | apply Hist.then_killW | apply Hist.then_pushW | apply Hist.then_newObj | apply Hist.then_newBlock)

theorem SharedPtr.moveAssign_hist {s t : State} {f i j : Nat}
    (he : SharedPtr.moveAssign f s i j = some t) : Hist s t := by
  unfold SharedPtr.moveAssign at he
  cases hgi : s.getS i with
  | none => simp [hgi] at he
  | some a =>
    cases hgj : s.getS j with
    | none => simp [hgi, hgj] at he
    | some o =>
      simp only [hgi, hgj] at he
      split at he
      · cases he; exact Hist.refl s
      · refine Hist.then_releaseShared ?_ he
        repeat (first | exact Hist.refl _ | apply Hist.then_incS | apply Hist.then_incW | apply Hist.then_setS | apply Hist.then_killS | apply Hist.then_pushS | apply Hist.then_setW | apply Hist.then_killW | apply Hist.then_pushW | apply Hist.then_newObj | apply Hist.then_newBlock)

theorem SharedPtr.dtor_hist {s t : State} {f i : Nat} (he : SharedPtr.dtor f s i = some t) :
    Hist s t := by
  unfold SharedPtr.dtor at he
  cases hg : s.getS i with
  | none => simp [hg] at he
  | some a =>
    simp only [hg, Option.map_eq_some'] at he
    obtain ⟨t1, h1, rfl⟩ := he
    exact Hist.then_killS (Hist.then_releaseShared (Hist.refl s) h1) _

theorem SharedPtr.Reset_hist {s t : State} {f i : Nat} (he : SharedPtr.Reset f s i = some t) :
    Hist s t := by
  unfold SharedPtr.Reset at he
  cases hg : s.getS i with
  | none => simp [hg] at he
  | some a =>
    simp only [hg] at he
    cases hblk : a.block_ with
    | none =>
      simp only [hblk, Option.some.injEq] at he; subst he
      repeat (first | exact Hist.refl _ | apply Hist.then_incS | apply Hist.then_incW | apply Hist.then_setS | apply Hist.then_killS | apply Hist.then_pushS | apply Hist.then_setW | apply Hist.then_killW | apply Hist.then_pushW | apply Hist.then_newObj | apply Hist.then_newBlock)
    | some b =>
      simp only [hblk, Option.map_eq_some'] at he
      obtain ⟨t1, h1, rfl⟩ := he
      exact Hist.then_setS (Hist.then_releaseShared (Hist.refl s) h1) _ _

theorem SharedPtr.ResetPtr_hist {s t : State} {f i : Nat} {ptr : Option Nat}
    (he : SharedPtr.ResetPtr f s i ptr = some t) : Hist s t := by
  unfold SharedPtr.ResetPtr at he
  cases hg : s.getS i with
  | none => simp [hg] at he
  | some a =>
    simp only [hg, Option.map_eq_some'] at he
    obtain ⟨t1, h1, rfl⟩ := he
    have h2 : Hist s t1 := Hist.then_releaseShared (Hist.then_setS (Hist.refl s) _ _) h1
    exact Hist.then_incS (Hist.then_setS (Hist.then_newBlock h2 _) _ _) _

theorem SharedPtr.Swap_hist {s t : State} {f i j : Nat} (he : SharedPtr.Swap f s i j = some t) :
    Hist s t := by
  unfold SharedPtr.Swap at he
  simp only [Option.bind_eq_some] at he
  obtain ⟨s1, h1, s2, h2, s3, h3, h4⟩ := he
  exact (((SharedPtr.move_hist h1).trans (SharedPtr.moveAssign_hist h2)).trans
    (SharedPtr.moveAssign_hist h3)).trans (SharedPtr.dtor_hist h4)

/-- No step of a client program undoes an allocation, changes the class of a
block or lowers a ghost counter. -/
theorem exec_hist {s t : State} {f : Nat} {op : Op} (he : exec f s op = some t) : Hist s t := by
  unfold exec at he
  split at he
  swap
  · cases he
  cases op with
  | newPayload cap =>
    simp only [perform, Option.some.injEq] at he
    subst he; exact Hist.then_newObj (Hist.refl s) cap
  | spDefault =>
    simp only [perform, SharedPtr.default, Option.some.injEq] at he
    subst he; exact Hist.then_pushS (Hist.refl s) _
  | spRaw ptr cap =>
    simp only [perform] at he
    split at he
    · exact SharedPtr.fromRaw_hist he
    · cases he
  | makeShared cap => exact MakeShared_hist he
  | spCopy other => exact SharedPtr.copy_hist he
  | spMove other => exact SharedPtr.move_hist he
  | spAlias other ptr => exact SharedPtr.aliasing_hist he
  | spFromWeak other =>
    simp only [perform, Option.map_eq_some'] at he
    obtain ⟨r, hr, rfl⟩ := he
    exact SharedPtr.fromWeak_hist hr
  | spAssign this other => exact SharedPtr.copyAssign_hist he
  | spMoveAssign this other => exact SharedPtr.moveAssign_hist he
  | spReset this => exact SharedPtr.Reset_hist he
  | spResetPtr this ptr cap =>
    simp only [perform] at he
    split at he
    · exact SharedPtr.ResetPtr_hist he
    · cases he
  | spSwap this other => exact SharedPtr.Swap_hist he
  | spDtor this => exact SharedPtr.dtor_hist he
  | wpDefault =>
    simp only [perform, WeakPtr.default, Option.some.injEq] at he
    subst he; exact Hist.then_pushW (Hist.refl s) _
  | wpCopy other => exact WeakPtr.weak_copy_hist he
  | wpMove other => exact WeakPtr.weak_move_hist he
  | wpFromShared other => exact WeakPtr.fromShared_hist he
  | wpAssign this other => exact WeakPtr.weak_copyAssign_hist he
  | wpMoveAssign this other => exact WeakPtr.weak_moveAssign_hist he
  | wpReset this => exact WeakPtr.weak_Reset_hist he
  | wpSwap this other => exact WeakPtr.weak_Swap_hist he
  | wpDtor this => exact WeakPtr.weak_dtor_hist he
  | wpLock this => exact WeakPtr.Lock_hist he
  | sharedFromThis o =>
    simp only [perform, EnableSharedFromThis.SharedFromThis] at he
    split at he
    · split at he
      · simp only [Option.map_map, Option.map_eq_some', Function.comp_apply, Outcome.state] at he
        obtain ⟨u, hu, rfl⟩ := he
        exact WeakPtr.Lock_hist hu
      · cases he
    · cases he
  | sharedFromThisConst o =>
    simp only [perform, EnableSharedFromThis.SharedFromThisConst] at he
    split at he
    · split at he
      · simp only [Option.map_map, Option.map_eq_some', Function.comp_apply, Outcome.state] at he
        obtain ⟨u, hu, rfl⟩ := he
        exact WeakPtr.Lock_hist hu
      · cases he
    · cases he
  | weakFromThis o =>
    simp only [perform, EnableSharedFromThis.WeakFromThis] at he
    split at he
    · split at he
      · exact WeakPtr.weak_copy_hist he
      · cases he
    · cases he
  | weakFromThisConst o =>
    simp only [perform, EnableSharedFromThis.WeakFromThisConst] at he
    split at he
    · split at he
      · exact WeakPtr.weak_copy_hist he
      · cases he
    · cases he

theorem Reachable.run {f : Nat} : ∀ {ops : List Op} {s t : State}, Reachable s →
    SharedWeak.run f s ops = some t → Reachable t
  | [], s, t, h, he => by
    simp only [SharedWeak.run, Option.some.injEq] at he
    subst he; exact h
  | op :: ops, s, t, h, he => by
    simp only [SharedWeak.run, Option.bind_eq_some] at he
    obtain ⟨u, hu, hr⟩ := he
    exact Reachable.run (Reachable.step f op h hu) hr

theorem aliasState_reachable : Reachable aliasState :=
  Reachable.run Reachable.init (show SharedWeak.run 5 State.init aliasProgram = some aliasState from rfl)

theorem emptyAliasState_reachable : Reachable emptyAliasState :=
  Reachable.run Reachable.init
    (show SharedWeak.run 5 State.init emptyAliasProgram = some emptyAliasState from rfl)

theorem lastOwnerState_reachable : Reachable lastOwnerState :=
  Reachable.run Reachable.init
    (show SharedWeak.run 5 State.init lastOwnerProgram = some lastOwnerState from rfl)

theorem finalizedState_reachable : Reachable finalizedState :=
  Reachable.step 5 (Op.spDtor 0) lastOwnerState_reachable
    (show exec 5 lastOwnerState (Op.spDtor 0) = some finalizedState from rfl)

theorem exec_inBudget {s t : State} {f : Nat} {op : Op} (he : exec f s op = some t) :
    s.sps.length + s.wps.length + 8 < sizeMod := by
  unfold exec at he
  split at he
  · rename_i hb; exact inBudget_spec hb
  · cases he

/-! ## With enough fuel every defined operation returns -/

theorem HeapInv.releaseShared_returns {s : State} {D W : Nat → Nat} (h : HeapInv s D W)
    (x : Option Nat) (hx : ∀ b, x = some b → 0 < D b ∧ D b + W b + 3 < sizeMod) (n : Nat) :
    ∃ t, SharedWeak.releaseShared (n + 4) s x = some t := by
  cases x with
  | none => exact ⟨s, rfl⟩
  | some b =>
    obtain ⟨h0, h1⟩ := hx b rfl
    obtain ⟨t, ht, _⟩ := HeapInv.releaseShared (C := fun b' => D b' - if b' = b then 1 else 0)
      h b (fun b' => by
        by_cases e : b' = b
        · subst e; simp only [if_true]; omega
        · simp [e]) (by simp only [if_true]; omega) n
    exact ⟨t, ht⟩

theorem HeapInv.releaseWeak_returns {s : State} {C V : Nat → Nat} (h : HeapInv s C V)
    (x : Option Nat) (hx : ∀ b, x = some b → 0 < V b ∧ C b + V b + 3 < sizeMod) (n : Nat) :
    ∃ t, SharedWeak.releaseWeak (n + 4) s x = some t := by
  cases x with
  | none => exact ⟨s, rfl⟩
  | some b =>
    obtain ⟨h0, h1⟩ := hx b rfl
    obtain ⟨t, ht, _⟩ := HeapInv.releaseWeak (W := fun b' => V b' - if b' = b then 1 else 0)
      h b (fun b' => by
        by_cases e : b' = b
        · subst e; simp only [if_true]; omega
        · simp [e]) (by simp only [if_true]; omega) (n + 2)
    exact ⟨t, ht⟩

/-- The heap in the middle of a rebinding member: the variables are rewritten,
`y` has gained a strong reference, `x` has not yet lost its own. -/
theorem Inv.rebind_heap {s : State} (h : Inv s) (hb : s.sps.length + s.wps.length + 6 < sizeMod)
    (l : List (Option SharedPtr)) (x y : Option Nat) {u : State} (hu : u = match y with
      | some b => State.incS { s with sps := l } b
      | none => { s with sps := l })
    (hy : ∀ b, y = some b → (s.blocks b).cnt_ ≠ 0)
    (hcount : ∀ b, spCount b l + (if x = some b then 1 else 0) =
      spCount b s.sps + if y = some b then 1 else 0) :
    HeapInv u (fun b => spCount b l + if x = some b then 1 else 0)
      (fun b => wpCount b s.wps) := by
  subst hu
  cases y with
  | none =>
    exact HeapInv.congr (h.sps _) (fun b => by rw [hcount]; simp) (fun _ => rfl)
  | some b0 =>
    have hc := h.cnt b0
    have := hy b0 rfl
    have := spCount_le b0 s.sps
    exact HeapInv.incS (C := fun b => spCount b s.sps) (h.sps _) (by simp only; omega)
      (by simp only; omega) (fun b' => by rw [hcount b']; simp [eq_comm])

/-- The same for the `WeakPtr` members. -/
theorem Inv.rebindW_heap {s : State} (h : Inv s)
    (hb : s.sps.length + s.wps.length + 6 < sizeMod)
    (l : List (Option WeakPtr)) (x y : Option Nat) {u : State} (hu : u = match y with
      | some b => State.incW { s with wps := l } b
      | none => { s with wps := l })
    (hy : ∀ b, y = some b → (s.blocks b).cnt_ ≠ 0 ∨ 0 < wpCount b s.wps)
    (hcount : ∀ b, wpCount b l + (if x = some b then 1 else 0) =
      wpCount b s.wps + if y = some b then 1 else 0) :
    HeapInv u (fun b => spCount b s.sps)
      (fun b => wpCount b l + if x = some b then 1 else 0) := by
  subst hu
  cases y with
  | none =>
    exact HeapInv.congr (h.wps _) (fun _ => rfl) (fun b => by rw [hcount]; simp)
  | some b0 =>
    have hc := h.cnt b0
    have := hy b0 rfl
    have := spCount_le b0 s.sps
    have := wpCount_le b0 s.wps
    exact HeapInv.incW (W := fun b => wpCount b s.wps) (h.wps _) (by simp only; omega)
      (by simp only; omega) (fun b' => by rw [hcount b']; simp [eq_comm])

theorem SharedPtr.dtor_defined {s : State} (h : Inv s)
    (hb : s.sps.length + s.wps.length + 6 < sizeMod) {i : Nat} {a : SharedPtr}
    (hg : s.getS i = some a) (n : Nat) : ∃ t, SharedPtr.dtor (n + 4) s i = some t := by
  obtain ⟨t1, h1⟩ := HeapInv.releaseShared_returns h a.block_ (fun b hx => by
    have h0 := spCount_pos hg hx
    have := spCount_le b s.sps
    have := wpCount_le b s.wps
    exact ⟨h0, by omega⟩) n
  exact ⟨t1.killS i, by simp [SharedPtr.dtor, hg, h1]⟩

theorem SharedPtr.Reset_defined {s : State} (h : Inv s)
    (hb : s.sps.length + s.wps.length + 6 < sizeMod) {i : Nat} {a : SharedPtr}
    (hg : s.getS i = some a) (n : Nat) : ∃ t, SharedPtr.Reset (n + 4) s i = some t := by
  cases hblk : a.block_ with
  | none => exact ⟨s.setS i ⟨none, none⟩, by simp [SharedPtr.Reset, hg, hblk]⟩
  | some b =>
    obtain ⟨t1, h1⟩ := HeapInv.releaseShared_returns h (some b) (fun b' hx => by
      cases hx
      have h0 := spCount_pos hg hblk
      have := spCount_le b s.sps
      have := wpCount_le b s.wps
      exact ⟨h0, by omega⟩) n
    exact ⟨t1.setS i ⟨none, none⟩, by simp [SharedPtr.Reset, hg, hblk, h1]⟩

theorem SharedPtr.copyAssign_defined {s : State} (h : Inv s)
    (hb : s.sps.length + s.wps.length + 6 < sizeMod) {i j : Nat} {a o : SharedPtr}
    (hgi : s.getS i = some a) (hgj : s.getS j = some o) (n : Nat) :
    ∃ t, SharedPtr.copyAssign (n + 4) s i j = some t := by
  unfold SharedPtr.copyAssign
  simp only [hgi, hgj]
  by_cases e : a.block_ = o.block_
  · exact ⟨s, by rw [if_pos e]⟩
  · rw [if_neg e]
    have h2 := h.rebind_heap hb (s.sps.set i (some ⟨o.own_, o.block_⟩)) a.block_ o.block_
      (u := match o.block_ with
        | some b => (s.setS i ⟨o.own_, o.block_⟩).incS b
        | none => s.setS i ⟨o.own_, o.block_⟩)
      (by cases o.block_ <;> rfl)
      (fun b hy => by rw [h.cnt b]; have := spCount_pos hgj hy; omega)
      (fun b => by
        have := spCount_set hgi (some ⟨o.own_, o.block_⟩) b
        simpa using this)
    exact h2.releaseShared_returns a.block_ (fun b hx => by
      have hle := spCount_le b (s.sps.set i (some ⟨o.own_, o.block_⟩))
      have := wpCount_le b s.wps
      simp only [List.length_set] at hle
      simp only [hx, if_true]
      omega) n

theorem SharedPtr.moveAssign_defined {s : State} (h : Inv s)
    (hb : s.sps.length + s.wps.length + 6 < sizeMod) {i j : Nat} {a o : SharedPtr}
    (hgi : s.getS i = some a) (hgj : s.getS j = some o) (n : Nat) :
    ∃ t, SharedPtr.moveAssign (n + 4) s i j = some t ∧
      ∀ k, (s.getS k).isSome = true → (t.getS k).isSome = true := by
  unfold SharedPtr.moveAssign
  simp only [hgi, hgj]
  by_cases e : o.block_ = a.block_
  · exact ⟨s, by rw [if_pos e], fun _ hk => hk⟩
  · rw [if_neg e]
    have hij : j ≠ i := by
      intro e'; subst e'; rw [hgi] at hgj; cases hgj; exact e rfl
    have hi := getD_some_lt hgi
    have hj := getD_some_lt hgj
    have hgj' : (s.sps.set i (some (SharedPtr.mk o.own_ o.block_))).getD j none = some o := by
      rw [getD_set _ _ _ _ hi, if_neg hij]; exact hgj
    have hcount : ∀ b, spCount b ((s.sps.set i (some ⟨o.own_, o.block_⟩)).set j
        (some ⟨none, none⟩)) + (if a.block_ = some b then 1 else 0) =
        spCount b s.sps + if (none : Option Nat) = some b then 1 else 0 := by
      intro b
      have h1 := spCount_set hgi (some ⟨o.own_, o.block_⟩) b
      have h2 := spCount_set hgj' (some ⟨none, none⟩) b
      simp at h1 h2 ⊢
      omega
    have h2 := h.rebind_heap hb
      ((s.sps.set i (some ⟨o.own_, o.block_⟩)).set j (some ⟨none, none⟩)) a.block_ none
      (u := (s.setS i ⟨o.own_, o.block_⟩).setS j ⟨none, none⟩) rfl
      (by intro b hy; cases hy) hcount
    obtain ⟨t, ht⟩ := h2.releaseShared_returns a.block_ (fun b hx => by
      have hle := spCount_le b
        ((s.sps.set i (some ⟨o.own_, o.block_⟩)).set j (some ⟨none, none⟩))
      have := wpCount_le b s.wps
      simp only [List.length_set] at hle
      simp only [hx, if_true]
      omega) n
    refine ⟨t, ht, ?_⟩
    obtain ⟨_, r2, _⟩ := h.rebind hb
      ((s.sps.set i (some ⟨o.own_, o.block_⟩)).set j (some ⟨none, none⟩)) a.block_ none
      rfl (by simp)
      (by intro b hy; cases hy) hcount ht
    intro k hk
    simp only [State.getS, r2]
    rw [getD_set _ _ _ _ (by simpa using hj)]
    split
    · rfl
    · rw [getD_set _ _ _ _ hi]
      split
      · rfl
      · exact hk

theorem SharedPtr.Swap_defined {s : State} (h : Inv s)
    (hb : s.sps.length + s.wps.length + 8 < sizeMod) {i j : Nat} {a o : SharedPtr}
    (hgi : s.getS i = some a) (hgj : s.getS j = some o) (n : Nat) :
    ∃ t, SharedPtr.Swap (n + 4) s i j = some t := by
  have hi := getD_some_lt hgi
  have hj := getD_some_lt hgj
  have e1 : SharedPtr.move s j = some ((s.pushS ⟨o.own_, o.block_⟩).setS j ⟨none, none⟩) := by
    simp [SharedPtr.move, hgj]
  obtain ⟨i1, l1, w1, g1⟩ := SharedPtr.move_inv h e1
  have live1 : ∀ k, (s.getS k).isSome = true →
      (((s.pushS ⟨o.own_, o.block_⟩).setS j ⟨none, none⟩).getS k).isSome = true := by
    intro k hk
    simp only [State.getS, State.pushS, State.setS]
    rw [getD_set _ _ _ _ (by simp; omega)]
    split
    · rfl
    · have hkl : k < s.sps.length := by
        cases hgk : s.getS k with
        | none => rw [hgk] at hk; cases hk
        | some v => exact getD_some_lt hgk
      rw [getD_push, if_neg (by omega)]; exact hk
  have hi1 := live1 i (by rw [hgi]; rfl)
  have hj1 := live1 j (by rw [hgj]; rfl)
  have ht1 : (((s.pushS ⟨o.own_, o.block_⟩).setS j ⟨none, none⟩).getS s.sps.length).isSome
      = true := by rw [g1, hgj]; rfl
  obtain ⟨aj, haj⟩ := Option.isSome_iff_exists.1 hj1
  obtain ⟨ai, hai⟩ := Option.isSome_iff_exists.1 hi1
  obtain ⟨s2, e2, live2⟩ := SharedPtr.moveAssign_defined i1 (by omega) haj hai n
  obtain ⟨i2, l2, w2⟩ := SharedPtr.moveAssign_inv i1 (by omega) e2
  obtain ⟨bi, hbi⟩ := Option.isSome_iff_exists.1 (live2 i hi1)
  obtain ⟨bt, hbt⟩ := Option.isSome_iff_exists.1 (live2 s.sps.length ht1)
  obtain ⟨s3, e3, live3⟩ := SharedPtr.moveAssign_defined i2 (by omega) hbi hbt n
  obtain ⟨i3, l3, w3⟩ := SharedPtr.moveAssign_inv i2 (by omega) e3
  obtain ⟨ct, hct⟩ := Option.isSome_iff_exists.1 (live3 s.sps.length (by rw [hbt]; rfl))
  obtain ⟨s4, e4⟩ := SharedPtr.dtor_defined i3 (by omega) hct n
  exact ⟨s4, by simp [SharedPtr.Swap, e1, e2, e3, e4]⟩

theorem SharedPtr.ResetPtr_defined {s : State} (h : Inv s)
    (hb : s.sps.length + s.wps.length + 6 < sizeMod) {i : Nat} {a : SharedPtr}
    (hg : s.getS i = some a) (ptr : Option Nat) (n : Nat) :
    ∃ t, SharedPtr.ResetPtr (n + 4) s i ptr = some t := by
  obtain ⟨t1, h1⟩ := HeapInv.releaseShared_returns (s := s.setS i ⟨ptr, a.block_⟩) (h.sps _)
    a.block_ (fun b hx => by
      have h0 := spCount_pos hg hx
      have := spCount_le b s.sps
      have := wpCount_le b s.wps
      exact ⟨h0, by omega⟩) n
  exact ⟨((t1.newBlock (BlockKind.clever ptr)).setS i ⟨ptr, some t1.nblocks⟩).incS t1.nblocks,
    by simp [SharedPtr.ResetPtr, hg, h1]⟩

theorem SharedPtr.CanConstruct_defined {s : State} (h : Inv s)
    (hb : s.sps.length + s.wps.length + 6 < sizeMod) {this b : Nat} {p : SharedPtr}
    (hg : s.getS this = some p) (hp : p.block_ = some b) (ptr : Option Nat) (cap : Bool)
    (hcap : ∀ o, ptr = some o → cap = true →
      (s.objs o).esft = true ∧ (s.objs o).self_.block_ = none) (n : Nat) :
    ∃ t, SharedPtr.CanConstruct (n + 1) s this ptr cap = some t := by
  unfold SharedPtr.CanConstruct
  cases cap with
  | false => exact ⟨s, by simp⟩
  | true =>
    simp only [if_true]
    have hc : (s.blocks b).cnt_ ≠ 0 := by
      rw [h.cnt b]; have := spCount_pos hg hp; omega
    have hlt : (s.blocks b).cnt_ + (s.blocks b).cntw_ + 3 < sizeMod := by
      rw [h.cnt b, h.cntw b]
      have := spCount_le b s.sps
      have := wpCount_le b s.wps
      have := emb_le s b
      omega
    cases ptr with
    | none =>
      obtain ⟨t', e, _⟩ := SharedPtr.AssignToSelf_none n hg hp hc hlt
      exact ⟨t', e⟩
    | some o =>
      obtain ⟨hes, h0⟩ := hcap o rfl rfl
      have h1 : (s.objs o).self1_.block_ = none := by rw [h.pair o hes]; exact h0
      obtain ⟨t', e, _⟩ := SharedPtr.AssignToSelf_some n (o := o) hg hp h0 h1 hlt
      exact ⟨t', e⟩

/-- The state in which `SharedPtr(ptr)` calls `CanConstruct`. -/
theorem SharedPtr.fromRaw_mid {s : State} (h : Inv s) {ptr : Option Nat} {cap : Bool}
    (hw : wrappable s ptr cap = true) :
    Inv { (s.newBlock (BlockKind.clever ptr)).pushS ⟨ptr, some s.nblocks⟩ with
      blocks := upd ((s.newBlock (BlockKind.clever ptr)).pushS ⟨ptr, some s.nblocks⟩).blocks
        s.nblocks { ((s.newBlock (BlockKind.clever ptr)).pushS ⟨ptr, some s.nblocks⟩).blocks
          s.nblocks with cnt_ := 1 } } := by
  refine HeapInv.newBlock (C := fun b => spCount b s.sps) h (BlockKind.clever ptr) ?_ ?_ ?_
    rfl rfl rfl ?_
  · intro o ho
    have : ptr = some o := ho
    subst this
    obtain ⟨w1, _, w3, w4, _⟩ := wrappable_spec h hw
    exact ⟨w1, w3, w4⟩
  · intro b e
    simp [State.newBlock, State.pushS, upd_ne _ _ e]
  · simp [State.newBlock, State.pushS]
  · intro b
    show spCount b (s.sps ++ [some ⟨ptr, some s.nblocks⟩]) = _
    rw [spCount_push]
    simp [eq_comm]

theorem SharedPtr.fromRaw_defined {s : State} (h : Inv s)
    (hb : s.sps.length + s.wps.length + 8 < sizeMod) {ptr : Option Nat} {cap : Bool}
    (hw : wrappable s ptr cap = true) (n : Nat) :
    ∃ t, SharedPtr.fromRaw (n + 1) s ptr cap = some t := by
  unfold SharedPtr.fromRaw
  simp only
  refine SharedPtr.CanConstruct_defined (SharedPtr.fromRaw_mid h hw)
    (by simp [State.pushS, State.newBlock]; omega)
    (b := s.nblocks) (p := ⟨ptr, some s.nblocks⟩) ?_ rfl ptr cap ?_ n
  · simp [State.getS, State.pushS, State.newBlock]
  · intro o ho hc
    subst ho
    obtain ⟨_, w2, _, _, w5⟩ := wrappable_spec h hw
    rw [hc] at w2
    exact ⟨w2, w5 w2⟩

/-- The state in which `MakeShared` calls `CanConstruct`. -/
theorem MakeShared_mid {s : State} (h : Inv s) (cap : Bool) :
    Inv ((((((s.pushS ⟨none, none⟩).newObj cap).newBlock (BlockKind.smart s.nobjs)).setS
      s.sps.length ⟨none, some s.nblocks⟩).incS s.nblocks).setS s.sps.length
      ⟨some s.nobjs, some s.nblocks⟩) := by
  have hfresh : ∀ b, (s.blocks b).payload ≠ some s.nobjs := by
    intro b hp
    have := (h.owned b _ hp).1
    omega
  refine HeapInv.newBlock (C := fun b => spCount b s.sps) (s := s.newObj cap) (h.newObj cap)
    (BlockKind.smart s.nobjs) ?_ ?_ ?_ rfl rfl rfl ?_
  · intro o ho
    have : s.nobjs = o := by simpa [Block.payload] using ho
    subst this
    exact ⟨by simp [State.newObj], by simp [State.newObj], hfresh⟩
  · intro b e
    have e' : b ≠ s.nblocks := e
    simp [State.newBlock, State.pushS, State.setS, State.incS, State.newObj, upd_ne _ _ e']
  · simp [State.newBlock, State.pushS, State.setS, State.incS, State.newObj]
    decide
  · intro b
    show spCount b (((s.sps ++ [some (SharedPtr.mk none none)]).set s.sps.length
      (some ⟨none, some s.nblocks⟩)).set s.sps.length (some ⟨some s.nobjs, some s.nblocks⟩)) = _
    have hg1 : (s.sps ++ [some (SharedPtr.mk none none)]).getD s.sps.length none =
        some ⟨none, none⟩ := by rw [getD_push, if_pos rfl]
    have c1 := spCount_set hg1 (some ⟨some s.nobjs, some s.nblocks⟩) b
    rw [spCount_push] at c1
    simp only [List.set_set]
    simp [State.newObj] at c1 ⊢
    simp only [eq_comm (a := b)]
    omega

theorem MakeShared_defined {s : State} (h : Inv s)
    (hb : s.sps.length + s.wps.length + 8 < sizeMod) (cap : Bool) (n : Nat) :
    ∃ t, MakeShared (n + 1) s cap = some t := by
  unfold MakeShared
  simp only
  refine SharedPtr.CanConstruct_defined (MakeShared_mid h cap)
    (by simp [State.pushS, State.newBlock, State.setS, State.incS, State.newObj]; omega)
    (b := s.nblocks) (p := ⟨some s.nobjs, some s.nblocks⟩) ?_ rfl (some s.nobjs) cap ?_ n
  · simp only [State.getS, State.pushS, State.newBlock, State.setS, State.incS, State.newObj]
    rw [getD_set _ _ _ _ (by simp)]
    simp
  · intro o ho hc
    cases ho
    simp [State.newBlock, State.pushS, State.setS, State.incS, State.newObj, hc]

theorem WeakPtr.weak_dtor_defined {s : State} (h : Inv s)
    (hb : s.sps.length + s.wps.length + 6 < sizeMod) {i : Nat} {a : WeakPtr}
    (hg : s.getW (WLoc.var i) = some a) (n : Nat) : ∃ t, WeakPtr.dtor (n + 4) s i = some t := by
  obtain ⟨t1, h1⟩ := HeapInv.releaseWeak_returns h a.block_ (fun b hx => by
    have h0 := wpCount_pos hg hx
    have := spCount_le b s.sps
    have := wpCount_le b s.wps
    exact ⟨h0, by omega⟩) n
  exact ⟨t1.killW i, by simp [WeakPtr.dtor, hg, h1]⟩

theorem WeakPtr.weak_Reset_defined {s : State} (h : Inv s)
    (hb : s.sps.length + s.wps.length + 6 < sizeMod) {i : Nat} {a : WeakPtr}
    (hg : s.getW (WLoc.var i) = some a) (n : Nat) : ∃ t, WeakPtr.Reset (n + 4) s i = some t := by
  cases hblk : a.block_ with
  | none => exact ⟨s, by simp [WeakPtr.Reset, hg, hblk]⟩
  | some b =>
    obtain ⟨t1, h1⟩ := HeapInv.releaseWeak_returns h (some b) (fun b' hx => by
      cases hx
      have h0 := wpCount_pos hg hblk
      have := spCount_le b s.sps
      have := wpCount_le b s.wps
      exact ⟨h0, by omega⟩) n
    exact ⟨t1.setW (WLoc.var i) ⟨none, none⟩, by simp [WeakPtr.Reset, hg, hblk, h1]⟩

theorem WeakPtr.weak_copyAssign_defined {s : State} (h : Inv s)
    (hb : s.sps.length + s.wps.length + 6 < sizeMod) {i j : Nat} {a o : WeakPtr}
    (hgi : s.getW (WLoc.var i) = some a) (hgj : s.getW (WLoc.var j) = some o) (n : Nat) :
    ∃ t, WeakPtr.copyAssign (n + 4) s (WLoc.var i) (WLoc.var j) = some t := by
  unfold WeakPtr.copyAssign
  simp only [hgi, hgj]
  by_cases e : o.block_ = a.block_
  · exact ⟨s, by rw [if_pos e]⟩
  · rw [if_neg e]
    have h2 := h.rebindW_heap hb (s.wps.set i (some ⟨o.own_, o.block_⟩)) a.block_ o.block_
      (u := match o.block_ with
        | some b => (s.setW (WLoc.var i) ⟨o.own_, o.block_⟩).incW b
        | none => s.setW (WLoc.var i) ⟨o.own_, o.block_⟩)
      (by cases o.block_ <;> rfl)
      (fun b hy => Or.inr (wpCount_pos hgj hy))
      (fun b => by
        have := wpCount_set hgi (some ⟨o.own_, o.block_⟩) b
        simpa using this)
    exact h2.releaseWeak_returns a.block_ (fun b hx => by
      have hle := wpCount_le b (s.wps.set i (some ⟨o.own_, o.block_⟩))
      have := spCount_le b s.sps
      simp only [List.length_set] at hle
      simp only [hx, if_true]
      omega) n

theorem WeakPtr.weak_moveAssign_defined {s : State} (h : Inv s)
    (hb : s.sps.length + s.wps.length + 6 < sizeMod) {i j : Nat} {a o : WeakPtr}
    (hgi : s.getW (WLoc.var i) = some a) (hgj : s.getW (WLoc.var j) = some o) (n : Nat) :
    ∃ t, WeakPtr.moveAssign (n + 4) s i j = some t ∧
      ∀ k, (s.getW (WLoc.var k)).isSome = true → (t.getW (WLoc.var k)).isSome = true := by
  unfold WeakPtr.moveAssign
  simp only [hgi, hgj]
  by_cases e : o.block_ = a.block_
  · exact ⟨s, by rw [if_pos e], fun _ hk => hk⟩
  · rw [if_neg e]
    have hij : j ≠ i := by
      intro e'; subst e'; rw [hgi] at hgj; cases hgj; exact e rfl
    have hi := getD_some_lt hgi
    have hj := getD_some_lt hgj
    have hgj' : (s.wps.set i (some (WeakPtr.mk o.own_ o.block_))).getD j none = some o := by
      rw [getD_set _ _ _ _ hi, if_neg hij]; exact hgj
    have hc1 := fun b => wpCount_set hgi (some ⟨o.own_, o.block_⟩) b
    have hc2 := fun b => wpCount_set hgj' (some ⟨none, none⟩) b
    have h2 : HeapInv (s.setW (WLoc.var i) ⟨o.own_, o.block_⟩)
        (fun b => spCount b s.sps)
        (fun b => wpCount b ((s.wps.set i (some ⟨o.own_, o.block_⟩)).set j
          (some ⟨none, none⟩)) + if a.block_ = some b then 1 else 0) := by
      refine HeapInv.congr (h.wps _) (fun _ => rfl) ?_
      intro b
      have h1 := hc1 b
      have h2 := hc2 b
      simp at h1 h2 ⊢
      omega
    have hx : ∀ b, a.block_ = some b →
        0 < wpCount b ((s.wps.set i (some ⟨o.own_, o.block_⟩)).set j
          (some ⟨none, none⟩)) + (if a.block_ = some b then 1 else 0) ∧
        spCount b s.sps + (wpCount b ((s.wps.set i (some ⟨o.own_, o.block_⟩)).set j
          (some ⟨none, none⟩)) + (if a.block_ = some b then 1 else 0)) + 3 < sizeMod := by
      intro b hx
      have hle := wpCount_le b ((s.wps.set i (some ⟨o.own_, o.block_⟩)).set j
        (some ⟨none, none⟩))
      have := spCount_le b s.sps
      simp only [List.length_set] at hle
      simp only [hx, if_true]
      omega
    obtain ⟨t1, ht1⟩ := h2.releaseWeak_returns a.block_ hx n
    refine ⟨t1.setW (WLoc.var j) ⟨none, none⟩, by rw [ht1]; rfl, ?_⟩
    obtain ⟨_, _, r3, _⟩ := h2.releaseWeak_eq a.block_ (fun b' => rfl) (fun b _ => by
      have := spCount_le b s.sps
      have := wpCount_le b ((s.wps.set i (some ⟨o.own_, o.block_⟩)).set j
          (some ⟨none, none⟩))
      simp only [List.length_set] at this
      omega) ht1
    intro k hk
    simp only [State.getW, State.setW, r3]
    rw [getD_set _ _ _ _ (by simpa using hj)]
    split
    · rfl
    · rw [getD_set _ _ _ _ hi]
      split
      · rfl
      · exact hk

theorem WeakPtr.weak_Swap_defined {s : State} (h : Inv s)
    (hb : s.sps.length + s.wps.length + 8 < sizeMod) {i j : Nat} {a o : WeakPtr}
    (hgi : s.getW (WLoc.var i) = some a) (hgj : s.getW (WLoc.var j) = some o) (n : Nat) :
    ∃ t, WeakPtr.Swap (n + 4) s i j = some t := by
  have hi := getD_some_lt hgi
  have hj := getD_some_lt hgj
  have e1 : WeakPtr.move s j =
      some ((s.pushW ⟨o.own_, o.block_⟩).setW (WLoc.var j) ⟨none, none⟩) := by
    simp [WeakPtr.move, hgj]
  obtain ⟨i1, l1, w1⟩ := WeakPtr.weak_move_inv h e1
  have live1 : ∀ k, (s.getW (WLoc.var k)).isSome = true →
      (((s.pushW ⟨o.own_, o.block_⟩).setW (WLoc.var j) ⟨none, none⟩).getW
        (WLoc.var k)).isSome = true := by
    intro k hk
    simp only [State.getW, State.pushW, State.setW]
    rw [getD_set _ _ _ _ (by simp; omega)]
    split
    · rfl
    · have hkl : k < s.wps.length := by
        cases hgk : s.getW (WLoc.var k) with
        | none => rw [hgk] at hk; cases hk
        | some v => exact getD_some_lt hgk
      rw [getD_push, if_neg (by omega)]; exact hk
  have hi1 := live1 i (by rw [hgi]; rfl)
  have hj1 := live1 j (by rw [hgj]; rfl)
  have ht1 : (((s.pushW ⟨o.own_, o.block_⟩).setW (WLoc.var j) ⟨none, none⟩).getW
      (WLoc.var s.wps.length)).isSome = true := by
    simp only [State.getW, State.pushW, State.setW]
    rw [getD_set _ _ _ _ (by simp; omega), if_neg (by omega), getD_push, if_pos rfl]; rfl
  obtain ⟨aj, haj⟩ := Option.isSome_iff_exists.1 hj1
  obtain ⟨ai, hai⟩ := Option.isSome_iff_exists.1 hi1
  obtain ⟨s2, e2, live2⟩ := WeakPtr.weak_moveAssign_defined i1 (by omega) haj hai n
  obtain ⟨i2, l2, w2⟩ := WeakPtr.weak_moveAssign_inv i1 (by omega) e2
  obtain ⟨bi, hbi⟩ := Option.isSome_iff_exists.1 (live2 i hi1)
  obtain ⟨bt, hbt⟩ := Option.isSome_iff_exists.1 (live2 s.wps.length ht1)
  obtain ⟨s3, e3, live3⟩ := WeakPtr.weak_moveAssign_defined i2 (by omega) hbi hbt n
  obtain ⟨i3, l3, w3⟩ := WeakPtr.weak_moveAssign_inv i2 (by omega) e3
  obtain ⟨ct, hct⟩ := Option.isSome_iff_exists.1 (live3 s.wps.length (by rw [hbt]; rfl))
  obtain ⟨s4, e4⟩ := WeakPtr.weak_dtor_defined i3 (by omega) hct n
  exact ⟨s4, by simp [WeakPtr.Swap, e1, e2, e3, e4]⟩

/-- Progress: in a state that satisfies the invariant and is within the address
space bound, every operation that may be called returns a state, whatever fuel
at least four it is given. -/
theorem perform_returns {s : State} (h : Inv s)
    (hb : s.sps.length + s.wps.length + 8 < sizeMod) {op : Op}
    (hd : Op.defined s op = true) (n : Nat) : ∃ t, perform (n + 4) s op = some t := by
  have hb6 : s.sps.length + s.wps.length + 6 < sizeMod := by omega
  cases op with
  | newPayload cap => exact ⟨_, rfl⟩
  | spDefault => exact ⟨_, rfl⟩
  | spRaw ptr cap =>
    have hw : wrappable s ptr cap = true := hd
    simp only [perform, hw, if_true]
    exact SharedPtr.fromRaw_defined h hb hw (n + 3)
  | makeShared cap => exact MakeShared_defined h hb cap (n + 3)
  | spCopy other =>
    obtain ⟨a, ha⟩ := Option.isSome_iff_exists.1 hd
    simp only [perform, SharedPtr.copy, ha]
    cases a.block_ <;> exact ⟨_, rfl⟩
  | spMove other =>
    obtain ⟨a, ha⟩ := Option.isSome_iff_exists.1 hd
    simp only [perform, SharedPtr.move, ha]
    exact ⟨_, rfl⟩
  | spAlias other ptr =>
    obtain ⟨a, ha⟩ := Option.isSome_iff_exists.1 hd
    simp only [perform, SharedPtr.aliasing, ha]
    cases a.block_ <;> exact ⟨_, rfl⟩
  | spFromWeak other =>
    obtain ⟨a, ha⟩ := Option.isSome_iff_exists.1 hd
    simp only [perform, SharedPtr.fromWeak, ha]
    cases a.block_ with
    | none => exact ⟨_, rfl⟩
    | some b =>
      dsimp only
      split <;> exact ⟨_, rfl⟩
  | spAssign this other =>
    simp only [Op.defined, Bool.and_eq_true] at hd
    obtain ⟨a, ha⟩ := Option.isSome_iff_exists.1 hd.1
    obtain ⟨o, ho⟩ := Option.isSome_iff_exists.1 hd.2
    exact SharedPtr.copyAssign_defined h hb6 ha ho n
  | spMoveAssign this other =>
    simp only [Op.defined, Bool.and_eq_true] at hd
    obtain ⟨a, ha⟩ := Option.isSome_iff_exists.1 hd.1
    obtain ⟨o, ho⟩ := Option.isSome_iff_exists.1 hd.2
    obtain ⟨t, ht, _⟩ := SharedPtr.moveAssign_defined h hb6 ha ho n
    exact ⟨t, ht⟩
  | spReset this =>
    obtain ⟨a, ha⟩ := Option.isSome_iff_exists.1 hd
    exact SharedPtr.Reset_defined h hb6 ha n
  | spResetPtr this ptr cap =>
    simp only [Op.defined, Bool.and_eq_true] at hd
    obtain ⟨a, ha⟩ := Option.isSome_iff_exists.1 hd.1
    simp only [perform, hd.2, if_true]
    exact SharedPtr.ResetPtr_defined h hb6 ha ptr n
  | spSwap this other =>
    simp only [Op.defined, Bool.and_eq_true] at hd
    obtain ⟨a, ha⟩ := Option.isSome_iff_exists.1 hd.1
    obtain ⟨o, ho⟩ := Option.isSome_iff_exists.1 hd.2
    exact SharedPtr.Swap_defined h hb ha ho n
  | spDtor this =>
    obtain ⟨a, ha⟩ := Option.isSome_iff_exists.1 hd
    exact SharedPtr.dtor_defined h hb6 ha n
  | wpDefault => exact ⟨_, rfl⟩
  | wpCopy other =>
    obtain ⟨a, ha⟩ := Option.isSome_iff_exists.1 hd
    simp only [perform, WeakPtr.copy, ha]
    cases a.block_ <;> exact ⟨_, rfl⟩
  | wpMove other =>
    obtain ⟨a, ha⟩ := Option.isSome_iff_exists.1 hd
    simp only [perform, WeakPtr.move, ha]
    exact ⟨_, rfl⟩
  | wpFromShared other =>
    obtain ⟨a, ha⟩ := Option.isSome_iff_exists.1 hd
    simp only [perform, WeakPtr.fromShared, ha]
    cases a.block_ <;> exact ⟨_, rfl⟩
  | wpAssign this other =>
    simp only [Op.defined, Bool.and_eq_true] at hd
    obtain ⟨a, ha⟩ := Option.isSome_iff_exists.1 hd.1
    obtain ⟨o, ho⟩ := Option.isSome_iff_exists.1 hd.2
    exact WeakPtr.weak_copyAssign_defined h hb6 ha ho n
  | wpMoveAssign this other =>
    simp only [Op.defined, Bool.and_eq_true] at hd
    obtain ⟨a, ha⟩ := Option.isSome_iff_exists.1 hd.1
    obtain ⟨o, ho⟩ := Option.isSome_iff_exists.1 hd.2
    obtain ⟨t, ht, _⟩ := WeakPtr.weak_moveAssign_defined h hb6 ha ho n
    exact ⟨t, ht⟩
  | wpReset this =>
    obtain ⟨a, ha⟩ := Option.isSome_iff_exists.1 hd
    exact WeakPtr.weak_Reset_defined h hb6 ha n
  | wpSwap this other =>
    simp only [Op.defined, Bool.and_eq_true] at hd
    obtain ⟨a, ha⟩ := Option.isSome_iff_exists.1 hd.1
    obtain ⟨o, ho⟩ := Option.isSome_iff_exists.1 hd.2
    exact WeakPtr.weak_Swap_defined h hb ha ho n
  | wpDtor this =>
    obtain ⟨a, ha⟩ := Option.isSome_iff_exists.1 hd
    exact WeakPtr.weak_dtor_defined h hb6 ha n
  | wpLock this =>
    obtain ⟨a, ha⟩ := Option.isSome_iff_exists.1 hd
    simp only [perform, WeakPtr.Lock, ha]
    cases (WeakPtr.lockTarget s a).block_ <;> exact ⟨_, rfl⟩
  | sharedFromThis o =>
    simp only [Op.defined, Bool.and_eq_true, decide_eq_true_eq, beq_iff_eq] at hd
    obtain ⟨⟨h1, h2⟩, h3⟩ := hd
    simp only [perform, h3, if_true, EnableSharedFromThis.SharedFromThis, h1, h2, and_self,
      WeakPtr.Lock, State.getW]
    cases (WeakPtr.lockTarget s (s.objs o).self_).block_ <;> exact ⟨_, rfl⟩
  | sharedFromThisConst o =>
    simp only [Op.defined, Bool.and_eq_true, decide_eq_true_eq, beq_iff_eq] at hd
    obtain ⟨⟨h1, h2⟩, h3⟩ := hd
    simp only [perform, h3, if_true, EnableSharedFromThis.SharedFromThisConst, h1, h2, and_self,
      WeakPtr.Lock, State.getW]
    cases (WeakPtr.lockTarget s (s.objs o).self1_).block_ <;> exact ⟨_, rfl⟩
  | weakFromThis o =>
    simp only [Op.defined, Bool.and_eq_true, decide_eq_true_eq, beq_iff_eq] at hd
    obtain ⟨⟨h1, h2⟩, h3⟩ := hd
    simp only [perform, h3, if_true, EnableSharedFromThis.WeakFromThis, h1, h2, and_self,
      WeakPtr.copy, State.getW]
    cases (s.objs o).self_.block_ <;> exact ⟨_, rfl⟩
  | weakFromThisConst o =>
    simp only [Op.defined, Bool.and_eq_true, decide_eq_true_eq, beq_iff_eq] at hd
    obtain ⟨⟨h1, h2⟩, h3⟩ := hd
    simp only [perform, h3, if_true, EnableSharedFromThis.WeakFromThisConst, h1, h2, and_self,
      WeakPtr.copy, State.getW]
    cases (s.objs o).self1_.block_ <;> exact ⟨_, rfl⟩

/-- Progress for client programs: from a reachable state within the address space
bound, every operation that may be called returns, for any fuel at least four. -/
theorem exec_returns {s : State} (hr : Reachable s) (hb : inBudget s = true) {op : Op}
    (hd : Op.defined s op = true) (n : Nat) : ∃ t, exec (n + 4) s op = some t := by
  unfold exec
  rw [if_pos hb]
  exact perform_returns hr.inv (inBudget_spec hb) hd n

/-! ## What a release leaves alone -/

theorem Frame.nothing (s : State) : Frame s s :=
  ⟨rfl, rfl, rfl, rfl, fun _ => rfl, fun _ => rfl, fun _ => rfl, fun _ => rfl⟩

theorem Frame.both {s t u : State} (h1 : Frame s t) (h2 : Frame t u) : Frame s u :=
  ⟨h2.sps.trans h1.sps, h2.wps.trans h1.wps, h2.nblocks.trans h1.nblocks,
    h2.nobjs.trans h1.nobjs, fun b => (h2.kind b).trans (h1.kind b),
    fun o => (h2.esft o).trans (h1.esft o), fun o => (h2.self_ o).trans (h1.self_ o),
    fun o => (h2.self1_ o).trans (h1.self1_ o)⟩

theorem Frame.also_decS {s t : State} (h : Frame s t) (b : Nat) : Frame s (t.decS b) :=
  h.both ⟨rfl, rfl, rfl, rfl,
    fun b' => by simp only [State.decS, upd_apply]; split <;> simp_all,
    fun _ => rfl, fun _ => rfl, fun _ => rfl⟩

theorem Frame.also_decW {s t : State} (h : Frame s t) (b : Nat) : Frame s (t.decW b) :=
  h.both ⟨rfl, rfl, rfl, rfl,
    fun b' => by simp only [State.decW, upd_apply]; split <;> simp_all,
    fun _ => rfl, fun _ => rfl, fun _ => rfl⟩

theorem Frame.also_setOk {s t : State} (h : Frame s t) (b : Nat) : Frame s (t.setOk b) :=
  h.both ⟨rfl, rfl, rfl, rfl,
    fun b' => by simp only [State.setOk, upd_apply]; split <;> simp_all,
    fun _ => rfl, fun _ => rfl, fun _ => rfl⟩

theorem Frame.also_free {s t : State} (h : Frame s t) (b : Nat) : Frame s (t.free b) :=
  h.both ⟨rfl, rfl, rfl, rfl,
    fun b' => by simp only [State.free, upd_apply]; split <;> simp_all,
    fun _ => rfl, fun _ => rfl, fun _ => rfl⟩

theorem Frame.also_bumpDtor {s t : State} (h : Frame s t) (o : Nat) :
    Frame s (t.bumpDtor o) :=
  h.both ⟨rfl, rfl, rfl, rfl, fun _ => rfl,
    fun o' => by simp only [State.bumpDtor, upd_apply]; split <;> simp_all,
    fun o' => by simp only [State.bumpDtor, upd_apply]; split <;> simp_all,
    fun o' => by simp only [State.bumpDtor, upd_apply]; split <;> simp_all⟩

theorem frame_fuel : ∀ f,
    (∀ s b t, deleteBlock f s b = some t → Frame s t) ∧
    (∀ s o t, destroyPayload f s o = some t → Frame s t) ∧
    (∀ s x t, releaseWeak f s x = some t → Frame s t) := by
  intro f
  induction f with
  | zero =>
    refine ⟨fun s b t h => ?_, fun s o t h => ?_, fun s x t h => ?_⟩
    · simp [deleteBlock] at h
    · simp [destroyPayload] at h
    · simp [releaseWeak] at h
  | succ n ih =>
    obtain ⟨ih1, ih2, ih3⟩ := ih
    refine ⟨?_, ?_, ?_⟩
    · intro s b t h
      rw [deleteBlock] at h
      cases hk : (s.blocks b).kind with
      | clever ptr =>
        simp only [hk] at h
        cases hok : (s.blocks b).ok_ with
        | true =>
          simp only [hok, Bool.not_true, Bool.false_eq_true, if_false, Option.some.injEq] at h
          subst h; exact (Frame.nothing s).also_free b
        | false =>
          simp only [hok] at h
          cases ptr with
          | none =>
            simp only [Bool.not_false, if_true, Option.some.injEq] at h
            subst h; exact ((Frame.nothing s).also_setOk b).also_free b
          | some o =>
            simp only [Bool.not_false, if_true, Option.map_eq_some'] at h
            obtain ⟨a, ha, rfl⟩ := h
            exact (((Frame.nothing s).also_setOk b).both (ih2 _ _ _ ha)).also_free b
      | smart o =>
        simp only [hk] at h
        cases hok : (s.blocks b).ok_ with
        | true =>
          simp only [hok, Bool.not_true, Bool.false_eq_true, if_false, Option.some.injEq] at h
          subst h; exact (Frame.nothing s).also_free b
        | false =>
          simp only [hok, Bool.not_false, if_true, Option.map_eq_some'] at h
          obtain ⟨a, ha, rfl⟩ := h
          exact (ih2 _ _ _ ha).also_free b
    · intro s o t h
      rw [destroyPayload] at h
      by_cases he : (s.objs o).esft = true
      · simp only [he, if_true, Option.bind_eq_some] at h
        obtain ⟨a, ha, hat⟩ := h
        exact (((Frame.nothing s).also_bumpDtor o).both (ih3 _ _ _ ha)).both (ih3 _ _ _ hat)
      · simp only [he, Bool.false_eq_true, if_false, Option.some.injEq] at h
        subst h; exact (Frame.nothing s).also_bumpDtor o
    · intro s x t h
      cases x with
      | none =>
        simp only [releaseWeak, Option.some.injEq] at h
        subst h; exact Frame.nothing s
      | some b =>
        rw [releaseWeak] at h
        split at h
        · exact ((Frame.nothing s).also_decW b).both (ih1 _ _ _ h)
        · simp only [Option.some.injEq] at h
          subst h; exact (Frame.nothing s).also_decW b

theorem Frame.also_releaseShared {s t u : State} (h : Frame s t) {f : Nat} {x : Option Nat}
    (he : SharedWeak.releaseShared f t x = some u) : Frame s u := by
  cases x with
  | none =>
    simp only [SharedWeak.releaseShared, Option.some.injEq] at he
    subst he; exact h
  | some b =>
    unfold SharedWeak.releaseShared at he
    simp only at he
    split at he
    · exact (h.also_decS b).both ((frame_fuel f).1 _ _ _ he)
    · split at he
      · unfold Del at he
        cases hk : ((t.decS b).blocks b).kind with
        | clever ptr =>
          simp only [hk] at he
          split at he
          · cases ptr with
            | none =>
              simp only [Option.some.injEq] at he
              subst he; exact (h.also_decS b).also_setOk b
            | some o =>
              exact ((h.also_decS b).also_setOk b).both ((frame_fuel f).2.1 _ _ _ he)
          · simp only [Option.some.injEq] at he
            subst he; exact h.also_decS b
        | smart o =>
          simp only [hk] at he
          exact ((h.also_decS b).also_setOk b).both ((frame_fuel f).2.1 _ _ _ he)
      · simp only [Option.some.injEq] at he
        subst he; exact h.also_decS b

/-! ## Operations that leave the weak members of the payloads alone -/

/-- The state `CanConstruct(ptr)` returns, whatever fuel produced it. -/
theorem SharedPtr.CanConstruct_shape {s t : State} (h : Inv s)
    (hb : s.sps.length + s.wps.length + 6 < sizeMod) {this b : Nat} {p : SharedPtr}
    (hg : s.getS this = some p) (hp : p.block_ = some b) (ptr : Option Nat) (cap : Bool)
    (hcap : ∀ o, ptr = some o → cap = true →
      (s.objs o).esft = true ∧ (s.objs o).self_.block_ = none)
    {f : Nat} (he : SharedPtr.CanConstruct f s this ptr cap = some t) :
    t.sps = s.sps ∧ t.wps = (if cap = true then s.wps ++ [none] else s.wps) ∧
      t.nblocks = s.nblocks ∧ t.nobjs = s.nobjs ∧
      (∀ b', b' ≠ b → t.blocks b' = s.blocks b') ∧
      t.blocks b = { s.blocks b with
        cntw_ := (s.blocks b).cntw_ + if cap = true ∧ ptr ≠ none then 2 else 0 } ∧
      (∀ o', ptr ≠ some o' → t.objs o' = s.objs o') ∧
      (∀ o, ptr = some o → t.objs o =
        if cap = true then { s.objs o with self_ := ⟨p.own_, some b⟩, self1_ := ⟨p.own_, some b⟩ }
        else s.objs o) := by
  unfold SharedPtr.CanConstruct at he
  cases cap with
  | false =>
    simp only [Bool.false_eq_true, if_false, Option.some.injEq] at he
    subst he
    simp
  | true =>
    simp only [if_true] at he
    cases f with
    | zero => rw [SharedPtr.AssignToSelf_zero] at he; cases he
    | succ n =>
      have hc : (s.blocks b).cnt_ ≠ 0 := by
        rw [h.cnt b]; have := spCount_pos hg hp; omega
      have hlt : (s.blocks b).cnt_ + (s.blocks b).cntw_ + 3 < sizeMod := by
        rw [h.cnt b, h.cntw b]
        have := spCount_le b s.sps
        have := wpCount_le b s.wps
        have := emb_le s b
        omega
      cases ptr with
      | none =>
        obtain ⟨t', e, r1, r2, r3, r4, r5, r6⟩ := SharedPtr.AssignToSelf_none n hg hp hc hlt
        rw [e] at he; cases he
        refine ⟨r1, by simpa using r2, r3, r4, fun b' _ => by rw [r5], by simp [r5],
          fun o' _ => by rw [r6], fun o ho => by cases ho⟩
      | some o =>
        obtain ⟨hes, h0⟩ := hcap o rfl rfl
        have h1 : (s.objs o).self1_.block_ = none := by rw [h.pair o hes]; exact h0
        obtain ⟨t', e, r1, r2, r3, r4, r5, r6, r7, r8⟩ :=
          SharedPtr.AssignToSelf_some n (o := o) hg hp h0 h1 hlt
        rw [e] at he; cases he
        refine ⟨r1, by simpa using r2, r3, r4, r5, by simpa using r6, ?_, ?_⟩
        · intro o' ho'
          exact r7 o' (fun e => ho' (by rw [e]))
        · intro o' ho'
          cases ho'
          simpa using r8

/-- The state `SharedPtr(ptr)` returns, whatever fuel produced it. -/
theorem SharedPtr.fromRaw_shape {s t : State} (h : Inv s)
    (hb : s.sps.length + s.wps.length + 8 < sizeMod) {ptr : Option Nat} {cap : Bool}
    (hw : wrappable s ptr cap = true) {f : Nat}
    (he : SharedPtr.fromRaw f s ptr cap = some t) :
    t.sps = s.sps ++ [some ⟨ptr, some s.nblocks⟩] ∧
      t.wps = (if cap = true then s.wps ++ [none] else s.wps) ∧
      t.nblocks = s.nblocks + 1 ∧ t.nobjs = s.nobjs ∧
      (∀ b', b' ≠ s.nblocks → t.blocks b' = s.blocks b') ∧
      t.blocks s.nblocks =
        Block.mk 1 (if cap = true ∧ ptr ≠ none then 2 else 0) false (BlockKind.clever ptr) 0 ∧
      (∀ o', ptr ≠ some o' → t.objs o' = s.objs o') ∧
      (∀ o, ptr = some o → t.objs o =
        if cap = true then
          { s.objs o with self_ := ⟨ptr, some s.nblocks⟩, self1_ := ⟨ptr, some s.nblocks⟩ }
        else s.objs o) := by
  unfold SharedPtr.fromRaw at he
  simp only at he
  obtain ⟨r1, r2, r3, r4, r5, r6, r7, r8⟩ := SharedPtr.CanConstruct_shape
    (SharedPtr.fromRaw_mid h hw) (by simp [State.pushS, State.newBlock]; omega)
    (b := s.nblocks) (p := ⟨ptr, some s.nblocks⟩)
    (by simp [State.getS, State.pushS, State.newBlock]) rfl ptr cap (by
      intro o ho hc
      subst ho
      obtain ⟨_, w2, _, _, w5⟩ := wrappable_spec h hw
      rw [hc] at w2
      exact ⟨w2, w5 w2⟩) he
  refine ⟨by simpa [State.pushS, State.newBlock] using r1,
    by simpa [State.pushS, State.newBlock] using r2,
    by simpa [State.pushS, State.newBlock] using r3,
    by simpa [State.pushS, State.newBlock] using r4, ?_, ?_, ?_, ?_⟩
  · intro b' e
    rw [r5 b' e]
    simp [State.pushS, State.newBlock, upd_ne _ _ e]
  · rw [r6]
    simp [State.pushS, State.newBlock]
  · intro o' ho'
    rw [r7 o' ho']
    simp [State.pushS, State.newBlock]
  · intro o ho
    rw [r8 o ho]
    simp [State.pushS, State.newBlock]

/-- The state `MakeShared<X>()` returns, whatever fuel produced it. -/
theorem MakeShared_shape {s t : State} (h : Inv s)
    (hb : s.sps.length + s.wps.length + 8 < sizeMod) {cap : Bool} {f : Nat}
    (he : MakeShared f s cap = some t) :
    t.sps = s.sps ++ [some ⟨some s.nobjs, some s.nblocks⟩] ∧
      t.wps = (if cap = true then s.wps ++ [none] else s.wps) ∧
      t.nblocks = s.nblocks + 1 ∧ t.nobjs = s.nobjs + 1 ∧
      (∀ b', b' ≠ s.nblocks → t.blocks b' = s.blocks b') ∧
      t.blocks s.nblocks =
        Block.mk 1 (if cap = true then 2 else 0) false (BlockKind.smart s.nobjs) 0 ∧
      (∀ o', o' ≠ s.nobjs → t.objs o' = s.objs o') ∧
      t.objs s.nobjs =
        (if cap = true then
          Payload.mk true ⟨some s.nobjs, some s.nblocks⟩ ⟨some s.nobjs, some s.nblocks⟩ 0
        else Payload.mk false ⟨none, none⟩ ⟨none, none⟩ 0) := by
  unfold MakeShared at he
  simp only at he
  have hfr := h.fresh s.nblocks (Nat.le_refl _)
  obtain ⟨r1, r2, r3, r4, r5, r6, r7, r8⟩ := SharedPtr.CanConstruct_shape
    (MakeShared_mid h cap)
    (by simp [State.pushS, State.newBlock, State.setS, State.incS, State.newObj]; omega)
    (b := s.nblocks) (p := ⟨some s.nobjs, some s.nblocks⟩) (by
      simp only [State.getS, State.pushS, State.newBlock, State.setS, State.incS, State.newObj]
      rw [getD_set _ _ _ _ (by simp)]
      simp) rfl (some s.nobjs) cap (by
      intro o ho hc
      cases ho
      simp [State.newBlock, State.pushS, State.setS, State.incS, State.newObj, hc]) he
  refine ⟨?_, by simpa [State.pushS, State.newBlock, State.setS, State.incS, State.newObj] using r2,
    by simpa [State.pushS, State.newBlock, State.setS, State.incS, State.newObj] using r3,
    by simpa [State.pushS, State.newBlock, State.setS, State.incS, State.newObj] using r4,
    ?_, ?_, ?_, ?_⟩
  · rw [r1]
    simp [State.pushS, State.newBlock, State.setS, State.incS, State.newObj]
  · intro b' e
    rw [r5 b' e]
    simp [State.pushS, State.newBlock, State.setS, State.incS, State.newObj, upd_ne _ _ e]
  · rw [r6]
    simp [State.pushS, State.newBlock, State.setS, State.incS, State.newObj, inc]
    decide
  · intro o' ho'
    rw [r7 o' (fun e => ho' (by cases e; rfl))]
    simp [State.pushS, State.newBlock, State.setS, State.incS, State.newObj, upd_ne _ _ ho']
  · rw [r8 _ rfl]
    cases cap <;> simp [State.pushS, State.newBlock, State.setS, State.incS, State.newObj]

/-! ## The hookup of `MakeShared` stays in place -/

theorem WeakOnly.idle (s : State) : WeakOnly s s :=
  ⟨rfl, rfl, rfl, rfl, fun _ => rfl⟩

theorem WeakOnly.chain {s t u : State} (h1 : WeakOnly s t) (h2 : WeakOnly t u) : WeakOnly s u :=
  ⟨h2.sps.trans h1.sps, h2.objs.trans h1.objs, h2.nobjs.trans h1.nobjs,
    h2.nblocks.trans h1.nblocks, fun b => by rw [h2.blocks b, h1.blocks b]⟩

/-- A change of the weak pointer variables only. -/
theorem WeakOnly.of_wps {s t : State} (h : WeakOnly s t) (l : List (Option WeakPtr)) :
    WeakOnly s { t with wps := l } :=
  h.chain ⟨rfl, rfl, rfl, rfl, fun _ => rfl⟩

theorem WeakOnly.plus_incW {s t : State} (h : WeakOnly s t) (b : Nat) : WeakOnly s (t.incW b) :=
  h.chain ⟨rfl, rfl, rfl, rfl, fun b' => by
    simp only [State.incW, upd_apply]; split <;> simp_all⟩

theorem WeakOnly.plus_decW {s t : State} (h : WeakOnly s t) (b : Nat) : WeakOnly s (t.decW b) :=
  h.chain ⟨rfl, rfl, rfl, rfl, fun b' => by
    simp only [State.decW, upd_apply]; split <;> simp_all⟩

theorem WeakOnly.plus_free {s t : State} (h : WeakOnly s t) (b : Nat) : WeakOnly s (t.free b) :=
  h.chain ⟨rfl, rfl, rfl, rfl, fun b' => by
    simp only [State.free, upd_apply]; split <;> simp_all⟩

/-- The state a weak release returns on a consistent heap: `cntw_` is one
less, and the block is freed when that leaves both counters `0`. -/
theorem HeapInv.releaseWeak_state {s t : State} {C V : Nat → Nat} (h : HeapInv s C V)
    (b : Nat) (h0 : 0 < V b) (hlt : C b + V b + 3 < sizeMod) {f : Nat}
    (he : SharedWeak.releaseWeak f s (some b) = some t) :
    t = if (s.blocks b).cnt_ = 0 ∧ (s.blocks b).cntw_ = 1 then (s.decW b).free b
      else s.decW b := by
  have hc := h.cnt b
  have hw := h.cntw b
  have hle := emb_le s b
  have hlt' : b < s.nblocks := h.lt_of_cnt (Or.inr (by omega))
  have hfr := h.freed b hlt'
  have hfr0 : (s.blocks b).freed = 0 := by rw [hfr]; simp; omega
  have hok := h.ok b hlt' hfr0
  have d1 : dec (s.blocks b).cntw_ = (s.blocks b).cntw_ - 1 := dec_eq (by omega) (by omega)
  have e : SharedWeak.releaseWeak (f + 2) s (some b) =
      some (if (s.blocks b).cnt_ = 0 ∧ (s.blocks b).cntw_ = 1 then (s.decW b).free b
        else s.decW b) := by
    rw [SharedWeak.releaseWeak]
    by_cases hz : (s.blocks b).cnt_ = 0 ∧ (s.blocks b).cntw_ = 1
    · have z : sumZero ((s.decW b).blocks b).cntw_ ((s.decW b).blocks b).cnt_ = true := by
        simp only [State.decW, upd_same]
        rw [d1, hz.1, hz.2]; decide
      rw [if_pos z, if_pos hz, deleteBlock_ok f _ b (by simpa [State.decW] using hok.2 hz.1)]
    · have z : sumZero ((s.decW b).blocks b).cntw_ ((s.decW b).blocks b).cnt_ = false := by
        simp only [State.decW, upd_same, d1]
        exact sumZero_false (by omega) (by omega)
      rw [z, if_neg hz]
      simp
  have := releaseWeak_mono 2 he
  rw [e] at this
  exact (Option.some.inj this).symm

/-- A weak release on a consistent heap touches only `cntw_` and block memory. -/
theorem HeapInv.releaseWeak_only {s t : State} {C V : Nat → Nat} (h : HeapInv s C V)
    (x : Option Nat) (hx : ∀ b, x = some b → 0 < V b ∧ C b + V b + 3 < sizeMod) {f : Nat}
    (he : SharedWeak.releaseWeak f s x = some t) : WeakOnly s t := by
  cases x with
  | none =>
    cases f with
    | zero => simp [SharedWeak.releaseWeak] at he
    | succ f =>
      simp only [SharedWeak.releaseWeak, Option.some.injEq] at he
      subst he; exact WeakOnly.idle s
  | some b =>
    obtain ⟨h0, h1⟩ := hx b rfl
    rw [h.releaseWeak_state b h0 h1 he]
    split
    · exact ((WeakOnly.idle s).plus_decW b).plus_free b
    · exact (WeakOnly.idle s).plus_decW b
theorem WeakPtr.weak_copy_only {s t : State} {j : Nat}
    (he : WeakPtr.copy s (WLoc.var j) = some t) : WeakOnly s t := by
  unfold WeakPtr.copy at he
  cases hg : s.getW (WLoc.var j) with
  | none => simp [hg] at he
  | some o =>
    simp only [hg] at he
    cases hblk : o.block_ <;> simp only [hblk, Option.some.injEq] at he <;> subst he
    · exact (WeakOnly.idle s).of_wps _
    · exact ((WeakOnly.idle s).of_wps _).plus_incW _

theorem WeakPtr.weak_move_only {s t : State} {j : Nat}
    (he : WeakPtr.move s j = some t) : WeakOnly s t := by
  unfold WeakPtr.move at he
  cases hg : s.getW (WLoc.var j) with
  | none => simp [hg] at he
  | some o =>
    simp only [hg, Option.some.injEq] at he
    subst he
    exact ((WeakOnly.idle s).of_wps _).of_wps _

theorem WeakPtr.fromShared_only {s t : State} {j : Nat}
    (he : WeakPtr.fromShared s j = some t) : WeakOnly s t := by
  unfold WeakPtr.fromShared at he
  cases hg : s.getS j with
  | none => simp [hg] at he
  | some o =>
    simp only [hg] at he
    cases hblk : o.block_ <;> simp only [hblk, Option.some.injEq] at he <;> subst he
    · exact (WeakOnly.idle s).of_wps _
    · exact ((WeakOnly.idle s).of_wps _).plus_incW _

theorem WeakPtr.weak_dtor_only {s t : State} (h : Inv s)
    (hb : s.sps.length + s.wps.length + 6 < sizeMod) {f i : Nat}
    (he : WeakPtr.dtor f s i = some t) : WeakOnly s t := by
  unfold WeakPtr.dtor at he
  cases hg : s.getW (WLoc.var i) with
  | none => simp [hg] at he
  | some a =>
    simp only [hg, Option.map_eq_some'] at he
    obtain ⟨t1, h1, rfl⟩ := he
    have := HeapInv.releaseWeak_only h a.block_ (fun b hx => by
      have h0 := wpCount_pos hg hx
      have := spCount_le b s.sps
      have := wpCount_le b s.wps
      exact ⟨h0, by omega⟩) h1
    exact this.of_wps _

theorem WeakPtr.weak_Reset_only {s t : State} (h : Inv s)
    (hb : s.sps.length + s.wps.length + 6 < sizeMod) {f i : Nat}
    (he : WeakPtr.Reset f s i = some t) : WeakOnly s t := by
  unfold WeakPtr.Reset at he
  cases hg : s.getW (WLoc.var i) with
  | none => simp [hg] at he
  | some a =>
    simp only [hg] at he
    cases hblk : a.block_ with
    | none => simp only [hblk, Option.some.injEq] at he; subst he; exact WeakOnly.idle s
    | some b =>
      simp only [hblk, Option.map_eq_some'] at he
      obtain ⟨t1, h1, rfl⟩ := he
      have := HeapInv.releaseWeak_only h (some b) (fun b' hx => by
        cases hx
        have h0 := wpCount_pos hg hblk
        have := spCount_le b s.sps
        have := wpCount_le b s.wps
        exact ⟨h0, by omega⟩) h1
      exact this.of_wps _

theorem WeakPtr.weak_copyAssign_only {s t : State} (h : Inv s)
    (hb : s.sps.length + s.wps.length + 6 < sizeMod) {f i j : Nat}
    (he : WeakPtr.copyAssign f s (WLoc.var i) (WLoc.var j) = some t) : WeakOnly s t := by
  unfold WeakPtr.copyAssign at he
  cases hgi : s.getW (WLoc.var i) with
  | none => simp [hgi] at he
  | some a =>
    cases hgj : s.getW (WLoc.var j) with
    | none => simp [hgi, hgj] at he
    | some o =>
      simp only [hgi, hgj] at he
      by_cases e : o.block_ = a.block_
      · rw [if_pos e] at he; cases he; exact WeakOnly.idle s
      · rw [if_neg e] at he
        have h2 := h.rebindW_heap hb (s.wps.set i (some ⟨o.own_, o.block_⟩)) a.block_ o.block_
          (u := match o.block_ with
            | some b => (s.setW (WLoc.var i) ⟨o.own_, o.block_⟩).incW b
            | none => s.setW (WLoc.var i) ⟨o.own_, o.block_⟩)
          (by cases o.block_ <;> rfl)
          (fun b hy => Or.inr (wpCount_pos hgj hy))
          (fun b => by
            have := wpCount_set hgi (some ⟨o.own_, o.block_⟩) b
            simpa using this)
        have h3 := h2.releaseWeak_only a.block_ (fun b hx => by
          have hle := wpCount_le b (s.wps.set i (some ⟨o.own_, o.block_⟩))
          have := spCount_le b s.sps
          simp only [List.length_set] at hle
          simp only [hx, if_true]
          omega) he
        refine WeakOnly.chain ?_ h3
        cases o.block_ <;> dsimp only
        · exact (WeakOnly.idle s).of_wps _
        · exact ((WeakOnly.idle s).of_wps _).plus_incW _

theorem WeakPtr.weak_moveAssign_only {s t : State} (h : Inv s)
    (hb : s.sps.length + s.wps.length + 6 < sizeMod) {f i j : Nat}
    (he : WeakPtr.moveAssign f s i j = some t) : WeakOnly s t := by
  unfold WeakPtr.moveAssign at he
  cases hgi : s.getW (WLoc.var i) with
  | none => simp [hgi] at he
  | some a =>
    cases hgj : s.getW (WLoc.var j) with
    | none => simp [hgi, hgj] at he
    | some o =>
      simp only [hgi, hgj] at he
      by_cases e : o.block_ = a.block_
      · rw [if_pos e] at he; cases he; exact WeakOnly.idle s
      · rw [if_neg e, Option.map_eq_some'] at he
        obtain ⟨t1, h1, rfl⟩ := he
        have hij : j ≠ i := by
          intro e'; subst e'; rw [hgi] at hgj; cases hgj; exact e rfl
        have hi := getD_some_lt hgi
        have hgj' : (s.wps.set i (some (WeakPtr.mk o.own_ o.block_))).getD j none = some o := by
          rw [getD_set _ _ _ _ hi, if_neg hij]; exact hgj
        have hc1 := fun b => wpCount_set hgi (some ⟨o.own_, o.block_⟩) b
        have hc2 := fun b => wpCount_set hgj' (some ⟨none, none⟩) b
        have h2 : HeapInv (s.setW (WLoc.var i) ⟨o.own_, o.block_⟩)
            (fun b => spCount b s.sps)
            (fun b => wpCount b ((s.wps.set i (some ⟨o.own_, o.block_⟩)).set j
              (some ⟨none, none⟩)) + if a.block_ = some b then 1 else 0) := by
          refine HeapInv.congr (h.wps _) (fun _ => rfl) ?_
          intro b
          have h1 := hc1 b
          have h2 := hc2 b
          simp at h1 h2 ⊢
          omega
        have h3 := h2.releaseWeak_only a.block_ (fun b hx => by
          have hle := wpCount_le b ((s.wps.set i (some ⟨o.own_, o.block_⟩)).set j
            (some ⟨none, none⟩))
          have := spCount_le b s.sps
          simp only [List.length_set] at hle
          simp only [hx, if_true]
          omega) h1
        exact (((WeakOnly.idle s).of_wps _).chain h3).of_wps _

theorem WeakPtr.weak_Swap_only {s t : State} (h : Inv s)
    (hb : s.sps.length + s.wps.length + 8 < sizeMod) {f i j : Nat}
    (he : WeakPtr.Swap f s i j = some t) : WeakOnly s t := by
  unfold WeakPtr.Swap at he
  simp only [Option.bind_eq_some] at he
  obtain ⟨s1, h1, s2, h2, s3, h3, h4⟩ := he
  obtain ⟨i1, l1, w1⟩ := WeakPtr.weak_move_inv h h1
  obtain ⟨i2, l2, w2⟩ := WeakPtr.weak_moveAssign_inv i1 (by omega) h2
  obtain ⟨i3, l3, w3⟩ := WeakPtr.weak_moveAssign_inv i2 (by omega) h3
  exact (((WeakPtr.weak_move_only h1).chain (WeakPtr.weak_moveAssign_only i1 (by omega) h2)).chain
    (WeakPtr.weak_moveAssign_only i2 (by omega) h3)).chain
    (WeakPtr.weak_dtor_only i3 (by omega) h4)

/-- Every operation on weak pointer variables touches only weak pointer
variables, `cntw_` and block memory. -/
theorem exec_weak_only {s t : State} (hs : Reachable s) {f : Nat} {op : Op}
    (hw : Op.isWeak op = true) (he : exec f s op = some t) : WeakOnly s t := by
  have hI := hs.inv
  have hbud := exec_inBudget he
  unfold exec at he
  split at he
  swap
  · cases he
  cases op <;> simp only [Op.isWeak, Bool.false_eq_true] at hw
  · simp only [perform, WeakPtr.default, Option.some.injEq] at he
    subst he; exact (WeakOnly.idle s).of_wps _
  · exact WeakPtr.weak_copy_only he
  · exact WeakPtr.weak_move_only he
  · exact WeakPtr.fromShared_only he
  · exact WeakPtr.weak_copyAssign_only hI (by omega) he
  · exact WeakPtr.weak_moveAssign_only hI (by omega) he
  · exact WeakPtr.weak_Reset_only hI (by omega) he
  · exact WeakPtr.weak_Swap_only hI hbud he
  · exact WeakPtr.weak_dtor_only hI (by omega) he

/-! ## The representation invariant of `SharedPtr` -/

theorem nullRep_iff (s : State) :
    nullRep s = true ↔ ∀ i p, s.getS i = some p → p.block_ = none → p.own_ = none := by
  unfold nullRep
  rw [List.all_eq_true]
  constructor
  · intro h i p hg hb
    have hi := getD_some_lt hg
    have hm : some p ∈ s.sps := by
      have : s.sps[i] = some p := by
        simpa [State.getS, List.getD_eq_getElem?_getD, List.getElem?_eq_getElem hi] using hg
      rw [← this]; exact List.getElem_mem _
    have := h (some p) hm
    simp only [SharedPtr.nullOrOwned, Bool.or_eq_true, Option.isSome_iff_exists,
      Option.isNone_iff_eq_none] at this
    rcases this with ⟨b, hb'⟩ | h0
    · rw [hb] at hb'; cases hb'
    · exact h0
  · intro h x hx
    cases x with
    | none => rfl
    | some p =>
      obtain ⟨i, hi, hget⟩ := List.getElem_of_mem hx
      have hg : s.getS i = some p := by
        simp [State.getS, List.getD_eq_getElem?_getD, List.getElem?_eq_getElem hi, hget]
      simp only [SharedPtr.nullOrOwned, Bool.or_eq_true, Option.isSome_iff_exists,
        Option.isNone_iff_eq_none]
      cases hb : p.block_ with
      | none => exact Or.inr (h i p hg hb)
      | some b => exact Or.inl ⟨b, rfl⟩

theorem nullRep_same {s t : State} (h : nullRep s = true) (e : t.sps = s.sps) :
    nullRep t = true := by
  unfold nullRep at h ⊢; rw [e]; exact h

theorem nullRep_push {s t : State} (h : nullRep s = true) {p : SharedPtr}
    (hp : p.block_ = none → p.own_ = none) (e : t.sps = s.sps ++ [some p]) :
    nullRep t = true := by
  rw [nullRep_iff] at h ⊢
  intro i q hg hb
  simp only [State.getS, e, getD_push] at hg
  split at hg
  · cases hg; exact hp hb
  · exact h i q hg hb

theorem nullRep_set {s t : State} (h : nullRep s = true) {v : Option SharedPtr} {k : Nat}
    (hv : ∀ p, v = some p → p.block_ = none → p.own_ = none) (e : t.sps = s.sps.set k v) :
    nullRep t = true := by
  rw [nullRep_iff] at h ⊢
  intro i q hg hb
  simp only [State.getS, e] at hg
  by_cases hk : k < s.sps.length
  · rw [getD_set _ _ _ _ hk] at hg
    split at hg
    · exact hv q hg hb
    · exact h i q hg hb
  · rw [List.set_eq_of_length_le (by omega)] at hg
    exact h i q hg hb

theorem nullRep_get {s : State} (h : nullRep s = true) {i : Nat} {p : SharedPtr}
    (hg : s.getS i = some p) : p.block_ = none → p.own_ = none :=
  (nullRep_iff s).1 h i p hg
theorem SharedPtr.move_nullRep {s t : State} {j : Nat} (h : nullRep s = true)
    (he : SharedPtr.move s j = some t) : nullRep t = true := by
  unfold SharedPtr.move at he
  cases hg : s.getS j with
  | none => simp [hg] at he
  | some o =>
    simp only [hg, Option.some.injEq] at he
    subst he
    have h1 : nullRep (s.pushS ⟨o.own_, o.block_⟩) = true :=
      nullRep_push h (nullRep_get h hg) rfl
    exact nullRep_set h1 (v := some ⟨none, none⟩) (fun p hp _ => by cases hp; rfl) rfl

theorem SharedPtr.moveAssign_nullRep {s t : State} {f i j : Nat} (h : nullRep s = true)
    (he : SharedPtr.moveAssign f s i j = some t) : nullRep t = true := by
  unfold SharedPtr.moveAssign at he
  cases hgi : s.getS i with
  | none => simp [hgi] at he
  | some a =>
    cases hgj : s.getS j with
    | none => simp [hgi, hgj] at he
    | some o =>
      simp only [hgi, hgj] at he
      split at he
      · cases he; exact h
      · have hF := Frame.also_releaseShared (Frame.nothing _) he
        have h1 : nullRep (s.setS i ⟨o.own_, o.block_⟩) = true :=
          nullRep_set h (v := some ⟨o.own_, o.block_⟩)
            (fun p hp => by cases hp; exact nullRep_get h hgj) rfl
        have h2 : nullRep ((s.setS i ⟨o.own_, o.block_⟩).setS j ⟨none, none⟩) = true :=
          nullRep_set h1 (v := some ⟨none, none⟩) (fun p hp _ => by cases hp; rfl) rfl
        exact nullRep_same h2 hF.sps

theorem SharedPtr.copyAssign_nullRep {s t : State} {f i j : Nat} (h : nullRep s = true)
    (he : SharedPtr.copyAssign f s i j = some t) : nullRep t = true := by
  unfold SharedPtr.copyAssign at he
  cases hgi : s.getS i with
  | none => simp [hgi] at he
  | some a =>
    cases hgj : s.getS j with
    | none => simp [hgi, hgj] at he
    | some o =>
      simp only [hgi, hgj] at he
      split at he
      · cases he; exact h
      · have hF := Frame.also_releaseShared (Frame.nothing _) he
        have h1 : nullRep (s.setS i ⟨o.own_, o.block_⟩) = true :=
          nullRep_set h (v := some ⟨o.own_, o.block_⟩)
            (fun p hp => by cases hp; exact nullRep_get h hgj) rfl
        refine nullRep_same h1 (hF.sps.trans ?_)
        cases o.block_ <;> rfl

theorem SharedPtr.dtor_nullRep {s t : State} {f i : Nat} (h : nullRep s = true)
    (he : SharedPtr.dtor f s i = some t) : nullRep t = true := by
  unfold SharedPtr.dtor at he
  cases hg : s.getS i with
  | none => simp [hg] at he
  | some a =>
    simp only [hg, Option.map_eq_some'] at he
    obtain ⟨t1, h1, rfl⟩ := he
    have hF := Frame.also_releaseShared (Frame.nothing _) h1
    exact nullRep_set (nullRep_same h hF.sps) (v := none) (fun p hp => by cases hp) rfl

theorem SharedPtr.Reset_nullRep {s t : State} {f i : Nat} (h : nullRep s = true)
    (he : SharedPtr.Reset f s i = some t) : nullRep t = true := by
  unfold SharedPtr.Reset at he
  cases hg : s.getS i with
  | none => simp [hg] at he
  | some a =>
    simp only [hg] at he
    cases hblk : a.block_ with
    | none =>
      simp only [hblk, Option.some.injEq] at he; subst he
      exact nullRep_set h (v := some ⟨none, none⟩) (fun p hp _ => by cases hp; rfl) rfl
    | some b =>
      simp only [hblk, Option.map_eq_some'] at he
      obtain ⟨t1, h1, rfl⟩ := he
      have hF := Frame.also_releaseShared (Frame.nothing _) h1
      exact nullRep_set (nullRep_same h hF.sps) (v := some ⟨none, none⟩)
        (fun p hp _ => by cases hp; rfl) rfl

theorem SharedPtr.ResetPtr_nullRep {s t : State} {f i : Nat} {ptr : Option Nat}
    (h : nullRep s = true) (he : SharedPtr.ResetPtr f s i ptr = some t) :
    nullRep t = true := by
  unfold SharedPtr.ResetPtr at he
  cases hg : s.getS i with
  | none => simp [hg] at he
  | some a =>
    simp only [hg, Option.map_eq_some'] at he
    obtain ⟨t1, h1, rfl⟩ := he
    have hF := Frame.also_releaseShared (Frame.nothing _) h1
    have h2 : nullRep s = true := h
    refine nullRep_set h2 (t := ((t1.newBlock (BlockKind.clever ptr)).setS i
      ⟨ptr, some t1.nblocks⟩).incS t1.nblocks) (v := some ⟨ptr, some t1.nblocks⟩) (k := i)
      (fun p hp hb => by cases hp; cases hb) ?_
    show (t1.sps.set i _) = _
    rw [hF.sps]
    simp [State.setS]

theorem SharedPtr.Swap_nullRep {s t : State} {f i j : Nat} (h : nullRep s = true)
    (he : SharedPtr.Swap f s i j = some t) : nullRep t = true := by
  unfold SharedPtr.Swap at he
  simp only [Option.bind_eq_some] at he
  obtain ⟨s1, h1, s2, h2, s3, h3, h4⟩ := he
  exact SharedPtr.dtor_nullRep (SharedPtr.moveAssign_nullRep (SharedPtr.moveAssign_nullRep
    (SharedPtr.move_nullRep h h1) h2) h3) h4

theorem WeakPtr.Lock_nullRep {s t : State} {w : WLoc} (h : nullRep s = true)
    (he : WeakPtr.Lock s w = some t) : nullRep t = true := by
  unfold WeakPtr.Lock at he
  cases hg : s.getW w with
  | none => simp [hg] at he
  | some o =>
    simp only [hg] at he
    have hwf : (WeakPtr.lockTarget s o).block_ = none → (WeakPtr.lockTarget s o).own_ = none := by
      unfold WeakPtr.lockTarget
      cases hb : o.block_ with
      | none => intro _; rfl
      | some b =>
        simp only
        split
        · intro _; rfl
        · intro hh; cases hh
    cases hblk : (WeakPtr.lockTarget s o).block_ <;>
      simp only [hblk, Option.some.injEq] at he <;> subst he
    · exact nullRep_push h hwf rfl
    · exact nullRep_push h hwf rfl

theorem WeakPtr.weak_copy_nullRep {s t : State} {w : WLoc} (h : nullRep s = true)
    (he : WeakPtr.copy s w = some t) : nullRep t = true := by
  unfold WeakPtr.copy at he
  cases hg : s.getW w with
  | none => simp [hg] at he
  | some o =>
    simp only [hg] at he
    cases hblk : o.block_ <;> simp only [hblk, Option.some.injEq] at he <;> subst he
    · exact nullRep_same h rfl
    · exact nullRep_same h rfl

/-- Every step of a client program other than an aliasing construction from a
pointer without block keeps the representation invariant. -/
theorem exec_nullRep {s t : State} {f : Nat} {op : Op} (hs : Reachable s)
    (h : nullRep s = true) (hop : Op.nullAlias s op = false)
    (he : exec f s op = some t) : nullRep t = true := by
  have hI := hs.inv
  have hbud := exec_inBudget he
  by_cases hw : Op.isWeak op = true
  · exact nullRep_same h (exec_weak_only hs hw he).sps
  unfold exec at he
  split at he
  swap
  · cases he
  cases op with
  | newPayload cap =>
    simp only [perform, Option.some.injEq] at he
    subst he; exact nullRep_same h rfl
  | spDefault =>
    simp only [perform, SharedPtr.default, Option.some.injEq] at he
    subst he; exact nullRep_push h (fun _ => rfl) rfl
  | spRaw ptr cap =>
    simp only [perform] at he
    split at he
    swap
    · cases he
    rename_i hwr
    exact nullRep_push h (fun hb => by cases hb) (SharedPtr.fromRaw_shape hI hbud hwr he).1
  | makeShared cap =>
    exact nullRep_push h (fun hb => by cases hb) (MakeShared_shape hI hbud he).1
  | spCopy other =>
    simp only [perform, SharedPtr.copy] at he
    cases hg : s.getS other with
    | none => simp [hg] at he
    | some o =>
      simp only [hg] at he
      cases hblk : o.block_ <;> simp only [hblk, Option.some.injEq] at he <;> subst he
      · exact nullRep_push h (fun _ => by
          have := nullRep_get h hg hblk; exact this) rfl
      · exact nullRep_push h (fun hb => by cases hb) rfl
  | spMove other => exact SharedPtr.move_nullRep h he
  | spAlias other ptr =>
    simp only [perform, SharedPtr.aliasing] at he
    cases hg : s.getS other with
    | none => simp [hg] at he
    | some o =>
      simp only [hg] at he
      cases hblk : o.block_ <;> simp only [hblk, Option.some.injEq] at he <;> subst he
      · cases ptr with
        | none => exact nullRep_push h (fun _ => rfl) rfl
        | some q => simp [Op.nullAlias, hg, hblk] at hop
      · exact nullRep_push h (fun hb => by cases hb) rfl
  | spFromWeak other =>
    simp only [perform, Option.map_eq_some', SharedPtr.fromWeak] at he
    obtain ⟨r, hr, rfl⟩ := he
    cases hg : s.getW (WLoc.var other) with
    | none => simp [hg] at hr
    | some o =>
      simp only [hg] at hr
      cases hblk : o.block_ with
      | none =>
        simp only [hblk, Option.some.injEq] at hr
        subst hr; exact h
      | some b =>
        simp only [hblk] at hr
        split at hr
        · simp only [Option.some.injEq] at hr
          subst hr; exact h
        · simp only [Option.some.injEq] at hr
          subst hr
          exact nullRep_push h (p := ⟨o.own_, some b⟩) (fun hb => by cases hb) rfl
  | spAssign this other => exact SharedPtr.copyAssign_nullRep h he
  | spMoveAssign this other => exact SharedPtr.moveAssign_nullRep h he
  | spReset this => exact SharedPtr.Reset_nullRep h he
  | spResetPtr this ptr cap =>
    simp only [perform] at he
    split at he
    · exact SharedPtr.ResetPtr_nullRep h he
    · cases he
  | spSwap this other => exact SharedPtr.Swap_nullRep h he
  | spDtor this => exact SharedPtr.dtor_nullRep h he
  | wpDefault => exact absurd rfl hw
  | wpCopy other => exact absurd rfl hw
  | wpMove other => exact absurd rfl hw
  | wpFromShared other => exact absurd rfl hw
  | wpAssign this other => exact absurd rfl hw
  | wpMoveAssign this other => exact absurd rfl hw
  | wpReset this => exact absurd rfl hw
  | wpSwap this other => exact absurd rfl hw
  | wpDtor this => exact absurd rfl hw
  | wpLock this => exact WeakPtr.Lock_nullRep h he
  | sharedFromThis o =>
    simp only [perform, EnableSharedFromThis.SharedFromThis] at he
    split at he
    · split at he
      · simp only [Option.map_map, Option.map_eq_some', Function.comp_apply, Outcome.state] at he
        obtain ⟨u, hu, rfl⟩ := he
        exact WeakPtr.Lock_nullRep h hu
      · cases he
    · cases he
  | sharedFromThisConst o =>
    simp only [perform, EnableSharedFromThis.SharedFromThisConst] at he
    split at he
    · split at he
      · simp only [Option.map_map, Option.map_eq_some', Function.comp_apply, Outcome.state] at he
        obtain ⟨u, hu, rfl⟩ := he
        exact WeakPtr.Lock_nullRep h hu
      · cases he
    · cases he
  | weakFromThis o =>
    simp only [perform, EnableSharedFromThis.WeakFromThis] at he
    split at he
    · split at he
      · exact WeakPtr.weak_copy_nullRep h he
      · cases he
    · cases he
  | weakFromThisConst o =>
    simp only [perform, EnableSharedFromThis.WeakFromThisConst] at he
    split at he
    · split at he
      · exact WeakPtr.weak_copy_nullRep h he
      · cases he
    · cases he

theorem PlainReachable.reachable {s : State} (h : PlainReachable s) : Reachable s := by
  induction h with
  | init => exact Reachable.init
  | step f op _ _ he ih => exact Reachable.step f op ih he

theorem PlainReachable.nullRep {s : State} (h : PlainReachable s) :
    SharedWeak.nullRep s = true := by
  induction h with
  | init => rfl
  | step f op hs hop he ih => exact exec_nullRep hs.reachable ih hop he

theorem PlainReachable.plain_run {f : Nat} : ∀ {ops : List Op} {s t : State}, PlainReachable s →
    plainRun f s ops = some t → PlainReachable t
  | [], s, t, h, he => by
    simp only [plainRun, Option.some.injEq] at he
    subst he; exact h
  | op :: ops, s, t, h, he => by
    simp only [plainRun] at he
    split at he
    · cases he
    · rename_i hn
      simp only [Option.bind_eq_some] at he
      obtain ⟨u, hu, hr⟩ := he
      exact PlainReachable.plain_run (PlainReachable.step f op h (by simpa using hn) hu) hr

theorem aliasState_plain : PlainReachable aliasState :=
  PlainReachable.plain_run PlainReachable.init
    (show plainRun 5 State.init aliasProgram = some aliasState from rfl)

/-! ## The marks are exact -/

theorem MarksExact.marks_same {s t : State} {d : Nat → Bool} (h : MarksExact s d)
    (e : t.sps = s.sps) : MarksExact t d := by
  intro i; rw [h i]; simp only [State.getS, e]

theorem MarksExact.marks_congr {s : State} {d d' : Nat → Bool} (h : MarksExact s d)
    (e : ∀ i, d' i = d i) : MarksExact s d' := by
  intro i; rw [e i]; exact h i

theorem MarksExact.marks_fresh {s : State} {d : Nat → Bool} (h : MarksExact s d) {i : Nat}
    (hi : s.sps.length ≤ i) : d i = false := by
  cases hd : d i with
  | false => rfl
  | true =>
    obtain ⟨q, hq⟩ := (h i).1 hd
    have := getD_some_lt hq
    omega

theorem MarksExact.marks_val {s : State} {d : Nat → Bool} (h : MarksExact s d) {j : Nat}
    {o : SharedPtr} (hg : s.getS j = some o) :
    d j = true ↔ ∃ q, some (SharedPtr.mk o.own_ o.block_) = some ⟨some q, none⟩ := by
  rw [h j, hg]

theorem MarksExact.marks_set {s t : State} {d : Nat → Bool} (h : MarksExact s d) {k : Nat}
    {v : Option SharedPtr} {m : Bool} (hk : k < s.sps.length) (e : t.sps = s.sps.set k v)
    (hm : m = true ↔ ∃ q, v = some ⟨some q, none⟩) : MarksExact t (upd d k m) := by
  intro i
  simp only [State.getS, e, upd_apply]
  rw [getD_set _ _ _ _ hk]
  by_cases hik : i = k
  · rw [if_pos hik, if_pos hik]; exact hm
  · rw [if_neg hik, if_neg hik]; exact h i

theorem MarksExact.marks_push {s t : State} {d : Nat → Bool} (h : MarksExact s d)
    {v : Option SharedPtr} {m : Bool} (e : t.sps = s.sps ++ [v])
    (hm : m = true ↔ ∃ q, v = some ⟨some q, none⟩) :
    MarksExact t (upd d s.sps.length m) := by
  intro i
  simp only [State.getS, e, upd_apply]
  rw [getD_push]
  by_cases hik : i = s.sps.length
  · rw [if_pos hik, if_pos hik]; exact hm
  · rw [if_neg hik, if_neg hik]; exact h i

theorem MarksExact.marks_push_plain {s t : State} {d : Nat → Bool} (h : MarksExact s d)
    {v : Option SharedPtr} (e : t.sps = s.sps ++ [v])
    (hv : ∀ q, v ≠ some ⟨some q, none⟩) : MarksExact t d := by
  refine (h.marks_push (m := false) e ?_).marks_congr ?_
  · constructor
    · intro hf; cases hf
    · rintro ⟨q, hq⟩; exact absurd hq (hv q)
  · intro i
    rw [upd_apply]
    split
    · subst i; exact h.marks_fresh (Nat.le_refl _)
    · rfl

theorem MarksExact.marks_clear {s t : State} {d : Nat → Bool} (h : MarksExact s d) {k : Nat}
    {v : Option SharedPtr} (hk : k < s.sps.length) (e : t.sps = s.sps.set k v)
    (hv : ∀ q, v ≠ some ⟨some q, none⟩) : MarksExact t (upd d k false) :=
  h.marks_set hk e ⟨fun hf => Bool.noConfusion hf, fun ⟨q, hq⟩ => absurd hq (hv q)⟩

theorem SharedPtr.copy_marks {s t : State} {d : Nat → Bool} {other : Nat}
    (h : MarksExact s d) (he : SharedPtr.copy s other = some t) :
    MarksExact t (SharedPtr.copyMark s d other) := by
  unfold SharedPtr.copy at he
  cases hg : s.getS other with
  | none => simp [hg] at he
  | some o =>
    simp only [hg] at he
    have hm := h.marks_val hg
    split at he <;> (cases he; exact h.marks_push rfl hm)

theorem SharedPtr.move_marks {s t : State} {d : Nat → Bool} {other : Nat}
    (h : MarksExact s d) (he : SharedPtr.move s other = some t) :
    MarksExact t (SharedPtr.moveMark s d other) := by
  unfold SharedPtr.move at he
  cases hg : s.getS other with
  | none => simp [hg] at he
  | some o =>
    simp only [hg, Option.some.injEq] at he
    subst he
    have hlt := getD_some_lt hg
    have h1 : MarksExact (s.pushS ⟨o.own_, o.block_⟩) (upd d s.sps.length (d other)) :=
      h.marks_push rfl (h.marks_val hg)
    exact h1.marks_clear (k := other) (by simp [State.pushS]; omega) rfl
      (by intro q hq; cases hq)

theorem SharedPtr.aliasingMark_spec {s : State} {other : Nat} (ptr : Option Nat)
    {o : SharedPtr} (hg : s.getS other = some o) :
    Op.nullAlias s (Op.spAlias other ptr) = true ↔
      ∃ q, some (SharedPtr.mk ptr o.block_) = some ⟨some q, none⟩ := by
  cases ptr with
  | none => simp [Op.nullAlias]
  | some q =>
    simp only [Op.nullAlias, hg]
    cases o.block_ <;> simp

theorem SharedPtr.aliasing_marks {s t : State} {d : Nat → Bool} {other : Nat}
    {ptr : Option Nat} (h : MarksExact s d) (he : SharedPtr.aliasing s other ptr = some t) :
    MarksExact t (SharedPtr.aliasingMark s d other ptr) := by
  unfold SharedPtr.aliasing at he
  cases hg : s.getS other with
  | none => simp [hg] at he
  | some o =>
    simp only [hg] at he
    have hm := SharedPtr.aliasingMark_spec ptr hg
    split at he <;> (cases he; exact h.marks_push rfl hm)

theorem SharedPtr.copyAssign_marks {s t : State} {d : Nat → Bool} {f this other : Nat}
    (h : MarksExact s d) (he : SharedPtr.copyAssign f s this other = some t) :
    MarksExact t (SharedPtr.copyAssignMark s d this other) := by
  unfold SharedPtr.copyAssign at he
  cases hgi : s.getS this with
  | none => simp [hgi] at he
  | some a =>
    cases hgj : s.getS other with
    | none => simp [hgi, hgj] at he
    | some o =>
      simp only [hgi, hgj] at he
      have hlt := getD_some_lt hgi
      split at he
      · rename_i hc
        cases he
        simpa [SharedPtr.copyAssignMark, sameBlock, hgi, hgj, hc] using h
      · rename_i hc
        have hF := Frame.also_releaseShared (Frame.nothing _) he
        have hmk : SharedPtr.copyAssignMark s d this other = upd d this (d other) := by
          simp [SharedPtr.copyAssignMark, sameBlock, hgi, hgj, hc]
        rw [hmk]
        refine h.marks_set hlt (hF.sps.trans ?_) (h.marks_val hgj)
        cases o.block_ <;> rfl

theorem SharedPtr.moveAssign_marks {s t : State} {d : Nat → Bool} {f this other : Nat}
    (h : MarksExact s d) (he : SharedPtr.moveAssign f s this other = some t) :
    MarksExact t (SharedPtr.moveAssignMark s d this other) := by
  unfold SharedPtr.moveAssign at he
  cases hgi : s.getS this with
  | none => simp [hgi] at he
  | some a =>
    cases hgj : s.getS other with
    | none => simp [hgi, hgj] at he
    | some o =>
      simp only [hgi, hgj] at he
      have hlt := getD_some_lt hgi
      have hlt' := getD_some_lt hgj
      split at he
      · rename_i hc
        cases he
        simpa [SharedPtr.moveAssignMark, sameBlock, hgi, hgj, hc] using h
      · rename_i hc
        have hF := Frame.also_releaseShared (Frame.nothing _) he
        have hmk : SharedPtr.moveAssignMark s d this other =
            upd (upd d this (d other)) other false := by
          simp [SharedPtr.moveAssignMark, sameBlock, hgi, hgj, Ne.symm hc]
        rw [hmk]
        have h1 : MarksExact (s.setS this ⟨o.own_, o.block_⟩) (upd d this (d other)) :=
          h.marks_set hlt rfl (h.marks_val hgj)
        exact h1.marks_clear (k := other) (by simp [State.setS]; omega) hF.sps
          (by intro q hq; cases hq)

theorem SharedPtr.dtor_marks {s t : State} {d : Nat → Bool} {f this : Nat}
    (h : MarksExact s d) (he : SharedPtr.dtor f s this = some t) :
    MarksExact t (upd d this false) := by
  unfold SharedPtr.dtor at he
  cases hg : s.getS this with
  | none => simp [hg] at he
  | some a =>
    simp only [hg, Option.map_eq_some'] at he
    obtain ⟨t1, h1, rfl⟩ := he
    have hF := Frame.also_releaseShared (Frame.nothing _) h1
    have hlt := getD_some_lt hg
    exact (h.marks_same hF.sps).marks_clear (k := this) (v := none) (by rw [hF.sps]; exact hlt)
      rfl (by intro q hq; cases hq)

theorem SharedPtr.Reset_marks {s t : State} {d : Nat → Bool} {f this : Nat}
    (h : MarksExact s d) (he : SharedPtr.Reset f s this = some t) :
    MarksExact t (upd d this false) := by
  unfold SharedPtr.Reset at he
  cases hg : s.getS this with
  | none => simp [hg] at he
  | some a =>
    simp only [hg] at he
    have hlt := getD_some_lt hg
    cases hblk : a.block_ with
    | none =>
      simp only [hblk, Option.some.injEq] at he; subst he
      exact h.marks_clear (k := this) hlt rfl (by intro q hq; cases hq)
    | some b =>
      simp only [hblk, Option.map_eq_some'] at he
      obtain ⟨t1, h1, rfl⟩ := he
      have hF := Frame.also_releaseShared (Frame.nothing _) h1
      exact (h.marks_same hF.sps).marks_clear (k := this) (by rw [hF.sps]; exact hlt)
        rfl (by intro q hq; cases hq)

theorem SharedPtr.ResetPtr_marks {s t : State} {d : Nat → Bool} {f this : Nat}
    {ptr : Option Nat} (h : MarksExact s d) (he : SharedPtr.ResetPtr f s this ptr = some t) :
    MarksExact t (upd d this false) := by
  unfold SharedPtr.ResetPtr at he
  cases hg : s.getS this with
  | none => simp [hg] at he
  | some a =>
    simp only [hg, Option.map_eq_some'] at he
    obtain ⟨t1, h1, rfl⟩ := he
    have hF := Frame.also_releaseShared (Frame.nothing _) h1
    have hlt := getD_some_lt hg
    have e : t1.sps = s.sps.set this (some ⟨ptr, a.block_⟩) := hF.sps
    intro i
    simp only [State.getS, State.incS, State.setS, State.newBlock, e, upd_apply]
    rw [getD_set _ _ _ _ (by rw [List.length_set]; exact hlt), getD_set _ _ _ _ hlt]
    by_cases hik : i = this
    · simp [hik]
    · rw [if_neg hik, if_neg hik, if_neg hik]; exact h i

theorem SharedPtr.Swap_marks {s t : State} {d : Nat → Bool} {f this other : Nat}
    (h : MarksExact s d) (he : SharedPtr.Swap f s this other = some t) :
    MarksExact t (SharedPtr.SwapMark f s d this other) := by
  unfold SharedPtr.Swap at he
  simp only [Option.bind_eq_some] at he
  obtain ⟨s1, h1, s2, h2, s3, h3, h4⟩ := he
  have m4 := SharedPtr.dtor_marks (SharedPtr.moveAssign_marks
    (SharedPtr.moveAssign_marks (SharedPtr.move_marks h h1) h2) h3) h4
  simp only [SharedPtr.SwapMark, h1, h2]
  exact m4

theorem WeakPtr.Lock_marks {s t : State} {d : Nat → Bool} {w : WLoc}
    (h : MarksExact s d) (he : WeakPtr.Lock s w = some t) : MarksExact t d := by
  unfold WeakPtr.Lock at he
  cases hg : s.getW w with
  | none => simp [hg] at he
  | some o =>
    simp only [hg] at he
    have hwf : ∀ q, some (WeakPtr.lockTarget s o) ≠ some ⟨some q, none⟩ := by
      intro q
      unfold WeakPtr.lockTarget
      cases hb : o.block_ with
      | none => intro hh; cases hh
      | some b =>
        simp only
        split
        · intro hh; cases hh
        · intro hh; simp [hb] at hh
    cases hblk : (WeakPtr.lockTarget s o).block_ <;>
      simp only [hblk, Option.some.injEq] at he <;> subst he
    · exact h.marks_push_plain rfl hwf
    · exact h.marks_push_plain rfl hwf

/-- The marks stay exact along every step of a client program. -/
theorem exec_marks {s t : State} {d : Nat → Bool} {f : Nat} {op : Op} (hs : Reachable s)
    (h : MarksExact s d) (he : exec f s op = some t) : MarksExact t (Op.mark f s d op) := by
  have hI := hs.inv
  have hbud := exec_inBudget he
  by_cases hw : Op.isWeak op = true
  · have e := (exec_weak_only hs hw he).sps
    cases op <;> simp only [Op.isWeak, Bool.false_eq_true] at hw <;>
      exact h.marks_same e
  unfold exec at he
  split at he
  swap
  · cases he
  cases op with
  | newPayload cap =>
    simp only [perform, Option.some.injEq] at he
    subst he; exact h.marks_same rfl
  | spDefault =>
    simp only [perform, SharedPtr.default, Option.some.injEq] at he
    subst he; exact h.marks_push_plain rfl (by intro q hq; cases hq)
  | spRaw ptr cap =>
    simp only [perform] at he
    split at he
    swap
    · cases he
    rename_i hwr
    exact h.marks_push_plain (SharedPtr.fromRaw_shape hI hbud hwr he).1
      (by intro q hq; cases hq)
  | makeShared cap =>
    exact h.marks_push_plain (MakeShared_shape hI hbud he).1 (by intro q hq; cases hq)
  | spCopy other => exact SharedPtr.copy_marks h he
  | spMove other => exact SharedPtr.move_marks h he
  | spAlias other ptr => exact SharedPtr.aliasing_marks h he
  | spFromWeak other =>
    simp only [perform, Option.map_eq_some', SharedPtr.fromWeak] at he
    obtain ⟨r, hr, rfl⟩ := he
    cases hg : s.getW (WLoc.var other) with
    | none => simp [hg] at hr
    | some o =>
      simp only [hg] at hr
      cases hblk : o.block_ with
      | none =>
        simp only [hblk, Option.some.injEq] at hr
        subst hr; exact h
      | some b =>
        simp only [hblk] at hr
        split at hr
        · simp only [Option.some.injEq] at hr
          subst hr; exact h
        · simp only [Option.some.injEq] at hr
          subst hr
          exact h.marks_push_plain (v := some ⟨o.own_, some b⟩) rfl
            (by intro q hq; simp at hq)
  | spAssign this other => exact SharedPtr.copyAssign_marks h he
  | spMoveAssign this other => exact SharedPtr.moveAssign_marks h he
  | spReset this => exact SharedPtr.Reset_marks h he
  | spResetPtr this ptr cap =>
    simp only [perform] at he
    split at he
    · exact SharedPtr.ResetPtr_marks h he
    · cases he
  | spSwap this other => exact SharedPtr.Swap_marks h he
  | spDtor this => exact SharedPtr.dtor_marks h he
  | wpDefault => exact absurd rfl hw
  | wpCopy other => exact absurd rfl hw
  | wpMove other => exact absurd rfl hw
  | wpFromShared other => exact absurd rfl hw
  | wpAssign this other => exact absurd rfl hw
  | wpMoveAssign this other => exact absurd rfl hw
  | wpReset this => exact absurd rfl hw
  | wpSwap this other => exact absurd rfl hw
  | wpDtor this => exact absurd rfl hw
  | wpLock this => exact WeakPtr.Lock_marks h he
  | sharedFromThis o =>
    simp only [perform, EnableSharedFromThis.SharedFromThis] at he
    split at he
    · split at he
      · simp only [Option.map_map, Option.map_eq_some', Function.comp_apply, Outcome.state] at he
        obtain ⟨u, hu, rfl⟩ := he
        exact WeakPtr.Lock_marks h hu
      · cases he
    · cases he
  | sharedFromThisConst o =>
    simp only [perform, EnableSharedFromThis.SharedFromThisConst] at he
    split at he
    · split at he
      · simp only [Option.map_map, Option.map_eq_some', Function.comp_apply, Outcome.state] at he
        obtain ⟨u, hu, rfl⟩ := he
        exact WeakPtr.Lock_marks h hu
      · cases he
    · cases he
  | weakFromThis o =>
    simp only [perform, EnableSharedFromThis.WeakFromThis] at he
    split at he
    · split at he
      · have e : t.sps = s.sps := by
          unfold WeakPtr.copy at he
          simp only [State.getW] at he
          split at he <;> (cases he; rfl)
        exact h.marks_same e
      · cases he
    · cases he
  | weakFromThisConst o =>
    simp only [perform, EnableSharedFromThis.WeakFromThisConst] at he
    split at he
    · split at he
      · have e : t.sps = s.sps := by
          unfold WeakPtr.copy at he
          simp only [State.getW] at he
          split at he <;> (cases he; rfl)
        exact h.marks_same e
      · cases he
    · cases he

theorem Marked.to_reachable {s : State} {d : Nat → Bool} (h : Marked s d) : Reachable s := by
  induction h with
  | init => exact Reachable.init
  | step f op _ he ih => exact Reachable.step f op ih he

theorem Marked.exact {s : State} {d : Nat → Bool} (h : Marked s d) : MarksExact s d := by
  induction h with
  | init =>
    intro i
    constructor
    · intro hf; cases hf
    · rintro ⟨q, hq⟩
      simp [State.getS, State.init] at hq
  | step f op hs he ih => exact exec_marks hs.to_reachable ih he

theorem Reachable.marked {s : State} (h : Reachable s) : ∃ d, Marked s d := by
  induction h with
  | init => exact ⟨_, Marked.init⟩
  | step f op _ he ih =>
    obtain ⟨d, hd⟩ := ih
    exact ⟨_, Marked.step f op hd he⟩

theorem Marked.mark_run {f : Nat} : ∀ {ops : List Op} {s t : State} {d e : Nat → Bool},
    Marked s d → markRun f s d ops = some (t, e) → Marked t e
  | [], s, t, d, e, h, he => by
    simp only [markRun, Option.some.injEq, Prod.mk.injEq] at he
    obtain ⟨rfl, rfl⟩ := he; exact h
  | op :: ops, s, t, d, e, h, he => by
    simp only [markRun, Option.bind_eq_some] at he
    obtain ⟨u, hu, hr⟩ := he
    exact Marked.mark_run (Marked.step f op h hu) hr

theorem strayState_marked : Marked strayState strayMarks :=
  Marked.mark_run Marked.init
    (show markRun 5 State.init (fun _ => false) strayProgram = some (strayState, strayMarks)
      from rfl)

/-! ## The assertions on the counters never fail -/

theorem exactZero_of_lt {a b : Nat} (h : a + b < sizeMod) : exactZero a b = true := by
  unfold exactZero
  cases hz : sumZero a b with
  | true =>
    have := (sumZero_iff h).1 hz
    simp [this.1, this.2]
  | false =>
    have : ¬ (a = 0 ∧ b = 0) := fun hh => by
      have := (sumZero_iff h).2 hh
      rw [hz] at this; cases this
    cases a with
    | zero =>
      cases b with
      | zero => exact absurd ⟨rfl, rfl⟩ this
      | succ b => rfl
    | succ a => rfl

theorem Checked.delete_ok (n : Nat) (s : State) (b : Nat) (h : (s.blocks b).ok_ = true) :
    Checked.deleteBlock (n + 1) s b = some (s.free b) := by
  rw [Checked.deleteBlock]
  cases hk : (s.blocks b).kind <;> simp [h]

theorem Checked.weak_none (n : Nat) (s : State) :
    Checked.releaseWeak (n + 1) s none = some s := by
  rw [Checked.releaseWeak]

theorem Checked.destroy_plain (n : Nat) (s : State) (o : Nat)
    (h : (s.objs o).esft = true →
      (s.objs o).self_.block_ = none ∧ (s.objs o).self1_.block_ = none) :
    Checked.destroyPayload (n + 2) s o = some (s.bumpDtor o) := by
  rw [Checked.destroyPayload]
  by_cases he : (s.objs o).esft = true
  · obtain ⟨h1, h2⟩ := h he
    have e1 : ((s.bumpDtor o).objs o).self1_.block_ = none := by simp [State.bumpDtor, h2]
    have e2 : ((s.bumpDtor o).objs o).self_.block_ = none := by simp [State.bumpDtor, h1]
    rw [if_pos he, e1, Checked.weak_none]
    simp only [Option.some_bind]
    rw [e2, Checked.weak_none]
  · simp [he]

theorem Checked.destroy_hooked (n : Nat) (s : State) (o b : Nat)
    (he : (s.objs o).esft = true) (h1 : (s.objs o).self_.block_ = some b)
    (h2 : (s.objs o).self1_.block_ = some b) (hc : (s.blocks b).cnt_ = 0)
    (hw : 2 ≤ (s.blocks b).cntw_) (hlt : (s.blocks b).cntw_ < sizeMod)
    (hok : (s.blocks b).ok_ = true) :
    Checked.destroyPayload (n + 3) s o =
      some (if (s.blocks b).cntw_ = 2 then (((s.bumpDtor o).decW b).decW b).free b
        else ((s.bumpDtor o).decW b).decW b) := by
  rw [Checked.destroyPayload]
  have d1 : dec (s.blocks b).cntw_ = (s.blocks b).cntw_ - 1 := dec_eq (by omega) hlt
  have d2 : dec ((s.blocks b).cntw_ - 1) = (s.blocks b).cntw_ - 2 := by
    rw [dec_eq (by omega) (by omega)]; omega
  have z1 : sumZero ((s.blocks b).cntw_ - 1) 0 = false := sumZero_false (by omega) (by omega)
  have x1 : exactZero ((s.blocks b).cntw_ - 1) 0 = true := exactZero_of_lt (by omega)
  have x2 : exactZero ((s.blocks b).cntw_ - 2) 0 = true := exactZero_of_lt (by omega)
  have e1 : ((s.bumpDtor o).objs o).self1_.block_ = some b := by simp [State.bumpDtor, h2]
  have e2 : (((s.bumpDtor o).decW b).objs o).self_.block_ = some b := by
    simp [State.bumpDtor, State.decW, h1]
  have g1 : ((s.bumpDtor o).blocks b).cntw_ ≠ 0 := by
    simp only [State.bumpDtor]; omega
  have c1 : (((s.bumpDtor o).decW b).blocks b).cntw_ = (s.blocks b).cntw_ - 1 := by
    simp [State.bumpDtor, State.decW, d1]
  have c1' : (((s.bumpDtor o).decW b).blocks b).cnt_ = 0 := by
    simp [State.bumpDtor, State.decW, hc]
  have g2 : (((s.bumpDtor o).decW b).blocks b).cntw_ ≠ 0 := by rw [c1]; omega
  have c2 : ((((s.bumpDtor o).decW b).decW b).blocks b).cntw_ = (s.blocks b).cntw_ - 2 := by
    simp [State.bumpDtor, State.decW, d1, d2]
  have c2' : ((((s.bumpDtor o).decW b).decW b).blocks b).cnt_ = 0 := by
    simp [State.bumpDtor, State.decW, hc]
  have c3 : ((((s.bumpDtor o).decW b).decW b).blocks b).ok_ = true := by
    simp [State.bumpDtor, State.decW, hok]
  rw [if_pos he, e1, Checked.releaseWeak, if_neg g1, c1, c1', x1, z1]
  simp only [Bool.not_true, Bool.false_eq_true, if_false, Option.some_bind, e2]
  rw [Checked.releaseWeak, if_neg g2, c2, c2', x2]
  simp only [Bool.not_true, Bool.false_eq_true, if_false]
  by_cases h2' : (s.blocks b).cntw_ = 2
  · rw [if_pos h2', h2']
    simp only [Nat.sub_self, sumZero_zero, if_true]
    exact Checked.delete_ok n _ b c3
  · rw [if_neg h2', sumZero_false (by omega) (by omega)]
    simp

/-- On a consistent heap a weak release passes its assertions and does what
the code without assertions does. -/
theorem Checked.releaseWeak_agrees {s : State} {C V : Nat → Nat} (h : HeapInv s C V)
    (x : Option Nat) (hx : ∀ b, x = some b → 0 < V b ∧ C b + V b + 3 < sizeMod) (n : Nat) :
    Checked.releaseWeak (n + 2) s x = SharedWeak.releaseWeak (n + 2) s x := by
  cases x with
  | none => rw [Checked.weak_none, releaseWeak_none]
  | some b =>
    obtain ⟨h0, hlt⟩ := hx b rfl
    have hc := h.cnt b
    have hw := h.cntw b
    have hle := emb_le s b
    have hlt' : b < s.nblocks := h.lt_of_cnt (Or.inr (by omega))
    have hfr := h.freed b hlt'
    have hfr0 : (s.blocks b).freed = 0 := by rw [hfr]; simp; omega
    have hok := h.ok b hlt' hfr0
    have d1 : dec (s.blocks b).cntw_ = (s.blocks b).cntw_ - 1 := dec_eq (by omega) (by omega)
    have g : (s.blocks b).cntw_ ≠ 0 := by omega
    have c1 : ((s.decW b).blocks b).cntw_ = (s.blocks b).cntw_ - 1 := by
      simp [State.decW, d1]
    have c2 : ((s.decW b).blocks b).cnt_ = (s.blocks b).cnt_ := by simp [State.decW]
    have x1 : exactZero ((s.decW b).blocks b).cntw_ ((s.decW b).blocks b).cnt_ = true := by
      rw [c1, c2]; exact exactZero_of_lt (by omega)
    rw [Checked.releaseWeak, SharedWeak.releaseWeak, if_neg g, x1]
    simp only [Bool.not_true, Bool.false_eq_true, if_false]
    by_cases hz : sumZero ((s.decW b).blocks b).cntw_ ((s.decW b).blocks b).cnt_ = true
    · rw [if_pos hz, if_pos hz]
      have hz' := (sumZero_iff (by rw [c1, c2]; omega)).1 hz
      have hok' : ((s.decW b).blocks b).ok_ = true := by
        simp only [State.decW, upd_same]
        exact hok.2 (by rw [← c2]; exact hz'.2)
      rw [Checked.delete_ok n _ b hok', deleteBlock_ok n _ b hok']
    · rw [if_neg hz, if_neg hz]
/-- The weak members of a payload that its block does not count have no block. -/
theorem HeapInv.plain_members {s : State} {C W : Nat → Nat} (h : HeapInv s C W) {b o : Nat}
    (hp : (s.blocks b).payload = some o) (hc : (s.blocks b).cnt_ ≠ 0) (he : emb s b = 0)
    (hes : (s.objs o).esft = true) :
    (s.objs o).self_.block_ = none ∧ (s.objs o).self1_.block_ = none := by
  have hdt : (s.objs o).dtor = 0 := by
    have := (h.owned b o hp).2
    rw [if_neg hc] at this; exact this
  have hpair := h.pair o hes
  cases hsb : (s.objs o).self_.block_ with
  | none => rw [hpair, hsb]; exact ⟨rfl, rfl⟩
  | some b' =>
    have hb' := h.self o b' hes hsb
    have e : b' = b := h.inj b' b o hb' hp
    subst e
    simp [emb, hp, hes, hdt, hsb] at he

/-- The weak members of a payload that its block counts refer to the block. -/
theorem HeapInv.hooked_members {s : State} {C W : Nat → Nat} (h : HeapInv s C W) {b o : Nat}
    (hp : (s.blocks b).payload = some o) (he : emb s b ≠ 0) :
    (s.objs o).esft = true ∧ (s.objs o).self_.block_ = some b ∧
      (s.objs o).self1_.block_ = some b ∧ emb s b = 2 := by
  unfold emb at he ⊢
  rw [hp] at he ⊢
  simp only at he ⊢
  split at he
  · rename_i hh
    rw [if_pos hh]
    exact ⟨hh.1, hh.2.2, by rw [h.pair o hh.1]; exact hh.2.2, rfl⟩
  · exact absurd rfl he

/-- The destructor of the payload of a block that just lost its last owner
passes its assertions. -/
theorem Checked.destroy_agrees {s : State} {D W : Nat → Nat} (h : HeapInv s D W) {b o : Nat}
    (hp : (s.blocks b).payload = some o) (hc : (s.blocks b).cnt_ = 1)
    (hlt : D b + W b + 3 < sizeMod) (u : State) (hu : u.objs = s.objs)
    (hub : (u.blocks b).cntw_ = (s.blocks b).cntw_) (huc : (u.blocks b).cnt_ = 0)
    (hok : (u.blocks b).ok_ = true ∨ (s.blocks b).cntw_ = 0) (n : Nat) :
    Checked.destroyPayload (n + 3) u o = SharedWeak.destroyPayload (n + 3) u o := by
  have hw := h.cntw b
  have hle := emb_le s b
  have hcb := h.cnt b
  by_cases he : emb s b = 0
  · have hpl := h.plain_members hp (by omega) he
    rw [Checked.destroy_plain (n + 1) u o (by rw [hu]; exact hpl),
      destroyPayload_plain (n + 1) u o (by rw [hu]; exact hpl)]
  · obtain ⟨hes, h1, h2, h3⟩ := h.hooked_members hp he
    have hok' : (u.blocks b).ok_ = true := by
      rcases hok with hok | hz
      · exact hok
      · omega
    rw [Checked.destroy_hooked n u o b (by rw [hu]; exact hes) (by rw [hu]; exact h1)
        (by rw [hu]; exact h2) huc (by omega) (by omega) hok',
      destroyPayload_hooked n u o b (by rw [hu]; exact hes) (by rw [hu]; exact h1)
        (by rw [hu]; exact h2) huc (by omega) (by omega) hok']

/-- On a consistent heap a strong release passes its assertions and does what
the code without assertions does. -/
theorem Checked.releaseShared_agrees {s : State} {D W : Nat → Nat} (h : HeapInv s D W)
    (x : Option Nat) (hx : ∀ b, x = some b → 0 < D b ∧ D b + W b + 3 < sizeMod) (n : Nat) :
    Checked.releaseShared (n + 4) s x = SharedWeak.releaseShared (n + 4) s x := by
  cases x with
  | none => rfl
  | some b =>
    obtain ⟨h0, hlt⟩ := hx b rfl
    have hc := h.cnt b
    have hw := h.cntw b
    have hle := emb_le s b
    have hlt' : b < s.nblocks := h.lt_of_cnt (Or.inl (by omega))
    have hfr := h.freed b hlt'
    have hfr0 : (s.blocks b).freed = 0 := by rw [hfr]; simp; omega
    have hok : (s.blocks b).ok_ = false := by
      have := h.ok b hlt' hfr0
      rw [← Bool.not_eq_true, this]; omega
    have g : (s.blocks b).cnt_ ≠ 0 := by omega
    have d1 : dec (s.blocks b).cnt_ = (s.blocks b).cnt_ - 1 := dec_eq (by omega) (by omega)
    have c1 : ((s.decS b).blocks b).cnt_ = (s.blocks b).cnt_ - 1 := by
      simp [State.decS, d1]
    have c2 : ((s.decS b).blocks b).cntw_ = (s.blocks b).cntw_ := by simp [State.decS]
    have ck : ((s.decS b).blocks b).kind = (s.blocks b).kind := by simp [State.decS]
    have co : ((s.decS b).blocks b).ok_ = false := by simp [State.decS, hok]
    have x1 : exactZero ((s.decS b).blocks b).cnt_ ((s.decS b).blocks b).cntw_ = true := by
      rw [c1, c2]; exact exactZero_of_lt (by omega)
    rw [Checked.releaseShared, SharedWeak.releaseShared, if_neg g, x1]
    simp only [Bool.not_true, Bool.false_eq_true, if_false]
    by_cases hz : sumZero ((s.decS b).blocks b).cnt_ ((s.decS b).blocks b).cntw_ = true
    · rw [if_pos hz, if_pos hz]
      have hz' := (sumZero_iff (by rw [c1, c2]; omega)).1 hz
      rw [c1, c2] at hz'
      rw [Checked.deleteBlock, SharedWeak.deleteBlock]
      cases hkind : (s.blocks b).kind with
      | clever ptr =>
        rw [ck, hkind]
        simp only [co, Bool.not_false, if_true]
        cases ptr with
        | none => rfl
        | some o =>
          simp only
          have hp : (s.blocks b).payload = some o := by simp [Block.payload, hkind]
          rw [Checked.destroy_agrees h hp (by omega) hlt ((s.decS b).setOk b) rfl
            (by simp [State.decS, State.setOk]) (by simp [State.decS, State.setOk, d1]; omega)
            (Or.inr hz'.2) n]
      | smart o =>
        rw [ck, hkind]
        simp only [co, Bool.not_false, if_true]
        have hp : (s.blocks b).payload = some o := by simp [Block.payload, hkind]
        rw [Checked.destroy_agrees h hp (by omega) hlt (s.decS b) rfl
          (by simp [State.decS]) (by simp [State.decS, d1]; omega)
          (Or.inr hz'.2) n]
    · rw [if_neg hz, if_neg hz]
      by_cases hd : (((s.decS b).blocks b).cnt_ == 0) = true
      · rw [if_pos hd, if_pos hd]
        have hd' : (s.blocks b).cnt_ - 1 = 0 := by rw [← c1]; simpa using hd
        unfold Checked.Del SharedWeak.Del
        cases hkind : (s.blocks b).kind with
        | clever ptr =>
          rw [ck, hkind]
          simp only [co, Bool.not_false, if_true]
          cases ptr with
          | none => rfl
          | some o =>
            simp only
            have hp : (s.blocks b).payload = some o := by simp [Block.payload, hkind]
            exact Checked.destroy_agrees h hp (by omega) hlt ((s.decS b).setOk b) rfl
              (by simp [State.decS, State.setOk])
              (by simp [State.decS, State.setOk, d1]; omega)
              (Or.inl (by simp [State.decS, State.setOk])) (n + 1)
        | smart o =>
          rw [ck, hkind]
          simp only
          have hp : (s.blocks b).payload = some o := by simp [Block.payload, hkind]
          exact Checked.destroy_agrees h hp (by omega) hlt ((s.decS b).setOk b) rfl
            (by simp [State.decS, State.setOk])
            (by simp [State.decS, State.setOk, d1]; omega)
            (Or.inl (by simp [State.decS, State.setOk])) (n + 1)
      · rw [if_neg hd, if_neg hd]

/-- The hookup `AssignToSelf(ptr)` passes its assertions. -/
theorem Checked.hookup_some (n : Nat) {s : State} {this o b : Nat} {p : SharedPtr}
    (hg : s.getS this = some p) (hp : p.block_ = some b)
    (h0 : (s.objs o).self_.block_ = none) (h1 : (s.objs o).self1_.block_ = none)
    (hlt : (s.blocks b).cnt_ + (s.blocks b).cntw_ + 3 < sizeMod) :
    Checked.SharedPtr.AssignToSelf (n + 1) s this (some o) =
      SharedWeak.SharedPtr.AssignToSelf (n + 1) s this (some o) := by
  have e1 : SharedWeak.WeakPtr.fromShared s this = some ((s.pushW ⟨p.own_, some b⟩).incW b) := by
    simp [SharedWeak.WeakPtr.fromShared, hg, hp]
  have g1 : ∀ u : State, u.wps = s.wps ++ [some ⟨p.own_, some b⟩] →
      u.getW (WLoc.var s.wps.length) = some ⟨p.own_, some b⟩ := by
    intro u hu
    simp [State.getW, hu]
  have a0 : (((s.pushW ⟨p.own_, some b⟩).incW b).objs o).self_.block_ = none := h0
  have a1 : ((((((s.pushW ⟨p.own_, some b⟩).incW b).setW (WLoc.self_ o) ⟨p.own_, some b⟩).incW
      b)).objs o).self1_.block_ = none := by
    simp [State.setW, State.incW, State.pushW, h1]
  have e2 : SharedWeak.WeakPtr.copyAssign (n + 1) ((s.pushW ⟨p.own_, some b⟩).incW b)
      (WLoc.self_ o) (WLoc.var s.wps.length) =
      some ((((s.pushW ⟨p.own_, some b⟩).incW b).setW (WLoc.self_ o) ⟨p.own_, some b⟩).incW b) := by
    unfold SharedWeak.WeakPtr.copyAssign
    rw [g1 _ rfl]
    simp only [State.getW]
    simp [a0, releaseWeak_none]
  have k2 : Checked.WeakPtr.copyAssign (n + 1) ((s.pushW ⟨p.own_, some b⟩).incW b)
      (WLoc.self_ o) (WLoc.var s.wps.length) =
      some ((((s.pushW ⟨p.own_, some b⟩).incW b).setW (WLoc.self_ o) ⟨p.own_, some b⟩).incW b) := by
    unfold Checked.WeakPtr.copyAssign
    rw [g1 _ rfl]
    simp only [State.getW]
    simp [a0, Checked.weak_none]
  have e3 : SharedWeak.WeakPtr.copyAssign (n + 1)
      ((((s.pushW ⟨p.own_, some b⟩).incW b).setW (WLoc.self_ o) ⟨p.own_, some b⟩).incW b)
      (WLoc.self1_ o) (WLoc.var s.wps.length) =
      some ((((((s.pushW ⟨p.own_, some b⟩).incW b).setW (WLoc.self_ o) ⟨p.own_, some b⟩).incW
        b).setW (WLoc.self1_ o) ⟨p.own_, some b⟩).incW b) := by
    unfold SharedWeak.WeakPtr.copyAssign
    rw [g1 _ rfl]
    simp only [State.getW]
    simp [a1, releaseWeak_none]
  have k3 : Checked.WeakPtr.copyAssign (n + 1)
      ((((s.pushW ⟨p.own_, some b⟩).incW b).setW (WLoc.self_ o) ⟨p.own_, some b⟩).incW b)
      (WLoc.self1_ o) (WLoc.var s.wps.length) =
      some ((((((s.pushW ⟨p.own_, some b⟩).incW b).setW (WLoc.self_ o) ⟨p.own_, some b⟩).incW
        b).setW (WLoc.self1_ o) ⟨p.own_, some b⟩).incW b) := by
    unfold Checked.WeakPtr.copyAssign
    rw [g1 _ rfl]
    simp only [State.getW]
    simp [a1, Checked.weak_none]
  have i3 : inc (inc (inc (s.blocks b).cntw_)) = (s.blocks b).cntw_ + 3 := by
    rw [inc_eq (x := (s.blocks b).cntw_) (by omega),
      inc_eq (x := (s.blocks b).cntw_ + 1) (by omega),
      inc_eq (x := (s.blocks b).cntw_ + 1 + 1) (by omega)]
  have hcw : dec (inc (inc (inc (s.blocks b).cntw_))) = (s.blocks b).cntw_ + 2 :=
    dec_inc3 (by omega)
  have k4 : Checked.WeakPtr.dtor (n + 1)
      ((((((s.pushW ⟨p.own_, some b⟩).incW b).setW (WLoc.self_ o) ⟨p.own_, some b⟩).incW
        b).setW (WLoc.self1_ o) ⟨p.own_, some b⟩).incW b) s.wps.length =
      SharedWeak.WeakPtr.dtor (n + 1)
      ((((((s.pushW ⟨p.own_, some b⟩).incW b).setW (WLoc.self_ o) ⟨p.own_, some b⟩).incW
        b).setW (WLoc.self1_ o) ⟨p.own_, some b⟩).incW b) s.wps.length := by
    unfold Checked.WeakPtr.dtor SharedWeak.WeakPtr.dtor
    rw [g1 _ rfl]
    simp only [Checked.releaseWeak, SharedWeak.releaseWeak]
    have c0 : ((((((((s.pushW ⟨p.own_, some b⟩).incW b).setW (WLoc.self_ o)
        ⟨p.own_, some b⟩).incW b).setW (WLoc.self1_ o) ⟨p.own_, some b⟩).incW b)).blocks
        b).cntw_ = (s.blocks b).cntw_ + 3 := by
      simp only [State.setW, State.incW, State.pushW, upd_same, i3]
    have c1 : (((((((((s.pushW ⟨p.own_, some b⟩).incW b).setW (WLoc.self_ o)
        ⟨p.own_, some b⟩).incW b).setW (WLoc.self1_ o) ⟨p.own_, some b⟩).incW b)).decW
        b).blocks b).cntw_ = (s.blocks b).cntw_ + 2 := by
      simp only [State.setW, State.incW, State.pushW, State.decW, upd_same, hcw]
    have c2 : (((((((((s.pushW ⟨p.own_, some b⟩).incW b).setW (WLoc.self_ o)
        ⟨p.own_, some b⟩).incW b).setW (WLoc.self1_ o) ⟨p.own_, some b⟩).incW b)).decW
        b).blocks b).cnt_ = (s.blocks b).cnt_ := by
      simp only [State.setW, State.incW, State.pushW, State.decW, upd_same]
    rw [if_neg (by rw [c0]; omega), c1, c2, exactZero_of_lt (by omega),
      sumZero_false (by omega) (by omega)]
    simp
  simp only [Checked.SharedPtr.AssignToSelf, SharedWeak.SharedPtr.AssignToSelf, e1, e2, k2, e3,
    k3, Option.some_bind, k4]

/-- The hookup `AssignToSelf(nullptr)` passes its assertions. -/
theorem Checked.hookup_none (n : Nat) {s : State} {this b : Nat} {p : SharedPtr}
    (hg : s.getS this = some p) (hp : p.block_ = some b) (hc : (s.blocks b).cnt_ ≠ 0)
    (hlt : (s.blocks b).cnt_ + (s.blocks b).cntw_ + 3 < sizeMod) :
    Checked.SharedPtr.AssignToSelf (n + 1) s this none =
      SharedWeak.SharedPtr.AssignToSelf (n + 1) s this none := by
  have e1 : SharedWeak.WeakPtr.fromShared s this = some ((s.pushW ⟨p.own_, some b⟩).incW b) := by
    simp [SharedWeak.WeakPtr.fromShared, hg, hp]
  have g1 : ∀ u : State, u.wps = s.wps ++ [some ⟨p.own_, some b⟩] →
      u.getW (WLoc.var s.wps.length) = some ⟨p.own_, some b⟩ := by
    intro u hu
    simp [State.getW, hu]
  have i1 : inc (s.blocks b).cntw_ = (s.blocks b).cntw_ + 1 := inc_eq (by omega)
  have hcw : dec (inc (s.blocks b).cntw_) = (s.blocks b).cntw_ := dec_inc (by omega)
  have k4 : Checked.WeakPtr.dtor (n + 1) ((s.pushW ⟨p.own_, some b⟩).incW b) s.wps.length =
      SharedWeak.WeakPtr.dtor (n + 1) ((s.pushW ⟨p.own_, some b⟩).incW b) s.wps.length := by
    unfold Checked.WeakPtr.dtor SharedWeak.WeakPtr.dtor
    rw [g1 _ rfl]
    simp only [Checked.releaseWeak, SharedWeak.releaseWeak]
    have c0 : (((s.pushW ⟨p.own_, some b⟩).incW b).blocks b).cntw_ =
        (s.blocks b).cntw_ + 1 := by
      simp only [State.incW, State.pushW, upd_same, i1]
    have c1 : ((((s.pushW ⟨p.own_, some b⟩).incW b).decW b).blocks b).cntw_ =
        (s.blocks b).cntw_ := by
      simp only [State.incW, State.pushW, State.decW, upd_same, hcw]
    have c2 : ((((s.pushW ⟨p.own_, some b⟩).incW b).decW b).blocks b).cnt_ =
        (s.blocks b).cnt_ := by
      simp only [State.incW, State.pushW, State.decW, upd_same]
    rw [if_neg (by rw [c0]; omega), c1, c2, exactZero_of_lt (by omega),
      sumZero_false (by omega) (by omega)]
    simp
  simp only [Checked.SharedPtr.AssignToSelf, SharedWeak.SharedPtr.AssignToSelf, e1,
    Option.some_bind, k4]

/-- The hookup at the end of a constructor passes its assertions. -/
theorem Checked.CanConstruct_agrees {s : State} (h : Inv s)
    (hb : s.sps.length + s.wps.length + 6 < sizeMod) {this b : Nat} {p : SharedPtr}
    (hg : s.getS this = some p) (hp : p.block_ = some b) (ptr : Option Nat) (cap : Bool)
    (hcap : ∀ o, ptr = some o → cap = true →
      (s.objs o).esft = true ∧ (s.objs o).self_.block_ = none) (n : Nat) :
    Checked.SharedPtr.CanConstruct (n + 1) s this ptr cap =
      SharedWeak.SharedPtr.CanConstruct (n + 1) s this ptr cap := by
  unfold Checked.SharedPtr.CanConstruct SharedWeak.SharedPtr.CanConstruct
  cases cap with
  | false => rfl
  | true =>
    simp only [if_true]
    have hlt : (s.blocks b).cnt_ + (s.blocks b).cntw_ + 3 < sizeMod := by
      rw [h.cnt b, h.cntw b]
      have := spCount_le b s.sps
      have := wpCount_le b s.wps
      have := emb_le s b
      omega
    have hc : (s.blocks b).cnt_ ≠ 0 := by
      rw [h.cnt b]; have := spCount_pos hg hp; omega
    cases ptr with
    | none => exact Checked.hookup_none n hg hp hc hlt
    | some o =>
      obtain ⟨hes, h0⟩ := hcap o rfl rfl
      have h1 : (s.objs o).self1_.block_ = none := by rw [h.pair o hes]; exact h0
      exact Checked.hookup_some n hg hp h0 h1 hlt

theorem Checked.fromRaw_agrees {s : State} (h : Inv s)
    (hb : s.sps.length + s.wps.length + 8 < sizeMod) {ptr : Option Nat} {cap : Bool}
    (hw : wrappable s ptr cap = true) (n : Nat) :
    Checked.SharedPtr.fromRaw (n + 1) s ptr cap = SharedWeak.SharedPtr.fromRaw (n + 1) s ptr cap := by
  unfold Checked.SharedPtr.fromRaw SharedWeak.SharedPtr.fromRaw
  simp only
  refine Checked.CanConstruct_agrees (SharedPtr.fromRaw_mid h hw)
    (by simp [State.pushS, State.newBlock]; omega)
    (b := s.nblocks) (p := ⟨ptr, some s.nblocks⟩) ?_ rfl ptr cap ?_ n
  · simp [State.getS, State.pushS, State.newBlock]
  · intro o ho hc
    subst ho
    obtain ⟨_, w2, _, _, w5⟩ := wrappable_spec h hw
    rw [hc] at w2
    exact ⟨w2, w5 w2⟩

theorem Checked.MakeShared_agrees {s : State} (h : Inv s)
    (hb : s.sps.length + s.wps.length + 8 < sizeMod) (cap : Bool) (n : Nat) :
    Checked.MakeShared (n + 1) s cap = SharedWeak.MakeShared (n + 1) s cap := by
  unfold Checked.MakeShared SharedWeak.MakeShared
  simp only
  refine Checked.CanConstruct_agrees (MakeShared_mid h cap)
    (by simp [State.pushS, State.newBlock, State.setS, State.incS, State.newObj]; omega)
    (b := s.nblocks) (p := ⟨some s.nobjs, some s.nblocks⟩) ?_ rfl (some s.nobjs) cap ?_ n
  · simp only [State.getS, State.pushS, State.newBlock, State.setS, State.incS, State.newObj]
    rw [getD_set _ _ _ _ (by simp)]
    simp
  · intro o ho hc
    cases ho
    simp [State.newBlock, State.pushS, State.setS, State.incS, State.newObj, hc]
theorem Checked.dtor_agrees {s : State} (h : Inv s)
    (hb : s.sps.length + s.wps.length + 6 < sizeMod) (i n : Nat) :
    Checked.SharedPtr.dtor (n + 4) s i = SharedWeak.SharedPtr.dtor (n + 4) s i := by
  unfold Checked.SharedPtr.dtor SharedWeak.SharedPtr.dtor
  cases hg : s.getS i with
  | none => rfl
  | some a =>
    simp only
    rw [Checked.releaseShared_agrees h a.block_ (fun b hx => by
      have h0 := spCount_pos hg hx
      have := spCount_le b s.sps
      have := wpCount_le b s.wps
      exact ⟨h0, by omega⟩) n]

theorem Checked.Reset_agrees {s : State} (h : Inv s)
    (hb : s.sps.length + s.wps.length + 6 < sizeMod) (i n : Nat) :
    Checked.SharedPtr.Reset (n + 4) s i = SharedWeak.SharedPtr.Reset (n + 4) s i := by
  unfold Checked.SharedPtr.Reset SharedWeak.SharedPtr.Reset
  cases hg : s.getS i with
  | none => rfl
  | some a =>
    simp only
    cases hblk : a.block_ with
    | none => rfl
    | some b =>
      simp only
      rw [Checked.releaseShared_agrees h (some b) (fun b' hx => by
        cases hx
        have h0 := spCount_pos hg hblk
        have := spCount_le b s.sps
        have := wpCount_le b s.wps
        exact ⟨h0, by omega⟩) n]

theorem Checked.ResetPtr_agrees {s : State} (h : Inv s)
    (hb : s.sps.length + s.wps.length + 6 < sizeMod) (i : Nat) (ptr : Option Nat) (n : Nat) :
    Checked.SharedPtr.ResetPtr (n + 4) s i ptr = SharedWeak.SharedPtr.ResetPtr (n + 4) s i ptr := by
  unfold Checked.SharedPtr.ResetPtr SharedWeak.SharedPtr.ResetPtr
  cases hg : s.getS i with
  | none => rfl
  | some a =>
    simp only
    rw [Checked.releaseShared_agrees (s := s.setS i ⟨ptr, a.block_⟩) (h.sps _) a.block_
      (fun b hx => by
        have h0 := spCount_pos hg hx
        have := spCount_le b s.sps
        have := wpCount_le b s.wps
        exact ⟨h0, by omega⟩) n]

theorem Checked.copyAssign_agrees {s : State} (h : Inv s)
    (hb : s.sps.length + s.wps.length + 6 < sizeMod) (i j n : Nat) :
    Checked.SharedPtr.copyAssign (n + 4) s i j = SharedWeak.SharedPtr.copyAssign (n + 4) s i j := by
  unfold Checked.SharedPtr.copyAssign SharedWeak.SharedPtr.copyAssign
  cases hgi : s.getS i with
  | none => rfl
  | some a =>
    cases hgj : s.getS j with
    | none => rfl
    | some o =>
      simp only
      by_cases e : a.block_ = o.block_
      · rw [if_pos e, if_pos e]
      · rw [if_neg e, if_neg e]
        have h2 := h.rebind_heap hb (s.sps.set i (some ⟨o.own_, o.block_⟩)) a.block_ o.block_
          (u := match o.block_ with
            | some b => (s.setS i ⟨o.own_, o.block_⟩).incS b
            | none => s.setS i ⟨o.own_, o.block_⟩)
          (by cases o.block_ <;> rfl)
          (fun b hy => by rw [h.cnt b]; have := spCount_pos hgj hy; omega)
          (fun b => by
            have := spCount_set hgi (some ⟨o.own_, o.block_⟩) b
            simpa using this)
        exact Checked.releaseShared_agrees h2 a.block_ (fun b hx => by
          have hle := spCount_le b (s.sps.set i (some ⟨o.own_, o.block_⟩))
          have := wpCount_le b s.wps
          simp only [List.length_set] at hle
          simp only [hx, if_true]
          omega) n

theorem Checked.moveAssign_agrees {s : State} (h : Inv s)
    (hb : s.sps.length + s.wps.length + 6 < sizeMod) (i j n : Nat) :
    Checked.SharedPtr.moveAssign (n + 4) s i j = SharedWeak.SharedPtr.moveAssign (n + 4) s i j := by
  unfold Checked.SharedPtr.moveAssign SharedWeak.SharedPtr.moveAssign
  cases hgi : s.getS i with
  | none => rfl
  | some a =>
    cases hgj : s.getS j with
    | none => rfl
    | some o =>
      simp only
      by_cases e : o.block_ = a.block_
      · rw [if_pos e, if_pos e]
      · rw [if_neg e, if_neg e]
        have hij : j ≠ i := by
          intro e'; subst e'; rw [hgi] at hgj; cases hgj; exact e rfl
        have hi := getD_some_lt hgi
        have hgj' : (s.sps.set i (some (SharedPtr.mk o.own_ o.block_))).getD j none = some o := by
          rw [getD_set _ _ _ _ hi, if_neg hij]; exact hgj
        have hcount : ∀ b, spCount b ((s.sps.set i (some ⟨o.own_, o.block_⟩)).set j
            (some ⟨none, none⟩)) + (if a.block_ = some b then 1 else 0) =
            spCount b s.sps + if (none : Option Nat) = some b then 1 else 0 := by
          intro b
          have h1 := spCount_set hgi (some ⟨o.own_, o.block_⟩) b
          have h2 := spCount_set hgj' (some ⟨none, none⟩) b
          simp at h1 h2 ⊢
          omega
        have h2 := h.rebind_heap hb
          ((s.sps.set i (some ⟨o.own_, o.block_⟩)).set j (some ⟨none, none⟩)) a.block_ none
          (u := (s.setS i ⟨o.own_, o.block_⟩).setS j ⟨none, none⟩) rfl
          (by intro b hy; cases hy) hcount
        exact Checked.releaseShared_agrees h2 a.block_ (fun b hx => by
          have hle := spCount_le b
            ((s.sps.set i (some ⟨o.own_, o.block_⟩)).set j (some ⟨none, none⟩))
          have := wpCount_le b s.wps
          simp only [List.length_set] at hle
          simp only [hx, if_true]
          omega) n

theorem Checked.Swap_agrees {s : State} (h : Inv s)
    (hb : s.sps.length + s.wps.length + 8 < sizeMod) (i j n : Nat) :
    Checked.SharedPtr.Swap (n + 4) s i j = SharedWeak.SharedPtr.Swap (n + 4) s i j := by
  unfold Checked.SharedPtr.Swap SharedWeak.SharedPtr.Swap
  simp only
  cases h1 : SharedWeak.SharedPtr.move s j with
  | none => rfl
  | some s1 =>
    obtain ⟨i1, l1, w1, _⟩ := SharedPtr.move_inv h h1
    simp only [Option.some_bind]
    rw [Checked.moveAssign_agrees i1 (by omega)]
    cases h2 : SharedWeak.SharedPtr.moveAssign (n + 4) s1 j i with
    | none => rfl
    | some s2 =>
      obtain ⟨i2, l2, w2⟩ := SharedPtr.moveAssign_inv i1 (by omega) h2
      simp only [Option.some_bind]
      rw [Checked.moveAssign_agrees i2 (by omega)]
      cases h3 : SharedWeak.SharedPtr.moveAssign (n + 4) s2 i s.sps.length with
      | none => rfl
      | some s3 =>
        obtain ⟨i3, l3, w3⟩ := SharedPtr.moveAssign_inv i2 (by omega) h3
        simp only [Option.some_bind]
        exact Checked.dtor_agrees i3 (by omega) _ n

theorem Checked.weak_dtor_agrees {s : State} (h : Inv s)
    (hb : s.sps.length + s.wps.length + 6 < sizeMod) (i n : Nat) :
    Checked.WeakPtr.dtor (n + 4) s i = SharedWeak.WeakPtr.dtor (n + 4) s i := by
  unfold Checked.WeakPtr.dtor SharedWeak.WeakPtr.dtor
  cases hg : s.getW (WLoc.var i) with
  | none => rfl
  | some a =>
    simp only
    rw [Checked.releaseWeak_agrees h a.block_ (fun b hx => by
      have h0 := wpCount_pos hg hx
      have := spCount_le b s.sps
      have := wpCount_le b s.wps
      exact ⟨h0, by omega⟩) (n + 2)]

theorem Checked.weak_Reset_agrees {s : State} (h : Inv s)
    (hb : s.sps.length + s.wps.length + 6 < sizeMod) (i n : Nat) :
    Checked.WeakPtr.Reset (n + 4) s i = SharedWeak.WeakPtr.Reset (n + 4) s i := by
  unfold Checked.WeakPtr.Reset SharedWeak.WeakPtr.Reset
  cases hg : s.getW (WLoc.var i) with
  | none => rfl
  | some a =>
    simp only
    cases hblk : a.block_ with
    | none => rfl
    | some b =>
      simp only
      rw [Checked.releaseWeak_agrees h (some b) (fun b' hx => by
        cases hx
        have h0 := wpCount_pos hg hblk
        have := spCount_le b s.sps
        have := wpCount_le b s.wps
        exact ⟨h0, by omega⟩) (n + 2)]

theorem Checked.weak_copyAssign_agrees {s : State} (h : Inv s)
    (hb : s.sps.length + s.wps.length + 6 < sizeMod) (i j n : Nat) :
    Checked.WeakPtr.copyAssign (n + 4) s (WLoc.var i) (WLoc.var j) =
      SharedWeak.WeakPtr.copyAssign (n + 4) s (WLoc.var i) (WLoc.var j) := by
  unfold Checked.WeakPtr.copyAssign SharedWeak.WeakPtr.copyAssign
  cases hgi : s.getW (WLoc.var i) with
  | none => rfl
  | some a =>
    cases hgj : s.getW (WLoc.var j) with
    | none => rfl
    | some o =>
      simp only
      by_cases e : o.block_ = a.block_
      · rw [if_pos e, if_pos e]
      · rw [if_neg e, if_neg e]
        have h2 := h.rebindW_heap hb (s.wps.set i (some ⟨o.own_, o.block_⟩)) a.block_ o.block_
          (u := match o.block_ with
            | some b => (s.setW (WLoc.var i) ⟨o.own_, o.block_⟩).incW b
            | none => s.setW (WLoc.var i) ⟨o.own_, o.block_⟩)
          (by cases o.block_ <;> rfl)
          (fun b hy => Or.inr (wpCount_pos hgj hy))
          (fun b => by
            have := wpCount_set hgi (some ⟨o.own_, o.block_⟩) b
            simpa using this)
        exact Checked.releaseWeak_agrees h2 a.block_ (fun b hx => by
          have hle := wpCount_le b (s.wps.set i (some ⟨o.own_, o.block_⟩))
          have := spCount_le b s.sps
          simp only [List.length_set] at hle
          simp only [hx, if_true]
          omega) (n + 2)

theorem Checked.weak_moveAssign_agrees {s : State} (h : Inv s)
    (hb : s.sps.length + s.wps.length + 6 < sizeMod) (i j n : Nat) :
    Checked.WeakPtr.moveAssign (n + 4) s i j = SharedWeak.WeakPtr.moveAssign (n + 4) s i j := by
  unfold Checked.WeakPtr.moveAssign SharedWeak.WeakPtr.moveAssign
  cases hgi : s.getW (WLoc.var i) with
  | none => rfl
  | some a =>
    cases hgj : s.getW (WLoc.var j) with
    | none => rfl
    | some o =>
      simp only
      by_cases e : o.block_ = a.block_
      · rw [if_pos e, if_pos e]
      · rw [if_neg e, if_neg e]
        have hij : j ≠ i := by
          intro e'; subst e'; rw [hgi] at hgj; cases hgj; exact e rfl
        have hi := getD_some_lt hgi
        have hgj' : (s.wps.set i (some (WeakPtr.mk o.own_ o.block_))).getD j none = some o := by
          rw [getD_set _ _ _ _ hi, if_neg hij]; exact hgj
        have hc1 := fun b => wpCount_set hgi (some ⟨o.own_, o.block_⟩) b
        have hc2 := fun b => wpCount_set hgj' (some ⟨none, none⟩) b
        have h2 : HeapInv (s.setW (WLoc.var i) ⟨o.own_, o.block_⟩)
            (fun b => spCount b s.sps)
            (fun b => wpCount b ((s.wps.set i (some ⟨o.own_, o.block_⟩)).set j
              (some ⟨none, none⟩)) + if a.block_ = some b then 1 else 0) := by
          refine HeapInv.congr (h.wps _) (fun _ => rfl) ?_
          intro b
          have h1 := hc1 b
          have h2 := hc2 b
          simp at h1 h2 ⊢
          omega
        rw [Checked.releaseWeak_agrees h2 a.block_ (fun b hx => by
          have hle := wpCount_le b ((s.wps.set i (some ⟨o.own_, o.block_⟩)).set j
            (some ⟨none, none⟩))
          have := spCount_le b s.sps
          simp only [List.length_set] at hle
          simp only [hx, if_true]
          omega) (n + 2)]

theorem Checked.weak_Swap_agrees {s : State} (h : Inv s)
    (hb : s.sps.length + s.wps.length + 8 < sizeMod) (i j n : Nat) :
    Checked.WeakPtr.Swap (n + 4) s i j = SharedWeak.WeakPtr.Swap (n + 4) s i j := by
  unfold Checked.WeakPtr.Swap SharedWeak.WeakPtr.Swap
  simp only
  cases h1 : SharedWeak.WeakPtr.move s j with
  | none => rfl
  | some s1 =>
    obtain ⟨i1, l1, w1⟩ := WeakPtr.weak_move_inv h h1
    simp only [Option.some_bind]
    rw [Checked.weak_moveAssign_agrees i1 (by omega)]
    cases h2 : SharedWeak.WeakPtr.moveAssign (n + 4) s1 j i with
    | none => rfl
    | some s2 =>
      obtain ⟨i2, l2, w2⟩ := WeakPtr.weak_moveAssign_inv i1 (by omega) h2
      simp only [Option.some_bind]
      rw [Checked.weak_moveAssign_agrees i2 (by omega)]
      cases h3 : SharedWeak.WeakPtr.moveAssign (n + 4) s2 i s.wps.length with
      | none => rfl
      | some s3 =>
        obtain ⟨i3, l3, w3⟩ := WeakPtr.weak_moveAssign_inv i2 (by omega) h3
        simp only [Option.some_bind]
        exact Checked.weak_dtor_agrees i3 (by omega) _ n

/-- In a state that satisfies the invariant and is within the bound of the
model, the code with the assertions does exactly what the code does: no
assertion fails. -/
theorem Checked.perform_agrees {s : State} (h : Inv s)
    (hb : s.sps.length + s.wps.length + 8 < sizeMod) (op : Op) (n : Nat) :
    Checked.perform (n + 4) s op = SharedWeak.perform (n + 4) s op := by
  have hb6 : s.sps.length + s.wps.length + 6 < sizeMod := by omega
  cases op with
  | spRaw ptr cap =>
    simp only [Checked.perform, SharedWeak.perform]
    split
    · rename_i hw
      exact Checked.fromRaw_agrees h hb hw (n + 3)
    · rfl
  | makeShared cap => exact Checked.MakeShared_agrees h hb cap (n + 3)
  | spAssign this other => exact Checked.copyAssign_agrees h hb6 _ _ n
  | spMoveAssign this other => exact Checked.moveAssign_agrees h hb6 _ _ n
  | spReset this => exact Checked.Reset_agrees h hb6 _ n
  | spResetPtr this ptr cap =>
    simp only [Checked.perform, SharedWeak.perform]
    split
    · exact Checked.ResetPtr_agrees h hb6 _ _ n
    · rfl
  | spSwap this other => exact Checked.Swap_agrees h hb _ _ n
  | spDtor this => exact Checked.dtor_agrees h hb6 _ n
  | wpAssign this other => exact Checked.weak_copyAssign_agrees h hb6 _ _ n
  | wpMoveAssign this other => exact Checked.weak_moveAssign_agrees h hb6 _ _ n
  | wpReset this => exact Checked.weak_Reset_agrees h hb6 _ n
  | wpSwap this other => exact Checked.weak_Swap_agrees h hb _ _ n
  | wpDtor this => exact Checked.weak_dtor_agrees h hb6 _ n
  | _ => rfl

theorem Checked.exec_agrees {s : State} (hs : Reachable s) (op : Op) (n : Nat) :
    Checked.exec (n + 4) s op = SharedWeak.exec (n + 4) s op := by
  unfold Checked.exec SharedWeak.exec
  split
  · rename_i hb
    exact Checked.perform_agrees hs.inv (inBudget_spec hb) op n
  · rfl

/-! ## The claims -/

/-- C1: in every state a client program can reach, `cnt_` of every control
block equals the number of live `SharedPtr` objects whose `block_` is that
block, and `UseCount()` of a live `SharedPtr` that has a block returns that
number; such a block is not freed.  `UseCount()` of a live `SharedPtr` without
block is `0`. -/
theorem C1_strong_count (s : State) (h : Reachable s) :
    (∀ b, (s.blocks b).cnt_ = spCount b s.sps) ∧
    (∀ i p b, s.getS i = some p → p.block_ = some b →
      SharedPtr.UseCount s i = some (spCount b s.sps) ∧ 0 < spCount b s.sps ∧
        (s.blocks b).freed = 0) ∧
    (∀ i p, s.getS i = some p → p.block_ = none → SharedPtr.UseCount s i = some 0) := by
  have hI := h.inv
  refine ⟨hI.cnt, ?_, ?_⟩
  · intro i p b hg hb
    have hpos := spCount_pos hg hb
    have hc := hI.cnt b
    refine ⟨by simp [SharedPtr.UseCount, hg, hb, hc], hpos, ?_⟩
    have hlt : b < s.nblocks := hI.lt_of_cnt (Or.inl (by omega))
    rw [hI.freed b hlt, if_neg]
    intro hh; omega
  · intro i p hg hb
    simp [SharedPtr.UseCount, hg, hb]

/-- Witness of C1 on the state `aliasProgram` ends in: two live owners of
block `0`. -/
theorem C1_strong_count_witness :
    Reachable aliasState ∧
    ((∀ b, (aliasState.blocks b).cnt_ = spCount b aliasState.sps) ∧
    (∀ i p b, aliasState.getS i = some p → p.block_ = some b →
      SharedPtr.UseCount aliasState i = some (spCount b aliasState.sps) ∧
        0 < spCount b aliasState.sps ∧ (aliasState.blocks b).freed = 0) ∧
    (∀ i p, aliasState.getS i = some p → p.block_ = none →
      SharedPtr.UseCount aliasState i = some 0)) :=
  ⟨aliasState_reachable, C1_strong_count aliasState aliasState_reachable⟩

/-- C2: every operation of a client program that may be called in a reachable
state returns, for any fuel of at least four.  In the state `t` it returns, the
destructor of the payload `o` of every control block `b` has run `0` times
while `cnt_` is not `0` and exactly once as soon as `cnt_` is `0`; the same held
before the operation if the block existed then, and `cnt_` never leaves `0`: the
payload is finalized in the very operation in which `cnt_` reaches `0` and
never again.  The release of the last strong reference (`cnt_ == 1`) goes
through `delete` when no weak reference is left and through `Del()` otherwise,
it returns and leaves `cnt_ == 0` and the payload finalized; the release of a
strong reference that is not the last only decrements `cnt_`; and `delete` of a
block whose payload is finalized leaves every payload alone. -/
theorem C2_finalized_once (s : State) (op : Op) (hs : Reachable s) :
    (inBudget s = true → Op.defined s op = true → ∀ n, ∃ t, exec (n + 4) s op = some t) ∧
    ∀ f t, exec f s op = some t → ∀ b o, (t.blocks b).payload = some o →
      (t.objs o).dtor = (if (t.blocks b).cnt_ = 0 then 1 else 0) ∧
      (t.blocks b).cnt_ = spCount b t.sps ∧
      (b < s.nblocks → (s.blocks b).payload = some o ∧
        (s.objs o).dtor = (if (s.blocks b).cnt_ = 0 then 1 else 0) ∧
        ((s.blocks b).cnt_ = 0 → (t.blocks b).cnt_ = 0)) ∧
      ((t.blocks b).cnt_ = 1 → inBudget t = true → ∀ n, releaseShared n t (some b) =
        if (t.blocks b).cntw_ = 0 then deleteBlock n (t.decS b) b else Del n (t.decS b) b) ∧
      ((t.blocks b).cnt_ = 1 → inBudget t = true → ∀ n, ∃ u,
        releaseShared (n + 4) t (some b) = some u ∧ (u.blocks b).cnt_ = 0 ∧
          (u.objs o).dtor = 1) ∧
      (2 ≤ (t.blocks b).cnt_ → inBudget t = true → ∀ n,
        releaseShared n t (some b) = some (t.decS b) ∧
          ((t.decS b).blocks b).cnt_ = (t.blocks b).cnt_ - 1 ∧ ((t.decS b).objs o).dtor = 0) ∧
      ((t.blocks b).cnt_ = 0 → (t.blocks b).freed = 0 → ∀ n,
        deleteBlock (n + 1) t b = some (t.free b) ∧ (t.free b).objs = t.objs) := by
  refine ⟨fun hbud hd n => exec_returns hs hbud hd n, ?_⟩
  intro f t he b o hp'
  have hI := hs.inv
  have hI' := (Reachable.step f op hs he).inv
  have hH := exec_hist he
  have hlt' : b < t.nblocks := hI'.lt_of_payload hp'
  have h2 := hI'.owned b o hp'
  refine ⟨h2.2, hI'.cnt b, ?_, ?_, ?_, ?_, ?_⟩
  · intro hlt
    have hp : (s.blocks b).payload = some o := by
      rw [← payload_of_kind (hH.kind b hlt)]; exact hp'
    have h1 := hI.owned b o hp
    have hmono := hH.dtor o h1.1
    refine ⟨hp, h1.2, ?_⟩
    intro hc
    rw [h1.2, h2.2, if_pos hc] at hmono
    by_contra hn
    rw [if_neg hn] at hmono
    omega
  · intro hc hbud n
    have hw : (t.blocks b).cntw_ < sizeMod := by
      rw [hI'.cntw b]
      have := wpCount_le b t.wps
      have := emb_le t b
      have := inBudget_spec hbud
      omega
    unfold releaseShared
    simp only
    have c1 : ((t.decS b).blocks b).cnt_ = 0 := by simp [State.decS, hc]
    have c2 : ((t.decS b).blocks b).cntw_ = (t.blocks b).cntw_ := by simp [State.decS]
    rw [c1, c2]
    by_cases hz : (t.blocks b).cntw_ = 0
    · rw [hz]; simp [sumZero_zero]
    · rw [if_neg hz, sumZero_false (by omega) (by omega)]
      simp
  · intro hc hbud n
    have hbt := inBudget_spec hbud
    have hcnt := hI'.cnt b
    obtain ⟨u, hu, hIu, _, _, _, _, _, _, hk⟩ := HeapInv.releaseShared
      (C := fun b' => spCount b' t.sps - if b' = b then 1 else 0) hI' b (fun b' => by
        by_cases e : b' = b
        · subst e; simp only [if_true]; omega
        · simp [e]) (by
        have := spCount_le b t.sps
        have := wpCount_le b t.wps
        simp only [if_true]; omega) n
    have hc0 : (u.blocks b).cnt_ = 0 := by
      rw [hIu.cnt b]; simp only [if_true]; omega
    have hpu : (u.blocks b).payload = some o := by
      rw [payload_of_kind hk]; exact hp'
    exact ⟨u, hu, hc0, by rw [(hIu.owned b o hpu).2, if_pos hc0]⟩
  · intro hc hbud n
    have hbt := inBudget_spec hbud
    have hcnt := hI'.cnt b
    have hle := spCount_le b t.sps
    have hwle := wpCount_le b t.wps
    have hemb := emb_le t b
    have hcw := hI'.cntw b
    have c1 : ((t.decS b).blocks b).cnt_ = (t.blocks b).cnt_ - 1 := by
      simp only [State.decS, upd_same]
      exact dec_eq (by omega) (by omega)
    have c2 : ((t.decS b).blocks b).cntw_ = (t.blocks b).cntw_ := by simp [State.decS]
    refine ⟨?_, c1, ?_⟩
    · unfold releaseShared
      simp only
      rw [c1, c2, sumZero_false (by omega) (by omega)]
      have hne : ((t.blocks b).cnt_ - 1 == 0) = false := by
        rw [beq_eq_false_iff_ne]; omega
      simp [hne]
    · show (t.objs o).dtor = 0
      rw [h2.2, if_neg (by omega)]
  · intro hc hf n
    exact ⟨deleteBlock_ok n t b ((hI'.ok b hlt' hf).2 hc), rfl⟩

/-- Witness of C2 at the step that destroys the last owner of block `0` while a
weak pointer is still alive: the step returns `finalizedState`, in which the
destructor of payload `0` has run once. -/
theorem C2_finalized_once_witness :
    Reachable lastOwnerState ∧
    exec 5 lastOwnerState (Op.spDtor 0) = some finalizedState ∧
    (lastOwnerState.objs 0).dtor = 0 ∧ (finalizedState.objs 0).dtor = 1 ∧
    (finalizedState.blocks 0).cnt_ = 0 ∧ (finalizedState.blocks 0).freed = 0 ∧
    (∀ n, ∃ t, exec (n + 4) lastOwnerState (Op.spDtor 0) = some t) ∧
    (finalizedState.objs 0).dtor = (if (finalizedState.blocks 0).cnt_ = 0 then 1 else 0) :=
  ⟨lastOwnerState_reachable, rfl, rfl, rfl, rfl, rfl,
    (C2_finalized_once lastOwnerState (Op.spDtor 0) lastOwnerState_reachable).1 rfl rfl,
    ((C2_finalized_once lastOwnerState (Op.spDtor 0) lastOwnerState_reachable).2 5
      finalizedState rfl 0 0 rfl).1⟩

theorem freedState_reachable : Reachable freedState :=
  Reachable.step 5 (Op.wpDtor 0) finalizedState_reachable
    (show exec 5 finalizedState (Op.wpDtor 0) = some freedState from rfl)

/-- A block that a live pointer refers to is not freed. -/
theorem Inv.not_freed {s : State} (h : Inv s) {b : Nat}
    (hb : (s.blocks b).cnt_ ≠ 0 ∨ (s.blocks b).cntw_ ≠ 0) : (s.blocks b).freed = 0 := by
  rw [h.freed b (h.lt_of_cnt hb), if_neg]
  intro hh; omega

/-- C3: every operation of a client program that may be called in a reachable
state returns, for any fuel of at least four.  In the state `t` it returns, every
control block has been passed to `delete` once if both counters are `0` and
never otherwise; the same held before the operation if the block existed then,
so a block is freed in the operation in which both counters reach `0`, and a
freed block stays freed once.  No live `SharedPtr`, no live `WeakPtr` variable
and no weak member of a live payload refers to a freed block; a block with
`cnt_ > 0` is not freed and a freed block has a finalized payload; once a
payload is finalized its two weak members are no longer counted in `cntw_`. -/
theorem C3_block_freed_once (s : State) (op : Op) (hs : Reachable s) :
    (inBudget s = true → Op.defined s op = true → ∀ n, ∃ t, exec (n + 4) s op = some t) ∧
    ∀ f t, exec f s op = some t → ∀ b, b < t.nblocks →
      (t.blocks b).freed =
        (if (t.blocks b).cnt_ = 0 ∧ (t.blocks b).cntw_ = 0 then 1 else 0) ∧
      (b < s.nblocks →
        (s.blocks b).freed =
          (if (s.blocks b).cnt_ = 0 ∧ (s.blocks b).cntw_ = 0 then 1 else 0) ∧
        ((s.blocks b).freed = 1 → (t.blocks b).freed = 1)) ∧
      (∀ i p, t.getS i = some p → p.block_ = some b → (t.blocks b).freed = 0) ∧
      (∀ i p, t.getW (WLoc.var i) = some p → p.block_ = some b → (t.blocks b).freed = 0) ∧
      (∀ o, (t.objs o).esft = true → (t.objs o).dtor = 0 →
        (t.objs o).self_.block_ = some b ∨ (t.objs o).self1_.block_ = some b →
        (t.blocks b).freed = 0) ∧
      ((t.blocks b).cnt_ ≠ 0 → (t.blocks b).freed = 0) ∧
      (∀ o, (t.blocks b).payload = some o → (t.blocks b).freed = 1 → (t.objs o).dtor = 1) ∧
      (∀ o, (t.blocks b).payload = some o → (t.blocks b).cnt_ = 0 →
        (t.blocks b).cntw_ = wpCount b t.wps) := by
  refine ⟨fun hbud hd n => exec_returns hs hbud hd n, ?_⟩
  intro f t he b hb'
  have hI := hs.inv
  have hI' := (Reachable.step f op hs he).inv
  have hH := exec_hist he
  have hf' := hI'.freed b hb'
  refine ⟨hf', ?_, ?_, ?_, ?_, ?_, ?_, ?_⟩
  · intro hb
    refine ⟨hI.freed b hb, ?_⟩
    intro h1
    have := hH.freed b hb
    rw [h1] at this
    rw [hf'] at this ⊢
    split at this
    · rename_i hh; rw [if_pos hh]
    · omega
  · intro i p hg hp
    apply hI'.not_freed
    left
    rw [hI'.cnt b]
    have := spCount_pos hg hp
    omega
  · intro i p hg hp
    apply hI'.not_freed
    right
    rw [hI'.cntw b]
    have := wpCount_pos hg hp
    omega
  · intro o hes hd hor
    have hself : (t.objs o).self_.block_ = some b := by
      rcases hor with h1 | h1
      · exact h1
      · rw [← hI'.pair o hes]; exact h1
    have hp := hI'.self o b hes hself
    have := (hI'.owned b o hp).2
    apply hI'.not_freed
    left
    intro hc
    rw [if_pos hc, hd] at this
    cases this
  · intro hc
    exact hI'.not_freed (Or.inl hc)
  · intro o hp h1
    have := (hI'.owned b o hp).2
    rw [hf'] at h1
    split at h1
    · rename_i hh; rw [this, if_pos hh.1]
    · cases h1
  · intro o hp hc
    have := hI'.cntw b
    have he0 : emb t b = 0 := emb_of_cnt_zero hI' hc
    rw [this, he0]; rfl

/-- Witness of C3 at the step that destroys the last weak pointer of a block
whose payload is already finalized: the step returns `freedState`, in which
block `0` has been passed to `delete` once. -/
theorem C3_block_freed_once_witness :
    Reachable finalizedState ∧
    exec 5 finalizedState (Op.wpDtor 0) = some freedState ∧
    (finalizedState.blocks 0).freed = 0 ∧ (freedState.blocks 0).freed = 1 ∧
    (freedState.objs 0).dtor = 1 ∧
    (∀ n, ∃ t, exec (n + 4) finalizedState (Op.wpDtor 0) = some t) ∧
    (freedState.blocks 0).freed =
      (if (freedState.blocks 0).cnt_ = 0 ∧ (freedState.blocks 0).cntw_ = 0 then 1 else 0) :=
  ⟨finalizedState_reachable, rfl, rfl, rfl, rfl,
    (C3_block_freed_once finalizedState (Op.wpDtor 0) finalizedState_reachable).1 rfl rfl,
    ((C3_block_freed_once finalizedState (Op.wpDtor 0) finalizedState_reachable).2 5
      freedState rfl 0 (by decide)).1⟩

/-- C4: the promoting constructor throws `BadWeakPtr` exactly when the weak
pointer has no block or `cnt_` of its block is `0`, and then it leaves the whole
state as it was; otherwise it returns, the new `SharedPtr` (the new last slot)
has the access pointer and the block of the weak pointer, `cnt_` of that block
is larger by exactly `1`, `cntw_` and every other block are unchanged and so
are all weak pointer variables. -/
theorem C4_promotion (s : State) (hs : Reachable s)
    (hb : s.sps.length + s.wps.length + 8 < sizeMod) (w : WLoc) (p : WeakPtr)
    (hg : s.getW w = some p) :
    ((∃ u, SharedPtr.fromWeak s w = some (Outcome.BadWeakPtr u)) ↔
      (p.block_ = none ∨ ∃ b, p.block_ = some b ∧ (s.blocks b).cnt_ = 0)) ∧
    (∀ u, SharedPtr.fromWeak s w = some (Outcome.BadWeakPtr u) → u = s) ∧
    (∀ b, p.block_ = some b → (s.blocks b).cnt_ ≠ 0 →
      ∃ u, SharedPtr.fromWeak s w = some (Outcome.returned u) ∧
        u.sps = s.sps ++ [some ⟨p.own_, some b⟩] ∧
        u.getS s.sps.length = some ⟨p.own_, some b⟩ ∧
        (u.blocks b).cnt_ = (s.blocks b).cnt_ + 1 ∧
        (u.blocks b).cntw_ = (s.blocks b).cntw_ ∧
        (∀ b', b' ≠ b → u.blocks b' = s.blocks b') ∧
        u.wps = s.wps ∧ u.objs = s.objs) := by
  have hI := hs.inv
  refine ⟨?_, ?_, ?_⟩
  · unfold SharedPtr.fromWeak
    simp only [hg]
    cases hblk : p.block_ with
    | none => simp
    | some b =>
      simp only [reduceCtorEq, Option.some.injEq, exists_eq_left', false_or]
      by_cases hc : (s.blocks b).cnt_ = 0
      · simp [hc]
      · simp [hc]
  · intro u hu
    unfold SharedPtr.fromWeak at hu
    simp only [hg] at hu
    cases hblk : p.block_ with
    | none =>
      simp only [hblk, Option.some.injEq, Outcome.BadWeakPtr.injEq] at hu
      exact hu.symm
    | some b =>
      simp only [hblk] at hu
      split at hu
      · simp only [Option.some.injEq, Outcome.BadWeakPtr.injEq] at hu
        exact hu.symm
      · cases hu
  · intro b hblk hc
    have hcnt := hI.cnt b
    have := spCount_le b s.sps
    refine ⟨(s.pushS ⟨p.own_, some b⟩).incS b, ?_, rfl, ?_, ?_, ?_, ?_, rfl, rfl⟩
    · unfold SharedPtr.fromWeak
      simp [hg, hblk, hc]
    · simp [State.getS, State.pushS, State.incS]
    · simp only [State.pushS, State.incS, upd_same]
      exact inc_eq (by omega)
    · simp [State.pushS, State.incS]
    · intro b' e
      simp [State.pushS, State.incS, upd_ne _ _ e]

/-- Witness of C4 on the weak pointer of `lastOwnerState`, whose block has one
owner. -/
theorem C4_promotion_witness :
    Reachable lastOwnerState ∧
    lastOwnerState.sps.length + lastOwnerState.wps.length + 8 < sizeMod ∧
    lastOwnerState.getW (WLoc.var 0) = some ⟨some 0, some 0⟩ ∧
    (((∃ u, SharedPtr.fromWeak lastOwnerState (WLoc.var 0) = some (Outcome.BadWeakPtr u)) ↔
      ((WeakPtr.mk (some 0) (some 0)).block_ = none ∨
        ∃ b, (WeakPtr.mk (some 0) (some 0)).block_ = some b ∧
          (lastOwnerState.blocks b).cnt_ = 0)) ∧
    (∀ u, SharedPtr.fromWeak lastOwnerState (WLoc.var 0) = some (Outcome.BadWeakPtr u) →
      u = lastOwnerState) ∧
    (∀ b, (WeakPtr.mk (some 0) (some 0)).block_ = some b → (lastOwnerState.blocks b).cnt_ ≠ 0 →
      ∃ u, SharedPtr.fromWeak lastOwnerState (WLoc.var 0) = some (Outcome.returned u) ∧
        u.sps = lastOwnerState.sps ++ [some ⟨(WeakPtr.mk (some 0) (some 0)).own_, some b⟩] ∧
        u.getS lastOwnerState.sps.length =
          some ⟨(WeakPtr.mk (some 0) (some 0)).own_, some b⟩ ∧
        (u.blocks b).cnt_ = (lastOwnerState.blocks b).cnt_ + 1 ∧
        (u.blocks b).cntw_ = (lastOwnerState.blocks b).cntw_ ∧
        (∀ b', b' ≠ b → u.blocks b' = lastOwnerState.blocks b') ∧
        u.wps = lastOwnerState.wps ∧ u.objs = lastOwnerState.objs)) :=
  ⟨lastOwnerState_reachable, by decide, rfl,
    C4_promotion lastOwnerState lastOwnerState_reachable (by decide) (WLoc.var 0) _ rfl⟩

/-- C5 as stated fails: on a capability object that no `SharedPtr` ever adopted
(`selfState` holds one at address `0`, its weak members have no block) both
`SharedFromThis()` overloads return, and what they return is the null
`SharedPtr`; no `BadWeakPtr` is thrown. -/
theorem C5_counterexample :
    (selfState.objs 0).esft = true ∧ (selfState.objs 0).self_.block_ = none ∧
    (selfState.objs 0).self1_.block_ = none ∧
    EnableSharedFromThis.SharedFromThis selfState 0 =
      some (Outcome.returned (selfState.pushS ⟨none, none⟩)) ∧
    EnableSharedFromThis.SharedFromThisConst selfState 0 =
      some (Outcome.returned (selfState.pushS ⟨none, none⟩)) ∧
    ¬ (∃ u, EnableSharedFromThis.SharedFromThis selfState 0 = some (Outcome.BadWeakPtr u)) := by
  refine ⟨by decide, by decide, by decide, rfl, rfl, ?_⟩
  rintro ⟨u, hu⟩
  have h : EnableSharedFromThis.SharedFromThis selfState 0 =
      some (Outcome.returned (selfState.pushS ⟨none, none⟩)) := rfl
  rw [h] at hu
  cases hu

theorem WeakPtr.Lock_expired {s : State} {w : WLoc} (h : WeakPtr.Expired s w = some true) :
    WeakPtr.Lock s w = some (s.pushS ⟨none, none⟩) := by
  unfold WeakPtr.Expired at h
  unfold WeakPtr.Lock WeakPtr.lockTarget
  cases hg : s.getW w with
  | none => simp [hg] at h
  | some p =>
    simp only [hg] at h ⊢
    cases hblk : p.block_ with
    | none => rfl
    | some b =>
      simp only [hblk] at h ⊢
      by_cases hc : (s.blocks b).cnt_ = 0
      · simp [hc]
      · simp [hc] at h

/-- C5 (amended): `SharedFromThis()` and `SharedFromThis() const` never throw;
called on a capability object whose weak members are expired (they have no
block because no `SharedPtr` adopted the object, or `cnt_` of their block is
`0`) they return the null `SharedPtr`: null access pointer, no block,
`UseCount() == 0`, and no counter changes. -/
theorem C5_shared_from_this_null (s : State) (o : Nat) (ho : o < s.nobjs)
    (hes : (s.objs o).esft = true)
    (h0 : WeakPtr.Expired s (WLoc.self_ o) = some true)
    (h1 : WeakPtr.Expired s (WLoc.self1_ o) = some true) :
    EnableSharedFromThis.SharedFromThis s o = some (Outcome.returned (s.pushS ⟨none, none⟩)) ∧
    EnableSharedFromThis.SharedFromThisConst s o =
      some (Outcome.returned (s.pushS ⟨none, none⟩)) ∧
    (s.pushS ⟨none, none⟩).getS s.sps.length = some ⟨none, none⟩ ∧
    SharedPtr.UseCount (s.pushS ⟨none, none⟩) s.sps.length = some 0 ∧
    (s.pushS ⟨none, none⟩).blocks = s.blocks := by
  have hg : (s.pushS ⟨none, none⟩).getS s.sps.length = some ⟨none, none⟩ := by
    simp [State.getS, State.pushS]
  refine ⟨?_, ?_, hg, ?_, rfl⟩
  · simp [EnableSharedFromThis.SharedFromThis, ho, hes, WeakPtr.Lock_expired h0]
  · simp [EnableSharedFromThis.SharedFromThisConst, ho, hes, WeakPtr.Lock_expired h1]
  · simp [SharedPtr.UseCount, hg]

/-- Witness of the amended C5 on the never adopted capability object of
`selfState`. -/
theorem C5_shared_from_this_null_witness :
    0 < selfState.nobjs ∧ (selfState.objs 0).esft = true ∧
    WeakPtr.Expired selfState (WLoc.self_ 0) = some true ∧
    WeakPtr.Expired selfState (WLoc.self1_ 0) = some true ∧
    (EnableSharedFromThis.SharedFromThis selfState 0 =
      some (Outcome.returned (selfState.pushS ⟨none, none⟩)) ∧
    EnableSharedFromThis.SharedFromThisConst selfState 0 =
      some (Outcome.returned (selfState.pushS ⟨none, none⟩)) ∧
    (selfState.pushS ⟨none, none⟩).getS selfState.sps.length = some ⟨none, none⟩ ∧
    SharedPtr.UseCount (selfState.pushS ⟨none, none⟩) selfState.sps.length = some 0 ∧
    (selfState.pushS ⟨none, none⟩).blocks = selfState.blocks) :=
  ⟨by decide, by decide, by decide, by decide,
    C5_shared_from_this_null selfState 0 (by decide) (by decide) (by decide) (by decide)⟩

/-- C6: `Lock()` always returns.  For a weak pointer whose block has
`cnt_ > 0` (`Expired()` is false) the returned `SharedPtr` (the new last slot)
has the access pointer and the block of the weak pointer, `cnt_` of that block
is larger by exactly `1` and nothing else changes; for a weak pointer without
block or with `cnt_ == 0` (`Expired()` is true) the result is the null
`SharedPtr` with `UseCount() == 0` and no block changes.  In particular the
result is null once no live `SharedPtr` refers to the block. -/
theorem C6_lock (s : State) (hs : Reachable s)
    (hb : s.sps.length + s.wps.length + 8 < sizeMod) (w : WLoc) (p : WeakPtr)
    (hg : s.getW w = some p) :
    (∃ t, WeakPtr.Lock s w = some t) ∧
    (∀ b, p.block_ = some b → (s.blocks b).cnt_ ≠ 0 →
      WeakPtr.Expired s w = some false ∧
      WeakPtr.Lock s w = some ((s.pushS ⟨p.own_, some b⟩).incS b) ∧
      ((s.pushS ⟨p.own_, some b⟩).incS b).getS s.sps.length = some ⟨p.own_, some b⟩ ∧
      (((s.pushS ⟨p.own_, some b⟩).incS b).blocks b).cnt_ = (s.blocks b).cnt_ + 1 ∧
      (((s.pushS ⟨p.own_, some b⟩).incS b).blocks b).cntw_ = (s.blocks b).cntw_ ∧
      (∀ b', b' ≠ b → ((s.pushS ⟨p.own_, some b⟩).incS b).blocks b' = s.blocks b')) ∧
    ((p.block_ = none ∨ ∃ b, p.block_ = some b ∧ (s.blocks b).cnt_ = 0) →
      WeakPtr.Expired s w = some true ∧
      WeakPtr.Lock s w = some (s.pushS ⟨none, none⟩) ∧
      (s.pushS ⟨none, none⟩).getS s.sps.length = some ⟨none, none⟩ ∧
      SharedPtr.UseCount (s.pushS ⟨none, none⟩) s.sps.length = some 0 ∧
      (s.pushS ⟨none, none⟩).blocks = s.blocks) ∧
    (∀ b, p.block_ = some b → spCount b s.sps = 0 →
      WeakPtr.Lock s w = some (s.pushS ⟨none, none⟩)) := by
  have hI := hs.inv
  have hnull : (s.pushS ⟨none, none⟩).getS s.sps.length = some ⟨none, none⟩ := by
    simp [State.getS, State.pushS]
  have hexp : (p.block_ = none ∨ ∃ b, p.block_ = some b ∧ (s.blocks b).cnt_ = 0) →
      WeakPtr.Expired s w = some true := by
    intro h
    unfold WeakPtr.Expired
    simp only [hg]
    rcases h with h | ⟨b, h, hc⟩
    · simp [h]
    · simp [h, hc]
  have hlive : ∀ b, p.block_ = some b → (s.blocks b).cnt_ ≠ 0 →
      WeakPtr.Lock s w = some ((s.pushS ⟨p.own_, some b⟩).incS b) := by
    intro b hblk hc
    unfold WeakPtr.Lock WeakPtr.lockTarget
    simp [hg, hblk, hc]
  refine ⟨?_, ?_, ?_, ?_⟩
  · cases hblk : p.block_ with
    | none => exact ⟨_, WeakPtr.Lock_expired (hexp (Or.inl hblk))⟩
    | some b =>
      by_cases hc : (s.blocks b).cnt_ = 0
      · exact ⟨_, WeakPtr.Lock_expired (hexp (Or.inr ⟨b, hblk, hc⟩))⟩
      · exact ⟨_, hlive b hblk hc⟩
  · intro b hblk hc
    have hcnt := hI.cnt b
    have := spCount_le b s.sps
    refine ⟨?_, hlive b hblk hc, ?_, ?_, ?_, ?_⟩
    · unfold WeakPtr.Expired
      simp [hg, hblk, hc]
    · simp [State.getS, State.pushS, State.incS]
    · simp only [State.pushS, State.incS, upd_same]
      exact inc_eq (by omega)
    · simp [State.pushS, State.incS]
    · intro b' e
      simp [State.pushS, State.incS, upd_ne _ _ e]
  · intro h
    exact ⟨hexp h, WeakPtr.Lock_expired (hexp h), hnull, by simp [SharedPtr.UseCount, hnull],
      rfl⟩
  · intro b hblk h0
    exact WeakPtr.Lock_expired (hexp (Or.inr ⟨b, hblk, by rw [hI.cnt b]; exact h0⟩))

/-- Witness of C6 on the weak pointer of `finalizedState`, whose block lost its
last owner. -/
theorem C6_lock_witness :
    Reachable finalizedState ∧
    finalizedState.sps.length + finalizedState.wps.length + 8 < sizeMod ∧
    finalizedState.getW (WLoc.var 0) = some ⟨some 0, some 0⟩ ∧
    ((∃ t, WeakPtr.Lock finalizedState (WLoc.var 0) = some t) ∧
    (∀ b, (WeakPtr.mk (some 0) (some 0)).block_ = some b → (finalizedState.blocks b).cnt_ ≠ 0 →
      WeakPtr.Expired finalizedState (WLoc.var 0) = some false ∧
      WeakPtr.Lock finalizedState (WLoc.var 0) =
        some ((finalizedState.pushS ⟨(WeakPtr.mk (some 0) (some 0)).own_, some b⟩).incS b) ∧
      ((finalizedState.pushS ⟨(WeakPtr.mk (some 0) (some 0)).own_, some b⟩).incS b).getS
        finalizedState.sps.length = some ⟨(WeakPtr.mk (some 0) (some 0)).own_, some b⟩ ∧
      (((finalizedState.pushS ⟨(WeakPtr.mk (some 0) (some 0)).own_, some b⟩).incS b).blocks
        b).cnt_ = (finalizedState.blocks b).cnt_ + 1 ∧
      (((finalizedState.pushS ⟨(WeakPtr.mk (some 0) (some 0)).own_, some b⟩).incS b).blocks
        b).cntw_ = (finalizedState.blocks b).cntw_ ∧
      (∀ b', b' ≠ b →
        ((finalizedState.pushS ⟨(WeakPtr.mk (some 0) (some 0)).own_, some b⟩).incS b).blocks b' =
          finalizedState.blocks b')) ∧
    (((WeakPtr.mk (some 0) (some 0)).block_ = none ∨
        ∃ b, (WeakPtr.mk (some 0) (some 0)).block_ = some b ∧
          (finalizedState.blocks b).cnt_ = 0) →
      WeakPtr.Expired finalizedState (WLoc.var 0) = some true ∧
      WeakPtr.Lock finalizedState (WLoc.var 0) = some (finalizedState.pushS ⟨none, none⟩) ∧
      (finalizedState.pushS ⟨none, none⟩).getS finalizedState.sps.length = some ⟨none, none⟩ ∧
      SharedPtr.UseCount (finalizedState.pushS ⟨none, none⟩) finalizedState.sps.length =
        some 0 ∧
      (finalizedState.pushS ⟨none, none⟩).blocks = finalizedState.blocks) ∧
    (∀ b, (WeakPtr.mk (some 0) (some 0)).block_ = some b → spCount b finalizedState.sps = 0 →
      WeakPtr.Lock finalizedState (WLoc.var 0) = some (finalizedState.pushS ⟨none, none⟩))) :=
  ⟨finalizedState_reachable, by decide, rfl,
    C6_lock finalizedState finalizedState_reachable (by decide) (WLoc.var 0) _ rfl⟩

/-- The member `CleverBlock::Del` is idempotent: a second call changes nothing. -/
theorem CleverBlock_Del_idempotent (f : Nat) (s t : State) (b : Nat) (ptr : Option Nat)
    (hb : b < s.nblocks) (hk : (s.blocks b).kind = BlockKind.clever ptr)
    (h : Del f s b = some t) : Del f t b = some t := by
  have key : (t.blocks b).kind = BlockKind.clever ptr ∧ (t.blocks b).ok_ = true := by
    unfold Del at h
    simp only [hk] at h
    split at h
    · cases ptr with
      | none =>
        simp only [Option.some.injEq] at h
        subst h; simp [State.setOk, hk]
      | some o =>
        have hH := (hist_fuel f).2.1 _ _ _ h
        have hb' : b < (s.setOk b).nblocks := hb
        refine ⟨by rw [hH.kind b hb']; simp [State.setOk, hk], hH.ok b hb' ?_⟩
        simp [State.setOk]
    · rename_i hok
      simp only [Option.some.injEq] at h
      subst h
      exact ⟨hk, by simpa using hok⟩
  unfold Del
  simp [key.1, key.2]

/-- C7 fails for `SmartBlock`: on the `SmartBlock` of `lastOwnerState` (block
`0`, payload `0`, destructor not yet run) two calls of `Del()` run the payload
destructor twice, because `SmartBlock::Del` does not test `ok_`. -/
theorem C7_SmartBlock_Del_twice :
    (lastOwnerState.blocks 0).kind = BlockKind.smart 0 ∧
    (lastOwnerState.objs 0).dtor = 0 ∧
    (Del 5 lastOwnerState 0).map (fun t => (t.objs 0).dtor) = some 1 ∧
    ((Del 5 lastOwnerState 0).bind (fun t => Del 5 t 0)).map (fun t => (t.objs 0).dtor) =
      some 2 := by
  decide



/-- With enough fuel the destructor of a live `SharedPtr` returns, and the
result is again a reachable state in which the slot is gone. -/
theorem SharedPtr.dtor_returns {u : State} (hu : Reachable u)
    (hb : u.sps.length + u.wps.length + 8 < sizeMod) {i : Nat} {a : SharedPtr}
    (hg : u.getS i = some a) (n : Nat) :
    ∃ v, SharedPtr.dtor (n + 4) u i = some v ∧ Reachable v ∧ v.sps = u.sps.set i none := by
  have hI := hu.inv
  have hex : ∃ t1, releaseShared (n + 4) u a.block_ = some t1 := by
    cases hblk : a.block_ with
    | none => exact ⟨u, rfl⟩
    | some b =>
      have hcount := fun b' => spCount_set hg none b'
      simp only [Option.bind, reduceCtorEq, if_false, Nat.add_zero] at hcount
      obtain ⟨t1, h1, _⟩ := HeapInv.releaseShared (C := fun b' => spCount b' (u.sps.set i none))
        hI b (fun b' => by rw [← hcount b', hblk]; simp [eq_comm]) (by
          have := spCount_le b (u.sps.set i none)
          have := wpCount_le b u.wps
          simp only [List.length_set] at *
          omega) n
      exact ⟨t1, h1⟩
  obtain ⟨t1, h1⟩ := hex
  have hd : SharedPtr.dtor (n + 4) u i = some (t1.killS i) := by
    unfold SharedPtr.dtor
    simp [hg, h1]
  have hsps := (hI.drop (by omega) hg none rfl h1).2.1
  refine ⟨_, hd, ?_, by simp [State.killS, hsps]⟩
  refine Reachable.step (n + 4) (Op.spDtor i) hu ?_
  unfold exec
  rw [if_pos (by simpa [inBudget] using hb)]
  exact hd

/-- C8: the aliasing constructor applied to a `SharedPtr` that has a block
returns a `SharedPtr` (the new last slot) with that block and the supplied
access pointer and raises `cnt_` of the block by exactly `1`.  In every
reachable state in which some live `SharedPtr`, such as the aliasing one,
refers to the block, the block is not freed and its payload is not finalized;
and when the last such pointer is destroyed the payload is finalized. -/
theorem C8_aliasing_keeps_owner (s : State) (hs : Reachable s)
    (hb : s.sps.length + s.wps.length + 8 < sizeMod) (j : Nat) (p : SharedPtr) (b : Nat)
    (q : Option Nat) (hg : s.getS j = some p) (hblk : p.block_ = some b) :
    SharedPtr.aliasing s j q = some ((s.pushS ⟨q, some b⟩).incS b) ∧
    ((s.pushS ⟨q, some b⟩).incS b).getS s.sps.length = some ⟨q, some b⟩ ∧
    SharedPtr.Get ((s.pushS ⟨q, some b⟩).incS b) s.sps.length = some q ∧
    (((s.pushS ⟨q, some b⟩).incS b).blocks b).cnt_ = (s.blocks b).cnt_ + 1 ∧
    (∀ u, Reachable u → ∀ i a, u.getS i = some a → a.block_ = some b →
      (u.blocks b).freed = 0 ∧ ∀ o, (u.blocks b).payload = some o → (u.objs o).dtor = 0) ∧
    (∀ u, Reachable u → u.sps.length + u.wps.length + 8 < sizeMod →
      ∀ i a, u.getS i = some a → a.block_ = some b → spCount b u.sps = 1 →
      ∀ n, ∃ v, SharedPtr.dtor (n + 4) u i = some v ∧
        ∀ o, (u.blocks b).payload = some o → (v.objs o).dtor = 1) := by
  have hI := hs.inv
  have hget : ((s.pushS ⟨q, some b⟩).incS b).getS s.sps.length = some ⟨q, some b⟩ := by
    simp [State.getS, State.pushS, State.incS]
  refine ⟨?_, hget, ?_, ?_, ?_, ?_⟩
  · unfold SharedPtr.aliasing
    simp [hg, hblk]
  · simp [SharedPtr.Get, hget]
  · have hcnt := hI.cnt b
    have := spCount_le b s.sps
    simp only [State.pushS, State.incS, upd_same]
    exact inc_eq (by omega)
  · intro u hu i a hga hab
    have hIu := hu.inv
    have hpos := spCount_pos hga hab
    have hc : (u.blocks b).cnt_ ≠ 0 := by rw [hIu.cnt b]; omega
    refine ⟨hIu.not_freed (Or.inl hc), ?_⟩
    intro o hp
    rw [(hIu.owned b o hp).2, if_neg hc]
  · intro u hu hbu i a hga hab hone n
    obtain ⟨v, hv, hrv, hsps⟩ := SharedPtr.dtor_returns hu hbu hga n
    refine ⟨v, hv, ?_⟩
    intro o hp
    have hIu := hu.inv
    have hIv := hrv.inv
    have hH : Hist u v := SharedPtr.dtor_hist hv
    have hlt : b < u.nblocks := hIu.lt_of_payload hp
    have hp' : (v.blocks b).payload = some o := by
      rw [payload_of_kind (hH.kind b hlt)]; exact hp
    have hcount := spCount_set hga none b
    simp only [hab, if_true, Option.bind, reduceCtorEq, if_false, Nat.add_zero] at hcount
    have hc : (v.blocks b).cnt_ = 0 := by
      rw [hIv.cnt b, hsps]; omega
    rw [(hIv.owned b o hp').2, if_pos hc]

/-- Witness of C8 on `aliasState`: slot `1` owns block `0` and slot `2` is an
aliasing pointer to it. -/
theorem C8_aliasing_keeps_owner_witness :
    Reachable aliasState ∧ aliasState.sps.length + aliasState.wps.length + 8 < sizeMod ∧
    aliasState.getS 1 = some ⟨some 0, some 0⟩ ∧
    (SharedPtr.mk (some 0) (some 0)).block_ = some 0 ∧
    (SharedPtr.aliasing aliasState 1 (some 9) =
      some ((aliasState.pushS ⟨some 9, some 0⟩).incS 0) ∧
    ((aliasState.pushS ⟨some 9, some 0⟩).incS 0).getS aliasState.sps.length =
      some ⟨some 9, some 0⟩ ∧
    SharedPtr.Get ((aliasState.pushS ⟨some 9, some 0⟩).incS 0) aliasState.sps.length =
      some (some 9) ∧
    (((aliasState.pushS ⟨some 9, some 0⟩).incS 0).blocks 0).cnt_ =
      (aliasState.blocks 0).cnt_ + 1 ∧
    (∀ u, Reachable u → ∀ i a, u.getS i = some a → a.block_ = some 0 →
      (u.blocks 0).freed = 0 ∧ ∀ o, (u.blocks 0).payload = some o → (u.objs o).dtor = 0) ∧
    (∀ u, Reachable u → u.sps.length + u.wps.length + 8 < sizeMod →
      ∀ i a, u.getS i = some a → a.block_ = some 0 → spCount 0 u.sps = 1 →
      ∀ n, ∃ v, SharedPtr.dtor (n + 4) u i = some v ∧
        ∀ o, (u.blocks 0).payload = some o → (v.objs o).dtor = 1)) :=
  ⟨aliasState_reachable, by decide, rfl, rfl,
    C8_aliasing_keeps_owner aliasState aliasState_reachable (by decide) 1 _ 0 (some 9) rfl rfl⟩

/-- C9: copy-assigning or move-assigning a live `SharedPtr` or a live `WeakPtr`
variable to itself returns at once and leaves the whole state unchanged: the
access pointer, the block reference, both counters of every block, what
`UseCount()` and `Expired()` return, every payload and every block. -/
theorem C9_self_assignment (s : State) (f i j : Nat) (p : SharedPtr) (w : WeakPtr)
    (hp : s.getS i = some p) (hw : s.getW (WLoc.var j) = some w) :
    SharedPtr.copyAssign f s i i = some s ∧ SharedPtr.moveAssign f s i i = some s ∧
    WeakPtr.copyAssign f s (WLoc.var j) (WLoc.var j) = some s ∧
    WeakPtr.moveAssign f s j j = some s := by
  refine ⟨?_, ?_, ?_, ?_⟩
  · simp [SharedPtr.copyAssign, hp]
  · simp [SharedPtr.moveAssign, hp]
  · simp [WeakPtr.copyAssign, hw]
  · simp [WeakPtr.moveAssign, hw]

/-- Witness of C9 on the owner and the weak pointer of `lastOwnerState`. -/
theorem C9_self_assignment_witness :
    lastOwnerState.getS 0 = some ⟨some 0, some 0⟩ ∧
    lastOwnerState.getW (WLoc.var 0) = some ⟨some 0, some 0⟩ ∧
    (SharedPtr.copyAssign 0 lastOwnerState 0 0 = some lastOwnerState ∧
    SharedPtr.moveAssign 0 lastOwnerState 0 0 = some lastOwnerState ∧
    WeakPtr.copyAssign 0 lastOwnerState (WLoc.var 0) (WLoc.var 0) = some lastOwnerState ∧
    WeakPtr.moveAssign 0 lastOwnerState 0 0 = some lastOwnerState) :=
  ⟨rfl, rfl, C9_self_assignment lastOwnerState 0 0 0 _ _ rfl rfl⟩

/-- C10 fails on pointers without a block: in `emptyAliasState` slot `1` is
`SharedPtr(e, p)` for an empty `e` (access pointer `7`, no block) and slot `2`
is a null `SharedPtr`; after `a.Swap(b)` slot `1` still holds access pointer
`7` and slot `2` is still null, because both move assignments inside
`std::swap` return early on equal (null) blocks. -/
theorem C10_Swap_empty_alias :
    Reachable emptyAliasState ∧
    emptyAliasState.getS 1 = some ⟨some 7, none⟩ ∧
    emptyAliasState.getS 2 = some ⟨none, none⟩ ∧
    (SharedPtr.Swap 5 emptyAliasState 1 2).map (fun t => (t.getS 1, t.getS 2)) =
      some (some ⟨some 7, none⟩, some ⟨none, none⟩) :=
  ⟨emptyAliasState_reachable, by decide, by decide, by decide⟩

/-- C12 as stated fails: `emptyAliasState` is reachable, and its slot `1`, the
aliasing pointer `SharedPtr(e, p)` made from an empty `e`, has no block but the
access pointer `7`: `Get()` is not null and the boolean conversion is true
while `UseCount()` is `0`. -/
theorem C12_counterexample :
    Reachable emptyAliasState ∧
    emptyAliasState.getS 1 = some ⟨some 7, none⟩ ∧
    SharedPtr.Get emptyAliasState 1 = some (some 7) ∧
    SharedPtr.toBool emptyAliasState 1 = some true ∧
    SharedPtr.UseCount emptyAliasState 1 = some 0 ∧
    ¬ (∀ s, Reachable s → ∀ i p, s.getS i = some p → p.block_ = none → p.own_ = none) := by
  have h1 : emptyAliasState.getS 1 = some ⟨some 7, none⟩ := by decide
  refine ⟨emptyAliasState_reachable, h1, by decide, by decide, by decide, ?_⟩
  intro h
  have := h emptyAliasState emptyAliasState_reachable 1 _ h1 rfl
  cases this

/-- C12 (amended): in every state a client program reaches, with the marks `d`
that follow the values of its `SharedPtr` objects (a slot is marked when its
value was made by the aliasing constructor `SharedPtr(other, ptr)` with a
non-null `ptr` from an `other` without block, or was taken from a marked slot
by copy or move construction, by an assignment that did not return early, or
by `Swap`): every live `SharedPtr` without block has `UseCount() == 0`; every
live unmarked `SharedPtr` without block has a null access pointer, so `Get()`
is null, the boolean conversion is false and `UseCount()` is `0` together; an
unmarked `SharedPtr` whose boolean conversion is true has `UseCount() >= 1`.
The marks exclude nothing more than they must: a marked slot holds a live
`SharedPtr` without block whose access pointer is not null.  Every reachable
state has such marks, and in a state reached without any such aliasing
construction every `SharedPtr` without block is null. -/
theorem C12_null_representation (s : State) (d : Nat → Bool) (hs : Marked s d) :
    Reachable s ∧
    (∀ i p, s.getS i = some p → p.block_ = none → SharedPtr.UseCount s i = some 0) ∧
    (∀ i p, s.getS i = some p → p.block_ = none → d i = false →
      SharedPtr.Get s i = some none ∧ SharedPtr.toBool s i = some false ∧
        SharedPtr.UseCount s i = some 0) ∧
    (∀ i, SharedPtr.toBool s i = some true → d i = false →
      ∃ n, SharedPtr.UseCount s i = some n ∧ 1 ≤ n) ∧
    (∀ i, d i = true → ∃ q, s.getS i = some ⟨some q, none⟩ ∧
      SharedPtr.Get s i = some (some q) ∧ SharedPtr.toBool s i = some true ∧
        SharedPtr.UseCount s i = some 0) ∧
    (∀ u, Reachable u → ∃ e, Marked u e) ∧
    (PlainReachable s → ∀ i p, s.getS i = some p → p.block_ = none →
      SharedPtr.Get s i = some none ∧ SharedPtr.toBool s i = some false ∧
        SharedPtr.UseCount s i = some 0) := by
  have hI := hs.to_reachable.inv
  have hx := hs.exact
  have hnull : ∀ i p, s.getS i = some p → p.block_ = none → d i = false → p.own_ = none := by
    intro i p hg hb hd
    cases ho : p.own_ with
    | none => rfl
    | some q =>
      have : d i = true := (hx i).2 ⟨q, by
        rw [hg]
        cases p
        simp only at hb ho
        rw [hb, ho]⟩
      rw [hd] at this
      cases this
  refine ⟨hs.to_reachable, ?_, ?_, ?_, ?_, fun u hu => hu.marked, ?_⟩
  · intro i p hg hb
    simp [SharedPtr.UseCount, hg, hb]
  · intro i p hg hb hd
    have ho := hnull i p hg hb hd
    simp [SharedPtr.Get, SharedPtr.toBool, SharedPtr.UseCount, hg, hb, ho]
  · intro i ht hd
    cases hg : s.getS i with
    | none => simp [SharedPtr.toBool, hg] at ht
    | some p =>
      cases hb : p.block_ with
      | none =>
        have ho := hnull i p hg hb hd
        simp [SharedPtr.toBool, hg, ho] at ht
      | some b =>
        refine ⟨(s.blocks b).cnt_, by simp [SharedPtr.UseCount, hg, hb], ?_⟩
        rw [hI.cnt b]
        exact spCount_pos hg hb
  · intro i hd
    obtain ⟨q, hq⟩ := (hx i).1 hd
    exact ⟨q, hq, by simp [SharedPtr.Get, hq], by simp [SharedPtr.toBool, hq],
      by simp [SharedPtr.UseCount, hq]⟩
  · intro hp i p hg hb
    have ho := (nullRep_iff s).1 hp.nullRep i p hg hb
    simp [SharedPtr.Get, SharedPtr.toBool, SharedPtr.UseCount, hg, hb, ho]

/-- Witness of the amended C12 on `strayState`, reached by a program that does
alias an empty pointer: slots `1` (the aliasing pointer) and `2` (its copy) are
marked, and slot `3`, an owner that was reset, is unmarked and null. -/
theorem C12_null_representation_witness :
    Marked strayState strayMarks ∧
    strayMarks 1 = true ∧ strayMarks 2 = true ∧ strayMarks 3 = false ∧
    strayState.getS 3 = some ⟨none, none⟩ ∧
    (SharedPtr.Get strayState 3 = some none ∧ SharedPtr.toBool strayState 3 = some false ∧
      SharedPtr.UseCount strayState 3 = some 0) ∧
    (∃ q, strayState.getS 2 = some ⟨some q, none⟩ ∧
      SharedPtr.Get strayState 2 = some (some q) ∧ SharedPtr.toBool strayState 2 = some true ∧
        SharedPtr.UseCount strayState 2 = some 0) :=
  ⟨strayState_marked, by decide, by decide, by decide, by decide,
    (C12_null_representation strayState strayMarks strayState_marked).2.2.1 3 ⟨none, none⟩
      (by decide) rfl (by decide),
    (C12_null_representation strayState strayMarks strayState_marked).2.2.2.2.1 2 (by decide)⟩

/-- C14: every operation on weak pointer variables (construction from a
`SharedPtr`, default, copy and move construction, both assignments, `Reset`,
`Swap`, destruction) that may be called in a reachable state returns, and the
state it returns has the same `SharedPtr` objects, the same payloads (no
destructor has run) and the same `cnt_`, class and `ok_` in every block: blocks
differ at most in `cntw_` and in having been freed, and a block is freed by
the operation only when it leaves both its counters `0`. -/
theorem C14_weak_ops_frame (s : State) (op : Op) (hs : Reachable s)
    (hw : Op.isWeak op = true) :
    (inBudget s = true → Op.defined s op = true → ∀ n, ∃ t, exec (n + 4) s op = some t) ∧
    ∀ f t, exec f s op = some t →
      t.sps = s.sps ∧ t.objs = s.objs ∧ t.nobjs = s.nobjs ∧ t.nblocks = s.nblocks ∧
      (∀ b, (t.blocks b).cnt_ = (s.blocks b).cnt_) ∧
      (∀ o, (t.objs o).dtor = (s.objs o).dtor) ∧
      (∀ b o, (s.blocks b).payload = some o → (s.blocks b).cnt_ ≠ 0 → (t.objs o).dtor = 0) ∧
      (∀ b, t.blocks b =
        { s.blocks b with cntw_ := (t.blocks b).cntw_, freed := (t.blocks b).freed }) ∧
      (∀ b, (t.blocks b).freed ≠ (s.blocks b).freed →
        (s.blocks b).freed = 0 ∧ (t.blocks b).freed = 1 ∧ (s.blocks b).cntw_ ≠ 0 ∧
        (t.blocks b).cnt_ = 0 ∧ (t.blocks b).cntw_ = 0) := by
  refine ⟨fun hbud hd n => exec_returns hs hbud hd n, ?_⟩
  intro f t he
  have hI := hs.inv
  have hI' := (Reachable.step f op hs he).inv
  have hH := exec_hist he
  have hW := exec_weak_only hs hw he
  have hcnt : ∀ b, (t.blocks b).cnt_ = (s.blocks b).cnt_ := fun b => by rw [hW.blocks b]
  refine ⟨hW.sps, hW.objs, hW.nobjs, hW.nblocks, hcnt, fun o => by rw [hW.objs], ?_,
    hW.blocks, ?_⟩
  · intro b o hp hc
    rw [hW.objs, (hI.owned b o hp).2, if_neg hc]
  · intro b hne
    by_cases hlt : b < s.nblocks
    · have h1 := hI.freed b hlt
      have h2 := hI'.freed b (by rw [hW.nblocks]; exact hlt)
      have h3 := hH.freed b hlt
      have hc := hcnt b
      rw [h1, h2] at hne h3
      rw [h1, h2]
      split at h3 <;> split at h3 <;> simp_all
    · have e1 := hI.fresh b (by omega)
      have e2 := hI'.fresh b (by rw [hW.nblocks]; omega)
      rw [e1, e2] at hne
      exact absurd rfl hne

/-- Witness of C14 at the step that destroys the last weak pointer of a block
whose payload is already finalized: the block is freed and nothing else
changes. -/
theorem C14_weak_ops_frame_witness :
    Reachable finalizedState ∧ Op.isWeak (Op.wpDtor 0) = true ∧
    exec 5 finalizedState (Op.wpDtor 0) = some freedState ∧
    freedState.sps = finalizedState.sps ∧ freedState.objs = finalizedState.objs ∧
    (∀ b, (freedState.blocks b).cnt_ = (finalizedState.blocks b).cnt_) ∧
    (finalizedState.blocks 0).freed = 0 ∧ (freedState.blocks 0).freed = 1 :=
  ⟨finalizedState_reachable, rfl, rfl,
    ((C14_weak_ops_frame finalizedState (Op.wpDtor 0) finalizedState_reachable rfl).2 5
      freedState rfl).1,
    ((C14_weak_ops_frame finalizedState (Op.wpDtor 0) finalizedState_reachable rfl).2 5
      freedState rfl).2.1,
    ((C14_weak_ops_frame finalizedState (Op.wpDtor 0) finalizedState_reachable rfl).2 5
      freedState rfl).2.2.2.2.1, by decide, by decide⟩

theorem sharedPairState_reachable : Reachable sharedPairState :=
  Reachable.run Reachable.init
    (show run 5 State.init sharedPairProgram = some sharedPairState from rfl)

theorem barePayloadState_reachable : Reachable barePayloadState :=
  Reachable.run Reachable.init
    (show run 5 State.init barePayloadProgram = some barePayloadState from rfl)

/-- C15 fails on two pointers that share a block: in `aliasState` slot `1` owns
block `0` with access pointer `0` and slot `2` is the aliasing pointer
`SharedPtr(a, q)` on the same block with access pointer `7`; the copy
assignment `a = b` returns at once on `block_ == other.block_` and changes
nothing, so afterwards `a.Get()` is still `0` while `b.Get()` is `7`, and
`a == b` is false. -/
theorem C15_copyAssign_shared_block :
    Reachable aliasState ∧
    aliasState.getS 1 = some ⟨some 0, some 0⟩ ∧
    aliasState.getS 2 = some ⟨some 7, some 0⟩ ∧
    SharedPtr.copyAssign 5 aliasState 1 2 = some aliasState ∧
    (SharedPtr.copyAssign 5 aliasState 1 2).bind (fun t => SharedPtr.Get t 1) =
      some (some 0) ∧
    (SharedPtr.copyAssign 5 aliasState 1 2).bind (fun t => SharedPtr.Get t 2) =
      some (some 7) ∧
    (SharedPtr.copyAssign 5 aliasState 1 2).bind (fun t => operator_eq t 1 2) =
      some false := by
  have h1 : aliasState.getS 1 = some ⟨some 0, some 0⟩ := by decide
  have h2 : aliasState.getS 2 = some ⟨some 7, some 0⟩ := by decide
  have h3 : SharedPtr.copyAssign 5 aliasState 1 2 = some aliasState := by
    simp [SharedPtr.copyAssign, h1, h2]
  refine ⟨aliasState_reachable, h1, h2, h3, ?_, ?_, ?_⟩
  · rw [h3]; simp [SharedPtr.Get, h1]
  · rw [h3]; simp [SharedPtr.Get, h2]
  · rw [h3]; simp [operator_eq, SharedPtr.Get, h1, h2]

/-- C16 fails on two pointers that share a block: in `sharedPairState` slots
`0` and `1` are two `SharedPtr` copies and the weak variables `0` and `1` are
two `WeakPtr` copies on block `0`.  The move assignments `a = std::move(b)`
return at once on `other.block_ == block_`: the source keeps its access
pointer and its block, and `cnt_` (`cntw_`) is still `2`. -/
theorem C16_moveAssign_shared_block :
    Reachable sharedPairState ∧
    sharedPairState.getS 0 = some ⟨some 0, some 0⟩ ∧
    sharedPairState.getS 1 = some ⟨some 0, some 0⟩ ∧
    sharedPairState.getW (WLoc.var 0) = some ⟨some 0, some 0⟩ ∧
    sharedPairState.getW (WLoc.var 1) = some ⟨some 0, some 0⟩ ∧
    SharedPtr.moveAssign 5 sharedPairState 0 1 = some sharedPairState ∧
    WeakPtr.moveAssign 5 sharedPairState 0 1 = some sharedPairState ∧
    SharedPtr.UseCount sharedPairState 1 = some 2 ∧
    (sharedPairState.blocks 0).cntw_ = 2 := by
  have h0 : sharedPairState.getS 0 = some ⟨some 0, some 0⟩ := by decide
  have h1 : sharedPairState.getS 1 = some ⟨some 0, some 0⟩ := by decide
  have w0 : sharedPairState.getW (WLoc.var 0) = some ⟨some 0, some 0⟩ := by decide
  have w1 : sharedPairState.getW (WLoc.var 1) = some ⟨some 0, some 0⟩ := by decide
  refine ⟨sharedPairState_reachable, h0, h1, w0, w1, ?_, ?_, by decide, by decide⟩
  · simp [SharedPtr.moveAssign, h0, h1]
  · simp [WeakPtr.moveAssign, w0, w1]

/-- C17: for a weak pointer that is not expired (it has a block whose `cnt_` is
not `0`) `Lock()` and the throwing constructor `SharedPtr(w)` both return, and
they return the same state: the new `SharedPtr` (the new last slot) has the
access pointer and the block of the weak pointer, `cnt_` of the block is larger
by exactly `1` and `cntw_` is unchanged.  For every weak pointer, `Lock()`
returns a pointer without block exactly when `SharedPtr(w)` throws
`BadWeakPtr`, and that is exactly when `Expired()` is true. -/
theorem C17_promotion_paths_agree (s : State) (hs : Reachable s)
    (hb : inBudget s = true) (w : WLoc) (p : WeakPtr) (hg : s.getW w = some p) :
    (∀ b, p.block_ = some b → (s.blocks b).cnt_ ≠ 0 →
      WeakPtr.Expired s w = some false ∧
      ∃ t, WeakPtr.Lock s w = some t ∧
        SharedPtr.fromWeak s w = some (Outcome.returned t) ∧
        t.getS s.sps.length = some ⟨p.own_, some b⟩ ∧
        (t.blocks b).cnt_ = (s.blocks b).cnt_ + 1 ∧
        (t.blocks b).cntw_ = (s.blocks b).cntw_) ∧
    (∃ t q, WeakPtr.Lock s w = some t ∧ t.getS s.sps.length = some q) ∧
    (∀ t q, WeakPtr.Lock s w = some t → t.getS s.sps.length = some q →
      (q.block_ = none ↔ ∃ u, SharedPtr.fromWeak s w = some (Outcome.BadWeakPtr u))) ∧
    ((∃ u, SharedPtr.fromWeak s w = some (Outcome.BadWeakPtr u)) ↔
      WeakPtr.Expired s w = some true) := by
  have hI := hs.inv
  have hbud := inBudget_spec hb
  refine ⟨?_, ?_, ?_, ?_⟩
  · intro b hblk hc
    have hcnt := hI.cnt b
    have := spCount_le b s.sps
    refine ⟨by simp [WeakPtr.Expired, hg, hblk, hc],
      (s.pushS ⟨p.own_, some b⟩).incS b, ?_, ?_, ?_, ?_, ?_⟩
    · simp [WeakPtr.Lock, WeakPtr.lockTarget, hg, hblk, hc]
    · simp [SharedPtr.fromWeak, hg, hblk, hc]
    · simp [State.getS, State.pushS, State.incS]
    · simp only [State.pushS, State.incS, upd_same]
      exact inc_eq (by omega)
    · simp [State.pushS, State.incS]
  · cases hblk : p.block_ with
    | none =>
      exact ⟨s.pushS ⟨none, none⟩, ⟨none, none⟩,
        by simp [WeakPtr.Lock, WeakPtr.lockTarget, hg, hblk],
        by simp [State.getS, State.pushS]⟩
    | some b =>
      by_cases hc : (s.blocks b).cnt_ = 0
      · exact ⟨s.pushS ⟨none, none⟩, ⟨none, none⟩,
          by simp [WeakPtr.Lock, WeakPtr.lockTarget, hg, hblk, hc],
          by simp [State.getS, State.pushS]⟩
      · exact ⟨(s.pushS ⟨p.own_, some b⟩).incS b, ⟨p.own_, some b⟩,
          by simp [WeakPtr.Lock, WeakPtr.lockTarget, hg, hblk, hc],
          by simp [State.getS, State.pushS, State.incS]⟩
  · intro t q hl hq
    cases hblk : p.block_ with
    | none =>
      have ht : t = s.pushS ⟨none, none⟩ := by
        simpa [WeakPtr.Lock, WeakPtr.lockTarget, hg, hblk] using hl.symm
      subst ht
      have : q = ⟨none, none⟩ := by
        simpa [State.getS, State.pushS] using hq.symm
      subst this
      simp [SharedPtr.fromWeak, hg, hblk]
    | some b =>
      by_cases hc : (s.blocks b).cnt_ = 0
      · have ht : t = s.pushS ⟨none, none⟩ := by
          simpa [WeakPtr.Lock, WeakPtr.lockTarget, hg, hblk, hc] using hl.symm
        subst ht
        have : q = ⟨none, none⟩ := by
          simpa [State.getS, State.pushS] using hq.symm
        subst this
        simp [SharedPtr.fromWeak, hg, hblk, hc]
      · have ht : t = (s.pushS ⟨p.own_, some b⟩).incS b := by
          simpa [WeakPtr.Lock, WeakPtr.lockTarget, hg, hblk, hc] using hl.symm
        subst ht
        have : q = ⟨p.own_, some b⟩ := by
          simpa [State.getS, State.pushS, State.incS] using hq.symm
        subst this
        simp [SharedPtr.fromWeak, hg, hblk, hc]
  · cases hblk : p.block_ with
    | none => simp [SharedPtr.fromWeak, WeakPtr.Expired, hg, hblk]
    | some b =>
      by_cases hc : (s.blocks b).cnt_ = 0
      · simp [SharedPtr.fromWeak, WeakPtr.Expired, hg, hblk, hc]
      · simp [SharedPtr.fromWeak, WeakPtr.Expired, hg, hblk, hc]

/-- Witness of C17 on the weak pointer of `lastOwnerState`, whose block has one
owner. -/
theorem C17_promotion_paths_agree_witness :
    Reachable lastOwnerState ∧ inBudget lastOwnerState = true ∧
    lastOwnerState.getW (WLoc.var 0) = some ⟨some 0, some 0⟩ ∧
    (∃ t, WeakPtr.Lock lastOwnerState (WLoc.var 0) = some t ∧
      SharedPtr.fromWeak lastOwnerState (WLoc.var 0) = some (Outcome.returned t) ∧
      t.getS lastOwnerState.sps.length = some ⟨some 0, some 0⟩ ∧
      (t.blocks 0).cnt_ = (lastOwnerState.blocks 0).cnt_ + 1 ∧
      (t.blocks 0).cntw_ = (lastOwnerState.blocks 0).cntw_) :=
  ⟨lastOwnerState_reachable, rfl, rfl,
    ((C17_promotion_paths_agree lastOwnerState lastOwnerState_reachable rfl (WLoc.var 0)
      ⟨some 0, some 0⟩ rfl).1 0 rfl (by decide)).2⟩

/-- C18 fails for a payload with the self reference capability: from
`barePayloadState` (payload `0` not yet owned, slot `0` an empty pointer)
`sp.Reset(p)` leaves the weak members of the payload without block and
`cntw_ == 0`, while `sp = SharedPtr<X>(p)` (raw pointer construction of a
temporary in slot `1`, move assignment, destruction of the temporary) hooks
them to the new block and leaves `cntw_ == 2`. -/
theorem C18_ResetPtr_no_hookup :
    Reachable barePayloadState ∧
    wrappable barePayloadState (some 0) true = true ∧
    (SharedPtr.ResetPtr 5 barePayloadState 0 (some 0)).map
      (fun t => (t.getS 0, (t.blocks 0).cnt_, (t.blocks 0).cntw_, (t.objs 0).self_,
        (t.objs 0).self1_)) =
      some (some ⟨some 0, some 0⟩, 1, 0, ⟨none, none⟩, ⟨none, none⟩) ∧
    ((SharedPtr.fromRaw 5 barePayloadState (some 0) true).bind
      (fun u => (SharedPtr.moveAssign 5 u 0 1).bind (fun v => SharedPtr.dtor 5 v 1))).map
      (fun t => (t.getS 0, (t.blocks 0).cnt_, (t.blocks 0).cntw_, (t.objs 0).self_,
        (t.objs 0).self1_)) =
      some (some ⟨some 0, some 0⟩, 1, 2, ⟨some 0, some 0⟩, ⟨some 0, some 0⟩) ∧
    ((SharedPtr.ResetPtr 5 barePayloadState 0 (some 0)).bind
      (fun t => EnableSharedFromThis.SharedFromThis t 0)).map
      (fun r => r.state.getS 1) = some (some ⟨none, none⟩) ∧
    (((SharedPtr.fromRaw 5 barePayloadState (some 0) true).bind
      (fun u => (SharedPtr.moveAssign 5 u 0 1).bind (fun v => SharedPtr.dtor 5 v 1))).bind
      (fun t => EnableSharedFromThis.SharedFromThis t 0)).map
      (fun r => r.state.getS 2) = some (some ⟨some 0, some 0⟩) :=
  ⟨barePayloadState_reachable, by decide, by decide, by decide, by decide, by decide⟩

/-- C19: from every reachable state every operation, run with the assertions
of the namespace `Checked` (no `cnt_--` on a `cnt_` that is `0`, no `cntw_--` on
a `cntw_` that is `0`, and the test `cnt_ + cntw_ == 0` true only when both
counters are `0`) does exactly what it does without them, so no assertion
fails, and an operation that may be called returns.  The assertions are real:
a release of a counter that is `0` fails them.  In every reachable state a
block referred to by a live `SharedPtr` has `cnt_ > 0`, a block referred to by
a live `WeakPtr` variable has `cntw_ > 0`, and the zero test on the counters of
a block is true only when both are `0`. -/
theorem C19_no_underflow (s : State) (op : Op) (hs : Reachable s) :
    (∀ n, Checked.exec (n + 4) s op = exec (n + 4) s op) ∧
    (inBudget s = true → Op.defined s op = true →
      ∀ n, ∃ t, Checked.exec (n + 4) s op = some t ∧ exec (n + 4) s op = some t) ∧
    (∀ f u b, (u.blocks b).cnt_ = 0 → Checked.releaseShared f u (some b) = none) ∧
    (∀ f u b, (u.blocks b).cntw_ = 0 → Checked.releaseWeak f u (some b) = none) ∧
    (∀ i p b, s.getS i = some p → p.block_ = some b → (s.blocks b).cnt_ ≠ 0) ∧
    (∀ i p b, s.getW (WLoc.var i) = some p → p.block_ = some b → (s.blocks b).cntw_ ≠ 0) ∧
    (inBudget s = true → ∀ b,
      (s.blocks b).cnt_ + (s.blocks b).cntw_ < sizeMod ∧
      (sumZero (s.blocks b).cnt_ (s.blocks b).cntw_ = true ↔
        (s.blocks b).cnt_ = 0 ∧ (s.blocks b).cntw_ = 0)) := by
  have hI := hs.inv
  refine ⟨fun n => Checked.exec_agrees hs op n, ?_, ?_, ?_, ?_, ?_, ?_⟩
  · intro hb hd n
    obtain ⟨t, ht⟩ := exec_returns hs hb hd n
    exact ⟨t, by rw [Checked.exec_agrees hs op n]; exact ht, ht⟩
  · intro f u b h0
    simp [Checked.releaseShared, h0]
  · intro f u b h0
    cases f with
    | zero => simp [Checked.releaseWeak]
    | succ f => simp [Checked.releaseWeak, h0]
  · intro i p b hg hp
    rw [hI.cnt b]
    have := spCount_pos hg hp
    omega
  · intro i p b hg hp
    rw [hI.cntw b]
    have := wpCount_pos hg hp
    omega
  · intro hb b
    have hbud := inBudget_spec hb
    have hlt : (s.blocks b).cnt_ + (s.blocks b).cntw_ < sizeMod := by
      rw [hI.cnt b, hI.cntw b]
      have := spCount_le b s.sps
      have := wpCount_le b s.wps
      have := emb_le s b
      omega
    exact ⟨hlt, sumZero_iff hlt⟩

/-- Witness of C19 at the step that destroys the last owner of block `0`: with
the assertions the step returns the same state, `finalizedState`. -/
theorem C19_no_underflow_witness :
    Reachable lastOwnerState ∧
    exec 5 lastOwnerState (Op.spDtor 0) = some finalizedState ∧
    Checked.exec 5 lastOwnerState (Op.spDtor 0) = some finalizedState ∧
    (∀ n, Checked.exec (n + 4) lastOwnerState (Op.spDtor 0) =
      exec (n + 4) lastOwnerState (Op.spDtor 0)) :=
  ⟨lastOwnerState_reachable, rfl, rfl,
    (C19_no_underflow lastOwnerState (Op.spDtor 0) lastOwnerState_reachable).1⟩

end SharedWeak
